import Mathlib

/-!
# PennOS: scheduler, process API and FAT file-descriptor layer

A shallow embedding of the C sources (`pcb.c`, `Deque.c`, `k_pennos.c`,
`scheduler.c`, `p_pennos.c`, `pennfat.c`, `f_pennos.c`).

Conventions of the embedding.

* C `int` / `pid_t` values are `Int`; unsigned fields (`uint16_t`, `uint32_t`,
  `uint8_t`) are `Nat`, reduced modulo `2^w` where a store can overflow.
* A `PCB*` is represented by the pid of the PCB it points to.  `pid_counter`
  hands out a fresh pid for every PCB, the idle PCB has pid `0` and lives
  outside the registry `global_pcbs`, so pointer identity and pid identity
  coincide.
* A `Deque` is the list of its payloads, front first.
* A function returns `none` where the C code faults (a `NULL` dereference,
  an access outside an array) or leaves the modelled part of the machine
  (host terminal I/O, a loop that does not terminate).
* The mounted image is split at `fat_size`: `fat` is the memory-mapped table of
  16-bit entries, `data` the bytes of the host file from offset `fat_size` on.
-/

namespace PennOS

/-! ## Process control block (`pcb.h`, `pcb.c`) -/

/-- The enum `process_status` of `pcb.h`. -/
inductive process_status where
  | READY
  | BLOCKED
  | STOPPED
  | RUNNING
  | ZOMBIE
  | TERMINATED
deriving DecidableEq, Repr

/-- The enum `exit_status` of `pcb.h`. -/
inductive exit_status where
  | NOT_EXITED
  | EXIT_NORMAL
  | EXIT_STOPPED
  | EXIT_SIGNAL
  | NO_CHANGE
deriving DecidableEq, Repr

/-- The integer value of an `exit_status` enumerator. -/
def exit_status.toInt : exit_status → Int
  | .NOT_EXITED => 0
  | .EXIT_NORMAL => 1
  | .EXIT_STOPPED => 2
  | .EXIT_SIGNAL => 3
  | .NO_CHANGE => 4

/-- The enum `pennos_signal` of `signals.h`. -/
inductive pennos_signal where
  | S_SIGSTOP
  | S_SIGCONT
  | S_SIGTERM
deriving DecidableEq, Repr

/-- The constant `MAX_OPEN_FILES`. -/
def MAX_OPEN_FILES : Nat := 128

/-- The struct `PCB` of `pcb.h`, without the execution context `uc`.
`children_pids` holds the first `num_children` cells of the C array. -/
structure PCB where
  pid : Int
  parent_pid : Int
  children_pids : List Int
  open_fds : List Int
  num_open_fds : Int
  priority : Int
  status : process_status
  process_name : String
  is_background : Bool
  waitpid_pid : Int
  waitpid_estatus : exit_status
  e_status : exit_status
  sleep_counter : Int
deriving DecidableEq, Repr

/-- The function `init_pcb` of `pcb.c`.  The field `waitpid_estatus` is not
initialised by the C code; `uninit` is the value the fresh memory happens to
hold.  The name buffer is overwritten by every caller. -/
def init_pcb (pid parent : Int) (src_open_fds : List Int) (num_open_fds priority : Int)
    (uninit : exit_status) : PCB :=
  { pid := pid
    parent_pid := parent
    children_pids := []
    open_fds := src_open_fds
    num_open_fds := num_open_fds
    priority := priority
    status := .READY
    process_name := ""
    is_background := false
    waitpid_pid := 0
    waitpid_estatus := uninit
    e_status := .NOT_EXITED
    sleep_counter := -1 }

/-! ## FAT image and descriptor table (`pennfat.h`, `f_pennos.h`) -/

/-- The struct `directory_entry`: `name` is the raw 32-byte array, `reserved`
the 16 reserved bytes. -/
structure directory_entry where
  name : List Nat
  size : Nat
  firstBlock : Nat
  type : Nat
  perm : Nat
  mtime : Nat
  reserved : List Nat
deriving DecidableEq, Repr

/-- The enum `fd_type` of `f_pennos.h`. -/
inductive fd_type where
  | FD_UNINIT
  | FD_STDIN
  | FD_STDOUT
  | FD_FILE
deriving DecidableEq, Repr

/-- The mode constant `F_WRITE`. -/
def F_WRITE : Nat := 1
/-- The mode constant `F_READ`. -/
def F_READ : Nat := 2
/-- The mode constant `F_APPEND`. -/
def F_APPEND : Nat := 3
/-- The whence constant `F_SEEK_SET`. -/
def F_SEEK_SET : Int := 0
/-- The whence constant `F_SEEK_CUR`. -/
def F_SEEK_CUR : Int := 1
/-- The whence constant `F_SEEK_END`. -/
def F_SEEK_END : Int := 2

/-- The struct `FileDescriptor` of `f_pennos.h`. -/
structure FileDescriptor where
  dir_entry : directory_entry
  offset : Int
  mode : Nat
  fd_type : fd_type
  ref_count : Int
deriving DecidableEq, Repr

/-- The globals of `pennfat.c` and `f_pennos.c`: `fs_fd`, `fat`, `fat_size`,
`block_size`, the bytes of the image after the FAT region, and `fd_table`. -/
structure FS where
  fs_fd : Int
  fat : List Nat
  fat_size : Nat
  block_size : Int
  data : List Nat
  fd_table : List FileDescriptor
deriving DecidableEq, Repr

/-- A C string stored in a byte array: the bytes before the first NUL. -/
def cstr (bs : List Nat) : List Nat := bs.takeWhile (fun b => b != 0)

/-- The test `strcmp(a, b) == 0` on two byte arrays, each read up to its first
NUL, or to its end when it holds none.  A `name[32]` that holds no NUL has no
terminator of its own, and the C function then reads on into the fields behind
the name; the model and the code agree whenever one of the two strings ends
within its first 32 bytes. -/
def strcmp_eq (a b : List Nat) : Bool := cstr a == cstr b

/-- Little-endian bytes of `v`, `n` of them. -/
def le_bytes : Nat → Nat → List Nat
  | 0, _ => []
  | n + 1, v => (v % 256) :: le_bytes n (v / 256)

/-- The value of a little-endian byte string. -/
def le_value : List Nat → Nat
  | [] => 0
  | b :: bs => b + 256 * le_value bs

/-- Pad or cut a byte list to exactly `n` bytes. -/
def fit (n : Nat) (bs : List Nat) : List Nat :=
  (bs ++ List.replicate n 0).take n

/-- The 64 bytes of a packed `directory_entry`. -/
def encode_entry (e : directory_entry) : List Nat :=
  fit 32 e.name ++ le_bytes 4 e.size ++ le_bytes 2 e.firstBlock ++ [e.type % 256, e.perm % 256]
    ++ le_bytes 8 e.mtime ++ fit 16 e.reserved

/-- The `directory_entry` held in 64 bytes. -/
def decode_entry (bs : List Nat) : directory_entry :=
  { name := bs.take 32
    size := le_value ((bs.drop 32).take 4)
    firstBlock := le_value ((bs.drop 36).take 2)
    type := (bs.drop 38).headD 0
    perm := (bs.drop 39).headD 0
    mtime := le_value ((bs.drop 40).take 8)
    reserved := (bs.drop 48).take 16 }

/-- The element `fat[i]`; `none` outside the mapped table. -/
def fat_get (fat : List Nat) (i : Int) : Option Nat :=
  if 0 ≤ i then fat[i.toNat]? else none

/-- The store `fat[i] = v` (truncated to 16 bits); `none` outside the table. -/
def fat_set (fat : List Nat) (i : Int) (v : Int) : Option (List Nat) :=
  if 0 ≤ i ∧ i.toNat < fat.length then some (fat.set i.toNat (v % 65536).toNat) else none

/-- Host `read` of `n` bytes at data-region offset `pos` (short at the end). -/
def pread (data : List Nat) (pos n : Nat) : List Nat := (data.drop pos).take n

/-- Host `write` of `bytes` at data-region offset `pos`; a write past the end
extends the file, the gap reading as zero. -/
def pwrite : List Nat → Nat → List Nat → List Nat
  | data, 0, bytes => bytes ++ data.drop bytes.length
  | [], pos + 1, bytes => 0 :: pwrite [] pos bytes
  | d :: ds, pos + 1, bytes => d :: pwrite ds pos bytes

/-- The data-region offset of the absolute file offset
`fat_size + block_size * (fat_value - 1) + off`; `none` when it falls into the
FAT region or before the file. -/
def block_pos (fs : FS) (fat_value off : Int) : Option Nat :=
  let rel := fs.block_size * (fat_value - 1) + off
  if 0 ≤ rel then some rel.toNat else none

/-- The C conversion of an `int` to `uint32_t`. -/
def u32 (x : Int) : Int := x % 4294967296

/-- The search loop of `find_fat` over the entries from index `i` on. -/
def find_fat_from : List Nat → Int → Int → Option Int
  | [], i, num => if i < num then none else some (-1)
  | x :: xs, i, num =>
    if i < num then (if x = 0 then some i else find_fat_from xs (i + 1) num) else some (-1)

/-- The function `find_fat` of `f_pennos.c`: the first index `i >= 1` with
`fat[i] == 0`, or `-1`. -/
def find_fat (fs : FS) : Option Int :=
  if fs.block_size ≤ 0 then none
  else
    let blocks_in_fat := (fs.fat_size : Int) / fs.block_size
    let num_fat_entries := fs.block_size * blocks_in_fat / 2
    find_fat_from (fs.fat.drop 1) 1 num_fat_entries

/-- The inner `for` loop of `find_file`: entries `i, i+1, ...` of the directory
block at data offset `base`, `n` of them left. -/
def find_in_block (data : List Nat) (base : Nat) (fname : List Nat) :
    Nat → Nat → Option (Option (Nat × directory_entry))
  | 0, _ => some none
  | n + 1, i =>
    let bytes := pread data (base + 64 * i) 64
    if bytes.length ≠ 64 then none
    else
      let e := decode_entry bytes
      if strcmp_eq e.name fname then some (some (base + 64 * i, e))
      else find_in_block data base fname n (i + 1)

/-- The `while` loop of `find_file` from block `fat_value` on. -/
def find_file_loop (fs : FS) (fname : List Nat) (result : directory_entry) :
    Nat → Int → Option (Int × directory_entry)
  | 0, fat_value => if fat_value ≠ 0xFFFF then none else some (-1, result)
  | fuel + 1, fat_value =>
    if fat_value ≠ 0xFFFF then
      match block_pos fs fat_value 0 with
      | none => none
      | some base =>
        match find_in_block fs.data base fname (fs.block_size / 64).toNat 0 with
        | none => none
        | some (some (pos, e)) => some ((fs.fat_size : Int) + pos, e)
        | some none =>
          match fat_get fs.fat fat_value with
          | none => none
          | some next => find_file_loop fs fname result fuel next
    else some (-1, result)

/-- The function `find_file` of `pennfat.c`: the absolute offset of the first
directory entry named `fname` and a copy of it, or `-1` with `result` untouched. -/
def find_file (fs : FS) (fname : List Nat) (result : directory_entry) :
    Option (Int × directory_entry) :=
  find_file_loop fs fname result (fs.fat.length + 1) 1

/-- The function `update_fs_dir_entry` of `f_pennos.c`. -/
def update_fs_dir_entry (fs : FS) (dir_entry : directory_entry) (position : Int) :
    Option (Int × FS) :=
  if position < 0 then some (-1, fs)
  else if position < fs.fat_size then none
  else some (0, { fs with data := pwrite fs.data (position - fs.fat_size).toNat (encode_entry dir_entry) })

/-- The two traversal loops `while (actual_offset > block_size && fat_value != 0xFFFF)`
of `f_read` and `f_write`; the result is `(actual_offset, fat_value)`. -/
def skip_blocks (fs : FS) : Nat → Int → Int → Option (Int × Int)
  | 0, actual_offset, fat_value =>
    if actual_offset > fs.block_size ∧ fat_value ≠ 0xFFFF then none
    else some (actual_offset, fat_value)
  | fuel + 1, actual_offset, fat_value =>
    if actual_offset > fs.block_size ∧ fat_value ≠ 0xFFFF then
      match fat_get fs.fat fat_value with
      | none => none
      | some next => skip_blocks fs fuel (actual_offset - fs.block_size) next
    else some (actual_offset, fat_value)

/-- The element `arr[i]` of a C array of `int`; `none` outside it. -/
def int_at (arr : List Int) (i : Int) : Option Int :=
  if 0 ≤ i then arr[i.toNat]? else none

/-- The element `fd_table[g]`; `none` outside the table. -/
def fd_at (fs : FS) (g : Int) : Option FileDescriptor :=
  if 0 ≤ g then fs.fd_table[g.toNat]? else none

/-- The store `fd_table[g] = d`. -/
def fd_put (fs : FS) (g : Int) (d : FileDescriptor) : FS :=
  { fs with fd_table := fs.fd_table.set g.toNat d }

/-- The function `f_lseek` of `f_pennos.c`. -/
def f_lseek (fs : FS) (pcb : PCB) (fd offset whence : Int) : Option (Int × FS) :=
  if fd > MAX_OPEN_FILES then some (-1, fs)
  else
    match int_at pcb.open_fds fd with
    | none => none
    | some global_fd =>
      if global_fd = -1 ∨ fd < 0 then some (-1, fs)
      else
        match fd_at fs global_fd with
        | none => none
        | some d =>
          if d.fd_type ≠ .FD_FILE then some (-1, fs)
          else if whence = F_SEEK_SET then some (offset, fd_put fs global_fd { d with offset := offset })
          else if whence = F_SEEK_CUR then
            some (d.offset + offset, fd_put fs global_fd { d with offset := d.offset + offset })
          else if whence = F_SEEK_END then
            some ((d.dir_entry.size : Int) + offset,
              fd_put fs global_fd { d with offset := (d.dir_entry.size : Int) + offset })
          else some (-1, fs)

/-- The loop variables of the read loop of `f_read`, with the host file
position `pos` (data-region offset) and the bytes stored into `buf` so far. -/
structure ReadLoop where
  fs : FS
  pos : Nat
  buf : List Nat
  total_bytes_to_read : Int
  total_bytes_read : Int
  fat_value : Int
  actual_offset : Int
deriving DecidableEq, Repr

/-- The loop `while (total_bytes_to_read > 0)` of `f_read` on descriptor
`global_fd`; the result is the value returned by `f_read`. -/
def f_read_loop (global_fd : Int) : Nat → ReadLoop → Option (Int × List Nat × FS)
  | 0, r => if r.total_bytes_to_read > 0 then none else some (r.total_bytes_read, r.buf, r.fs)
  | fuel + 1, r =>
    if r.total_bytes_to_read > 0 then
      let crossing : Bool := r.actual_offset + r.total_bytes_to_read > r.fs.block_size
      let bytes_to_read := if crossing then r.fs.block_size - r.actual_offset else r.total_bytes_to_read
      let actual_offset := if crossing then 0 else r.actual_offset
      if bytes_to_read < 0 then none
      else
        let bytes := pread r.fs.data r.pos bytes_to_read.toNat
        if (bytes.length : Int) ≠ bytes_to_read then some (-1, r.buf ++ bytes, r.fs)
        else
          match fd_at r.fs global_fd with
          | none => none
          | some d =>
            let fs1 := fd_put r.fs global_fd { d with offset := d.offset + bytes_to_read }
            match fat_get fs1.fat r.fat_value with
            | none => none
            | some next =>
              if next = 0xFFFF then some (r.total_bytes_read + bytes_to_read, r.buf ++ bytes, fs1)
              else
                match block_pos fs1 next 0 with
                | none => none
                | some pos1 =>
                  f_read_loop global_fd fuel
                    { fs := fs1, pos := pos1, buf := r.buf ++ bytes
                      total_bytes_to_read := r.total_bytes_to_read - bytes_to_read
                      total_bytes_read := r.total_bytes_read + bytes_to_read
                      fat_value := next, actual_offset := actual_offset }
    else some (r.total_bytes_read, r.buf, r.fs)

/-- The function `f_read` of `f_pennos.c` for the running process `pcb`: the
returned count, the bytes stored at the start of `buf`, and the new state.
Reading from the host terminal (`FD_STDIN`) is outside the model. -/
def f_read (fs : FS) (pcb : PCB) (fd n : Int) : Option (Int × List Nat × FS) :=
  if fd > MAX_OPEN_FILES then some (-1, [], fs)
  else
    match int_at pcb.open_fds fd with
    | none => none
    | some global_fd =>
      if global_fd = -1 ∨ fd < 0 then some (-1, [], fs)
      else
        match fd_at fs global_fd with
        | none => none
        | some d =>
          if d.fd_type ≠ .FD_FILE ∧ d.fd_type ≠ .FD_STDIN then some (-1, [], fs)
          else if d.fd_type = .FD_STDIN then none
          else
            let original_offset := d.offset
            if d.dir_entry.firstBlock = 0xFFFF then some (0, [], fs)
            else
              match skip_blocks fs original_offset.toNat original_offset d.dir_entry.firstBlock with
              | none => none
              | some (actual_offset, fat_value) =>
                if actual_offset ≥ fs.block_size ∨ u32 actual_offset > d.dir_entry.size then
                  some (0, [], fs)
                else
                  match block_pos fs fat_value actual_offset with
                  | none => none
                  | some pos =>
                    let total_bytes_to_read : Int :=
                      if u32 (original_offset + n) < d.dir_entry.size then n
                      else d.dir_entry.size - original_offset
                    f_read_loop global_fd (total_bytes_to_read.toNat + 1)
                      { fs := fs, pos := pos, buf := []
                        total_bytes_to_read := total_bytes_to_read
                        total_bytes_read := 0
                        fat_value := fat_value, actual_offset := actual_offset }

/-- The loop variables of the write loop of `f_write`. -/
structure WriteLoop where
  fs : FS
  total_bytes_to_write : Int
  total_bytes_written : Int
  fat_value : Int
  actual_offset : Int
deriving DecidableEq, Repr

/-- The loop `while (total_bytes_to_write > 0)` of `f_write`.  Every pass
writes the first `bytes_to_write` bytes of `str`, and links a new block after
`prev_fat_value`, as the C code does. -/
def f_write_loop (prev_fat_value : Int) (str : List Nat) : Nat → WriteLoop → Option WriteLoop
  | 0, w => if w.total_bytes_to_write > 0 then none else some w
  | fuel + 1, w =>
    if w.total_bytes_to_write > 0 then
      let bytes_to_write :=
        if w.actual_offset + w.total_bytes_to_write > w.fs.block_size
        then w.fs.block_size - w.actual_offset else w.total_bytes_to_write
      let alloc : Option (Option (Int × FS)) :=
        if w.fat_value = 0xFFFF then
          match find_fat w.fs with
          | none => none
          | some next_fat_value =>
            if next_fat_value = -1 then some none
            else
              let fat1 : Option (List Nat) :=
                if prev_fat_value ≠ 0xFFFF then fat_set w.fs.fat prev_fat_value next_fat_value
                else some w.fs.fat
              match fat1 with
              | none => none
              | some fat1 =>
                match fat_set fat1 next_fat_value 0xFFFF with
                | none => none
                | some fat2 => some (some (next_fat_value, { w.fs with fat := fat2 }))
        else some (some (w.fat_value, w.fs))
      match alloc with
      | none => none
      | some none => some w
      | some (some (fat_value, fs1)) =>
        if bytes_to_write < 0 ∨ (str.length : Int) < bytes_to_write then none
        else
          match block_pos fs1 fat_value w.actual_offset with
          | none => none
          | some pos =>
            let fs2 := { fs1 with data := pwrite fs1.data pos (str.take bytes_to_write.toNat) }
            match fat_get fs2.fat fat_value with
            | none => none
            | some next =>
              f_write_loop prev_fat_value str fuel
                { fs := fs2
                  total_bytes_to_write := w.total_bytes_to_write - bytes_to_write
                  total_bytes_written := w.total_bytes_written + bytes_to_write
                  fat_value := next, actual_offset := 0 }
    else some w

/-- The function `f_write` of `f_pennos.c` for the running process `pcb`: the
returned count and the new state.  Writing to the host terminal (`FD_STDOUT`)
is outside the model. -/
def f_write (fs : FS) (pcb : PCB) (fd : Int) (str : List Nat) (n : Int) : Option (Int × FS) :=
  if fd > MAX_OPEN_FILES then some (-1, fs)
  else
    match int_at pcb.open_fds fd with
    | none => none
    | some global_fd =>
      if global_fd = -1 ∨ fd < 0 then some (-1, fs)
      else
        match fd_at fs global_fd with
        | none => none
        | some d =>
          if d.fd_type ≠ .FD_FILE ∧ d.fd_type ≠ .FD_STDOUT then some (-1, fs)
          else if d.fd_type = .FD_STDOUT then none
          else if d.mode = F_READ ∨ d.mode = 0 then some (-1, fs)
          else if n < 1 then some (0, fs)
          else if u32 d.offset > d.dir_entry.size then some (-1, fs)
          else
            match skip_blocks fs d.offset.toNat d.offset d.dir_entry.firstBlock with
            | none => none
            | some (actual_offset, fat_value) =>
              let prev_fat_value := fat_value
              let first : Option (Int × FS) :=
                if fat_value = 0xFFFF then
                  match find_fat fs with
                  | none => none
                  | some fv =>
                    match fat_set fs.fat fv 0xFFFF with
                    | none => none
                    | some fat1 =>
                      let e := { d.dir_entry with firstBlock := (fv % 65536).toNat }
                      some (fv, fd_put { fs with fat := fat1 } global_fd { d with dir_entry := e })
                else some (fat_value, fs)
              match first with
              | none => none
              | some (fat_value, fs1) =>
                match f_write_loop prev_fat_value str (n.toNat + 2)
                    { fs := fs1, total_bytes_to_write := n, total_bytes_written := 0
                      fat_value := fat_value, actual_offset := actual_offset } with
                | none => none
                | some w =>
                  match fd_at w.fs global_fd with
                  | none => none
                  | some d1 =>
                    let offset := d1.offset + w.total_bytes_written
                    let e1 := if u32 offset > d1.dir_entry.size
                      then { d1.dir_entry with size := (u32 offset).toNat } else d1.dir_entry
                    let fs2 := fd_put w.fs global_fd { d1 with offset := offset, dir_entry := e1 }
                    match find_file fs2 e1.name e1 with
                    | none => none
                    | some (dir_position, _) =>
                      match update_fs_dir_entry fs2 e1 dir_position with
                      | none => none
                      | some (_, fs3) => some (w.total_bytes_written, fs3)

/-- What the C code reads from outside the modelled state: the clock
`time(NULL)` and the content of an uninitialised `directory_entry` local. -/
structure Host where
  now : Nat
  stack_entry : directory_entry
deriving DecidableEq, Repr

/-- The function `mkfs` of `pennfat.c`: the return value and the bytes of the
host file afterwards, `old` being its bytes before (`[]` if it did not exist).
`ftruncate` keeps the bytes already there and fills the rest with zeros. -/
def mkfs (old : List Nat) (blocks_in_fat block_size_config : Int) : Int × List Nat :=
  if blocks_in_fat < 1 ∨ blocks_in_fat > 32 then (-1, old)
  else if block_size_config < 0 ∨ block_size_config > 4 then (-1, old)
  else
    let block_size : Int := 2 ^ (block_size_config + 8).toNat
    let n0 := block_size * blocks_in_fat / 2
    let num_fat_entries := if n0 > 0xFFFF then 0xFFFF else n0
    let fat_size := block_size * blocks_in_fat
    let data_region_size := block_size * (num_fat_entries - 1)
    let total_file_size := fat_size + data_region_size
    let fat0 := ((blocks_in_fat.toNat <<< 8) ||| block_size_config.toNat) % 65536
    (0, le_bytes 2 fat0 ++ [0xFF, 0xFF] ++ (fit total_file_size.toNat old).drop 4)

/-- The 16-bit little-endian entries held in a byte string. -/
def fat_entries : List Nat → List Nat
  | a :: b :: rest => (a + 256 * b) :: fat_entries rest
  | _ => []

/-- The state of an unmounted file system (`fs_fd == -1`). -/
def FS.unmounted (fd_table : List FileDescriptor) : FS :=
  { fs_fd := -1, fat := [], fat_size := 0, block_size := 0, data := [], fd_table := fd_table }

/-- The function `mount` of `pennfat.c` applied to a host file with bytes
`file`, opened as host descriptor `host_fd`. -/
def mount (fs : FS) (file : List Nat) (host_fd : Int) : Int × FS :=
  if fs.fs_fd ≠ -1 then (-1, fs)
  else if host_fd = -1 then (-1, fs)
  else if (file.take 2).length < 2 then (-1, { fs with fs_fd := host_fd })
  else
    let metadata := le_value (file.take 2)
    let blocks_in_fat := metadata / 256
    let block_size_config := metadata % 256
    let block_size := 2 ^ (block_size_config + 8)
    let fat_size := block_size * blocks_in_fat
    if fat_size = 0 then (-1, { fs with fs_fd := -1, fat_size := 0, block_size := 0 })
    else
      (0, { fs with fs_fd := host_fd, fat := fat_entries (file.take fat_size), fat_size := fat_size
                    block_size := block_size, data := file.drop fat_size })

/-- A zero-filled `directory_entry`. -/
def zero_entry : directory_entry :=
  { name := List.replicate 32 0, size := 0, firstBlock := 0, type := 0, perm := 0, mtime := 0
    reserved := List.replicate 16 0 }

/-- A zero-filled `FileDescriptor`. -/
def zero_fd : FileDescriptor :=
  { dir_entry := zero_entry, offset := 0, mode := 0, fd_type := .FD_UNINIT, ref_count := 0 }

/-- The function `f_mount` of `f_pennos.c`. -/
def f_mount (fs : FS) (file : List Nat) (host_fd : Int) : Int × FS :=
  match mount fs file host_fd with
  | (r, fs1) =>
    if r = -1 then (-1, fs1)
    else
      (0, { fs1 with fd_table :=
              [{ zero_fd with fd_type := .FD_STDIN, mode := F_READ },
               { zero_fd with fd_type := .FD_STDOUT, mode := F_WRITE }]
                ++ List.replicate (MAX_OPEN_FILES - 2) zero_fd })

/-- One of the `for` loops of `touch_single` that look for the name `fs_name`
among `n` entries read one after the other from data offset `pos`.  A short
read at the end of the image leaves the rest of the local `cur` as it was. -/
def touch_scan (data : List Nat) (fs_name : List Nat) : Nat → Nat → List Nat → Bool × List Nat
  | 0, _, cur => (false, cur)
  | n + 1, pos, cur =>
    let bytes := pread data pos 64
    let cur1 := bytes ++ cur.drop bytes.length
    if strcmp_eq (decode_entry cur1).name fs_name then (true, cur1)
    else touch_scan data fs_name n (pos + bytes.length) cur1

/-- The first `while` loop of `touch_single`: the directory chain is searched
for `fs_name`; the result is `(found, file position after the last read, cur)`. -/
def touch_find_loop (fs : FS) (fs_name : List Nat) :
    Nat → Int → Nat → List Nat → Option (Bool × Nat × List Nat)
  | 0, fat_value, pos, cur => if fat_value ≠ 0xFFFF then none else some (false, pos, cur)
  | fuel + 1, fat_value, pos, cur =>
    if fat_value ≠ 0xFFFF then
      match block_pos fs fat_value 0 with
      | none => none
      | some base =>
        let n := (fs.block_size / 64).toNat
        if (pread fs.data base (64 * n)).length ≠ 64 * n then none
        else
          match touch_scan fs.data fs_name n base cur with
          | (true, cur1) => some (true, base, cur1)
          | (false, cur1) =>
            match fat_get fs.fat fat_value with
            | none => none
            | some next => touch_find_loop fs fs_name fuel next (base + 64 * n) cur1
    else some (false, pos, cur)

/-- The `for` loop of the second `while` loop of `touch_single`: the index of
the first entry of the block at `base` whose name is empty. -/
def touch_free_slot (data : List Nat) (base : Nat) : Nat → Nat → Option (Option Nat)
  | 0, _ => some none
  | n + 1, i =>
    let bytes := pread data (base + 64 * i) 64
    if bytes.length ≠ 64 then none
    else if (decode_entry bytes).name.headD 0 = 0 then some (some i)
    else touch_free_slot data base n (i + 1)

/-- The second `while` loop of `touch_single`: either the data offset of a
free slot, or the last block of the directory chain. -/
def touch_slot_loop (fs : FS) : Nat → Int → Int → Option (Nat ⊕ Int)
  | 0, fat_value, final_block => if fat_value ≠ 0xFFFF then none else some (.inr final_block)
  | fuel + 1, fat_value, final_block =>
    if fat_value ≠ 0xFFFF then
      match block_pos fs fat_value 0 with
      | none => none
      | some base =>
        match touch_free_slot fs.data base (fs.block_size / 64).toNat 0 with
        | none => none
        | some (some i) => some (.inl (base + 64 * i))
        | some none =>
          match fat_get fs.fat fat_value with
          | none => none
          | some next =>
            touch_slot_loop fs fuel next (if next = 0xFFFF then fat_value else final_block)
    else some (.inr final_block)

/-- The scan of `find_new_fat` inside the FAT region: the first `fat_no >= i`
whose entry has a zero low byte. -/
def find_new_fat_from : List Nat → Int → Option Int
  | [], _ => none
  | x :: xs, i => if x % 256 = 0 then some i else find_new_fat_from xs (i + 1)

/-- The function `find_new_fat` of `pennfat.c`.  The C loop has no upper bound
and goes on reading the data region after the table; that continuation is
outside the model. -/
def find_new_fat (fs : FS) : Option Int := find_new_fat_from (fs.fat.drop 2) 2

/-- The function `touch_single` of `pennfat.c`. -/
def touch_single (h : Host) (fs : FS) (fs_name : List Nat) : Option (Int × FS) :=
  match touch_find_loop fs fs_name (fs.fat.length + 1) 1 0 (encode_entry h.stack_entry) with
  | none => none
  | some (true, _, _) => some (0, fs)
  | some (false, pos, cur) =>
    match touch_scan fs.data fs_name (fs.block_size / 64).toNat pos cur with
    | (true, _) => some (0, fs)
    | (false, _) =>
      let new_dir_entry : directory_entry :=
        { name := fit 32 (cstr fs_name), size := 0, firstBlock := 0xFFFF, type := 1, perm := 6
          mtime := h.now, reserved := h.stack_entry.reserved }
      match touch_slot_loop fs (fs.fat.length + 1) 1 1 with
      | none => none
      | some (.inl slot) => some (0, { fs with data := pwrite fs.data slot (encode_entry new_dir_entry) })
      | some (.inr final_block) =>
        match find_new_fat fs with
        | none => none
        | some new_fat =>
          match fat_set fs.fat final_block new_fat with
          | none => none
          | some fat1 =>
            match fat_set fat1 new_fat 0xFFFF with
            | none => none
            | some fat2 =>
              match block_pos fs new_fat 0 with
              | none => none
              | some base =>
                some (0, { fs with fat := fat2, data := pwrite fs.data base (encode_entry new_dir_entry) })

/-- The loop of `rm` that zeroes the blocks of a chain and frees their FAT
entries. -/
def rm_loop (block_size : Int) : Nat → Int → List Nat → List Nat → Option (List Nat × List Nat)
  | 0, fat_value, fat, data => if fat_value ≠ 0xFFFF then none else some (fat, data)
  | fuel + 1, fat_value, fat, data =>
    if fat_value ≠ 0xFFFF then
      if block_size * (fat_value - 1) < 0 then none
      else
        let data1 := pwrite data (block_size * (fat_value - 1)).toNat (List.replicate block_size.toNat 0)
        match fat_get fat fat_value with
        | none => none
        | some next_fat_value =>
          match fat_set fat fat_value 0 with
          | none => none
          | some fat1 => rm_loop block_size fuel next_fat_value fat1 data1
    else some (fat, data)

/-- The function `rm` of `pennfat.c`. -/
def rm (h : Host) (fs : FS) (fs_name : List Nat) : Option (Int × FS) :=
  if fs.fs_fd = -1 then some (-1, fs)
  else
    match find_file fs fs_name h.stack_entry with
    | none => none
    | some (current_pos, dir_entry) =>
      if current_pos = -1 then some (-1, fs)
      else
        match rm_loop fs.block_size (fs.fat.length + 1) dir_entry.firstBlock fs.fat fs.data with
        | none => none
        | some (fat1, data1) =>
          if current_pos < fs.fat_size then none
          else
            some (0, { fs with fat := fat1
                               data := pwrite data1 (current_pos - fs.fat_size).toNat (List.replicate 64 0) })

/-- The index of the first element of `xs` satisfying `p`, or `-1`. -/
def first_index {α : Type} (p : α → Bool) : List α → Int → Int
  | [], _ => -1
  | x :: xs, i => if p x then i else first_index p xs (i + 1)

/-- The function `find_global_open_fd` of `f_pennos.c`. -/
def find_global_open_fd (fs : FS) : Int :=
  first_index (fun d => d.fd_type == .FD_UNINIT) (fs.fd_table.take MAX_OPEN_FILES) 0

/-- The function `add_fd_to_pcb` of `f_pennos.c`, on the running process. -/
def add_fd_to_pcb (pcb : PCB) (global_i : Int) : Int × PCB :=
  let i := first_index (fun g => g == -1) (pcb.open_fds.take MAX_OPEN_FILES) 0
  if i = -1 then (-1, pcb)
  else (i, { pcb with open_fds := pcb.open_fds.set i.toNat global_i
                      num_open_fds := pcb.num_open_fds + 1 })

/-- The lookup at the head of `f_open`: the first index of `fd_table` whose
entry carries the name `fname`, or `-1`. -/
def global_index_of (fs : FS) (fname : List Nat) : Int :=
  first_index (fun d => strcmp_eq fname d.dir_entry.name) (fs.fd_table.take MAX_OPEN_FILES) 0

/-- The tail shared by the three modes of `f_open`: the per-process slot. -/
def f_open_finish (fs : FS) (pcb : PCB) (global_index : Int) : Option (Int × FS × PCB) :=
  match add_fd_to_pcb pcb global_index with
  | (pcb_index, pcb1) => some (pcb_index, fs, pcb1)

/-- The function `f_open` of `f_pennos.c` for the running process `pcb`. -/
def f_open (h : Host) (fs : FS) (pcb : PCB) (fname : List Nat) (mode : Int) :
    Option (Int × FS × PCB) :=
  match find_file fs fname h.stack_entry with
  | none => none
  | some (position, dir_entry) =>
    if position = -1 ∧ mode = F_READ then some (-1, fs, pcb)
    else
      let global_index := global_index_of fs fname
      if mode = F_READ then
        if global_index = -1 then
          let g := find_global_open_fd fs
          if g = -1 then some (-1, fs, pcb)
          else if dir_entry.perm &&& 4 = 0 then some (-1, fs, pcb)
          else
            f_open_finish
              (fd_put fs g { dir_entry := dir_entry, fd_type := .FD_FILE, mode := F_READ
                             offset := 0, ref_count := 1 }) pcb g
        else
          match fd_at fs global_index with
          | none => none
          | some d =>
            if d.dir_entry.perm &&& 4 = 0 then some (-1, fs, pcb)
            else f_open_finish (fd_put fs global_index { d with ref_count := d.ref_count + 1 })
              pcb global_index
      else if mode = F_WRITE then
        if global_index = -1 then
          let created : Option (Option FS) :=
            if position = -1 then
              match touch_single h fs fname with
              | none => none
              | some (r, fs1) => if r = -1 then some none else some (some fs1)
            else if dir_entry.perm &&& 2 = 0 then some none
            else
              match rm h fs fname with
              | none => none
              | some (_, fs1) =>
                match touch_single h fs1 fname with
                | none => none
                | some (_, fs2) => some (some fs2)
          match created with
          | none => none
          | some none => some (-1, fs, pcb)
          | some (some fs1) =>
            match find_file fs1 fname dir_entry with
            | none => none
            | some (_, dir_entry1) =>
              let g := find_global_open_fd fs1
              if g = -1 then some (-1, fs1, pcb)
              else
                f_open_finish
                  (fd_put fs1 g { dir_entry := dir_entry1, fd_type := .FD_FILE, mode := F_WRITE
                                  offset := 0, ref_count := 1 }) pcb g
        else
          match fd_at fs global_index with
          | none => none
          | some d =>
            if d.dir_entry.perm &&& 2 = 0 ∨ d.mode = F_WRITE then some (-1, fs, pcb)
            else
              match rm h fs fname with
              | none => none
              | some (_, fs1) =>
                match touch_single h fs1 fname with
                | none => none
                | some (_, fs2) =>
                  match find_file fs2 fname dir_entry with
                  | none => none
                  | some (_, dir_entry1) =>
                    f_open_finish
                      (fd_put fs2 global_index
                        { d with dir_entry := dir_entry1, mode := F_WRITE, ref_count := d.ref_count + 1 })
                      pcb global_index
      else if mode = F_APPEND then
        if global_index = -1 then
          let created : Option (Option FS) :=
            if position = -1 then
              match touch_single h fs fname with
              | none => none
              | some (r, fs1) => if r = -1 then some none else some (some fs1)
            else if dir_entry.perm &&& 2 = 0 then some none
            else some (some fs)
          match created with
          | none => none
          | some none => some (-1, fs, pcb)
          | some (some fs1) =>
            let found := if position = -1 then find_file fs1 fname dir_entry else some (position, dir_entry)
            match found with
            | none => none
            | some (_, dir_entry1) =>
              let g := find_global_open_fd fs1
              if g = -1 then some (-1, fs1, pcb)
              else
                f_open_finish
                  (fd_put fs1 g { dir_entry := dir_entry1, fd_type := .FD_FILE, mode := F_APPEND
                                  offset := dir_entry1.size, ref_count := 1 }) pcb g
        else
          match fd_at fs global_index with
          | none => none
          | some d =>
            if d.dir_entry.perm &&& 2 = 0 then some (-1, fs, pcb)
            else
              f_open_finish
                (fd_put fs global_index
                  { d with mode := F_APPEND, offset := dir_entry.size, ref_count := d.ref_count + 1 })
                pcb global_index
      else some (-1, fs, pcb)

/-- The function `f_close` of `f_pennos.c` for the running process `pcb`. -/
def f_close (fs : FS) (pcb : PCB) (fd : Int) : Option (Int × FS × PCB) :=
  if fd > MAX_OPEN_FILES then some (-1, fs, pcb)
  else
    match int_at pcb.open_fds fd with
    | none => none
    | some global_fd =>
      if global_fd = -1 ∨ fd < 0 then some (-1, fs, pcb)
      else
        match fd_at fs global_fd with
        | none => none
        | some d =>
          let fs1 :=
            if d.fd_type = .FD_FILE then
              if d.ref_count - 1 = 0 then fd_put fs global_fd zero_fd
              else fd_put fs global_fd { d with ref_count := d.ref_count - 1 }
            else fs
          some (0, fs1, { pcb with open_fds := pcb.open_fds.set fd.toNat (-1)
                                   num_open_fds := pcb.num_open_fds - 1 })

/-! ## Deque (`Deque.c`) -/

/-- The function `Deque_Push_Back`. -/
def Deque_Push_Back (dq : List Int) (payload : Int) : List Int := dq ++ [payload]

/-- The function `Deque_Push_Front`. -/
def Deque_Push_Front (dq : List Int) (payload : Int) : List Int := payload :: dq

/-- The function `Deque_Pop_Front`: `none` stands for the result `false`. -/
def Deque_Pop_Front : List Int → Option (Int × List Int)
  | [] => none
  | x :: xs => some (x, xs)

/-- The function `Deque_Size`. -/
def Deque_Size (dq : List Int) : Int := dq.length

/-! ## Kernel state (`k_pennos.c`, `scheduler.c`) -/

/-- The global variables shared by the kernel, the scheduler and the process
API.  The six deques hold `PCB*` handles; `current_pcb` is a handle too. -/
structure Kernel where
  global_pcbs : List PCB
  idle_pcb : Option PCB
  current_pcb : Int
  pid_counter : Int
  neg_priority : List Int
  zero_priority : List Int
  pos_priority : List Int
  blocked_pcbs : List Int
  stopped_pcbs : List Int
  zombie_pcbs : List Int
  fs : FS
deriving DecidableEq, Repr

/-- The function `get_pcb_from_pid` of `k_pennos.c`; `none` is `NULL`. -/
def get_pcb_from_pid (k : Kernel) (pid : Int) : Option PCB :=
  k.global_pcbs.find? (fun p => p.pid == pid)

/-- The PCB a handle points to: handle `0` is the idle PCB, any other handle
the registry entry with that pid. -/
def deref (k : Kernel) (h : Int) : Option PCB :=
  if h = 0 then k.idle_pcb else get_pcb_from_pid k h

/-- Apply `f` to the first PCB of a list whose pid is `h`. -/
def update_first (h : Int) (f : PCB → PCB) : List PCB → List PCB
  | [] => []
  | p :: ps => if p.pid == h then f p :: ps else p :: update_first h f ps

/-- A store through a pointer returned by `get_pcb_from_pid(pid)`: the first
registry PCB with that pid becomes `f` of itself. -/
def modify_reg (k : Kernel) (pid : Int) (f : PCB → PCB) : Kernel :=
  { k with global_pcbs := update_first pid f k.global_pcbs }

/-- A store through the handle `h`: the PCB it points to becomes `f` of itself. -/
def modify (k : Kernel) (h : Int) (f : PCB → PCB) : Kernel :=
  if h = 0 then { k with idle_pcb := k.idle_pcb.map f }
  else modify_reg k h f

/-- The descriptor array of `k_system_init` and `create_idle_pcb`. -/
def empty_fds : List Int := [0, 1] ++ List.replicate (MAX_OPEN_FILES - 2) (-1)

/-- The function `k_system_init` of `k_pennos.c`; the deques are allocated by
`init_scheduler`. -/
def k_system_init (fs : FS) (uninit : exit_status) : Kernel :=
  { global_pcbs := [{ init_pcb 1 (-1) empty_fds 2 (-1) uninit with process_name := "init" }]
    idle_pcb := none
    current_pcb := 1
    pid_counter := 2
    neg_priority := [], zero_priority := [], pos_priority := []
    blocked_pcbs := [], stopped_pcbs := [], zombie_pcbs := []
    fs := fs }

/-- The function `init_scheduler` of `scheduler.c` (with `create_idle_pcb`). -/
def init_scheduler (k : Kernel) (uninit : exit_status) : Kernel :=
  { k with neg_priority := [], zero_priority := [], pos_priority := []
           blocked_pcbs := [1], stopped_pcbs := [], zombie_pcbs := []
           idle_pcb := some { init_pcb 0 0 empty_fds 0 (-1) uninit with process_name := "idle" } }

/-- Push a handle on the ready deque `get_pq_from_priority(priority)`; `none`
is the `NULL` deque returned for a priority outside `{-1, 0, 1}`. -/
def push_pq (k : Kernel) (priority : Int) (h : Int) : Option Kernel :=
  if priority = -1 then some { k with neg_priority := Deque_Push_Back k.neg_priority h }
  else if priority = 0 then some { k with zero_priority := Deque_Push_Back k.zero_priority h }
  else if priority = 1 then some { k with pos_priority := Deque_Push_Back k.pos_priority h }
  else none

/-- The ready deque `get_pq_from_priority(priority)`. -/
def get_pq_from_priority (k : Kernel) (priority : Int) : Option (List Int) :=
  if priority = -1 then some k.neg_priority
  else if priority = 0 then some k.zero_priority
  else if priority = 1 then some k.pos_priority
  else none

/-- The function `schedule_ready_process` of `scheduler.c`. -/
def schedule_ready_process (k : Kernel) (h : Int) : Option Kernel :=
  match deref k h with
  | none => none
  | some pcb =>
    if pcb.status = .READY then push_pq k pcb.priority h
    else if pcb.sleep_counter > 0 then
      some { k with blocked_pcbs := Deque_Push_Back k.blocked_pcbs h }
    else some k

/-- The walk of `waitpid_checks` along the blocked deque: the first node whose
PCB has pid `parent_pid`. -/
def find_blocked_parent (k : Kernel) (parent_pid : Int) : List Int → Option (Option Int)
  | [] => some none
  | b :: bs =>
    match deref k b with
    | none => none
    | some B => if B.pid = parent_pid then some (some b) else find_blocked_parent k parent_pid bs

/-- The function `waitpid_checks` of `scheduler.c` on the PCB with handle `h`.
The woken parent is queued by `schedule_ready_process`; it is not taken out of
the blocked deque. -/
def waitpid_checks (k : Kernel) (h : Int) : Option (Bool × Kernel) :=
  match deref k h with
  | none => none
  | some pcb =>
    match find_blocked_parent k pcb.parent_pid k.blocked_pcbs with
    | none => none
    | some none => some (false, k)
    | some (some b) =>
      match deref k b with
      | none => none
      | some B =>
        let k1 := if B.waitpid_pid = -1 then modify k b (fun p => { p with waitpid_pid := pcb.pid }) else k
        match deref k1 b, deref k1 h with
        | some B1, some pcb1 =>
          if B1.waitpid_pid = pcb1.pid then
            if B1.pid ≠ 1 ∧ pcb1.status ≠ .READY then
              let k2 := modify k1 b (fun p => { p with status := .READY })
              match deref k2 h with
              | none => none
              | some pcb2 =>
                let k3 :=
                  if pcb2.status = .ZOMBIE then
                    modify k2 b (fun p => { p with waitpid_estatus := pcb2.e_status })
                  else if pcb2.status = .READY then
                    modify k2 b (fun p => { p with waitpid_estatus := .NOT_EXITED })
                  else if pcb2.status = .STOPPED then
                    modify (modify k2 b (fun p => { p with waitpid_estatus := .EXIT_STOPPED })) h
                      (fun p => { p with e_status := .NO_CHANGE })
                  else k2
                match schedule_ready_process k3 b with
                | none => none
                | some k4 => some (true, k4)
            else some (true, k1)
          else some (false, k1)
        | _, _ => none

/-- The function `remove_pid` of `k_pennos.c`: the first occurrence goes. -/
def remove_pid (arr : List Int) (pid : Int) : List Int := arr.erase pid

/-- The loop of `k_process_cleanup` that hands the children to init. -/
def orphan_children (k : Kernel) : List Int → Option Kernel
  | [] => some k
  | child_pid :: rest =>
    match get_pcb_from_pid k child_pid with
    | none => none
    | some _ => orphan_children (modify_reg k child_pid (fun p => { p with parent_pid := 1 })) rest

/-- The function `k_process_cleanup` of `k_pennos.c` on the PCB with handle `h`. -/
def k_process_cleanup (k : Kernel) (h : Int) : Option Kernel :=
  match deref k h with
  | none => none
  | some process =>
    if process.status ≠ .TERMINATED then
      let k1 := modify k h (fun p => { p with status := .TERMINATED })
      match orphan_children k1 process.children_pids with
      | none => none
      | some k2 =>
        match deref k2 h with
        | none => none
        | some process2 =>
          match get_pcb_from_pid k2 process2.parent_pid with
          | none => none
          | some parent_pcb =>
            some (modify_reg k2 parent_pcb.pid
              (fun p => { p with children_pids := remove_pid p.children_pids process2.pid }))
    else some k

/-- The function `Deque_Pop_PID`: the first payload with pid `pid_to_pop` is
removed; the flag is the returned `bool`. -/
def Deque_Pop_PID (dq : List Int) (pid_to_pop : Int) : Bool × List Int :=
  (dq.contains pid_to_pop, dq.erase pid_to_pop)

/-- The function `k_process_create` of `k_pennos.c`: the new state and the
handle of the new PCB.  `update_children` grows the array once, to 200 cells;
a store past them is a fault. -/
def k_process_create (k : Kernel) (parent : Int) (name : String) (uninit : exit_status) :
    Option (Kernel × Int) :=
  match deref k parent with
  | none => none
  | some par =>
    let pid := k.pid_counter
    let priority := if par.pid = 2 then 0 else par.priority
    let new_pcb : PCB :=
      { init_pcb pid par.pid par.open_fds par.num_open_fds priority uninit with process_name := name }
    let k1 := { k with pid_counter := k.pid_counter + 1, global_pcbs := k.global_pcbs ++ [new_pcb] }
    match deref k1 parent with
    | none => none
    | some par1 =>
      if par1.children_pids.length ≥ 200 then none
      else some (modify k1 parent (fun p => { p with children_pids := p.children_pids ++ [pid] }), pid)

/-- The function `schedule_sleep_process` of `scheduler.c`. -/
def schedule_sleep_process (k : Kernel) (h : Int) (sig : pennos_signal) : Option Kernel :=
  match sig with
  | .S_SIGSTOP =>
    let k1 := modify k h (fun p => { p with status := .STOPPED })
    let k2 := { k1 with blocked_pcbs := (Deque_Pop_PID k1.blocked_pcbs h).2
                        stopped_pcbs := Deque_Push_Back k1.stopped_pcbs h }
    (waitpid_checks k2 h).map (fun r => r.2)
  | .S_SIGTERM =>
    let k1 := modify k h (fun p => { p with status := .ZOMBIE })
    let k2 := { k1 with blocked_pcbs := (Deque_Pop_PID k1.blocked_pcbs h).2
                        zombie_pcbs := Deque_Push_Back k1.zombie_pcbs h }
    (waitpid_checks k2 h).map (fun r => r.2)
  | .S_SIGCONT =>
    let k1 := modify k h (fun p => { p with status := .BLOCKED })
    let k2 := { k1 with stopped_pcbs := (Deque_Pop_PID k1.stopped_pcbs h).2
                        blocked_pcbs := Deque_Push_Back k1.blocked_pcbs h }
    (waitpid_checks k2 h).map (fun r => r.2)

/-- The function `k_process_kill` of `k_pennos.c` on the PCB with handle `h`. -/
def k_process_kill (k : Kernel) (h : Int) (signal : pennos_signal) : Option Kernel :=
  match deref k h with
  | none => none
  | some process =>
    if process.status = .TERMINATED then some k
    else
      match signal with
      | .S_SIGSTOP =>
        let k1 := modify k h (fun p => { p with status := .STOPPED, e_status := .EXIT_STOPPED })
        let k2 := if process.process_name = "sleep" then schedule_sleep_process k1 h .S_SIGSTOP else some k1
        match k2 with
        | none => none
        | some k2 => (waitpid_checks k2 h).map (fun r => r.2)
      | .S_SIGTERM =>
        let k1 := modify k h (fun p => { p with status := .ZOMBIE, e_status := .EXIT_SIGNAL })
        let k2 := if process.process_name = "sleep" then schedule_sleep_process k1 h .S_SIGTERM else some k1
        match k2 with
        | none => none
        | some k2 => (waitpid_checks k2 h).map (fun r => r.2)
      | .S_SIGCONT =>
        let k1 := modify k h (fun p => { p with status := .READY })
        if process.process_name = "sleep" then schedule_sleep_process k1 h .S_SIGCONT else some k1

/-! ## Process API (`p_pennos.c`) -/

/-- The function `p_spawn` of `p_pennos.c`, without the execution context:
the returned pid and the new state. -/
def p_spawn (k : Kernel) (fd0 fd1 : Int) (name : String) (uninit : exit_status) :
    Option (Int × Kernel) :=
  match k_process_create k k.current_pcb name uninit with
  | none => none
  | some (k1, new_pcb) =>
    match deref k1 new_pcb with
    | none => none
    | some child =>
      match int_at child.open_fds fd0, int_at child.open_fds fd1 with
      | some pcb_in_global_fd, some pcb_out_global_fd =>
        let k2 := modify k1 new_pcb (fun p =>
          { p with open_fds := (p.open_fds.set 0 pcb_in_global_fd).set 1 pcb_out_global_fd })
        match schedule_ready_process k2 new_pcb with
        | none => none
        | some k3 => some (new_pcb, k3)
      | _, _ => none

/-- The function `p_system_init` of `p_pennos.c`. -/
def p_system_init (fs : FS) (uninit : exit_status) : Option Kernel :=
  (p_spawn (init_scheduler (k_system_init fs uninit) uninit) 0 1 "shell" uninit).map (fun r => r.2)

/-- The function `exit_context` of `p_pennos.c`, up to its final spin. -/
def exit_context (k : Kernel) : Kernel :=
  modify k k.current_pcb (fun p => { p with status := .ZOMBIE, e_status := .EXIT_NORMAL })

/-- The predicate `W_WIFEXITED`. -/
def W_WIFEXITED (status : Int) : Bool := status == exit_status.EXIT_NORMAL.toInt
/-- The predicate `W_WIFSTOPPED`. -/
def W_WIFSTOPPED (status : Int) : Bool := status == exit_status.EXIT_STOPPED.toInt
/-- The predicate `W_WIFSIGNALED`. -/
def W_WIFSIGNALED (status : Int) : Bool := status == exit_status.EXIT_SIGNAL.toInt

/-- How a call of `p_waitpid` ends: it returns `ret`, or it has set the caller
BLOCKED and spins in `while (current_pcb->status == BLOCKED);` until the
scheduler runs the caller again. -/
inductive WaitResult where
  | returned (ret : Int)
  | blocked
deriving DecidableEq, Repr

/-- The part of `p_waitpid` for a specific pid (after the `pid == -1` test).
`wstatus` is the content of `*wstatus` before the call; the second component of
the result is its content afterwards. -/
def p_waitpid_one (k : Kernel) (pid : Int) (wstatus : Int) (nohang : Bool) :
    Option (WaitResult × Int × Kernel) :=
  match get_pcb_from_pid k pid, deref k k.current_pcb with
  | some target_pcb, some caller =>
    if target_pcb.parent_pid ≠ caller.pid then some (.returned (-1), wstatus, k)
    else if target_pcb.status = .TERMINATED then some (.returned (-1), wstatus, k)
    else if nohang then
      match target_pcb.status with
      | .READY | .RUNNING | .BLOCKED => some (.returned pid, exit_status.NOT_EXITED.toInt, k)
      | .STOPPED => some (.returned pid, target_pcb.e_status.toInt, k)
      | .ZOMBIE =>
        match k_process_cleanup k pid with
        | none => none
        | some k1 => some (.returned pid, target_pcb.e_status.toInt, k1)
      | .TERMINATED => some (.returned (-1), wstatus, k)
    else
      some (.blocked, wstatus,
        modify k k.current_pcb (fun p => { p with status := .BLOCKED, waitpid_pid := pid }))
  | _, _ => none

/-- The continuation of a blocking `p_waitpid(pid, wstatus, false)` for a
specific pid once the caller runs again: the returned pid, `*wstatus`, and the
new state. -/
def p_waitpid_resume (k : Kernel) (pid : Int) : Option (Int × Int × Kernel) :=
  match deref k k.current_pcb with
  | none => none
  | some caller =>
    let wstatus := caller.waitpid_estatus.toInt
    let k1 := modify k k.current_pcb (fun p => { p with waitpid_pid := 0 })
    let k2 :=
      if caller.waitpid_estatus = .EXIT_NORMAL ∨ caller.waitpid_estatus = .EXIT_SIGNAL
      then k_process_cleanup k1 pid else some k1
    match k2 with
    | none => none
    | some k2 =>
      some (pid, wstatus, modify k2 k2.current_pcb (fun p => { p with waitpid_estatus := .NO_CHANGE }))

/-- The continuation of a blocking `p_waitpid(-1, wstatus, false)` once the
caller runs again: the returned pid and the new state.  `*wstatus` is not
written on this path. -/
def p_waitpid_any_resume (k : Kernel) : Option (Int × Kernel) :=
  match deref k k.current_pcb with
  | none => none
  | some caller =>
    let waited_pid := caller.waitpid_pid
    let k1 := modify k k.current_pcb (fun p => { p with waitpid_pid := 0 })
    match get_pcb_from_pid k1 waited_pid with
    | none => none
    | some _ =>
      match k_process_cleanup k1 waited_pid with
      | none => none
      | some k2 => some (waited_pid, k2)

/-- The polling loop of `p_waitpid(-1, wstatus, true)` from index `i` on.  The
local `status` of the C loop is uninitialised; `junk` is what it holds before
the inner call writes it.  The inner call `p_waitpid(child_pid, &status,
nohang)` passes the `num_children == 0` test, the caller having a child at
index `i`, and goes to the part for one pid; a stored child pid of -1 would
re-enter the loop without end. -/
def p_waitpid_poll (junk : Int) : Nat → Kernel → Nat → Option (Int × Kernel)
  | 0, _, _ => none
  | fuel + 1, k, i =>
    match deref k k.current_pcb with
    | none => none
    | some caller_pcb =>
      match caller_pcb.children_pids[i]? with
      | none => some (0, k)
      | some child_pid =>
        if child_pid = -1 then none
        else
          match p_waitpid_one k child_pid junk true with
          | none => none
          | some (_, status, k1) =>
            if W_WIFEXITED status || W_WIFSIGNALED status || W_WIFSTOPPED status
            then some (child_pid, k1)
            else p_waitpid_poll junk fuel k1 (i + 1)

/-- The function `p_waitpid` of `p_pennos.c`, called by the running process. -/
def p_waitpid (k : Kernel) (pid : Int) (wstatus : Int) (nohang : Bool) (junk : Int) :
    Option (WaitResult × Int × Kernel) :=
  match deref k k.current_pcb with
  | none => none
  | some caller =>
    if caller.children_pids.length = 0 then some (.returned (-1), wstatus, k)
    else if pid = -1 then
      if nohang then
        match p_waitpid_poll junk (caller.children_pids.length + 1) k 0 with
        | none => none
        | some (r, k1) => some (.returned r, wstatus, k1)
      else
        some (.blocked, wstatus,
          modify k k.current_pcb (fun p => { p with status := .BLOCKED, waitpid_pid := -1 }))
    else p_waitpid_one k pid wstatus nohang

/-- The function `p_kill` of `p_pennos.c`. -/
def p_kill (k : Kernel) (pid : Int) (sig : pennos_signal) : Option (Int × Kernel) :=
  match get_pcb_from_pid k pid with
  | none => some (-1, k)
  | some _ => (k_process_kill k pid sig).map (fun k1 => (0, k1))

/-- The function `p_sleep` of `p_pennos.c`; `ticks` is an `unsigned int`, stored
into the `int` field `sleep_counter`. -/
def p_sleep (k : Kernel) (ticks : Nat) (uninit : exit_status) : Option (Int × Kernel) :=
  match k_process_create k k.current_pcb "sleep" uninit with
  | none => none
  | some (k1, new_pcb) =>
    let t : Int := ((ticks : Int) + 2147483648) % 4294967296 - 2147483648
    let k2 := modify k1 new_pcb (fun p => { p with sleep_counter := t, status := .BLOCKED })
    (schedule_ready_process k2 new_pcb).map (fun k3 => (new_pcb, k3))

/-! ## Scheduler loop (`scheduler.c`) -/

/-- The constant `quantum` of `scheduler.c` (`10 * centisecond`). -/
def quantum : Int := 10 * 10000

/-- The table `priority_tracker` filled by `create_array`, for `0 <= i < 19`. -/
def priority_tracker (i : Int) : Int :=
  if i = 0 ∨ i = 3 ∨ i = 6 ∨ i = 9 then 1
  else if i = 1 ∨ i = 4 ∨ i = 7 ∨ i = 10 ∨ i = 12 ∨ i = 14 then 0
  else -1

/-- The kernel state together with the variables private to the scheduler
loop: `tracker_pos` and the quantum counter `current_quantum`. -/
structure Sched where
  k : Kernel
  tracker_pos : Int
  current_quantum : Int
deriving DecidableEq, Repr

/-- Replace the ready deque of class `priority` (one of `-1, 0, 1`). -/
def set_pq (k : Kernel) (priority : Int) (dq : List Int) : Kernel :=
  if priority = -1 then { k with neg_priority := dq }
  else if priority = 0 then { k with zero_priority := dq }
  else { k with pos_priority := dq }

/-- What the head of one pass of the loop of `scheduler_main` decides: the pass
is given up (`continue`, no quantum consumed), or the PCB `h`, popped from the
ready deque of class `queue`, is given the next quantum. -/
inductive Selection where
  | skipped
  | run (h : Int) (queue : Int)
deriving DecidableEq, Repr

/-- The head of one pass of the loop of `scheduler_main`, up to `swapcontext`. -/
def scheduler_select (s : Sched) : Option (Selection × Sched) :=
  let tracker_pos := if s.tracker_pos ≥ 19 then 0 else s.tracker_pos
  let prio := priority_tracker tracker_pos
  let k0 := s.k
  match get_pq_from_priority k0 prio with
  | none => none
  | some pq0 =>
    let pq1 :=
      if k0.neg_priority.length = 0 ∧ k0.pos_priority.length = 0 ∧ k0.zero_priority.length = 0
      then Deque_Push_Back pq0 0 else pq0
    match Deque_Pop_Front pq1 with
    | none => some (.skipped, { s with k := set_pq k0 prio pq1, tracker_pos := tracker_pos + 1 })
    | some (h, pq2) =>
      let k1 := { set_pq k0 prio pq2 with current_pcb := h }
      match deref k1 h with
      | none => none
      | some pcb =>
        if pcb.status ≠ .READY then
          let k2 :=
            if pcb.status = .ZOMBIE then { k1 with zombie_pcbs := Deque_Push_Back k1.zombie_pcbs h }
            else if pcb.status = .STOPPED then { k1 with stopped_pcbs := Deque_Push_Back k1.stopped_pcbs h }
            else k1
          some (.skipped, { s with k := k2, tracker_pos := tracker_pos + 1 })
        else if pcb.priority ≠ prio then
          some (.skipped, { s with k := k1, tracker_pos := tracker_pos + 1 })
        else
          some (.run h prio,
            { k := modify k1 h (fun p => { p with status := .RUNNING })
              tracker_pos := tracker_pos
              current_quantum := s.current_quantum + 1 })

/-- The branch of `scheduler_main` taken when the quantum is over: the PCB that
ran is put on the deque that matches the status it came back with. -/
def after_slice (k : Kernel) : Option Kernel :=
  let h := k.current_pcb
  match deref k h with
  | none => none
  | some pcb =>
    if pcb.status = .RUNNING then
      schedule_ready_process (modify k h (fun p => { p with status := .READY })) h
    else if pcb.status = .ZOMBIE ∨ pcb.status = .STOPPED then
      match waitpid_checks k h with
      | none => none
      | some (_, k1) =>
        match deref k1 h with
        | none => none
        | some pcb1 =>
          if pcb1.status = .TERMINATED then k_process_cleanup k1 h
          else if pcb1.status = .ZOMBIE then
            some { k1 with zombie_pcbs := Deque_Push_Back k1.zombie_pcbs h }
          else if pcb1.status = .STOPPED then
            some { k1 with stopped_pcbs := Deque_Push_Back k1.stopped_pcbs h }
          else some k1
    else if pcb.status = .BLOCKED then
      some { k with blocked_pcbs := Deque_Push_Back k.blocked_pcbs h }
    else some k

/-- The loop "sleep checks" of `scheduler_main` over the nodes of the blocked
deque. -/
def sleep_checks (k : Kernel) : List Int → Option Kernel
  | [] => some k
  | h :: rest =>
    match deref k h with
    | none => none
    | some pcb =>
      if pcb.sleep_counter > 0 then
        if pcb.sleep_counter - quantum ≤ 0 then
          let k1 := modify k h (fun p =>
            { p with status := .ZOMBIE, sleep_counter := -1, e_status := .EXIT_NORMAL })
          match waitpid_checks k1 h with
          | none => none
          | some (_, k2) => sleep_checks k2 rest
        else
          sleep_checks (modify k h (fun p => { p with sleep_counter := p.sleep_counter - quantum })) rest
      else sleep_checks k rest

/-- The loop of `scheduler_main` over the stopped deque that moves continued
PCBs back to a ready deque; `i` is the index of the node `h :: rest` starts at.
The C loop reads `stop_pcb->next` from the node it has just freed; the model
reads the successor the node had. -/
def resume_stopped (k : Kernel) (i : Nat) : List Int → Option Kernel
  | [] => some k
  | h :: rest =>
    match deref k h with
    | none => none
    | some pcb =>
      if pcb.status = .READY then
        let k1 := { k with stopped_pcbs := k.stopped_pcbs.eraseIdx i }
        match waitpid_checks k1 h with
        | none => none
        | some (_, k2) =>
          match schedule_ready_process (modify k2 h (fun p => { p with status := .READY })) h with
          | none => none
          | some k3 => resume_stopped k3 i rest
      else resume_stopped k (i + 1) rest

/-- The loop of `scheduler_main` over the zombie deque. -/
def zombie_rescan (k : Kernel) : List Int → Option Kernel
  | [] => some k
  | h :: rest =>
    match deref k h with
    | none => none
    | some pcb =>
      if pcb.status ≠ .TERMINATED then
        match waitpid_checks k h with
        | none => none
        | some (_, k1) => zombie_rescan k1 rest
      else zombie_rescan k rest

/-- The part of one pass of `scheduler_main` after `swapcontext` returns. -/
def scheduler_after (s : Sched) : Option Sched :=
  match after_slice s.k with
  | none => none
  | some k1 =>
    match sleep_checks k1 k1.blocked_pcbs with
    | none => none
    | some k2 =>
      match resume_stopped k2 0 k2.stopped_pcbs with
      | none => none
      | some k3 =>
        match zombie_rescan k3 k3.zombie_pcbs with
        | none => none
        | some k4 => some { s with k := k4, tracker_pos := s.tracker_pos + 1 }

/-- One pass of the loop of `scheduler_main`.  `slice` is what the selected
process does to the kernel state during its quantum. -/
def scheduler_iter (slice : Kernel → Option Kernel) (s : Sched) : Option (Selection × Sched) :=
  match scheduler_select s with
  | none => none
  | some (.skipped, s1) => some (.skipped, s1)
  | some (.run h q, s1) =>
    match slice s1.k with
    | none => none
    | some k1 =>
      match scheduler_after { s1 with k := k1 } with
      | none => none
      | some s2 => some (.run h q, s2)

/-- Consecutive passes of the loop of `scheduler_main`, one per element of
`slices`, with the list of what each pass selected. -/
def scheduler_run : List (Kernel → Option Kernel) → Sched → Option (List Selection × Sched)
  | [], s => some ([], s)
  | slice :: rest, s =>
    match scheduler_iter slice s with
    | none => none
    | some (sel, s1) =>
      match scheduler_run rest s1 with
      | none => none
      | some (sels, s2) => some (sel :: sels, s2)

/-! ## Concrete sessions -/

/-- The blocks of a file: the FAT chain walked from `fat_value` until `0xFFFF`. -/
def fat_chain (fat : List Nat) : Nat → Int → Option (List Int)
  | 0, fat_value => if fat_value = 0xFFFF then some [] else none
  | fuel + 1, fat_value =>
    if fat_value = 0xFFFF then some []
    else
      match fat_get fat fat_value with
      | none => none
      | some next => (fat_chain fat fuel next).map (fun c => fat_value :: c)

/-- The clock and stack content used in the sessions below. -/
def session_host : Host := { now := 1000, stack_entry := zero_entry }

/-- A freshly made and mounted file system: `mkfs` with one FAT block of 256
bytes on a new host file, then `f_mount`. -/
def fresh_fs : FS := (f_mount (FS.unmounted []) (mkfs [] 1 0).2 3).2

/-- The PCB of the shell as `k_process_create` makes it for init. -/
def shell_pcb : PCB := { init_pcb 2 1 empty_fds 2 (-1) .NOT_EXITED with process_name := "shell" }

/-- The file name `"a"`. -/
def name_a : List Nat := [97]

/-- The bytes `1, 2, ..., 251, 1, 2, ...`, 257 of them. -/
def bytes257 : List Nat := (List.range 257).map (fun i => i % 251 + 1)

/-- Successive `f_write` calls on descriptor `fd`, one per chunk, each asking
for the whole chunk: the list of returned counts and the final state. -/
def write_all (pcb : PCB) (fd : Int) : List (List Nat) → FS → Option (List Int × FS)
  | [], fs => some ([], fs)
  | chunk :: rest, fs =>
    match f_write fs pcb fd chunk chunk.length with
    | none => none
    | some (r, fs1) => (write_all pcb fd rest fs1).map (fun x => (r :: x.1, x.2))

/-- On the fresh file system: `f_open("a", F_WRITE)`, then the chunks written
one `f_write` each.  The result is the descriptor, the counts returned by the
writes, and the state. -/
def write_session (chunks : List (List Nat)) : Option (Int × List Int × FS × PCB) :=
  match f_open session_host fresh_fs shell_pcb name_a F_WRITE with
  | none => none
  | some (fd, fs1, pcb1) =>
    (write_all pcb1 fd chunks fs1).map (fun x => (fd, x.1, x.2, pcb1))

/-- What `write_seek_read` observes: the counts returned by the writes, the
size of the file in its descriptor, the value returned by `f_lseek`, the value
returned by `f_read`, the bytes it stored in `buf`, and the offset of the
descriptor afterwards. -/
structure ReadBack where
  counts : List Int
  size : Nat
  sought : Int
  ret : Int
  buf : List Nat
  offset : Int
deriving DecidableEq, Repr

/-- After `write_session chunks`: `f_lseek(fd, pos, F_SEEK_SET)` and
`f_read(fd, n, buf)`. -/
def write_seek_read (chunks : List (List Nat)) (pos n : Int) : Option ReadBack :=
  match write_session chunks with
  | none => none
  | some (fd, counts, fs, pcb) =>
    match f_lseek fs pcb fd pos F_SEEK_SET with
    | none => none
    | some (sought, fs1) =>
      match f_read fs1 pcb fd n with
      | none => none
      | some (r, buf, fs2) =>
        match (int_at pcb.open_fds fd).bind (fd_at fs2) with
        | some d =>
          some { counts := counts, size := d.dir_entry.size, sought := sought, ret := r, buf := buf
                 offset := d.offset }
        | none => none

/-- What `write_layout` observes: the counts returned by the writes, the size
and first block recorded in the descriptor of the file, the same two fields of
its directory entry in the image, and the FAT chain from that first block. -/
structure Layout where
  counts : List Int
  fd_size : Nat
  fd_firstBlock : Nat
  dir_size : Nat
  dir_firstBlock : Nat
  chain : List Int
deriving DecidableEq, Repr

/-- The layout of the file after `write_session chunks`. -/
def write_layout (chunks : List (List Nat)) : Option Layout :=
  match write_session chunks with
  | none => none
  | some (fd, counts, fs, pcb) =>
    match (int_at pcb.open_fds fd).bind (fd_at fs), find_file fs name_a zero_entry with
    | some d, some (_, e) =>
      (fat_chain fs.fat fs.fat.length d.dir_entry.firstBlock).map
        (fun c => { counts := counts, fd_size := d.dir_entry.size, fd_firstBlock := d.dir_entry.firstBlock
                    dir_size := e.size, dir_firstBlock := e.firstBlock, chain := c })
    | _, _ => none

/-- A quantum in which the running process changes nothing. -/
def slice_nop (k : Kernel) : Option Kernel := some k

/-- A quantum in which the running process spawns a child named `"child"` and
enters a blocking `p_waitpid` on the pid `target child` (`target` is the
identity for a wait on the child, constant `-1` for a wait on any child). -/
def slice_spawn_wait (target : Int → Int) (k : Kernel) : Option Kernel :=
  match p_spawn k 0 1 "child" .NOT_EXITED with
  | none => none
  | some (pid, k1) => (p_waitpid k1 (target pid) 0 false 0).map (fun r => r.2.2)

/-- A quantum in which the running process returns from its function and so
enters `exit_context`. -/
def slice_exit (k : Kernel) : Option Kernel := some (exit_context k)

/-- A quantum in which the running process is stopped: `p_kill` with
`S_SIGSTOP` on its own pid. -/
def slice_stop_self (k : Kernel) : Option Kernel :=
  (p_kill k k.current_pcb .S_SIGSTOP).map (fun r => r.2)

/-- The scheduler state when `scheduler_main` enters its loop after
`p_system_init`. -/
def boot : Option Sched :=
  (p_system_init (FS.unmounted []) .NOT_EXITED).map
    (fun k => { k := k, tracker_pos := 0, current_quantum := 0 })

/-- The status of the PCB with handle `h`. -/
def status_of (k : Kernel) (h : Int) : Option process_status := (deref k h).map (fun p => p.status)

/-- Session: after boot the shell (pid 2, class -1) gets the first quantum, in
table slot 2, spawns a child (pid 3, class 0) and blocks in `p_waitpid(3)`;
the child gets the next quantum, in slot 4, and exits. -/
def wait_exit_session : Option (List Selection × Sched) :=
  boot.bind (scheduler_run [slice_nop, slice_nop, slice_spawn_wait id, slice_nop, slice_exit])

/-- Session: as `wait_exit_session`, but the shell blocks in `p_waitpid(-1)`
and the child is stopped in its quantum instead of exiting. -/
def wait_stop_session : Option (List Selection × Sched) :=
  boot.bind (scheduler_run
    [slice_nop, slice_nop, slice_spawn_wait (fun _ => -1), slice_nop, slice_stop_self])

/-- Session: after `wait_stop_session` the scheduler selects the next process
and that process continues its `p_waitpid(-1, wstatus, false)`.  The result is
the selection, the value returned by `p_waitpid`, and the state. -/
def wait_stop_resumed : Option (Selection × Int × Kernel) :=
  match wait_stop_session with
  | none => none
  | some (_, s) =>
    match scheduler_select s with
    | none => none
    | some (sel, s1) => (p_waitpid_any_resume s1.k).map (fun r => (sel, r.1, r.2))

/-- What `k_process_cleanup` does to the registry entry `q` with pid `x` when it
reaps the PCB `p` with pid `h`. -/
def cleanup_effect (p : PCB) (h x : Int) (q : PCB) : PCB :=
  let q1 := if x = h then { q with status := process_status.TERMINATED } else q
  let q2 := if x ∈ p.children_pids then { q1 with parent_pid := 1 } else q1
  if x = p.parent_pid then { q2 with children_pids := remove_pid q2.children_pids h } else q2


/-- A registry PCB of the sample state `family`. -/
def sample_pcb (pid parent : Int) (children : List Int) (status : process_status)
    (e_status : exit_status) : PCB :=
  { init_pcb pid parent empty_fds 2 0 .NOT_EXITED with
    children_pids := children, status := status, e_status := e_status }

/-- A sample state: init (1) is the parent of the running process 2, whose
children 3 and 4 are zombies; 5 is a child of 3. -/
def family : Kernel :=
  { global_pcbs :=
      [ sample_pcb 1 (-1) [2] .READY .NOT_EXITED
      , sample_pcb 2 1 [3, 4] .RUNNING .NOT_EXITED
      , sample_pcb 3 2 [5] .ZOMBIE .EXIT_NORMAL
      , sample_pcb 4 2 [] .ZOMBIE .EXIT_SIGNAL
      , sample_pcb 5 3 [] .READY .NOT_EXITED ]
    idle_pcb := some { init_pcb 0 0 empty_fds 0 (-1) .NOT_EXITED with process_name := "idle" }
    current_pcb := 2
    pid_counter := 6
    neg_priority := [], zero_priority := [5], pos_priority := []
    blocked_pcbs := [1], stopped_pcbs := [], zombie_pcbs := [3, 4]
    fs := FS.unmounted [] }

/-- The condition of C6 on one ready deque: it is not empty and holds only
READY PCBs of class `prio`. -/
def queue_ok (k : Kernel) (prio : Int) (dq : List Int) : Bool :=
  !dq.isEmpty && dq.all (fun h =>
    match deref k h with
    | some p => p.status == .READY && p.priority == prio
    | none => false)

/-- The condition of C6 on the three ready deques. -/
def ready_ok (k : Kernel) : Bool :=
  queue_ok k (-1) k.neg_priority && queue_ok k 0 k.zero_priority && queue_ok k 1 k.pos_priority

/-- The condition `ready_ok` holds at the selection of every pass of
`scheduler_run slices s`. -/
def ready_along : List (Kernel → Option Kernel) → Sched → Bool
  | [], _ => true
  | slice :: rest, s =>
    ready_ok s.k &&
      match scheduler_iter slice s with
      | none => true
      | some (_, s1) => ready_along rest s1

/-- The number of passes that gave the quantum to a PCB taken from the ready
deque of class `q`. -/
def picks (q : Int) : List Selection → Nat
  | [] => 0
  | .skipped :: rest => picks q rest
  | .run _ c :: rest => (if c = q then 1 else 0) + picks q rest

/-- The table slots consulted by `n` consecutive passes that each consume a
quantum, starting with `tracker_pos = pos`: the classes found there. -/
def slot_classes : Nat → Int → List Int
  | 0, _ => []
  | n + 1, pos =>
    let tracker_pos := if pos ≥ 19 then 0 else pos
    priority_tracker tracker_pos :: slot_classes n (tracker_pos + 1)
/-- A sample scheduler state: the PCBs 2, 3 and 4, of class 1, 0 and -1, are
READY, each alone in the ready deque of its class; the table position is 5. -/
def three_ready : Sched :=
  { k :=
      { global_pcbs :=
          [ sample_pcb 1 (-1) [2, 3, 4] .READY .NOT_EXITED
          , { sample_pcb 2 1 [] .READY .NOT_EXITED with priority := 1 }
          , sample_pcb 3 1 [] .READY .NOT_EXITED
          , { sample_pcb 4 1 [] .READY .NOT_EXITED with priority := -1 } ]
        idle_pcb := some { init_pcb 0 0 empty_fds 0 (-1) .NOT_EXITED with process_name := "idle" }
        current_pcb := 1
        pid_counter := 5
        neg_priority := [4], zero_priority := [3], pos_priority := [2]
        blocked_pcbs := [1], stopped_pcbs := [], zombie_pcbs := []
        fs := FS.unmounted [] }
    tracker_pos := 5
    current_quantum := 0 }

/-! ## Notions used in the proofs about the scheduler pass -/

/-- The fields of a PCB that the scheduler loop never writes. -/
def PCB.static (q : PCB) : Int × Int × List Int × Int :=
  (q.pid, q.parent_pid, q.children_pids, q.priority)

/-- The static fields of all PCBs of a state, registry first, then idle. -/
def shape (k : Kernel) : List (Int × Int × List Int × Int) × Option (Int × Int × List Int × Int) :=
  (k.global_pcbs.map PCB.static, k.idle_pcb.map PCB.static)

/-- The handle `h` points to a PCB. -/
def resolves (k : Kernel) (h : Int) : Prop := (deref k h).isSome = true

/-- Well-formedness of the handles of a state: the idle PCB has pid 0, the
handles held in the blocked, stopped and zombie deques point to PCBs, and every
PCB has a priority in `{-1, 0, 1}`. -/
def handles_ok (k : Kernel) : Prop :=
  (∀ I, k.idle_pcb = some I → I.pid = 0) ∧
  (∀ h ∈ k.blocked_pcbs, resolves k h) ∧
  (∀ h ∈ k.stopped_pcbs, resolves k h) ∧
  (∀ h ∈ k.zombie_pcbs, resolves k h) ∧
  (∀ h q, deref k h = some q → q.priority = -1 ∨ q.priority = 0 ∨ q.priority = 1)

/-- The PCB with handle `h` exists and satisfies `G`. -/
def holds (k : Kernel) (h : Int) (G : PCB → Prop) : Prop := ∃ q, deref k h = some q ∧ G q

/-- The state of a parent woken for the normal exit of the child `c`. -/
def woken_for (c : Int) (q : PCB) : Prop :=
  q.status = .READY ∧ q.waitpid_pid = c ∧ q.waitpid_estatus = .EXIT_NORMAL ∧ q.sleep_counter ≤ 0

/-- The state of a child that exited normally (and may since have been set
READY by a wake-up of its own). -/
def exited_normally (q : PCB) : Prop :=
  (q.status = .ZOMBIE ∨ q.status = .READY) ∧ q.e_status = .EXIT_NORMAL

/-- The handle `h` is in the ready deque of class `prio`. -/
def in_ready (k : Kernel) (prio : Int) (h : Int) : Prop :=
  ∃ dq, get_pq_from_priority k prio = some dq ∧ h ∈ dq

/-- What a piece of the scheduler's bookkeeping may do to the state: the static
fields of all PCBs, `current_pcb` and the blocked deque stay, the stopped deque
only loses handles, the zombie deque gains only handles that point to PCBs, and
the ready deques only gain handles. -/
def step (k k' : Kernel) : Prop :=
  shape k' = shape k ∧ k'.current_pcb = k.current_pcb ∧ k'.blocked_pcbs = k.blocked_pcbs ∧
  (∀ h ∈ k'.stopped_pcbs, h ∈ k.stopped_pcbs) ∧
  (∀ h ∈ k'.zombie_pcbs, h ∈ k.zombie_pcbs ∨ resolves k h) ∧
  (∀ prio y, in_ready k prio y → in_ready k' prio y)

/-- A sample scheduler state at the end of a quantum: the PCB 3 that ran has
exited normally; its parent 2 sits in the blocked deque, BLOCKED in
`p_waitpid(3)`. -/
def rendezvous : Sched :=
  { k :=
      { global_pcbs :=
          [ sample_pcb 1 (-1) [2] .READY .NOT_EXITED
          , { sample_pcb 2 1 [3] .BLOCKED .NOT_EXITED with priority := -1, waitpid_pid := 3 }
          , sample_pcb 3 2 [] .ZOMBIE .EXIT_NORMAL ]
        idle_pcb := some { init_pcb 0 0 empty_fds 0 (-1) .NOT_EXITED with process_name := "idle" }
        current_pcb := 3
        pid_counter := 4
        neg_priority := [], zero_priority := [], pos_priority := []
        blocked_pcbs := [1, 2], stopped_pcbs := [], zombie_pcbs := []
        fs := FS.unmounted [] }
    tracker_pos := 4
    current_quantum := 2 }

/-- The pid discipline of the registry: the counter is positive, every pid is
positive and below it, and the children of a PCB are distinct pids above its
own and below the counter. -/
def pids_ok (k : Kernel) : Prop :=
  0 < k.pid_counter ∧
  ∀ p ∈ k.global_pcbs, 0 < p.pid ∧ p.pid < k.pid_counter ∧ p.children_pids.Nodup ∧
    ∀ c ∈ p.children_pids, p.pid < c ∧ c < k.pid_counter

/-- No pid is in the children arrays of two registry PCBs. -/
def children_apart (k : Kernel) : Prop :=
  k.global_pcbs.Pairwise (fun p q => ∀ c ∈ p.children_pids, c ∉ q.children_pids)

/-! ## Further functions of the file system (`f_pennos.c`, `pennfat.c`) -/

/-- The function `f_rm` of `f_pennos.c`. -/
def f_rm (h : Host) (fs : FS) (fs_name : List Nat) : Option (Int × FS) := rm h fs fs_name

/-- The function `f_unlink` of `f_pennos.c`. -/
def f_unlink (h : Host) (fs : FS) (fname : List Nat) : Option (Int × FS) :=
  match find_file fs fname h.stack_entry with
  | none => none
  | some (position, _) =>
    if position = -1 then some (-1, fs)
    else if global_index_of fs fname ≠ -1 then some (-1, fs)
    else (rm h fs fname).map (fun r => (0, r.2))

/-- The test `strncmp(a, b, n) == 0`. -/
def strncmp_eq (a b : List Nat) (n : Nat) : Bool := (cstr a).take n == (cstr b).take n

/-- The loop of `chmod` over `mode[1], mode[2], ...`, with `op = mode[0]`;
`new_perm` is a `uint8_t`.  The letters `r`, `w`, `x` are 114, 119, 120 and the
operators `+`, `-`, `=` are 43, 45, 61.  `none` is the `return -1` taken at an
invalid letter or operator. -/
def chmod_fold (op : Nat) : List Nat → Nat → Option Nat
  | [], new_perm => some new_perm
  | c :: rest, new_perm =>
    let perm_change : Option Nat :=
      if c = 114 then some 4 else if c = 119 then some 2 else if c = 120 then some 1 else none
    match perm_change with
    | none => none
    | some perm_change =>
      if op = 43 then chmod_fold op rest ((new_perm ||| perm_change) % 256)
      else if op = 45 then chmod_fold op rest (new_perm &&& (255 - perm_change))
      else if op = 61 then chmod_fold op rest perm_change
      else none

/-- The inner `for` loop of `chmod` over the entries `i, i+1, ...` of the
directory block at data offset `base`, `n` of them left: the data offset and
the 64 bytes of the first entry whose name is `fs_name`. -/
def chmod_in_block (data : List Nat) (base : Nat) (fs_name : List Nat) :
    Nat → Nat → Option (Option (Nat × List Nat))
  | 0, _ => some none
  | n + 1, i =>
    let bytes := pread data (base + 64 * i) 64
    if bytes.length ≠ 64 then none
    else if strncmp_eq (decode_entry bytes).name fs_name 32 then some (some (base + 64 * i, bytes))
    else chmod_in_block data base fs_name n (i + 1)

/-- The `while` loop of `chmod` from the directory block `root_fat_value` on. -/
def chmod_loop (fs : FS) (fs_name : List Nat) : Nat → Int → Option (Option (Nat × List Nat))
  | 0, root_fat_value => if root_fat_value ≠ 0xFFFF then none else some none
  | fuel + 1, root_fat_value =>
    if root_fat_value ≠ 0xFFFF then
      match block_pos fs root_fat_value 0 with
      | none => none
      | some base =>
        match chmod_in_block fs.data base fs_name (fs.block_size / 64).toNat 0 with
        | none => none
        | some (some found) => some (some found)
        | some none =>
          match fat_get fs.fat root_fat_value with
          | none => none
          | some next => chmod_loop fs fs_name fuel next
    else some none

/-- The function `chmod` of `pennfat.c`; `mode` holds the characters of the C
string `mode` before its terminator.  With an empty `mode` the letters loop
starts behind the terminator.  The local `dir_entry` is the 64 bytes read from
the image, `perm` being the byte at offset 39. -/
def chmod (fs : FS) (mode fs_name : List Nat) : Option (Int × FS) :=
  if fs.fs_fd = -1 then some (-1, fs)
  else
    match chmod_loop fs fs_name (fs.fat.length + 1) 1 with
    | none => none
    | some none => some (-1, fs)
    | some (some (pos, bytes)) =>
      match mode with
      | [] => none
      | op :: letters =>
        match chmod_fold op letters ((decode_entry bytes).perm % 256) with
        | none => some (-1, fs)
        | some new_perm =>
          if new_perm = 1 ∨ new_perm = 3 then some (-1, fs)
          else some (0, { fs with data := pwrite fs.data pos (bytes.set 39 new_perm) })

/-! ## The permission fold of `chmod` in the words of the specification -/

/-- The bit of a mode letter in the words of the specification: `r` is 4, `w`
is 2, `x` is 1. -/
def spec_perm_bit (c : Nat) : Nat := if c = 114 then 4 else if c = 119 then 2 else 1

/-- The permission after the letters `letters` under the operator `op`, in the
words of the specification: folding from the left, `p | bit` for `+`,
`p & ~bit` for `-` (on eight bits), `bit` for `=`. -/
def spec_perm (op : Nat) (letters : List Nat) (p : Nat) : Nat :=
  letters.foldl (fun p c =>
    if op = 43 then p ||| spec_perm_bit c
    else if op = 45 then p &&& (255 ^^^ spec_perm_bit c)
    else spec_perm_bit c) p

/-! ## Further sessions -/

/-- What `rm_open_session` observes: the reference count of the global
descriptor of the file before the removal, the value returned by `f_unlink`,
the value returned by `f_rm`, and, after `f_rm`, the value returned by
`find_file`, the FAT entry of the block the file had, and the reference count
and name of the global descriptor. -/
structure RmOpen where
  ref_before : Int
  first_block : Nat
  unlink_ret : Int
  rm_ret : Int
  found_after : Int
  fat_after : Option Nat
  ref_after : Int
  name_after : List Nat
deriving DecidableEq, Repr

/-- Session: on the fresh file system the shell opens `"a"` with `F_WRITE`,
writes five bytes and, the descriptor still open, calls `f_unlink("a")` and
`f_rm("a")` on that state. -/
def rm_open_session : Option RmOpen :=
  match write_session [[1, 2, 3, 4, 5]] with
  | none => none
  | some (fd, _, fs, pcb) =>
    match (int_at pcb.open_fds fd).bind (fd_at fs), f_unlink session_host fs name_a,
        f_rm session_host fs name_a with
    | some d, some (u, _), some (r, fs1) =>
      match find_file fs1 name_a zero_entry, (int_at pcb.open_fds fd).bind (fd_at fs1) with
      | some (pos, _), some d1 =>
        some { ref_before := d.ref_count, first_block := d.dir_entry.firstBlock, unlink_ret := u
               rm_ret := r, found_after := pos
               fat_after := fat_get fs1.fat d.dir_entry.firstBlock, ref_after := d1.ref_count
               name_after := cstr d1.dir_entry.name }
      | _, _ => none
    | _, _, _ => none

/-- What `reopen_session` observes: the descriptors returned by the three
`f_open` calls, the value returned by `f_write` (0 if it was not called), the
size of the file in its directory entry before and after the third `f_open`,
and the mode and the reference count of its global descriptor at the end. -/
structure Reopen where
  fds : List Int
  written : Int
  size_before : Nat
  size_after : Nat
  mode_after : Nat
  ref_after : Int
deriving DecidableEq, Repr

/-- Session: on the fresh file system the shell calls `f_open("a", F_WRITE)`,
writes `bytes` with one `f_write` if `w = some bytes` (and does not call
`f_write` if `w = none`), calls `f_open("a", F_APPEND)` and then, none of the
descriptors closed, `f_open("a", F_WRITE)` again. -/
def reopen_session (w : Option (List Nat)) : Option Reopen :=
  match f_open session_host fresh_fs shell_pcb name_a F_WRITE with
  | none => none
  | some (fd1, fs1, pcb1) =>
    let wrote : Option (Int × FS) :=
      match w with
      | none => some (0, fs1)
      | some bytes => f_write fs1 pcb1 fd1 bytes bytes.length
    match wrote with
    | none => none
    | some (written, fs2) =>
      match f_open session_host fs2 pcb1 name_a F_APPEND with
      | none => none
      | some (fd2, fs3, pcb2) =>
        match f_open session_host fs3 pcb2 name_a F_WRITE with
        | none => none
        | some (fd3, fs4, pcb3) =>
          match find_file fs3 name_a zero_entry, find_file fs4 name_a zero_entry,
              (int_at pcb3.open_fds fd1).bind (fd_at fs4) with
          | some (_, e3), some (_, e4), some d =>
            some { fds := [fd1, fd2, fd3], written := written, size_before := e3.size
                   size_after := e4.size, mode_after := d.mode, ref_after := d.ref_count }
          | _, _, _ => none

/-- A quantum in which the running process calls `p_sleep(ticks)`. -/
def slice_sleep (ticks : Nat) (k : Kernel) : Option Kernel :=
  (p_sleep k ticks .NOT_EXITED).map (fun r => r.2)

/-- A quantum in which the running process calls `p_sleep(ticks)` and then
`p_kill(pid, S_SIGCONT)` on the pid that `p_sleep` returned. -/
def slice_sleep_cont (ticks : Nat) (k : Kernel) : Option Kernel :=
  match p_sleep k ticks .NOT_EXITED with
  | none => none
  | some (pid, k1) => (p_kill k1 pid .S_SIGCONT).map (fun r => r.2)

/-- What `watch_run` records after a pass of the scheduler loop: the quantum
counter, and the status, exit kind and `sleep_counter` of the watched PCB. -/
structure Watch where
  current_quantum : Int
  status : Option process_status
  e_status : Option exit_status
  sleep_counter : Option Int
deriving DecidableEq, Repr

/-- Consecutive passes of the loop of `scheduler_main`, one per element of
`slices`; after every pass that consumed a quantum the PCB with handle `h` is
looked at. -/
def watch_run (h : Int) : List (Kernel → Option Kernel) → Sched → Option (List Watch)
  | [], _ => some []
  | slice :: rest, s =>
    match scheduler_iter slice s with
    | none => none
    | some (.skipped, s1) => watch_run h rest s1
    | some (.run _ _, s1) =>
      (watch_run h rest s1).map (fun ws =>
        { current_quantum := s1.current_quantum
          status := (deref s1.k h).map (fun p => p.status)
          e_status := (deref s1.k h).map (fun p => p.e_status)
          sleep_counter := (deref s1.k h).map (fun p => p.sleep_counter) } :: ws)

/-- Session: after boot the shell (pid 2) gets the quanta of the table slots
2, 5, 8, 11 and 13.  In the first it runs `first`; afterwards it does nothing.
The PCB 3, the first one the shell creates, is watched. -/
def sleep_session (first : Kernel → Option Kernel) : Option (List Watch) :=
  boot.bind (watch_run 3
    [slice_nop, slice_nop, first, slice_nop, slice_nop, slice_nop, slice_nop, slice_nop, slice_nop,
     slice_nop, slice_nop, slice_nop, slice_nop, slice_nop])

/-- The kernel state in the first quantum of the shell after boot. -/
def shell_running : Option Kernel :=
  match boot.bind (scheduler_run [slice_nop, slice_nop]) with
  | none => none
  | some (_, s) => (scheduler_select s).map (fun r => r.2.k)

/-- The six deques of a kernel state: the ready deques of class -1, 0 and 1,
then the blocked, stopped and zombie deques. -/
def deques (k : Kernel) : List (List Int) :=
  [k.neg_priority, k.zero_priority, k.pos_priority, k.blocked_pcbs, k.stopped_pcbs, k.zombie_pcbs]

/-- The state of `shell_running`, or the state after `k_system_init` if the
boot failed. -/
def shell_running_state : Kernel :=
  shell_running.getD (k_system_init (FS.unmounted []) .NOT_EXITED)

/-- The state after the shell called `p_sleep(0)` in `shell_running_state`. -/
def slept_zero_state : Kernel :=
  ((p_sleep shell_running_state 0 .NOT_EXITED).map (fun r => r.2)).getD shell_running_state

/-- The state after `f_open("a", F_WRITE)` on the fresh file system: the file
`"a"` exists, is empty and has permission 6. -/
def opened_fs : FS :=
  match write_session [] with
  | some (_, _, fs, _) => fs
  | none => fresh_fs

/-- The FAT of a full file system: every entry from index 1 on is in use. -/
def filled (fs : FS) : FS :=
  { fs with fat := fs.fat.take 1 ++ List.replicate (fs.fat.length - 1) 0xFFFF }

/-- The state after `f_open("a", F_WRITE)` on the fresh file system, the file
system having filled up since. -/
def full_fs : FS := filled opened_fs

/-- The PCB of the shell after `f_open("a", F_WRITE)` on the fresh file system. -/
def full_pcb : PCB :=
  match write_session [] with
  | some (_, _, _, pcb) => pcb
  | none => shell_pcb

/-- The state after `f_open("a", F_WRITE)` and a write of five bytes on the
fresh file system: the file `"a"` has the chain `[2]`. -/
def written_fs : FS :=
  match write_session [[1, 2, 3, 4, 5]] with
  | some (_, _, fs, _) => fs
  | none => fresh_fs

/-- The directory entry of `"a"` in `written_fs`. -/
def written_entry : directory_entry :=
  match find_file written_fs name_a zero_entry with
  | some (_, e) => e
  | none => zero_entry

/-! ## Notions used in the proofs about signals and `rm` -/

/-- Whether `waitpid_checks`, called on the PCB with handle `x`, parent `pp` and
status `st`, wakes a parent: `pp` is in the blocked deque, is not init, waits
for `x` or for any child, and `st` is not READY. -/
def notifies (k : Kernel) (x pp : Int) (st : process_status) : Bool :=
  k.blocked_pcbs.contains pp && (pp != 1) && (st != .READY) &&
    match deref k pp with
    | some B => B.waitpid_pid == -1 || B.waitpid_pid == x
    | none => false

/-- The bytes `lo, ..., lo + n - 1` of the data region exist and are zero. -/
def zero_on (data : List Nat) (lo n : Nat) : Prop :=
  lo + n ≤ data.length ∧ ∀ i, lo ≤ i → i < lo + n → data.getD i 0 = 0

/-! ## The function `mv` (`pennfat.c`) -/

/-- The inner `for` loop of `mv` that looks for the source among the entries
`i, i+1, ...` of the directory block at data offset `base`, `n` of them left:
the data offset and the 64 bytes of the first entry whose name is `src`. -/
def mv_in_block (data : List Nat) (base : Nat) (src : List Nat) :
    Nat → Nat → Option (Option (Nat × List Nat))
  | 0, _ => some none
  | n + 1, i =>
    let bytes := pread data (base + 64 * i) 64
    if bytes.length ≠ 64 then none
    else if strncmp_eq (decode_entry bytes).name src 32 then some (some (base + 64 * i, bytes))
    else mv_in_block data base src n (i + 1)

/-- The outer `while` loop of `mv` from the directory block `root_fat_value`
on, up to the point where the source is found. -/
def mv_loop (fs : FS) (src : List Nat) : Nat → Int → Option (Option (Nat × List Nat))
  | 0, root_fat_value => if root_fat_value ≠ 0xFFFF then none else some none
  | fuel + 1, root_fat_value =>
    if root_fat_value ≠ 0xFFFF then
      match block_pos fs root_fat_value 0 with
      | none => none
      | some base =>
        match mv_in_block fs.data base src (fs.block_size / 64).toNat 0 with
        | none => none
        | some (some found) => some (some found)
        | some none =>
          match fat_get fs.fat root_fat_value with
          | none => none
          | some next => mv_loop fs src fuel next
    else some none

/-- The `for` loop of `mv` that looks for an existing destination in the
directory block at data offset `base`: whether some entry has the name `dst`. -/
def mv_dst_in_block (data : List Nat) (base : Nat) (dst : List Nat) : Nat → Nat → Option Bool
  | 0, _ => some false
  | n + 1, j =>
    let bytes := pread data (base + 64 * j) 64
    if bytes.length ≠ 64 then none
    else if strncmp_eq (decode_entry bytes).name dst 32 then some true
    else mv_dst_in_block data base dst n (j + 1)

/-- The loop `while (root_fat_value_dst != 0xFFFF && !found_dst)` of `mv`: at
the first entry named `dst` it calls `rm(dst)`, whose return value is dropped,
and stops after the read `fat[root_fat_value_dst]`. -/
def mv_dst_loop (h : Host) (dst : List Nat) : Nat → FS → Int → Option FS
  | 0, fs, root_fat_value_dst => if root_fat_value_dst ≠ 0xFFFF then none else some fs
  | fuel + 1, fs, root_fat_value_dst =>
    if root_fat_value_dst ≠ 0xFFFF then
      match block_pos fs root_fat_value_dst 0 with
      | none => none
      | some base =>
        match mv_dst_in_block fs.data base dst (fs.block_size / 64).toNat 0 with
        | none => none
        | some true =>
          match rm h fs dst with
          | none => none
          | some (_, fs1) =>
            match fat_get fs1.fat root_fat_value_dst with
            | none => none
            | some _ => some fs1
        | some false =>
          match fat_get fs.fat root_fat_value_dst with
          | none => none
          | some next => mv_dst_loop h dst fuel fs next
    else some fs

/-- The function `mv` of `pennfat.c`.  The local `dir_entry` is the 64 bytes of
the source entry read before the destination is looked for; its name (bytes 0
to 31, the last one set to NUL) and its `mtime` (bytes 40 to 47) are replaced
and it is written back where it was read. -/
def mv (h : Host) (fs : FS) (src dst : List Nat) : Option (Int × FS) :=
  if fs.fs_fd = -1 then some (-1, fs)
  else
    match mv_loop fs src (fs.fat.length + 1) 1 with
    | none => none
    | some none => some (-1, fs)
    | some (some (pos, bytes)) =>
      match mv_dst_loop h dst (fs.fat.length + 1) fs 1 with
      | none => none
      | some fs1 =>
        let dir_entry := (fit 32 (cstr dst)).set 31 0 ++ (bytes.drop 32).take 8
          ++ le_bytes 8 h.now ++ bytes.drop 48
        some (0, { fs1 with data := pwrite fs1.data pos dir_entry })
/-- The name `"b"`. -/
def name_b : List Nat := [98]

/-- What `mv_session` observes after `mv`: the value returned, the offset at
which `find_file` finds the destination name and the size, first block and
`mtime` of that entry, and, for the first block that the source had before the
call, its FAT entry and as many bytes of it as the source had. -/
structure Moved where
  ret : Int
  found : Int
  size : Nat
  first_block : Nat
  mtime : Nat
  link : Option Nat
  contents : Option (List Nat)
deriving DecidableEq, Repr

/-- Session: on `written_fs` (the file `"a"` holds the bytes 1 to 5 in the
chain `[2]`), `mv("a", dst)` is called at time 2000. -/
def mv_session (dst : List Nat) : Option Moved :=
  match mv { now := 2000, stack_entry := zero_entry } written_fs name_a dst with
  | none => none
  | some (r, fs1) =>
    match find_file fs1 dst zero_entry with
    | none => none
    | some (pos, e) =>
      some { ret := r, found := pos, size := e.size, first_block := e.firstBlock, mtime := e.mtime
             link := fat_get fs1.fat written_entry.firstBlock
             contents := (block_pos fs1 written_entry.firstBlock 0).map
               (fun p => pread fs1.data p written_entry.size) }

/-! ## Error messages (`errors.h`, `errors.c`) -/

/-- The enumeration `pennos_error` of `errors.h`. -/
inductive pennos_error where
  | FileNotFoundError
  | PermissionError
  | CommandNotFoundError
  | ProcessNotFoundError
  | ProcessSpawnError
  | ArgumentNotFoundError
  | SignalNotFoundError
  | ProcessWaitError
  | StatusNotFoundError
  | PCBNotFoundError
  | ProcessStatusError
  | TooManyFilesOpenError
  | NoMoreSpaceError
  | InvalidFileDescriptorError
  | FileWriteError
  | DequeSpaceError
  | PromptError
  | FileReadError
  | FileIsOpenError
  | WrongProcessWaitedError
  | NumberOfErrors
deriving DecidableEq, Repr

/-- The integer value of an enumerator of `pennos_error`. -/
def pennos_error.toInt : pennos_error → Int
  | .FileNotFoundError => 0
  | .PermissionError => 1
  | .CommandNotFoundError => 2
  | .ProcessNotFoundError => 3
  | .ProcessSpawnError => 4
  | .ArgumentNotFoundError => 5
  | .SignalNotFoundError => 6
  | .ProcessWaitError => 7
  | .StatusNotFoundError => 8
  | .PCBNotFoundError => 9
  | .ProcessStatusError => 10
  | .TooManyFilesOpenError => 11
  | .NoMoreSpaceError => 12
  | .InvalidFileDescriptorError => 13
  | .FileWriteError => 14
  | .DequeSpaceError => 15
  | .PromptError => 16
  | .FileReadError => 17
  | .FileIsOpenError => 18
  | .WrongProcessWaitedError => 19
  | .NumberOfErrors => 20

/-- The array `pennos_errors` of `errors.c`.  In the source no comma follows
the literal `"Error with Process status"`, so the compiler joins it with the
next literal `"Too many files open"` into one element. -/
def pennos_errors : List String :=
  [ "File was not found"
  , "Permission denied"
  , "Command was not found"
  , "Process was not found"
  , "Process was not spawned"
  , "Argument was not found"
  , "Signal was not found"
  , "Process was already waited on"
  , "Status was not found"
  , "PCB was not found"
  , "Error with Process status" ++ "Too many files open"
  , "No space to allocate Deque"
  , "Invalid file descriptor error"
  , "File write error"
  , "Deque space errors"
  , "Prompt error"
  , "File read error"
  , "File is opened in another process"
  , "Wrong Process waited on" ]

/-- The function `mapEnumToString` of `errors.c`, on the integer value of its
argument; `none` is a read behind the last element of `pennos_errors`. -/
def mapEnumToString (error : Int) : Option String :=
  if 0 ≤ error ∧ error < pennos_error.NumberOfErrors.toInt then pennos_errors[error.toNat]?
  else some "UnknownError"

/-! ## The linked representation of a deque (`Deque.h`, `Deque.c`)

The functions of `Deque.c` on the node cells they allocate and free.  The
other parts of this development use the list of payloads of a deque; the
claim on the deque relates the two. -/

namespace Linked

/-- The struct `DequeNode` of `Deque.h`; a pointer is `none` (`NULL`) or the
address of a cell, the payload `pcb` is a `PCB*` handle. -/
structure DequeNode where
  pcb : Int
  next : Option Nat
  prev : Option Nat
deriving DecidableEq, Repr

/-- The struct `Deque` of `Deque.h`. -/
structure Deque where
  num_elements : Int
  front : Option Nat
  back : Option Nat
deriving DecidableEq, Repr

/-- The memory `m` with the cell at address `a` replaced by `v`; `none` is
memory that is not allocated. -/
def store (m : Nat → Option DequeNode) (a : Nat) (v : Option DequeNode) : Nat → Option DequeNode :=
  fun b => if b = a then v else m b

/-- A store to a field of the cell at `a`; `none` when there is no such cell. -/
def write (m : Nat → Option DequeNode) (a : Nat) (f : DequeNode → DequeNode) :
    Option (Nat → Option DequeNode) :=
  match m a with
  | none => none
  | some n => some (store m a (some (f n)))

/-- The deque made by `Deque_Allocate`. -/
def Deque_Allocate : Deque := { front := none, back := none, num_elements := 0 }

/-- The function `Deque_Size`. -/
def Deque_Size (dq : Deque) : Int := dq.num_elements

/-- The function `Deque_Push_Front`.  `node` is the address returned by
`malloc` and `junk` what the new cell holds before its fields are set. -/
def Deque_Push_Front (m : Nat → Option DequeNode) (dq : Deque) (node : Nat) (junk : DequeNode)
    (payload : Int) : Option ((Nat → Option DequeNode) × Deque) := do
  let m ← write (store m node (some junk)) node (fun n => { n with prev := none })
  let m ← write m node (fun n => { n with pcb := payload })
  if dq.num_elements ≠ 0 then
    let front ← dq.front
    let m ← write m front (fun n => { n with prev := some node })
    let m ← write m node (fun n => { n with next := some front })
    some (m, { dq with front := some node, num_elements := dq.num_elements + 1 })
  else
    let m ← write m node (fun n => { n with next := none })
    some (m, { dq with front := some node, back := some node, num_elements := dq.num_elements + 1 })

/-- The function `Deque_Push_Back`, with `node` and `junk` as in
`Deque_Push_Front`. -/
def Deque_Push_Back (m : Nat → Option DequeNode) (dq : Deque) (node : Nat) (junk : DequeNode)
    (payload : Int) : Option ((Nat → Option DequeNode) × Deque) := do
  let m ← write (store m node (some junk)) node (fun n => { n with pcb := payload })
  let m ← write m node (fun n => { n with next := none })
  if dq.num_elements = 0 then
    let m ← write m node (fun n => { n with prev := none })
    some (m, { dq with front := some node, back := some node, num_elements := dq.num_elements + 1 })
  else
    let back ← dq.back
    let m ← write m back (fun n => { n with next := some node })
    let m ← write m node (fun n => { n with prev := some back })
    some (m, { dq with back := some node, num_elements := dq.num_elements + 1 })

/-- The function `Deque_Pop_Front`: the returned `bool`, the payload stored
through `payload_ptr` (nothing is stored when the result is `false`), the
memory and the deque. -/
def Deque_Pop_Front (m : Nat → Option DequeNode) (dq : Deque) :
    Option (Bool × Option Int × (Nat → Option DequeNode) × Deque) :=
  match dq.front with
  | none => some (false, none, m, dq)
  | some frontNode => do
    let (m, dq) ←
      if dq.num_elements = 1 then some (m, { dq with front := none, back := none })
      else do
        let n ← m frontNode
        let front ← n.next
        let m ← write m front (fun n => { n with prev := none })
        some (m, { dq with front := some front })
    let n ← m frontNode
    some (true, some n.pcb, store m frontNode none, { dq with num_elements := dq.num_elements - 1 })

/-- The function `Deque_Pop_Back`, with the result as in `Deque_Pop_Front`. -/
def Deque_Pop_Back (m : Nat → Option DequeNode) (dq : Deque) :
    Option (Bool × Option Int × (Nat → Option DequeNode) × Deque) :=
  if dq.num_elements = 0 then some (false, none, m, dq)
  else do
    let lastNode ← dq.back
    let (m, dq) ←
      if dq.num_elements = 1 then some (m, { dq with front := none, back := none })
      else do
        let n ← m lastNode
        let back ← n.prev
        let m ← write m back (fun n => { n with next := none })
        some (m, { dq with back := some back })
    let n ← m lastNode
    some (true, some n.pcb, store m lastNode none, { dq with num_elements := dq.num_elements - 1 })

/-- The function `Deque_Pop_Pcb`; `pcb` is the address of a node. -/
def Deque_Pop_Pcb (m : Nat → Option DequeNode) (dq : Deque) (pcb : Nat) :
    Option (Bool × (Nat → Option DequeNode) × Deque) :=
  match dq.front with
  | none => some (false, m, dq)
  | some _ => do
    let n ← m pcb
    match n.prev, n.next with
    | none, _ => do
      let (_, _, m, dq) ← Deque_Pop_Front m dq
      some (true, m, dq)
    | some _, none => do
      let (_, _, m, dq) ← Deque_Pop_Back m dq
      some (true, m, dq)
    | some prev, some next => do
      let m ← write m prev (fun n => { n with next := some next })
      let m ← write m next (fun n => { n with prev := some prev })
      some (true, store m pcb none, { dq with num_elements := dq.num_elements - 1 })

/-- The `while` loop of `Deque_Pop_PID` from the node `current` on;
`pid_of p` is the field `pid` of the PCB that the payload `p` points to. -/
def Deque_Pop_PID_loop (pid_of : Int → Int) (m : Nat → Option DequeNode) (dq : Deque)
    (pid_to_pop : Int) : Nat → Option Nat → Option (Bool × (Nat → Option DequeNode) × Deque)
  | 0, current => if current = none then some (false, m, dq) else none
  | fuel + 1, current =>
    match current with
    | none => some (false, m, dq)
    | some a => do
      let n ← m a
      if pid_of n.pcb = pid_to_pop then Deque_Pop_Pcb m dq a
      else Deque_Pop_PID_loop pid_of m dq pid_to_pop fuel n.next

/-- The function `Deque_Pop_PID`. -/
def Deque_Pop_PID (pid_of : Int → Int) (m : Nat → Option DequeNode) (dq : Deque)
    (pid_to_pop : Int) : Option (Bool × (Nat → Option DequeNode) × Deque) :=
  match dq.front with
  | none => some (false, m, dq)
  | some current => Deque_Pop_PID_loop pid_of m dq pid_to_pop dq.num_elements.toNat (some current)

/-- The pointer that follows a segment of nodes: the address of the first
node of `cells`, or `nxt` when there is none. -/
def first (cells : List (Nat × Int)) (nxt : Option Nat) : Option Nat :=
  match cells with
  | [] => nxt
  | c :: _ => some c.1

/-- The pointer that precedes what follows a segment of nodes: the address of
the last node of `cells`, or `prev` when there is none. -/
def last (cells : List (Nat × Int)) (prev : Option Nat) : Option Nat :=
  match cells.getLast? with
  | none => prev
  | some c => some c.1

/-- The cells `cells` (address and payload, front to back) are a doubly linked
segment of `m` that is entered from `prev` and left to `nxt`. -/
def seg (m : Nat → Option DequeNode) : Option Nat → List (Nat × Int) → Option Nat → Prop
  | _, [], _ => True
  | prev, c :: rest, nxt =>
    m c.1 = some { pcb := c.2, next := first rest nxt, prev := prev } ∧ seg m (some c.1) rest nxt

/-- The deque `dq` in the memory `m` consists of the nodes `cells`, front to
back: they are distinct cells linked in both directions, `front` and `back`
point to the first and the last, and `num_elements` counts them. -/
def represents (m : Nat → Option DequeNode) (dq : Deque) (cells : List (Nat × Int)) : Prop :=
  (cells.map (fun c => c.1)).Nodup ∧ seg m none cells none ∧
    dq.front = first cells none ∧ dq.back = last cells none ∧ dq.num_elements = cells.length

end Linked

/-! ## The deque operations in the words of the specification -/

/-- Operation `push_front` on the list of payloads. -/
def spec_push_front (l : List Int) (x : Int) : List Int := x :: l

/-- Operation `push_back` on the list of payloads. -/
def spec_push_back (l : List Int) (x : Int) : List Int := l ++ [x]

/-- Operation `pop_front`: the item, if any, and the list without it. -/
def spec_pop_front (l : List Int) : Option Int × List Int := (l.head?, l.tail)

/-- Operation `pop_back`: the item, if any, and the list without it. -/
def spec_pop_back (l : List Int) : Option Int × List Int := (l.getLast?, l.dropLast)

/-- Operation `remove_where(predicate)`: whether some payload satisfies the
predicate, and the list without the first one that does. -/
def spec_remove_where (p : Int → Bool) (l : List Int) : Bool × List Int := (l.any p, l.eraseP p)

/-- Operation `size`. -/
def spec_size (l : List Int) : Int := l.length

/-- A sample memory: the cell at address 10 holds the payload 3, the cell at
address 11 the payload 4, linked in this order. -/
def sample_nodes : Nat → Option Linked.DequeNode :=
  Linked.store (Linked.store (fun _ => none) 10 (some { pcb := 3, next := some 11, prev := none }))
    11 (some { pcb := 4, next := none, prev := some 10 })

/-- The deque of the two cells of `sample_nodes`. -/
def sample_deque : Linked.Deque := { num_elements := 2, front := some 10, back := some 11 }

/-! ## File calls of the running process; `p_exit` (`p_pennos.c`) -/

/-- The call `f_open(fname, mode)` made by the running process: the returned
descriptor and the new state. -/
def f_open_current (h : Host) (k : Kernel) (fname : List Nat) (mode : Int) :
    Option (Int × Kernel) :=
  match deref k k.current_pcb with
  | none => none
  | some pcb =>
    match f_open h k.fs pcb fname mode with
    | none => none
    | some (fd, fs1, pcb1) =>
      some (fd, { modify k k.current_pcb (fun p =>
        { p with open_fds := pcb1.open_fds, num_open_fds := pcb1.num_open_fds }) with fs := fs1 })

/-- The call `f_close(fd)` made by the running process: the returned value and
the new state. -/
def f_close_current (k : Kernel) (fd : Int) : Option (Int × Kernel) :=
  match deref k k.current_pcb with
  | none => none
  | some pcb =>
    match f_close k.fs pcb fd with
    | none => none
    | some (r, fs1, pcb1) =>
      some (r, { modify k k.current_pcb (fun p =>
        { p with open_fds := pcb1.open_fds, num_open_fds := pcb1.num_open_fds }) with fs := fs1 })

/-- The loop `for (i = 2; i < MAX_OPEN_FILES; i++)` of `p_exit` from index `i`
on, `n` indices left. -/
def p_exit_loop : Nat → Int → Kernel → Option Kernel
  | 0, _, k => some k
  | n + 1, i, k =>
    match deref k k.current_pcb with
    | none => none
    | some pcb =>
      match int_at pcb.open_fds i with
      | none => none
      | some g =>
        if g ≥ 2 ∧ g < MAX_OPEN_FILES then
          match f_close_current k i with
          | none => none
          | some (_, k1) => p_exit_loop n (i + 1) k1
        else p_exit_loop n (i + 1) k

/-- The function `p_exit` of `p_pennos.c`, up to its final spin. -/
def p_exit (k : Kernel) : Option Kernel :=
  p_exit_loop (MAX_OPEN_FILES - 2) 2
    (modify k k.current_pcb (fun p => { p with status := .ZOMBIE, e_status := .EXIT_NORMAL }))

/-- The number of PCBs of the registry that are not TERMINATED and hold the
index `g` of the global descriptor table in `open_fds`. -/
def holders (k : Kernel) (g : Int) : Nat :=
  (k.global_pcbs.filter (fun p => p.status != .TERMINATED && p.open_fds.contains g)).length

/-- A quantum in which the running process opens `"a"` with `F_WRITE` and
spawns a child named `"child"`. -/
def slice_open_spawn (k : Kernel) : Option Kernel :=
  match f_open_current session_host k name_a F_WRITE with
  | none => none
  | some (_, k1) => (p_spawn k1 0 1 "child" .NOT_EXITED).map (fun r => r.2)

/-- What `shared_fd_session` observes.  After the quantum of the shell: the
descriptor slots of the shell and of the child that hold a file, as pairs of
the slot and the index of the global table in it, and for the index `g` of the
file the number of holders and `ref_count`.  After the quantum of the child:
the selections made so far, the status of the shell and its slots that hold a
file, the number of holders of `g`, and the type and `ref_count` of entry `g`. -/
structure Shared where
  shell_fds : List (Nat × Int)
  child_fds : List (Nat × Int)
  holders_before : Nat
  ref_before : Int
  selections : List Selection
  shell_status : Option process_status
  shell_fds_after : List (Nat × Int)
  holders_after : Nat
  type_after : Option fd_type
  ref_after : Option Int
deriving DecidableEq, Repr

/-- The slots `i >= 2` of `open_fds` that hold an index of the global table. -/
def file_slots (k : Kernel) (h : Int) : List (Nat × Int) :=
  match deref k h with
  | none => []
  | some p => ((List.range p.open_fds.length).zip p.open_fds).filter (fun x => 2 ≤ x.1 && x.2 != -1)

/-- Session on the fresh file system: after boot the shell (pid 2) gets the
first quantum, opens `"a"` with `F_WRITE` and spawns a child (pid 3); the child
gets the next quantum and calls `p_exit`. -/
def shared_fd_session : Option Shared :=
  match (p_system_init fresh_fs .NOT_EXITED).map
      (fun k => ({ k := k, tracker_pos := 0, current_quantum := 0 } : Sched)) with
  | none => none
  | some s0 =>
    match scheduler_run [slice_nop, slice_nop, slice_open_spawn] s0 with
    | none => none
    | some (sels1, s1) =>
      match scheduler_run [slice_nop, p_exit] s1 with
      | none => none
      | some (sels2, s2) =>
        match file_slots s1.k 2 with
        | [] => none
        | (_, g) :: _ =>
          some { shell_fds := file_slots s1.k 2, child_fds := file_slots s1.k 3
                 holders_before := holders s1.k g
                 ref_before := ((fd_at s1.k.fs g).map (fun d => d.ref_count)).getD 0
                 selections := sels1 ++ sels2
                 shell_status := status_of s2.k 2
                 shell_fds_after := file_slots s2.k 2
                 holders_after := holders s2.k g
                 type_after := (fd_at s2.k.fs g).map (fun d => d.fd_type)
                 ref_after := (fd_at s2.k.fs g).map (fun d => d.ref_count) }

/-- The state `rendezvous` with the child 3 stopped instead of exited: its
status is STOPPED and its exit kind `EXIT_STOPPED`. -/
def stopped_rendezvous : Kernel :=
  modify rendezvous.k 3 (fun p => { p with status := .STOPPED, e_status := .EXIT_STOPPED })

/-- What `notify` observes after `waitpid_checks`: the returned `bool`, the six
deques, the status and `waitpid_estatus` of the PCB 2 and the exit kind of the
PCB 3. -/
structure Notified where
  ret : Bool
  queues : List (List Int)
  parent_status : Option process_status
  parent_estatus : Option exit_status
  child_e_status : Option exit_status
deriving DecidableEq, Repr

/-- The call `waitpid_checks` on the PCB 3, `n + 1` times in a row, and what is
observed after the last one. -/
def notify : Nat → Kernel → Option Notified
  | 0, k =>
    (waitpid_checks k 3).map (fun r =>
      { ret := r.1, queues := deques r.2, parent_status := status_of r.2 2
        parent_estatus := (deref r.2 2).map (fun p => p.waitpid_estatus)
        child_e_status := (deref r.2 3).map (fun p => p.e_status) })
  | n + 1, k => (waitpid_checks k 3).bind (fun r => notify n r.2)

/-- A quantum in which the running process calls `p_sleep(ticks)` and enters a
blocking `p_waitpid` on the pid that `p_sleep` returned, as the shell does for
the command `sleep`. -/
def slice_sleep_wait (ticks : Nat) (k : Kernel) : Option Kernel :=
  match p_sleep k ticks .NOT_EXITED with
  | none => none
  | some (pid, k1) => (p_waitpid k1 pid 0 false 0).map (fun r => r.2.2)

/-- What `idle_trace` records for a pass of the scheduler loop that gave the
quantum to the idle PCB (handle 0): the quantum counter and the three ready
deques (class -1, 0, 1) at the start of the pass, and the selection. -/
structure IdlePass where
  current_quantum : Int
  ready : List (List Int)
  selection : Selection
deriving DecidableEq, Repr

/-- Consecutive passes of the loop of `scheduler_main`, one per element of
`slices`; the passes that selected the idle PCB are recorded. -/
def idle_trace : List (Kernel → Option Kernel) → Sched → Option (List IdlePass)
  | [], _ => some []
  | slice :: rest, s =>
    match scheduler_iter slice s with
    | none => none
    | some (sel, s1) =>
      (idle_trace rest s1).map (fun ps =>
        match sel with
        | .run 0 _ =>
          { current_quantum := s.current_quantum
            ready := [s.k.neg_priority, s.k.zero_priority, s.k.pos_priority]
            selection := sel } :: ps
        | _ => ps)

/-- Session: after boot the shell (pid 2) gets the first quantum, calls
`p_sleep` for two quanta and blocks in `p_waitpid` on the sleeper; nothing else
is done in the 12 passes that follow. -/
def idle_session : Option (List IdlePass) :=
  boot.bind (idle_trace
    ([slice_nop, slice_nop, slice_sleep_wait 200000] ++ List.replicate 12 slice_nop))

/-! ## Foreground and background (`scheduler.c`, `p_pennos.c`) -/

/-- The walk of `get_last_stopped_pcb` from the back of the stopped deque; the
argument is the deque from back to front. -/
def last_stopped_from (k : Kernel) : List Int → Option Int
  | [] => some (-1)
  | h :: rest =>
    match deref k h with
    | none => none
    | some p => if p.status = .STOPPED then some p.pid else last_stopped_from k rest

/-- The function `get_last_stopped_pcb` of `scheduler.c`. -/
def get_last_stopped_pcb (k : Kernel) : Option Int := last_stopped_from k k.stopped_pcbs.reverse

/-- The function `p_fg` of `p_pennos.c`: the returned pid and the new state. -/
def p_fg (k : Kernel) (pid : Int) : Option (Int × Kernel) :=
  match (if pid = -1 then get_last_stopped_pcb k else some pid) with
  | none => none
  | some pid =>
    if pid = -1 then some (-1, k)
    else
      match get_pcb_from_pid k pid with
      | none => none
      | some pcb =>
        if pcb.sleep_counter > 0 then
          if pcb.status ≠ .BLOCKED then
            (schedule_sleep_process k pid .S_SIGCONT).map (fun k1 => (pid, k1))
          else some (pid, k)
        else
          (schedule_ready_process (modify k pid (fun p => { p with status := .READY })) pid).map
            (fun k1 => (pid, k1))

/-- The function `p_bg` of `p_pennos.c`: the returned pid and the new state. -/
def p_bg (k : Kernel) (pid : Int) : Option (Int × Kernel) :=
  match (if pid = -1 then get_last_stopped_pcb k else some pid) with
  | none => none
  | some pid =>
    if pid = -1 then some (-1, k)
    else
      match get_pcb_from_pid k pid with
      | none => none
      | some pcb =>
        if pcb.sleep_counter > 0 then
          if pcb.status ≠ .BLOCKED then
            (schedule_sleep_process k pid .S_SIGCONT).map (fun k1 => (pid, k1))
          else some (pid, k)
        else
          (schedule_ready_process (modify k pid (fun p => { p with status := .READY })) pid).map
            (fun k1 => (pid, k1))

/-! ## Runs of the system: calls of the process API and scheduler passes -/

/-- A step of a run: a whole call of the process API by the running process
(for a blocking `p_waitpid`, the part up to the spin and the part after it are
two steps), the end of the process function (the whole of `exit_context`), the
head of a pass of the scheduler loop up to `swapcontext`, or the rest of the
pass after it.  A run made of these steps is one in which SIGALRM never arrives
inside a call; a quantum that ends inside `exit_context` is the subject of
`slice_exit_preempted`.  `uninit` and `junk` are what uninitialised memory
holds. -/
inductive Event where
  | spawn (fd0 fd1 : Int) (name : String) (uninit : exit_status)
  | waitpid (pid wstatus : Int) (nohang : Bool) (junk : Int)
  | waitpid_resume (pid : Int)
  | waitpid_any_resume
  | kill (pid : Int) (sig : pennos_signal)
  | sleep (ticks : Nat) (uninit : exit_status)
  | exit
  | returned
  | fg (pid : Int)
  | bg (pid : Int)
  | select
  | after
deriving DecidableEq, Repr

/-- The state after one step of a run, the call of the step running to its end
without a switch to the scheduler; `none` when the step faults. -/
def run_event (s : Sched) : Event → Option Sched
  | .spawn fd0 fd1 name uninit => (p_spawn s.k fd0 fd1 name uninit).map (fun r => { s with k := r.2 })
  | .waitpid pid wstatus nohang junk =>
    (p_waitpid s.k pid wstatus nohang junk).map (fun r => { s with k := r.2.2 })
  | .waitpid_resume pid => (p_waitpid_resume s.k pid).map (fun r => { s with k := r.2.2 })
  | .waitpid_any_resume => (p_waitpid_any_resume s.k).map (fun r => { s with k := r.2 })
  | .kill pid sig => (p_kill s.k pid sig).map (fun r => { s with k := r.2 })
  | .sleep ticks uninit => (p_sleep s.k ticks uninit).map (fun r => { s with k := r.2 })
  | .exit => (p_exit s.k).map (fun k => { s with k := k })
  | .returned => some { s with k := exit_context s.k }
  | .fg pid => (p_fg s.k pid).map (fun r => { s with k := r.2 })
  | .bg pid => (p_bg s.k pid).map (fun r => { s with k := r.2 })
  | .select => (scheduler_select s).map (fun r => r.2)
  | .after => scheduler_after s

/-- The state after the steps `events`, in this order. -/
def run_events : List Event → Sched → Option Sched
  | [], s => some s
  | e :: rest, s => (run_event s e).bind (run_events rest)

/-- The scheduler state when `scheduler_main` enters its loop after
`p_system_init` on the file system `fs`. -/
def boot_on (fs : FS) (uninit : exit_status) : Option Sched :=
  (p_system_init fs uninit).map (fun k => { k := k, tracker_pos := 0, current_quantum := 0 })

/-- A PCB that is ZOMBIE has the exit kind `EXIT_NORMAL` or `EXIT_SIGNAL`. -/
def exit_ok (p : PCB) : Prop :=
  p.status = .ZOMBIE → p.e_status = .EXIT_NORMAL ∨ p.e_status = .EXIT_SIGNAL

/-- Every PCB of the state, the idle PCB included, satisfies `exit_ok`. -/
def zombies_ok (k : Kernel) : Prop :=
  (∀ p ∈ k.global_pcbs, exit_ok p) ∧ ∀ I, k.idle_pcb = some I → exit_ok I

/-- A sample run: after boot the shell (pid 2) is selected in the third pass,
spawns a child (pid 3) and blocks in `p_waitpid(3)`; the child is selected two
passes later and calls `p_exit`; the shell is selected next, returns from
`p_waitpid`, calls `p_sleep` (pid 4) and kills the sleeper with `S_SIGTERM`. -/
def sample_events : List Event :=
  [ .select, .select, .select, .spawn 0 1 "child" .NOT_EXITED, .waitpid 3 0 false 0, .after
  , .select, .select, .exit, .after
  , .select, .waitpid_resume 3, .sleep 300000 .NOT_EXITED, .kill 4 .S_SIGTERM ]

/-- The pid, status and exit kind of the PCBs of the registry. -/
def exit_kinds (s : Sched) : List (Int × process_status × exit_status) :=
  s.k.global_pcbs.map (fun p => (p.pid, p.status, p.e_status))

/-! ## Notions used in the proof about a file of one block -/

/-- The global descriptor of a fresh file `d0` after `k` bytes in all were
written through it into the block `b`. -/
def grown_fd (d0 : FileDescriptor) (b : Int) (k : Nat) : FileDescriptor :=
  { d0 with offset := k, dir_entry := { d0.dir_entry with size := k, firstBlock := (if k = 0 then 0xFFFF else b.toNat) } }

/-- The state `fs0` right after the creation of a file, seen from the process
`pcb`: slot `fd` holds the index `g` of the global descriptor `d0`, which is a
file open for writing with offset 0, size 0 and no first block, whose name
ends within the 32 bytes of the field (at most 31 characters); the block size
is a positive multiple of 64; `find_fat` finds the free block `b`; `find_file`
finds the entry of the file at data offset `p`, with size 0, outside the block
`b`. -/
def fresh_file (fs0 : FS) (pcb : PCB) (fd g : Int) (d0 : FileDescriptor) (b : Int) (p : Nat) :
    Prop :=
  ¬ fd > MAX_OPEN_FILES ∧ int_at pcb.open_fds fd = some g ∧ ¬ (g = -1 ∨ fd < 0) ∧
  fd_at fs0 g = some d0 ∧ d0.fd_type = .FD_FILE ∧ ¬ (d0.mode = F_READ ∨ d0.mode = 0) ∧
  d0.offset = 0 ∧ d0.dir_entry.size = 0 ∧ d0.dir_entry.firstBlock = 0xFFFF ∧
  d0.dir_entry.name.length ≤ 32 ∧ (cstr d0.dir_entry.name).length < 32 ∧
  0 < fs0.block_size ∧ fs0.block_size % 64 = 0 ∧ fs0.block_size < 4294967296 ∧
  find_fat fs0 = some b ∧ b ≠ -1 ∧ b < 0xFFFF ∧
  (∃ r0 e0, find_file fs0 d0.dir_entry.name r0 = some ((fs0.fat_size : Int) + p, e0) ∧
    e0.size = 0) ∧
  (p + 64 ≤ fs0.block_size.toNat * (b - 1).toNat ∨
    fs0.block_size.toNat * (b - 1).toNat + fs0.block_size.toNat ≤ p)

/-- The state `fs` reached from `fs0` (see `fresh_file`) when the bytes
`written` have been written through the descriptor: the descriptor has grown,
the block `b` is allocated once something was written and holds `written`, the
directory entry at `p` holds the entry of the descriptor, and the image is
otherwise as in `fs0`. -/
def one_block_file (fs0 fs : FS) (g : Int) (d0 : FileDescriptor) (b : Int) (p : Nat)
    (written : List Nat) : Prop :=
  fs.block_size = fs0.block_size ∧ fs.fat_size = fs0.fat_size ∧
  fd_at fs g = some (grown_fd d0 b written.length) ∧
  fs.fat = (if written.length = 0 then fs0.fat else fs0.fat.set b.toNat 0xFFFF) ∧
  fs0.data.length ≤ fs.data.length ∧
  (∀ i, ¬ (fs0.block_size.toNat * (b - 1).toNat ≤ i ∧
      i < fs0.block_size.toNat * (b - 1).toNat + fs0.block_size.toNat) →
    ¬ (p ≤ i ∧ i < p + 64) → fs.data.getD i 0 = fs0.data.getD i 0) ∧
  pread fs.data (fs0.block_size.toNat * (b - 1).toNat) written.length = written ∧
  pread fs.data p 64 = (if written.length = 0 then pread fs0.data p 64
    else encode_entry (grown_fd d0 b written.length).dir_entry)
/-- The bytes of `"hello"`. -/
def hello : List Nat := [104, 101, 108, 108, 111]

/-- The global descriptor of `"a"` in `opened_fs`. -/
def opened_fd : FileDescriptor :=
  { dir_entry := { name := fit 32 name_a, size := 0, firstBlock := 0xFFFF, type := 1, perm := 6, mtime := 1000, reserved := List.replicate 16 0 }, offset := 0, mode := 1, fd_type := .FD_FILE, ref_count := 1 }

/-! ## Further sample states -/

/-- The state after `touch_single("b")` on `opened_fs`: the directory holds the
entry of `"a"` at data offset 0 and the entry of `"b"` at data offset 64. -/
def two_files_fs : FS :=
  match touch_single session_host opened_fs name_b with
  | some (_, fs) => fs
  | none => opened_fs

/-- The directory entry of `"b"` in `two_files_fs`. -/
def entry_b : directory_entry := { opened_fd.dir_entry with name := fit 32 name_b }

/-! ## A quantum that ends inside `exit_context` or `p_exit` -/

/-- The first statement of `exit_context`, and of `p_exit`, alone:
`current_pcb->status = ZOMBIE`.  The contexts of the processes and the context
of `exit_context` run with an empty signal mask (`make_context`,
`make_exitcontext`), so SIGALRM can arrive right after this statement;
`alarmHandler` then swaps to the scheduler before the second statement is
reached. -/
def exit_status_store (k : Kernel) : Kernel :=
  modify k k.current_pcb (fun p => { p with status := .ZOMBIE })

/-- The second statement of `exit_context`, and of `p_exit`:
`current_pcb->e_status = EXIT_NORMAL`. -/
def exit_kind_store (k : Kernel) : Kernel :=
  modify k k.current_pcb (fun p => { p with e_status := .EXIT_NORMAL })

/-- A quantum in which the running process returns from its function, enters
`exit_context` (or calls `p_exit`), and SIGALRM ends the quantum between the
two stores. -/
def slice_exit_preempted (k : Kernel) : Option Kernel := some (exit_status_store k)

/-- Session: as `wait_exit_session`, but the quantum of the child ends between
the two stores of `exit_context`. -/
def preempted_exit_session : Option (List Selection × Sched) :=
  boot.bind (scheduler_run
    [slice_nop, slice_nop, slice_spawn_wait id, slice_nop, slice_exit_preempted])

/-- What the parent finds when it runs again and continues its `p_waitpid`:
the selection of the pass, the returned pid, `*wstatus`, and the pid, status
and exit kind of the PCBs of the registry. -/
structure ResumedWait where
  selection : Selection
  pid : Int
  wstatus : Int
  kinds : List (Int × process_status × exit_status)
deriving DecidableEq, Repr

/-- After the session `session`: the next selection of the scheduler, and the
continuation of the `p_waitpid(3)` of the process selected. -/
def resumed_wait (session : Option (List Selection × Sched)) : Option ResumedWait :=
  match session with
  | none => none
  | some (_, s) =>
    match scheduler_select s with
    | none => none
    | some (sel, s1) =>
      (p_waitpid_resume s1.k 3).map
        (fun r => { selection := sel, pid := r.1, wstatus := r.2.1, kinds := exit_kinds { s1 with k := r.2.2 } })

/-- Forty more passes of the scheduler after the session `session`, the running
process doing nothing in its quanta: the handles selected, and the pid, status
and exit kind of the PCBs of the registry at the end. -/
def later_passes (session : Option (List Selection × Sched)) :
    Option (List Selection × List (Int × process_status × exit_status)) :=
  match session with
  | none => none
  | some (_, s) =>
    (scheduler_run (List.replicate 40 slice_nop) s).map (fun r => (r.1, exit_kinds r.2))

/-- The handles that were given a quantum, in order. -/
def ran (sels : List Selection) : List Int :=
  sels.filterMap (fun sel => match sel with
    | .run h _ => some h
    | .skipped => none)

/-! ## Theorems -/

/-! ### Registry lookups and stores -/

theorem find_update_first_self (h : Int) (f : PCB → PCB) (hf : ∀ p, (f p).pid = p.pid)
    (l : List PCB) :
    (update_first h f l).find? (fun p => p.pid == h) = (l.find? (fun p => p.pid == h)).map f := by
  induction l with
  | nil => rfl
  | cons a l ih =>
    unfold update_first
    by_cases ha : a.pid = h
    · simp [ha, hf]
    · have hb : (a.pid == h) = false := by simpa using ha
      simp [hb, ih]

theorem find_update_first_other (h h' : Int) (hne : h' ≠ h) (f : PCB → PCB)
    (hf : ∀ p, (f p).pid = p.pid) (l : List PCB) :
    (update_first h f l).find? (fun p => p.pid == h') = l.find? (fun p => p.pid == h') := by
  induction l with
  | nil => rfl
  | cons a l ih =>
    unfold update_first
    by_cases ha : a.pid = h
    · have hb : (a.pid == h') = false := by
        simp only [beq_eq_false_iff_ne, ne_eq]; intro e; exact hne (e ▸ ha)
      have hc : ((f a).pid == h') = false := by rw [hf]; exact hb
      have hd : (a.pid == h) = true := by simpa using ha
      simp [hd, hb, hc]
    · have hd : (a.pid == h) = false := by simpa using ha
      by_cases hb : a.pid = h'
      · subst hb; simp [hd]
      · have he : (a.pid == h') = false := by simpa using hb
        simp [hd, he, ih]

theorem get_pcb_from_pid_pid (k : Kernel) (h : Int) (p : PCB)
    (hp : get_pcb_from_pid k h = some p) : p.pid = h := by
  unfold get_pcb_from_pid at hp
  have := List.find?_some hp
  simpa using this

theorem get_modify_reg (k : Kernel) (h : Int) (f : PCB → PCB) (hf : ∀ p, (f p).pid = p.pid)
    (h' : Int) :
    get_pcb_from_pid (modify_reg k h f) h'
      = if h' = h then (get_pcb_from_pid k h').map f else get_pcb_from_pid k h' := by
  unfold get_pcb_from_pid modify_reg
  by_cases e : h' = h
  · subst e; simp [find_update_first_self _ f hf]
  · simp [e, find_update_first_other h h' e f hf]

theorem orphan_children_spec (cs : List Int) : ∀ (k : Kernel),
    (∀ c ∈ cs, (get_pcb_from_pid k c).isSome) →
    ∃ k', orphan_children k cs = some k' ∧ k' = { k with global_pcbs := k'.global_pcbs } ∧
      ∀ x, get_pcb_from_pid k' x
        = (get_pcb_from_pid k x).map (fun q => if x ∈ cs then { q with parent_pid := 1 } else q) := by
  induction cs with
  | nil =>
    intro k _
    refine ⟨k, rfl, rfl, ?_⟩
    intro x; simp
  | cons c rest ih =>
    intro k hk
    have hc : (get_pcb_from_pid k c).isSome := hk c (List.mem_cons_self _ _)
    obtain ⟨pc, hpc⟩ := Option.isSome_iff_exists.mp hc
    have hf : ∀ p : PCB, ({ p with parent_pid := 1 } : PCB).pid = p.pid := fun _ => rfl
    have hrest : ∀ c' ∈ rest,
        (get_pcb_from_pid (modify_reg k c (fun p => { p with parent_pid := 1 })) c').isSome := by
      intro c' hc'
      rw [get_modify_reg k c _ hf c']
      have := hk c' (List.mem_cons_of_mem _ hc')
      split <;> simp [this]
    obtain ⟨k', hk', hframe, hget⟩ := ih _ hrest
    refine ⟨k', ?_, ?_, ?_⟩
    · simp only [orphan_children, hpc]; exact hk'
    · rw [hframe]; simp [modify_reg]
    · intro x
      rw [hget x, get_modify_reg k c _ hf x]
      by_cases hx : x = c
      · subst hx
        cases hg : get_pcb_from_pid k x with
        | none => simp
        | some q => by_cases hr : x ∈ rest <;> simp [hr]
      · cases hg : get_pcb_from_pid k x with
        | none => simp [hx]
        | some q => by_cases hr : x ∈ rest <;> simp [hx, hr]


theorem cleanup_spec (k : Kernel) (h : Int) (p par : PCB)
    (hh : h ≠ 0)
    (hp : get_pcb_from_pid k h = some p)
    (hst : p.status ≠ .TERMINATED)
    (hpar : get_pcb_from_pid k p.parent_pid = some par)
    (hch : ∀ c ∈ p.children_pids, (get_pcb_from_pid k c).isSome)
    (hself : h ∉ p.children_pids) :
    ∃ k', k_process_cleanup k h = some k' ∧ k' = { k with global_pcbs := k'.global_pcbs } ∧
      ∀ x, get_pcb_from_pid k' x = (get_pcb_from_pid k x).map (cleanup_effect p h x) := by
  have hpid : p.pid = h := get_pcb_from_pid_pid k h p hp
  have hparpid : par.pid = p.parent_pid := get_pcb_from_pid_pid k _ par hpar
  have hf1 : ∀ q : PCB, ({ q with status := .TERMINATED } : PCB).pid = q.pid := fun _ => rfl
  have hderef : ∀ k0 : Kernel, deref k0 h = get_pcb_from_pid k0 h := by
    intro k0; simp [deref, hh]
  have hmod : modify k h (fun q => { q with status := process_status.TERMINATED })
      = modify_reg k h (fun q => { q with status := .TERMINATED }) := by
    simp [modify, hh]
  have hch1 : ∀ c ∈ p.children_pids,
      (get_pcb_from_pid (modify_reg k h (fun q => { q with status := .TERMINATED })) c).isSome := by
    intro c hc
    rw [get_modify_reg k h _ hf1 c]
    have := hch c hc
    split <;> simp [this]
  obtain ⟨k2, hk2, hframe, hget2⟩ := orphan_children_spec p.children_pids _ hch1
  have hg2h : get_pcb_from_pid k2 h = some { p with status := .TERMINATED } := by
    rw [hget2 h, get_modify_reg k h _ hf1 h]; simp [hp, hself]
  have hg2par : ∃ par2, get_pcb_from_pid k2 p.parent_pid = some par2 ∧ par2.pid = p.parent_pid := by
    rw [hget2 p.parent_pid, get_modify_reg k h _ hf1 p.parent_pid, hpar]
    have key : ∀ o : PCB, ∃ par2,
        (some o).map (fun q => if p.parent_pid ∈ p.children_pids then { q with parent_pid := 1 } else q)
          = some par2 ∧ par2.pid = o.pid := by
      intro o
      refine ⟨_, rfl, ?_⟩; dsimp only; split <;> rfl
    by_cases e1 : p.parent_pid = h
    · rw [if_pos e1]
      obtain ⟨par2, h1, h3⟩ := key { par with status := .TERMINATED }
      exact ⟨par2, h1, h3.trans hparpid⟩
    · rw [if_neg e1]
      obtain ⟨par2, h1, h3⟩ := key par
      exact ⟨par2, h1, h3.trans hparpid⟩
  obtain ⟨par2, hpar2, hpar2pid⟩ := hg2par
  have hf3 : ∀ q : PCB, ({ q with children_pids := remove_pid q.children_pids h } : PCB).pid = q.pid :=
    fun _ => rfl
  refine ⟨modify_reg k2 p.parent_pid (fun q => { q with children_pids := remove_pid q.children_pids h }),
    ?_, ?_, ?_⟩
  · unfold k_process_cleanup
    simp only [hderef, hp, hmod, hk2, hg2h, hpar2, hpar2pid]
    simp [hst, hpid]
  · rw [hframe]; simp [modify_reg]
  · intro x
    rw [get_modify_reg k2 p.parent_pid _ hf3 x, hget2 x, get_modify_reg k h _ hf1 x]
    cases hg : get_pcb_from_pid k x with
    | none => simp
    | some q =>
      unfold cleanup_effect
      simp only [Option.map_some', apply_ite (Option.map _), apply_ite (Option.map _)]
      split_ifs <;> rfl

theorem status_of_reg (k : Kernel) (x : Int) (hx : x ≠ 0) :
    status_of k x = (get_pcb_from_pid k x).map (fun p => p.status) := by
  simp [status_of, deref, hx]

theorem cleanup_effect_status_self (q : PCB) (c : Int) (o : PCB) :
    (cleanup_effect q c c o).status = .TERMINATED := by
  unfold cleanup_effect
  simp only [if_true]
  split_ifs <;> rfl

theorem deref_set_pq (k : Kernel) (prio : Int) (dq : List Int) (c x : Int) :
    deref { set_pq k prio dq with current_pcb := c } x = deref k x := by
  unfold deref get_pcb_from_pid set_pq
  split_ifs <;> rfl

theorem priority_tracker_cases (i : Int) :
    priority_tracker i = -1 ∨ priority_tracker i = 0 ∨ priority_tracker i = 1 := by
  unfold priority_tracker
  split_ifs <;> simp

theorem queue_ok_cons (k : Kernel) (prio : Int) (dq : List Int) (hq : queue_ok k prio dq = true) :
    ∃ h t p, dq = h :: t ∧ deref k h = some p ∧ p.status = .READY ∧ p.priority = prio := by
  unfold queue_ok at hq
  cases dq with
  | nil => simp at hq
  | cons h t =>
    simp only [List.isEmpty_cons, Bool.not_false, Bool.true_and, List.all_cons, Bool.and_eq_true] at hq
    cases hd : deref k h with
    | none => simp [hd] at hq
    | some p =>
      simp [hd] at hq
      exact ⟨h, t, p, rfl, hd, hq.1.1, hq.1.2⟩

theorem select_ready (s : Sched) (hr : ready_ok s.k = true) :
    ∃ h s1, scheduler_select s
        = some (.run h (priority_tracker (if s.tracker_pos ≥ 19 then 0 else s.tracker_pos)), s1) ∧
      s1.tracker_pos = (if s.tracker_pos ≥ 19 then 0 else s.tracker_pos) ∧
      s1.current_quantum = s.current_quantum + 1 := by
  unfold ready_ok at hr
  simp only [Bool.and_eq_true] at hr
  obtain ⟨⟨hn, hz⟩, hp⟩ := hr
  obtain ⟨hn1, tn, pn, en, dn, sn, qn⟩ := queue_ok_cons _ _ _ hn
  obtain ⟨hz1, tz, pz, ez, dz, sz, qz⟩ := queue_ok_cons _ _ _ hz
  obtain ⟨hp1, tp, pp, ep, dp, sp, qp⟩ := queue_ok_cons _ _ _ hp
  unfold scheduler_select
  rcases priority_tracker_cases (if s.tracker_pos ≥ 19 then 0 else s.tracker_pos) with e | e | e
  · refine ⟨hn1,
      { k := modify { set_pq s.k (-1) tn with current_pcb := hn1 } hn1 (fun p => { p with status := .RUNNING })
        tracker_pos := (if s.tracker_pos ≥ 19 then 0 else s.tracker_pos)
        current_quantum := s.current_quantum + 1 }, ?_, rfl, rfl⟩
    simp only [e, get_pq_from_priority, en, ez, ep, Deque_Pop_Front, deref_set_pq, dn]
    simp [dn, sn, qn]
  · refine ⟨hz1,
      { k := modify { set_pq s.k 0 tz with current_pcb := hz1 } hz1 (fun p => { p with status := .RUNNING })
        tracker_pos := (if s.tracker_pos ≥ 19 then 0 else s.tracker_pos)
        current_quantum := s.current_quantum + 1 }, ?_, rfl, rfl⟩
    simp only [e, get_pq_from_priority, en, ez, ep, Deque_Pop_Front, deref_set_pq, dz]
    simp [dz, sz, qz]
  · refine ⟨hp1,
      { k := modify { set_pq s.k 1 tp with current_pcb := hp1 } hp1 (fun p => { p with status := .RUNNING })
        tracker_pos := (if s.tracker_pos ≥ 19 then 0 else s.tracker_pos)
        current_quantum := s.current_quantum + 1 }, ?_, rfl, rfl⟩
    simp only [e, get_pq_from_priority, en, ez, ep, Deque_Pop_Front, deref_set_pq, dp]
    simp [dp, sp, qp]

theorem scheduler_after_pos (s s2 : Sched) (h : scheduler_after s = some s2) :
    s2.tracker_pos = s.tracker_pos + 1 ∧ s2.current_quantum = s.current_quantum := by
  unfold scheduler_after at h
  split at h
  · simp at h
  · split at h
    · simp at h
    · split at h
      · simp at h
      · split at h
        · simp at h
        · simp only [Option.some.injEq] at h
          subst h
          exact ⟨rfl, rfl⟩

theorem iter_ready (slice : Kernel → Option Kernel) (s s1 : Sched) (sel : Selection)
    (hr : ready_ok s.k = true) (hi : scheduler_iter slice s = some (sel, s1)) :
    (∃ h, sel = .run h (priority_tracker (if s.tracker_pos ≥ 19 then 0 else s.tracker_pos))) ∧
      s1.tracker_pos = (if s.tracker_pos ≥ 19 then 0 else s.tracker_pos) + 1 ∧
      s1.current_quantum = s.current_quantum + 1 := by
  obtain ⟨h, sa, hsel, hpos, hq⟩ := select_ready s hr
  unfold scheduler_iter at hi
  rw [hsel] at hi
  simp only at hi
  split at hi
  · simp at hi
  · rename_i k1 _
    split at hi
    · simp at hi
    · rename_i s2 hafter
      simp only [Option.some.injEq, Prod.mk.injEq] at hi
      obtain ⟨hsel', hs'⟩ := hi
      subst hs'
      have := scheduler_after_pos _ _ hafter
      refine ⟨⟨h, hsel'.symm⟩, ?_, ?_⟩
      · rw [this.1]; simp [hpos]
      · rw [this.2]; simp [hq]

theorem run_classes (slices : List (Kernel → Option Kernel)) :
    ∀ (s s' : Sched) (sels : List Selection), ready_along slices s = true →
      scheduler_run slices s = some (sels, s') →
      (∀ q, picks q sels = (slot_classes slices.length s.tracker_pos).count q) ∧
      (∀ sel ∈ sels, sel ≠ .skipped) ∧
      s'.current_quantum = s.current_quantum + slices.length := by
  induction slices with
  | nil =>
    intro s s' sels _ hrun
    simp only [scheduler_run, Option.some.injEq, Prod.mk.injEq] at hrun
    obtain ⟨h1, h2⟩ := hrun
    subst h1; subst h2
    simp [picks, slot_classes]
  | cons slice rest ih =>
    intro s s' sels hready hrun
    unfold ready_along at hready
    simp only [Bool.and_eq_true] at hready
    obtain ⟨hr, hrest⟩ := hready
    unfold scheduler_run at hrun
    cases hi : scheduler_iter slice s with
    | none => simp [hi] at hrun
    | some r =>
      obtain ⟨sel, s1⟩ := r
      simp only [hi] at hrun hrest
      cases hrr : scheduler_run rest s1 with
      | none => simp [hrr] at hrun
      | some r2 =>
        obtain ⟨sels2, s2⟩ := r2
        simp only [hrr, Option.some.injEq, Prod.mk.injEq] at hrun
        obtain ⟨h1, h2⟩ := hrun
        subst h1; subst h2
        obtain ⟨⟨h, hsel⟩, hpos, hq⟩ := iter_ready slice s s1 sel hr hi
        obtain ⟨ihp, ihs, ihq⟩ := ih s1 s2 sels2 hrest hrr
        refine ⟨?_, ?_, ?_⟩
        · intro q
          subst hsel
          simp only [picks, List.length_cons, slot_classes, List.count_cons, ihp q, hpos]
          by_cases e : priority_tracker (if s.tracker_pos ≥ 19 then 0 else s.tracker_pos) = q
          · simp [e]; omega
          · simp [e]
        · intro x hx
          rcases List.mem_cons.mp hx with e | e
          · subst e; subst hsel; simp
          · exact ihs x e
        · rw [ihq, hq]; simp only [List.length_cons]; push_cast; ring

theorem slot_classes_counts (pos : Int) (h0 : 0 ≤ pos) (h19 : pos ≤ 19) :
    (slot_classes 19 pos).count 1 = 4 ∧ (slot_classes 19 pos).count 0 = 6 ∧
      (slot_classes 19 pos).count (-1) = 9 := by
  interval_cases pos <;> decide

/-! ### The scheduler pass after a child exits -/

theorem deref_modify (k : Kernel) (b : Int) (f : PCB → PCB) (hf : ∀ q, (f q).pid = q.pid) (h : Int) :
    deref (modify k b f) h = if h = b then (deref k h).map f else deref k h := by
  unfold deref modify
  by_cases hb : b = 0
  · subst hb
    by_cases hh : h = 0
    · subst hh; simp
    · simp [hh, get_pcb_from_pid]
  · by_cases hh : h = 0
    · subst hh
      have : (0 : Int) ≠ b := fun e => hb e.symm
      simp [hb, this, modify_reg]
    · simp only [hb, hh, if_false]
      exact get_modify_reg k b f hf h

theorem find_static (l : List PCB) (h : Int) :
    (l.find? (fun p => p.pid == h)).map PCB.static
      = (l.map PCB.static).find? (fun t => t.1 == h) := by
  induction l with
  | nil => rfl
  | cons a l ih =>
    by_cases e : a.pid = h
    · simp [List.find?, PCB.static, e]
    · have e' : (a.pid == h) = false := by simpa using e
      simp only [List.find?, e', List.map_cons, PCB.static]
      simpa [PCB.static] using ih

theorem deref_static_of_shape (k k' : Kernel) (hs : shape k' = shape k) (h : Int) :
    (deref k' h).map PCB.static = (deref k h).map PCB.static := by
  unfold shape at hs
  simp only [Prod.mk.injEq] at hs
  unfold deref get_pcb_from_pid
  by_cases hh : h = 0
  · simp [hh, hs.2]
  · simp only [hh, if_false]
    rw [find_static, find_static, hs.1]

theorem resolves_of_shape (k k' : Kernel) (hs : shape k' = shape k) (h : Int)
    (hr : resolves k h) : resolves k' h := by
  unfold resolves at *
  have := deref_static_of_shape k k' hs h
  cases hd : deref k h with
  | none => simp [hd] at hr
  | some q =>
    rw [hd] at this
    cases hd' : deref k' h with
    | none => simp [hd'] at this
    | some q' => rfl

theorem update_first_static (h : Int) (f : PCB → PCB) (hf : ∀ q, (f q).static = q.static)
    (l : List PCB) : (update_first h f l).map PCB.static = l.map PCB.static := by
  induction l with
  | nil => rfl
  | cons a l ih =>
    unfold update_first
    split
    · simp [hf]
    · simp [ih]

theorem shape_modify (k : Kernel) (b : Int) (f : PCB → PCB) (hf : ∀ q, (f q).static = q.static) :
    shape (modify k b f) = shape k := by
  unfold shape modify modify_reg
  split
  · simp only [Prod.mk.injEq, true_and]
    cases k.idle_pcb with
    | none => rfl
    | some I => simp [hf]
  · simp [update_first_static b f hf]

theorem deref_pid (k : Kernel) (hi : ∀ I, k.idle_pcb = some I → I.pid = 0) (h : Int) (q : PCB)
    (hd : deref k h = some q) : q.pid = h := by
  unfold deref at hd
  split at hd
  · rename_i e; rw [e]; exact hi q hd
  · exact get_pcb_from_pid_pid k h q hd

theorem handles_ok_of_shape (k k' : Kernel) (hs : shape k' = shape k)
    (hb : k'.blocked_pcbs = k.blocked_pcbs)
    (hst : ∀ h ∈ k'.stopped_pcbs, h ∈ k.stopped_pcbs)
    (hz : ∀ h ∈ k'.zombie_pcbs, h ∈ k.zombie_pcbs ∨ resolves k h)
    (hk : handles_ok k) : handles_ok k' := by
  obtain ⟨h1, h2, h3, h4, h5⟩ := hk
  refine ⟨?_, ?_, ?_, ?_, ?_⟩
  · intro I hI
    have := deref_static_of_shape k k' hs 0
    simp only [deref, if_true, hI, Option.map_some'] at this
    cases hk0 : k.idle_pcb with
    | none => simp [hk0] at this
    | some I0 =>
      simp only [hk0, Option.map_some', Option.some.injEq, PCB.static, Prod.mk.injEq] at this
      rw [this.1]; exact h1 I0 hk0
  · intro h hh; rw [hb] at hh; exact resolves_of_shape k k' hs h (h2 h hh)
  · intro h hh; exact resolves_of_shape k k' hs h (h3 h (hst h hh))
  · intro h hh
    rcases hz h hh with e | e
    · exact resolves_of_shape k k' hs h (h4 h e)
    · exact resolves_of_shape k k' hs h e
  · intro h q hq
    have := deref_static_of_shape k k' hs h
    rw [hq] at this
    cases hd : deref k h with
    | none => simp [hd] at this
    | some q0 =>
      simp only [hd, Option.map_some', Option.some.injEq, PCB.static, Prod.mk.injEq] at this
      rw [this.2.2.2]; exact h5 h q0 hd

theorem step_refl (k : Kernel) : step k k :=
  ⟨rfl, rfl, rfl, fun _ h => h, fun _ h => Or.inl h, fun _ _ h => h⟩

theorem step_trans (k k' k'' : Kernel) (h1 : step k k') (h2 : step k' k'') : step k k'' := by
  obtain ⟨a1, a2, a3, a4, a5, a6⟩ := h1
  obtain ⟨b1, b2, b3, b4, b5, b6⟩ := h2
  refine ⟨b1.trans a1, b2.trans a2, b3.trans a3, fun h hh => a4 h (b4 h hh), ?_,
    fun prio y hy => b6 prio y (a6 prio y hy)⟩
  intro h hh
  rcases b5 h hh with e | e
  · exact a5 h e
  · exact Or.inr (resolves_of_shape k' k a1.symm h e)

theorem step_handles_ok (k k' : Kernel) (hs : step k k') (hk : handles_ok k) : handles_ok k' :=
  handles_ok_of_shape k k' hs.1 hs.2.2.1 hs.2.2.2.1 hs.2.2.2.2.1 hk

theorem step_resolves (k k' : Kernel) (hs : step k k') (h : Int) (hr : resolves k h) :
    resolves k' h := resolves_of_shape k k' hs.1 h hr

theorem modify_fields (k : Kernel) (b : Int) (f : PCB → PCB) :
    (modify k b f).current_pcb = k.current_pcb ∧ (modify k b f).blocked_pcbs = k.blocked_pcbs ∧
    (modify k b f).stopped_pcbs = k.stopped_pcbs ∧ (modify k b f).zombie_pcbs = k.zombie_pcbs ∧
    (modify k b f).neg_priority = k.neg_priority ∧ (modify k b f).zero_priority = k.zero_priority ∧
    (modify k b f).pos_priority = k.pos_priority := by
  unfold modify modify_reg
  split <;> exact ⟨rfl, rfl, rfl, rfl, rfl, rfl, rfl⟩

theorem step_modify (k : Kernel) (b : Int) (f : PCB → PCB) (hf : ∀ q, (f q).static = q.static) :
    step k (modify k b f) := by
  obtain ⟨a1, a2, a3, a4, a5, a6, a7⟩ := modify_fields k b f
  refine ⟨shape_modify k b f hf, a1, a2, ?_, ?_, ?_⟩
  · intro h hh; rw [a3] at hh; exact hh
  · intro h hh; rw [a4] at hh; exact Or.inl hh
  · intro prio y hy
    unfold in_ready get_pq_from_priority at *
    rw [a5, a6, a7]; exact hy

theorem holds_modify (k : Kernel) (b : Int) (f : PCB → PCB) (h : Int) (G : PCB → Prop)
    (hf : ∀ q, (f q).pid = q.pid) (hh : holds k h G)
    (hG : b = h → ∀ q, deref k h = some q → G q → G (f q)) : holds (modify k b f) h G := by
  obtain ⟨q, hq, hg⟩ := hh
  unfold holds
  rw [deref_modify k b f hf h]
  by_cases e : h = b
  · simp only [e, if_true]
    rw [← e, hq]
    exact ⟨f q, rfl, hG e.symm q hq hg⟩
  · simp only [e, if_false]
    exact ⟨q, hq, hg⟩

theorem deref_same_pcbs (k k' : Kernel) (h1 : k'.global_pcbs = k.global_pcbs)
    (h2 : k'.idle_pcb = k.idle_pcb) (h : Int) : deref k' h = deref k h := by
  unfold deref get_pcb_from_pid; rw [h1, h2]

theorem srp_ready (k : Kernel) (b : Int) (B : PCB) (hd : deref k b = some B)
    (hs : B.status = .READY) (hp : B.priority = -1 ∨ B.priority = 0 ∨ B.priority = 1) :
    ∃ k', schedule_ready_process k b = some k' ∧ step k k' ∧ (∀ h, deref k' h = deref k h) ∧
      in_ready k' B.priority b := by
  unfold schedule_ready_process
  simp only [hd, hs, if_true]
  unfold push_pq
  rcases hp with e | e | e
  · rw [e]
    refine ⟨_, rfl, ⟨rfl, rfl, rfl, fun _ h => h, fun _ h => Or.inl h, ?_⟩, fun _ => rfl, ?_⟩
    · intro prio y hy
      unfold in_ready get_pq_from_priority at *
      obtain ⟨dq, h1, h2⟩ := hy
      split_ifs at h1 ⊢ <;> simp_all [Deque_Push_Back]
    · unfold in_ready get_pq_from_priority; simp [Deque_Push_Back]
  · rw [e]
    refine ⟨_, rfl, ⟨rfl, rfl, rfl, fun _ h => h, fun _ h => Or.inl h, ?_⟩, fun _ => rfl, ?_⟩
    · intro prio y hy
      unfold in_ready get_pq_from_priority at *
      obtain ⟨dq, h1, h2⟩ := hy
      split_ifs at h1 ⊢ <;> simp_all [Deque_Push_Back]
    · unfold in_ready get_pq_from_priority; simp [Deque_Push_Back]
  · rw [e]
    refine ⟨_, rfl, ⟨rfl, rfl, rfl, fun _ h => h, fun _ h => Or.inl h, ?_⟩, fun _ => rfl, ?_⟩
    · intro prio y hy
      unfold in_ready get_pq_from_priority at *
      obtain ⟨dq, h1, h2⟩ := hy
      split_ifs at h1 ⊢ <;> simp_all [Deque_Push_Back]
    · unfold in_ready get_pq_from_priority; simp [Deque_Push_Back]

theorem find_spec (k : Kernel) (hi : ∀ I, k.idle_pcb = some I → I.pid = 0) (pp : Int)
    (l : List Int) (hl : ∀ h ∈ l, resolves k h) :
    find_blocked_parent k pp l = some (if pp ∈ l then some pp else none) := by
  induction l with
  | nil => simp [find_blocked_parent]
  | cons b l ih =>
    have hb := hl b (List.mem_cons_self _ _)
    unfold resolves at hb
    obtain ⟨B, hB⟩ := Option.isSome_iff_exists.mp hb
    have hpid := deref_pid k hi b B hB
    unfold find_blocked_parent
    simp only [hB, hpid]
    by_cases e : b = pp
    · simp [e]
    · have e' : pp ≠ b := fun x => e x.symm
      rw [if_neg e, ih (fun h hh => hl h (List.mem_cons_of_mem _ hh))]
      simp [e']

theorem holds_unique (k : Kernel) (h : Int) (G : PCB → Prop) (q : PCB) (hh : holds k h G)
    (hq : deref k h = some q) : G q := by
  obtain ⟨q', hq', hg⟩ := hh
  rw [hq] at hq'
  cases hq'
  exact hg

theorem holds_of_deref_eq (k k' : Kernel) (h : Int) (G : PCB → Prop)
    (he : ∀ y, deref k' y = deref k y) (hh : holds k h G) : holds k' h G := by
  obtain ⟨q, hq, hg⟩ := hh
  exact ⟨q, by rw [he h]; exact hq, hg⟩

theorem wc_inv (k : Kernel) (x p c : Int) (hk : handles_ok k) (hx : resolves k x)
    (hpc : p ≠ c) (hc1 : c ≠ -1)
    (hP : holds k p (woken_for c)) (hC : holds k c exited_normally) :
    ∃ r k', waitpid_checks k x = some (r, k') ∧ step k k' ∧
      holds k' p (woken_for c) ∧ holds k' c exited_normally := by
  obtain ⟨X, hX⟩ := Option.isSome_iff_exists.mp hx
  unfold waitpid_checks
  simp only [hX]
  rw [find_spec k hk.1 X.parent_pid k.blocked_pcbs hk.2.1]
  by_cases hm : X.parent_pid ∈ k.blocked_pcbs
  swap
  · simp only [hm, if_false]
    exact ⟨false, k, rfl, step_refl k, hP, hC⟩
  simp only [hm, if_true]
  have hbres := hk.2.1 _ hm
  obtain ⟨B, hB⟩ := Option.isSome_iff_exists.mp hbres
  simp only [hB]
  -- stage 1: the blocked parent waiting for any child takes this one
  have hstatic1 : ∀ q : PCB, ({ q with waitpid_pid := X.pid } : PCB).static = q.static := fun _ => rfl
  have hpid1 : ∀ q : PCB, ({ q with waitpid_pid := X.pid } : PCB).pid = q.pid := fun _ => rfl
  obtain ⟨k1, hk1def, hs1, hP1, hC1⟩ : ∃ k1,
      (if B.waitpid_pid = -1 then modify k X.parent_pid (fun q => { q with waitpid_pid := X.pid }) else k) = k1 ∧
      step k k1 ∧ holds k1 p (woken_for c) ∧ holds k1 c exited_normally := by
    by_cases hw : B.waitpid_pid = -1
    · refine ⟨_, rfl, ?_, ?_, ?_⟩
      · simp only [hw, if_true]; exact step_modify k _ _ hstatic1
      · simp only [hw, if_true]
        refine holds_modify k _ _ p _ hpid1 hP ?_
        intro e q hq hg
        rw [e, hq] at hB
        cases hB
        exact absurd (hg.2.1 ▸ hw) hc1
      · simp only [hw, if_true]
        refine holds_modify k _ _ c _ hpid1 hC ?_
        intro _ q _ hg
        exact hg
    · exact ⟨k, by simp [hw], step_refl k, hP, hC⟩
  rw [hk1def]
  have hk1 : handles_ok k1 := step_handles_ok k k1 hs1 hk
  obtain ⟨B1, hB1⟩ := Option.isSome_iff_exists.mp (step_resolves k k1 hs1 _ hbres)
  obtain ⟨X1, hX1⟩ := Option.isSome_iff_exists.mp (step_resolves k k1 hs1 _ hx)
  simp only [hB1, hX1]
  have hX1pid : X1.pid = x := deref_pid k1 hk1.1 x X1 hX1
  by_cases hwp : B1.waitpid_pid = X1.pid
  swap
  · rw [if_neg hwp]
    exact ⟨false, k1, rfl, hs1, hP1, hC1⟩
  rw [if_pos hwp]
  by_cases hcond : B1.pid ≠ 1 ∧ X1.status ≠ .READY
  swap
  · rw [if_neg hcond]
    exact ⟨true, k1, rfl, hs1, hP1, hC1⟩
  rw [if_pos hcond]
  -- when the parent found is `p`, the PCB notified is `c`
  have hxc : X.parent_pid = p → x = c := by
    intro e
    rw [e] at hB1
    have := (holds_unique k1 p _ B1 hP1 hB1).2.1
    rw [← hX1pid, ← hwp, this]
  -- stage 2: the parent is set READY
  have hstatic2 : ∀ q : PCB, ({ q with status := process_status.READY } : PCB).static = q.static :=
    fun _ => rfl
  have hpid2 : ∀ q : PCB, ({ q with status := process_status.READY } : PCB).pid = q.pid := fun _ => rfl
  have hs2 := step_modify k1 X.parent_pid (fun q => { q with status := process_status.READY }) hstatic2
  have hP2 : holds (modify k1 X.parent_pid (fun q => { q with status := process_status.READY })) p
      (woken_for c) :=
    holds_modify k1 _ _ p _ hpid2 hP1 (fun _ q _ hg => ⟨rfl, hg.2.1, hg.2.2.1, hg.2.2.2⟩)
  have hC2 : holds (modify k1 X.parent_pid (fun q => { q with status := process_status.READY })) c
      exited_normally :=
    holds_modify k1 _ _ c _ hpid2 hC1 (fun _ q _ hg => ⟨Or.inr rfl, hg.2⟩)
  generalize hk2def : modify k1 X.parent_pid (fun q => { q with status := process_status.READY }) = k2
    at hs2 hP2 hC2
  have hB2 : ∃ B2, deref k2 X.parent_pid = some B2 ∧ B2.status = .READY := by
    rw [← hk2def, deref_modify k1 _ _ hpid2]
    simp [hB1]
  have hk2 : handles_ok k2 := step_handles_ok k1 k2 hs2 hk1
  obtain ⟨X2, hX2⟩ := Option.isSome_iff_exists.mp
    (step_resolves k1 k2 hs2 _ (step_resolves k k1 hs1 _ hx))
  simp only [hX2]
  have hX2c : x = c → exited_normally X2 := by
    intro e; rw [e] at hX2; exact holds_unique k2 c _ X2 hC2 hX2
  have hX2ne : x ≠ X.parent_pid → X2.status ≠ .READY := by
    intro e
    rw [← hk2def, deref_modify k1 _ _ hpid2, if_neg e, hX1] at hX2
    cases hX2
    exact hcond.2
  -- stage 3: the observed kind is recorded
  obtain ⟨k3, hk3def, hs3, hP3, hC3, hB3⟩ : ∃ k3,
      (if X2.status = .ZOMBIE then
          modify k2 X.parent_pid (fun q => { q with waitpid_estatus := X2.e_status })
        else if X2.status = .READY then
          modify k2 X.parent_pid (fun q => { q with waitpid_estatus := .NOT_EXITED })
        else if X2.status = .STOPPED then
          modify (modify k2 X.parent_pid (fun q => { q with waitpid_estatus := .EXIT_STOPPED })) x
            (fun q => { q with e_status := .NO_CHANGE })
        else k2) = k3 ∧
      step k2 k3 ∧ holds k3 p (woken_for c) ∧ holds k3 c exited_normally ∧
      holds k3 X.parent_pid (fun q => q.status = .READY) := by
    obtain ⟨B2, hB2d, hB2s⟩ := hB2
    have hBh : holds k2 X.parent_pid (fun q => q.status = .READY) := ⟨B2, hB2d, hB2s⟩
    by_cases hz : X2.status = .ZOMBIE
    · refine ⟨_, rfl, ?_, ?_, ?_, ?_⟩ <;> simp only [hz, if_true]
      · exact step_modify k2 _ _ (fun _ => rfl)
      · refine holds_modify k2 _ _ p _ (fun _ => rfl) hP2 ?_
        intro e q _ hg
        exact ⟨hg.1, hg.2.1, (hX2c (hxc e)).2, hg.2.2.2⟩
      · exact holds_modify k2 _ _ c _ (fun _ => rfl) hC2 (fun _ q _ hg => hg)
      · exact holds_modify k2 _ _ _ _ (fun _ => rfl) hBh (fun _ q _ hg => hg)
    · by_cases hr : X2.status = .READY
      · refine ⟨_, rfl, ?_, ?_, ?_, ?_⟩ <;> simp only [hz, hr, if_true, if_false]
        · simp only [reduceCtorEq, if_false]; exact step_modify k2 _ _ (fun _ => rfl)
        · simp only [reduceCtorEq, if_false]
          refine holds_modify k2 _ _ p _ (fun _ => rfl) hP2 ?_
          intro e q _ hg
          have hxc' := hxc e
          have : x ≠ X.parent_pid := by rw [hxc', e]; exact fun e' => hpc e'.symm
          exact absurd hr (hX2ne this)
        · simp only [reduceCtorEq, if_false]
          exact holds_modify k2 _ _ c _ (fun _ => rfl) hC2 (fun _ q _ hg => hg)
        · simp only [reduceCtorEq, if_false]
          exact holds_modify k2 _ _ _ _ (fun _ => rfl) hBh (fun _ q _ hg => hg)
      · by_cases hsp : X2.status = .STOPPED
        · have hxnc : x ≠ c := by
            intro e
            rcases (hX2c e).1 with e' | e' <;> rw [e'] at hsp <;> cases hsp
          have hpar_ne : X.parent_pid ≠ p := fun e => hxnc (hxc e)
          refine ⟨_, rfl, ?_, ?_, ?_, ?_⟩ <;> simp only [hsp, reduceCtorEq, if_true, if_false]
          · apply step_trans _
              (modify k2 X.parent_pid (fun q => { q with waitpid_estatus := exit_status.EXIT_STOPPED }))
            · exact step_modify k2 _ _ (fun _ => rfl)
            · exact step_modify _ _ _ (fun _ => rfl)
          · refine holds_modify _ _ _ p _ (fun _ => rfl) ?_ (fun _ q _ hg => hg)
            exact holds_modify k2 _ _ p _ (fun _ => rfl) hP2 (fun e => absurd e hpar_ne)
          · refine holds_modify _ _ _ c _ (fun _ => rfl) ?_ (fun e => absurd e hxnc)
            exact holds_modify k2 _ _ c _ (fun _ => rfl) hC2 (fun _ q _ hg => hg)
          · refine holds_modify _ _ _ _ _ (fun _ => rfl) ?_ (fun _ q _ hg => hg)
            exact holds_modify k2 _ _ _ _ (fun _ => rfl) hBh (fun _ q _ hg => hg)
        · exact ⟨k2, by simp [hz, hr, hsp], step_refl k2, hP2, hC2, hBh⟩
  rw [hk3def]
  -- stage 4: the parent is queued
  obtain ⟨B3, hB3d, hB3s⟩ := hB3
  have hk3 : handles_ok k3 := step_handles_ok k2 k3 hs3 hk2
  obtain ⟨k4, hk4, hs4, hd4, _⟩ := srp_ready k3 X.parent_pid B3 hB3d hB3s (hk3.2.2.2.2 _ _ hB3d)
  simp only [hk4]
  exact ⟨true, k4, rfl, step_trans _ _ _ hs1 (step_trans _ _ _ hs2 (step_trans _ _ _ hs3 hs4)),
    holds_of_deref_eq k3 k4 p _ hd4 hP3, holds_of_deref_eq k3 k4 c _ hd4 hC3⟩

theorem wc_first (k : Kernel) (p c : Int) (P C : PCB) (hk : handles_ok k)
    (hpc : p ≠ c) (hp1 : p ≠ 1) (hc1 : c ≠ -1)
    (hP : deref k p = some P) (hC : deref k c = some C)
    (hCs : C.status = .ZOMBIE) (hCe : C.e_status = .EXIT_NORMAL) (hCp : C.parent_pid = p)
    (hPw : P.waitpid_pid = c) (hPsl : P.sleep_counter ≤ 0) (hpb : p ∈ k.blocked_pcbs) :
    ∃ r k', waitpid_checks k c = some (r, k') ∧ step k k' ∧ holds k' p (woken_for c) ∧
      holds k' c (fun q => q.status = .ZOMBIE ∧ q.e_status = .EXIT_NORMAL) ∧
      in_ready k' P.priority p := by
  have hPpid : P.pid = p := deref_pid k hk.1 p P hP
  have hCpid : C.pid = c := deref_pid k hk.1 c C hC
  have hw : ¬ P.waitpid_pid = -1 := by rw [hPw]; exact hc1
  have hcp : ¬ c = p := fun e => hpc e.symm
  have hpidR : ∀ q : PCB, ({ q with status := process_status.READY } : PCB).pid = q.pid := fun _ => rfl
  have hpidE : ∀ q : PCB, ({ q with waitpid_estatus := C.e_status } : PCB).pid = q.pid := fun _ => rfl
  let k2 := modify k p (fun q => { q with status := process_status.READY })
  let k3 := modify k2 p (fun q => { q with waitpid_estatus := C.e_status })
  have hs2 : step k k2 := step_modify k p _ (fun _ => rfl)
  have hs3 : step k2 k3 := step_modify k2 p _ (fun _ => rfl)
  have hC2 : deref k2 c = some C := by
    show deref (modify k p _) c = some C
    rw [deref_modify k p _ hpidR c, if_neg hcp]; exact hC
  have hP3 : deref k3 p = some { P with status := .READY, waitpid_estatus := C.e_status } := by
    show deref (modify (modify k p _) p _) p = _
    rw [deref_modify _ p _ hpidE p, deref_modify k p _ hpidR p]
    simp [hP]
  have hC3 : deref k3 c = some C := by
    show deref (modify k2 p _) c = some C
    rw [deref_modify k2 p _ hpidE c, if_neg hcp]; exact hC2
  have hk3 : handles_ok k3 := step_handles_ok k2 k3 hs3 (step_handles_ok k k2 hs2 hk)
  obtain ⟨k4, hk4, hs4, hd4, hin⟩ := srp_ready k3 p _ hP3 rfl (hk.2.2.2.2 p P hP)
  refine ⟨true, k4, ?_, step_trans _ _ _ hs2 (step_trans _ _ _ hs3 hs4), ?_, ?_, hin⟩
  · unfold waitpid_checks
    simp only [hC, hCp]
    rw [find_spec k hk.1 p k.blocked_pcbs hk.2.1]
    simp only [hpb, if_true, hP, hPw, hc1, if_false, hC, hCpid, hPpid]
    have hcond : p ≠ 1 ∧ C.status ≠ process_status.READY := ⟨hp1, by rw [hCs]; decide⟩
    rw [if_pos hcond]
    simp only [hC2, k2, hCs, if_true]
    simp only [k3, k2] at hk4
    simp only [hk4]
  · exact ⟨{ P with status := .READY, waitpid_estatus := C.e_status }, by rw [hd4 p]; exact hP3,
      rfl, hPw, hCe, hPsl⟩
  · exact ⟨C, by rw [hd4 c]; exact hC3, hCs, hCe⟩

theorem sleep_inv (p c : Int) (hpc : p ≠ c) (hc1 : c ≠ -1) (l : List Int) :
    ∀ k : Kernel, (∀ h ∈ l, resolves k h) → handles_ok k →
      holds k p (woken_for c) → holds k c exited_normally →
      ∃ k', sleep_checks k l = some k' ∧ step k k' ∧
        holds k' p (woken_for c) ∧ holds k' c exited_normally := by
  induction l with
  | nil => intro k _ _ hP hC; exact ⟨k, rfl, step_refl k, hP, hC⟩
  | cons h rest ih =>
    intro k hl hk hP hC
    have hres := hl h (List.mem_cons_self _ _)
    obtain ⟨q, hq⟩ := Option.isSome_iff_exists.mp hres
    have hrest : ∀ k', step k k' → ∀ y ∈ rest, resolves k' y :=
      fun k' hs y hy => step_resolves k k' hs y (hl y (List.mem_cons_of_mem _ hy))
    unfold sleep_checks
    simp only [hq]
    by_cases hsl : q.sleep_counter > 0
    · rw [if_pos hsl]
      have hnp : h ≠ p := by
        intro e
        rw [e] at hq
        have := (holds_unique k p _ q hP hq).2.2.2
        omega
      by_cases hfin : q.sleep_counter - quantum ≤ 0
      · rw [if_pos hfin]
        have hs1 := step_modify k h (fun p => { p with status := process_status.ZOMBIE, sleep_counter := -1, e_status := exit_status.EXIT_NORMAL }) (fun _ => rfl)
        have hP1 := holds_modify k h (fun p => { p with status := process_status.ZOMBIE, sleep_counter := -1, e_status := exit_status.EXIT_NORMAL }) p _ (fun _ => rfl) hP
          (fun e => absurd e hnp)
        have hC1 := holds_modify k h (fun p => { p with status := process_status.ZOMBIE, sleep_counter := -1, e_status := exit_status.EXIT_NORMAL }) c _ (fun _ => rfl) hC
          (fun _ _ _ _ => ⟨Or.inl rfl, rfl⟩)
        generalize modify k h (fun p => { p with status := process_status.ZOMBIE, sleep_counter := -1, e_status := exit_status.EXIT_NORMAL }) = k1 at hs1 hP1 hC1
        have hk1 := step_handles_ok k k1 hs1 hk
        obtain ⟨r, k2, hw, hs2, hP2, hC2⟩ :=
          wc_inv k1 h p c hk1 (step_resolves k k1 hs1 h hres) hpc hc1 hP1 hC1
        simp only [hw]
        have hs12 := step_trans _ _ _ hs1 hs2
        obtain ⟨k', hk', hs', hP', hC'⟩ :=
          ih k2 (hrest k2 hs12) (step_handles_ok k k2 hs12 hk) hP2 hC2
        exact ⟨k', hk', step_trans _ _ _ hs12 hs', hP', hC'⟩
      · rw [if_neg hfin]
        have hs1 := step_modify k h (fun p => { p with sleep_counter := p.sleep_counter - quantum })
          (fun _ => rfl)
        have hP1 := holds_modify k h (fun p => { p with sleep_counter := p.sleep_counter - quantum })
          p _ (fun _ => rfl) hP (fun e => absurd e hnp)
        have hC1 := holds_modify k h (fun p => { p with sleep_counter := p.sleep_counter - quantum })
          c _ (fun _ => rfl) hC (fun _ _ _ hg => hg)
        generalize modify k h (fun p => { p with sleep_counter := p.sleep_counter - quantum }) = k1
          at hs1 hP1 hC1
        obtain ⟨k', hk', hs', hP', hC'⟩ :=
          ih k1 (hrest k1 hs1) (step_handles_ok k k1 hs1 hk) hP1 hC1
        exact ⟨k', hk', step_trans _ _ _ hs1 hs', hP', hC'⟩
    · rw [if_neg hsl]
      exact ih k (fun y hy => hl y (List.mem_cons_of_mem _ hy)) hk hP hC

theorem zombie_inv (p c : Int) (hpc : p ≠ c) (hc1 : c ≠ -1) (l : List Int) :
    ∀ k : Kernel, (∀ h ∈ l, resolves k h) → handles_ok k →
      holds k p (woken_for c) → holds k c exited_normally →
      ∃ k', zombie_rescan k l = some k' ∧ step k k' ∧
        holds k' p (woken_for c) ∧ holds k' c exited_normally := by
  induction l with
  | nil => intro k _ _ hP hC; exact ⟨k, rfl, step_refl k, hP, hC⟩
  | cons h rest ih =>
    intro k hl hk hP hC
    have hres := hl h (List.mem_cons_self _ _)
    obtain ⟨q, hq⟩ := Option.isSome_iff_exists.mp hres
    unfold zombie_rescan
    simp only [hq]
    by_cases ht : q.status ≠ .TERMINATED
    · rw [if_pos ht]
      obtain ⟨r, k2, hw, hs2, hP2, hC2⟩ := wc_inv k h p c hk hres hpc hc1 hP hC
      simp only [hw]
      obtain ⟨k', hk', hs', hP', hC'⟩ :=
        ih k2 (fun y hy => step_resolves k k2 hs2 y (hl y (List.mem_cons_of_mem _ hy)))
          (step_handles_ok k k2 hs2 hk) hP2 hC2
      exact ⟨k', hk', step_trans _ _ _ hs2 hs', hP', hC'⟩
    · rw [if_neg ht]
      exact ih k (fun y hy => hl y (List.mem_cons_of_mem _ hy)) hk hP hC

theorem resume_inv (p c : Int) (hpc : p ≠ c) (hc1 : c ≠ -1) (l : List Int) :
    ∀ (k : Kernel) (i : Nat), (∀ h ∈ l, resolves k h) → handles_ok k →
      holds k p (woken_for c) → holds k c exited_normally →
      ∃ k', resume_stopped k i l = some k' ∧ step k k' ∧
        holds k' p (woken_for c) ∧ holds k' c exited_normally := by
  induction l with
  | nil => intro k _ _ _ hP hC; exact ⟨k, rfl, step_refl k, hP, hC⟩
  | cons h rest ih =>
    intro k i hl hk hP hC
    have hres := hl h (List.mem_cons_self _ _)
    obtain ⟨q, hq⟩ := Option.isSome_iff_exists.mp hres
    unfold resume_stopped
    simp only [hq]
    by_cases hr : q.status = .READY
    · rw [if_pos hr]
      have hs1 : step k { k with stopped_pcbs := k.stopped_pcbs.eraseIdx i } :=
        ⟨rfl, rfl, rfl, fun y hy => List.mem_of_mem_eraseIdx hy, fun _ hy => Or.inl hy,
          fun _ _ hy => hy⟩
      have hd1 : ∀ y, deref { k with stopped_pcbs := k.stopped_pcbs.eraseIdx i } y = deref k y :=
        fun _ => rfl
      have hP1 := holds_of_deref_eq k _ p _ hd1 hP
      have hC1 := holds_of_deref_eq k _ c _ hd1 hC
      generalize ({ k with stopped_pcbs := k.stopped_pcbs.eraseIdx i } : Kernel) = k1
        at hs1 hP1 hC1
      have hk1 := step_handles_ok k k1 hs1 hk
      obtain ⟨r, k2, hw, hs2, hP2, hC2⟩ :=
        wc_inv k1 h p c hk1 (step_resolves k k1 hs1 h hres) hpc hc1 hP1 hC1
      simp only [hw]
      have hs12 := step_trans _ _ _ hs1 hs2
      have hk2 := step_handles_ok k k2 hs12 hk
      have hs3 := step_modify k2 h (fun p => { p with status := process_status.READY }) (fun _ => rfl)
      have hP3 := holds_modify k2 h (fun p => { p with status := process_status.READY }) p _
        (fun _ => rfl) hP2 (fun _ _ _ hg => ⟨rfl, hg.2.1, hg.2.2.1, hg.2.2.2⟩)
      have hC3 := holds_modify k2 h (fun p => { p with status := process_status.READY }) c _
        (fun _ => rfl) hC2 (fun _ _ _ hg => ⟨Or.inr rfl, hg.2⟩)
      obtain ⟨q2, hq2⟩ := Option.isSome_iff_exists.mp (step_resolves k k2 hs12 h hres)
      have hq3 : deref (modify k2 h (fun p => { p with status := process_status.READY })) h
          = some { q2 with status := .READY } := by
        rw [deref_modify k2 h (fun p => { p with status := process_status.READY }) (fun _ => rfl) h]
        simp [hq2]
      generalize modify k2 h (fun p => { p with status := process_status.READY }) = k3
        at hs3 hP3 hC3 hq3
      have hk3 := step_handles_ok k2 k3 hs3 hk2
      obtain ⟨k4, hk4, hs4, hd4, _⟩ := srp_ready k3 h _ hq3 rfl (hk3.2.2.2.2 _ _ hq3)
      simp only [hk4]
      have hs14 := step_trans _ _ _ hs12 (step_trans _ _ _ hs3 hs4)
      obtain ⟨k', hk', hs', hP', hC'⟩ :=
        ih k4 i (fun y hy => step_resolves k k4 hs14 y (hl y (List.mem_cons_of_mem _ hy)))
          (step_handles_ok k k4 hs14 hk) (holds_of_deref_eq k3 k4 p _ hd4 hP3)
          (holds_of_deref_eq k3 k4 c _ hd4 hC3)
      exact ⟨k', hk', step_trans _ _ _ hs14 hs', hP', hC'⟩
    · rw [if_neg hr]
      exact ih k (i + 1) (fun y hy => hl y (List.mem_cons_of_mem _ hy)) hk hP hC

theorem after_slice_exit (k : Kernel) (p c : Int) (P C : PCB) (hk : handles_ok k)
    (hcur : k.current_pcb = c)
    (hpc : p ≠ c) (hp1 : p ≠ 1) (hc1 : c ≠ -1)
    (hP : deref k p = some P) (hC : deref k c = some C)
    (hCs : C.status = .ZOMBIE) (hCe : C.e_status = .EXIT_NORMAL) (hCp : C.parent_pid = p)
    (hPw : P.waitpid_pid = c) (hPsl : P.sleep_counter ≤ 0) (hpb : p ∈ k.blocked_pcbs) :
    ∃ kA, after_slice k = some kA ∧ step k kA ∧ holds kA p (woken_for c) ∧
      holds kA c exited_normally ∧ in_ready kA P.priority p := by
  obtain ⟨r, k1, hw, hs1, hP1, hC1, hin1⟩ :=
    wc_first k p c P C hk hpc hp1 hc1 hP hC hCs hCe hCp hPw hPsl hpb
  obtain ⟨C1, hC1d, hC1s, hC1e⟩ := hC1
  have hsA : step k1 { k1 with zombie_pcbs := Deque_Push_Back k1.zombie_pcbs c } := by
    refine ⟨rfl, rfl, rfl, fun _ hy => hy, ?_, fun _ _ hy => hy⟩
    intro y hy
    simp only [Deque_Push_Back, List.mem_append, List.mem_singleton] at hy
    rcases hy with e | e
    · exact Or.inl e
    · right; rw [e]; unfold resolves; rw [hC1d]; rfl
  refine ⟨{ k1 with zombie_pcbs := Deque_Push_Back k1.zombie_pcbs c }, ?_,
    step_trans _ _ _ hs1 hsA, ?_, ?_, ?_⟩
  · unfold after_slice
    simp only [hcur, hC, hCs, hw, hC1d, hC1s]
    simp
  · exact holds_of_deref_eq k1 _ p _ (fun _ => rfl) hP1
  · exact ⟨C1, hC1d, Or.inl hC1s, hC1e⟩
  · exact hsA.2.2.2.2.2 _ _ hin1

theorem scheduler_after_exit (s : Sched) (p c : Int) (P C : PCB) (hk : handles_ok s.k)
    (hcur : s.k.current_pcb = c)
    (hpc : p ≠ c) (hp1 : p ≠ 1) (hc1 : c ≠ -1)
    (hP : deref s.k p = some P) (hC : deref s.k c = some C)
    (hCs : C.status = .ZOMBIE) (hCe : C.e_status = .EXIT_NORMAL) (hCp : C.parent_pid = p)
    (hPw : P.waitpid_pid = c) (hPsl : P.sleep_counter ≤ 0) (hpb : p ∈ s.k.blocked_pcbs) :
    ∃ s', scheduler_after s = some s' ∧ step s.k s'.k ∧ holds s'.k p (woken_for c) ∧
      holds s'.k c exited_normally ∧ in_ready s'.k P.priority p := by
  obtain ⟨kA, hA, hsA, hPA, hCA, hinA⟩ :=
    after_slice_exit s.k p c P C hk hcur hpc hp1 hc1 hP hC hCs hCe hCp hPw hPsl hpb
  have hkA := step_handles_ok _ _ hsA hk
  obtain ⟨kB, hB, hsB, hPB, hCB⟩ :=
    sleep_inv p c hpc hc1 kA.blocked_pcbs kA hkA.2.1 hkA hPA hCA
  have hkB := step_handles_ok _ _ hsB hkA
  obtain ⟨kC, hCC, hsC, hPC, hCC'⟩ :=
    resume_inv p c hpc hc1 kB.stopped_pcbs kB 0 hkB.2.2.1 hkB hPB hCB
  have hkC := step_handles_ok _ _ hsC hkB
  obtain ⟨kD, hD, hsD, hPD, hCD⟩ :=
    zombie_inv p c hpc hc1 kC.zombie_pcbs kC hkC.2.2.2.1 hkC hPC hCC'
  refine ⟨{ s with k := kD, tracker_pos := s.tracker_pos + 1 }, ?_,
    step_trans _ _ _ hsA (step_trans _ _ _ hsB (step_trans _ _ _ hsC hsD)), hPD, hCD, ?_⟩
  · unfold scheduler_after
    simp only [hA, hB, hCC, hD]
  · exact hsD.2.2.2.2.2 _ _ (hsC.2.2.2.2.2 _ _ (hsB.2.2.2.2.2 _ _ hinA))

theorem select_run (s s1 : Sched) (h q : Int) (hh : h ≠ 0)
    (hsel : scheduler_select s = some (.run h q, s1)) :
    s1.k.current_pcb = h ∧
      ∀ y, get_pcb_from_pid s1.k y
        = if y = h then (get_pcb_from_pid s.k y).map (fun pcb => { pcb with status := .RUNNING })
          else get_pcb_from_pid s.k y := by
  unfold scheduler_select at hsel
  simp only at hsel
  generalize (if s.tracker_pos ≥ 19 then 0 else s.tracker_pos) = tp at hsel
  generalize priority_tracker tp = prio at hsel
  split at hsel <;> try (simp at hsel; done)
  split at hsel <;> try (simp at hsel; done)
  split at hsel <;> try (simp at hsel; done)
  split at hsel <;> try (simp at hsel; done)
  split at hsel <;> try (simp at hsel; done)
  rename_i h' pq2 _ _ _ _ _ _
  simp only [Option.some.injEq, Prod.mk.injEq, Selection.run.injEq] at hsel
  obtain ⟨⟨e1, _⟩, e2⟩ := hsel
  subst e1
  subst e2
  have hm : ∀ k0 : Kernel, modify k0 h' (fun p => { p with status := process_status.RUNNING })
      = modify_reg k0 h' (fun p => { p with status := process_status.RUNNING }) := by
    intro k0; simp [modify, hh]
  simp only [hm]
  refine ⟨by simp [modify_reg], ?_⟩
  intro y
  rw [get_modify_reg _ h' (fun p => { p with status := process_status.RUNNING }) (fun _ => rfl) y]
  have : ∀ z, get_pcb_from_pid
      { set_pq s.k prio pq2 with current_pcb := h' } z = get_pcb_from_pid s.k z := by
    intro z
    unfold get_pcb_from_pid set_pq
    split_ifs <;> rfl
  simp only [this]

theorem get_static_of_shape (k k' : Kernel) (hs : shape k' = shape k) (h : Int) :
    (get_pcb_from_pid k' h).map PCB.static = (get_pcb_from_pid k h).map PCB.static := by
  unfold shape at hs
  simp only [Prod.mk.injEq] at hs
  unfold get_pcb_from_pid
  rw [find_static, find_static, hs.1]

theorem deref_reg (k : Kernel) (h : Int) (hh : h ≠ 0) : deref k h = get_pcb_from_pid k h := by
  simp [deref, hh]

theorem modify_reg_of_ne (k : Kernel) (h : Int) (hh : h ≠ 0) (f : PCB → PCB) :
    modify k h f = modify_reg k h f := by
  simp [modify, hh]


theorem deref_mem (k : Kernel) (h : Int) (q : PCB) (hd : deref k h = some q) :
    q ∈ k.global_pcbs ∨ k.idle_pcb = some q := by
  unfold deref at hd
  split at hd
  · exact Or.inr hd
  · unfold get_pcb_from_pid at hd
    exact Or.inl (List.mem_of_find?_eq_some hd)

theorem rendezvous_handles_ok : handles_ok rendezvous.k := by
  refine ⟨?_, ?_, ?_, ?_, ?_⟩
  · intro I hI
    have : I = { init_pcb 0 0 empty_fds 0 (-1) .NOT_EXITED with process_name := "idle" } := by
      simp only [rendezvous, Option.some.injEq] at hI; exact hI.symm
    rw [this]; rfl
  · intro h hh
    simp only [rendezvous, List.mem_cons, List.mem_singleton, List.not_mem_nil, or_false] at hh
    rcases hh with rfl | rfl <;> (unfold resolves; decide!)
  · intro h hh; simp [rendezvous] at hh
  · intro h hh; simp [rendezvous] at hh
  · intro h q hq
    rcases deref_mem _ h q hq with hm | hm
    · simp only [rendezvous, List.mem_cons, List.mem_singleton, List.not_mem_nil, or_false] at hm
      rcases hm with rfl | rfl | rfl <;> decide
    · simp only [rendezvous, Option.some.injEq] at hm
      rw [← hm]; decide

/-! ### The pid discipline of the registry

`k_system_init` establishes `pids_ok` and `children_apart`, and
`k_process_create` and `k_process_cleanup`, the only writers of `pid`,
`children_pids` and the registry, keep them.  In such a state no PCB is its own
child, no children array holds a pid twice, and a grandchild is not a child. -/

theorem pids_ok_init (fs : FS) (uninit : exit_status) : pids_ok (k_system_init fs uninit) := by
  refine ⟨by simp [k_system_init], ?_⟩
  intro p hp
  simp [k_system_init, init_pcb] at hp
  subst hp
  simp [k_system_init]

theorem children_apart_init (fs : FS) (uninit : exit_status) :
    children_apart (k_system_init fs uninit) := by
  simp [children_apart, k_system_init]

theorem mem_update_first (h : Int) (f : PCB → PCB) (q : PCB) :
    ∀ ps : List PCB, q ∈ update_first h f ps → q ∈ ps ∨ ∃ p ∈ ps, p.pid = h ∧ q = f p := by
  intro ps
  induction ps with
  | nil => intro hq; simp [update_first] at hq
  | cons a rest ih =>
    intro hq
    unfold update_first at hq
    split at hq
    · rename_i ha
      rcases List.mem_cons.mp hq with hqa | hqr
      · right
        exact ⟨a, List.mem_cons_self _ _, by simpa using ha, hqa⟩
      · left
        exact List.mem_cons_of_mem _ hqr
    · rcases List.mem_cons.mp hq with hqa | hqr
      · left
        rw [hqa]
        exact List.mem_cons_self _ _
      · rcases ih hqr with h1 | ⟨p, hp, hph, hqf⟩
        · left
          exact List.mem_cons_of_mem _ h1
        · right
          exact ⟨p, List.mem_cons_of_mem _ hp, hph, hqf⟩

theorem pairwise_update_first (R : PCB → PCB → Prop) (M : PCB → Prop) (h : Int) (f : PCB → PCB)
    (hl : ∀ p q, M p → M q → R p q → R (f p) q)
    (hr : ∀ p q, M p → M q → R p q → R p (f q)) :
    ∀ ps : List PCB, (∀ p ∈ ps, M p) → ps.Pairwise R → (update_first h f ps).Pairwise R := by
  intro ps
  induction ps with
  | nil => intro _ _; simp [update_first]
  | cons a rest ih =>
    intro hM hP
    obtain ⟨ha, hrest⟩ := List.pairwise_cons.mp hP
    have hMa : M a := hM a (List.mem_cons_self _ _)
    have hMr : ∀ p ∈ rest, M p := fun p hp => hM p (List.mem_cons_of_mem _ hp)
    unfold update_first
    split
    · exact List.pairwise_cons.mpr ⟨fun b hb => hl a b hMa (hMr b hb) (ha b hb), hrest⟩
    · refine List.pairwise_cons.mpr ⟨?_, ih hMr hrest⟩
      intro b hb
      rcases mem_update_first h f b rest hb with h1 | ⟨p, hp, _, hbf⟩
      · exact ha b h1
      · rw [hbf]
        exact hr a p hMa (hMr p hp) (ha p hp)

theorem pids_ok_modify_reg (k : Kernel) (h : Int) (f : PCB → PCB)
    (hf : ∀ p ∈ k.global_pcbs, p.pid = h → (f p).pid = p.pid ∧ (f p).children_pids.Nodup ∧
      ∀ c ∈ (f p).children_pids, p.pid < c ∧ c < k.pid_counter)
    (hk : pids_ok k) : pids_ok (modify_reg k h f) := by
  refine ⟨hk.1, ?_⟩
  intro q hq
  rcases mem_update_first h f q k.global_pcbs hq with h1 | ⟨p, hp, hph, hqf⟩
  · exact hk.2 q h1
  · obtain ⟨e1, e2, e3⟩ := hf p hp hph
    subst hqf
    refine ⟨?_, ?_, e2, ?_⟩
    · rw [e1]
      exact (hk.2 p hp).1
    · rw [e1]
      exact (hk.2 p hp).2.1
    · intro c hc
      rw [e1]
      exact e3 c hc

theorem pids_ok_shrink (k : Kernel) (h : Int) (f : PCB → PCB)
    (hpid : ∀ p, (f p).pid = p.pid)
    (hsub : ∀ p, (f p).children_pids.Sublist p.children_pids)
    (hk : pids_ok k) : pids_ok (modify_reg k h f) := by
  apply pids_ok_modify_reg k h f _ hk
  intro p hp _
  refine ⟨hpid p, List.Nodup.sublist (hsub p) (hk.2 p hp).2.2.1, ?_⟩
  intro c hc
  exact (hk.2 p hp).2.2.2 c ((hsub p).subset hc)

theorem children_apart_shrink (k : Kernel) (h : Int) (f : PCB → PCB)
    (hsub : ∀ p, (f p).children_pids.Sublist p.children_pids)
    (hk : children_apart k) : children_apart (modify_reg k h f) := by
  unfold children_apart modify_reg
  refine pairwise_update_first _ (fun _ => True) h f ?_ ?_ k.global_pcbs (fun _ _ => trivial) hk
  · intro p q _ _ hR c hc
    exact hR c ((hsub p).subset hc)
  · intro p q _ _ hR c hc hcq
    exact hR c hc ((hsub q).subset hcq)

theorem registry_ok_push (k : Kernel) (parent : Int) (n : PCB)
    (hk : pids_ok k) (ha : children_apart k)
    (hn : n.pid = k.pid_counter) (hc : n.children_pids = [])
    (hpar : parent = 0 ∨ parent < k.pid_counter) :
    pids_ok (modify { k with pid_counter := k.pid_counter + 1, global_pcbs := k.global_pcbs ++ [n] }
      parent (fun p => { p with children_pids := p.children_pids ++ [k.pid_counter] })) ∧
    children_apart (modify { k with pid_counter := k.pid_counter + 1, global_pcbs := k.global_pcbs ++ [n] }
      parent (fun p => { p with children_pids := p.children_pids ++ [k.pid_counter] })) := by
  have hpos := hk.1
  have hk1 : pids_ok { k with pid_counter := k.pid_counter + 1, global_pcbs := k.global_pcbs ++ [n] } := by
    refine ⟨by show 0 < k.pid_counter + 1; omega, ?_⟩
    intro p hp
    simp only [List.mem_append, List.mem_singleton] at hp
    rcases hp with hp | hp
    · obtain ⟨z, a, b, c⟩ := hk.2 p hp
      refine ⟨z, by simp only; omega, b, ?_⟩
      intro x hx
      obtain ⟨c1, c2⟩ := c x hx
      exact ⟨c1, by simp only; omega⟩
    · subst hp
      refine ⟨by omega, by simp only; omega, by rw [hc]; exact List.nodup_nil, ?_⟩
      intro x hx
      rw [hc] at hx
      exact absurd hx (List.not_mem_nil x)
  have ha1 : children_apart { k with pid_counter := k.pid_counter + 1, global_pcbs := k.global_pcbs ++ [n] } := by
    unfold children_apart
    simp only
    rw [List.pairwise_append]
    refine ⟨ha, List.pairwise_singleton _ _, ?_⟩
    intro p _ q hq
    rw [List.mem_singleton] at hq
    subst hq
    intro c _
    rw [hc]
    exact List.not_mem_nil c
  by_cases h0 : parent = 0
  · simp only [modify, h0, if_true]
    exact ⟨hk1, ha1⟩
  have hlt : parent < k.pid_counter := hpar.resolve_left h0
  simp only [modify, h0, if_false]
  constructor
  · apply pids_ok_modify_reg _ _ _ _ hk1
    intro p hp hpp
    simp only [List.mem_append, List.mem_singleton] at hp
    have hp : p ∈ k.global_pcbs := by
      rcases hp with hp | hp
      · exact hp
      · subst hp
        omega
    obtain ⟨_, a, b, c⟩ := hk.2 p hp
    refine ⟨rfl, ?_, ?_⟩
    · show (p.children_pids ++ [k.pid_counter]).Nodup
      rw [List.nodup_append]
      refine ⟨b, List.nodup_singleton _, ?_⟩
      intro x hx hx'
      rw [List.mem_singleton] at hx'
      have := (c x hx).2
      omega
    · intro x hx
      have hx' : x ∈ p.children_pids ∨ x = k.pid_counter := by
        simpa only [List.mem_append, List.mem_singleton] using hx
      show p.pid < x ∧ x < k.pid_counter + 1
      rcases hx' with hx' | hx'
      · obtain ⟨c1, c2⟩ := c x hx'
        exact ⟨c1, by omega⟩
      · subst hx'
        exact ⟨a, by omega⟩
  · unfold children_apart modify_reg
    simp only
    refine pairwise_update_first _ (fun p => ∀ c ∈ p.children_pids, c < k.pid_counter) parent _
      ?_ ?_ _ ?_ ha1
    · intro p q _ hMq hR c hcm
      have hcm' : c ∈ p.children_pids ∨ c = k.pid_counter := by
        simpa only [List.mem_append, List.mem_singleton] using hcm
      rcases hcm' with h1 | h1
      · exact hR c h1
      · intro hcq
        have := hMq c hcq
        omega
    · intro p q hMp _ hR c hcm hcq
      have hcq' : c ∈ q.children_pids ∨ c = k.pid_counter := by
        simpa only [List.mem_append, List.mem_singleton] using hcq
      rcases hcq' with h1 | h1
      · exact hR c hcm h1
      · have := hMp c hcm
        omega
    · intro p hp c hcm
      simp only [List.mem_append, List.mem_singleton] at hp
      rcases hp with hp | hp
      · exact ((hk.2 p hp).2.2.2 c hcm).2
      · subst hp
        rw [hc] at hcm
        exact absurd hcm (List.not_mem_nil c)

theorem registry_ok_create (k k' : Kernel) (parent pid : Int) (name : String) (uninit : exit_status)
    (hk : pids_ok k) (ha : children_apart k)
    (hc : k_process_create k parent name uninit = some (k', pid)) :
    pids_ok k' ∧ children_apart k' := by
  unfold k_process_create at hc
  split at hc
  · exact absurd hc (by simp)
  · rename_i par hpar
    simp only at hc
    split at hc
    · exact absurd hc (by simp)
    · split at hc
      · exact absurd hc (by simp)
      · simp only [Option.some.injEq, Prod.mk.injEq] at hc
        obtain ⟨hk', _⟩ := hc
        subst hk'
        refine registry_ok_push k parent _ hk ha rfl rfl ?_
        by_cases h0 : parent = 0
        · exact Or.inl h0
        · right
          simp only [deref, h0, if_false] at hpar
          have hmem : par ∈ k.global_pcbs := by
            unfold get_pcb_from_pid at hpar
            exact List.mem_of_find?_eq_some hpar
          have := get_pcb_from_pid_pid k parent par hpar
          have := (hk.2 par hmem).2.1
          omega

theorem registry_ok_orphan (cs : List Int) : ∀ (k k' : Kernel),
    pids_ok k → children_apart k → orphan_children k cs = some k' →
    pids_ok k' ∧ children_apart k' := by
  induction cs with
  | nil =>
    intro k k' hk ha h
    simp only [orphan_children, Option.some.injEq] at h
    subst h
    exact ⟨hk, ha⟩
  | cons c rest ih =>
    intro k k' hk ha h
    unfold orphan_children at h
    split at h
    · exact absurd h (by simp)
    · exact ih _ k'
        (pids_ok_shrink k c (fun p => { p with parent_pid := 1 }) (fun _ => rfl)
          (fun _ => List.Sublist.refl _) hk)
        (children_apart_shrink k c (fun p => { p with parent_pid := 1 })
          (fun _ => List.Sublist.refl _) ha) h

theorem registry_ok_cleanup (k k' : Kernel) (h : Int)
    (hk : pids_ok k) (ha : children_apart k) (hc : k_process_cleanup k h = some k') :
    pids_ok k' ∧ children_apart k' := by
  unfold k_process_cleanup at hc
  split at hc
  · exact absurd hc (by simp)
  · split at hc
    · simp only at hc
      have hk1 : pids_ok (modify k h (fun p => { p with status := .TERMINATED })) ∧
          children_apart (modify k h (fun p => { p with status := .TERMINATED })) := by
        unfold modify
        split
        · exact ⟨hk, ha⟩
        · exact ⟨pids_ok_shrink k h (fun p => { p with status := .TERMINATED }) (fun _ => rfl)
              (fun _ => List.Sublist.refl _) hk,
            children_apart_shrink k h (fun p => { p with status := .TERMINATED })
              (fun _ => List.Sublist.refl _) ha⟩
      split at hc
      · exact absurd hc (by simp)
      · rename_i k2 hk2
        obtain ⟨hk2ok, ha2⟩ := registry_ok_orphan _ _ _ hk1.1 hk1.2 hk2
        split at hc
        · exact absurd hc (by simp)
        · split at hc
          · exact absurd hc (by simp)
          · simp only [Option.some.injEq] at hc
            subst hc
            exact ⟨pids_ok_shrink k2 _ _ (fun _ => rfl) (fun _ => List.erase_sublist _ _) hk2ok,
              children_apart_shrink k2 _ _ (fun _ => List.erase_sublist _ _) ha2⟩
    · simp only [Option.some.injEq] at hc
      subst hc
      exact ⟨hk, ha⟩

theorem pids_ok_children (k : Kernel) (h : Int) (p : PCB) (hk : pids_ok k)
    (hp : get_pcb_from_pid k h = some p) :
    h ≠ 0 ∧ h ∉ p.children_pids ∧ p.children_pids.Nodup ∧
      ∀ c ∈ p.children_pids, c ≠ 0 ∧ c ≠ -1 := by
  have hmem : p ∈ k.global_pcbs := by
    unfold get_pcb_from_pid at hp
    exact List.mem_of_find?_eq_some hp
  have hpid := get_pcb_from_pid_pid k h p hp
  obtain ⟨z, _, b, c⟩ := hk.2 p hmem
  refine ⟨by omega, ?_, b, ?_⟩
  · intro hin
    have := (c h hin).1
    omega
  · intro x hx
    have := (c x hx).1
    constructor <;> omega

theorem children_apart_grandchildren (k : Kernel) (h c : Int) (p q : PCB)
    (hk : pids_ok k) (ha : children_apart k)
    (hp : get_pcb_from_pid k h = some p) (hc : c ∈ p.children_pids)
    (hq : get_pcb_from_pid k c = some q) :
    ∀ g ∈ q.children_pids, g ∉ p.children_pids := by
  have hpm : p ∈ k.global_pcbs := by
    unfold get_pcb_from_pid at hp
    exact List.mem_of_find?_eq_some hp
  have hqm : q ∈ k.global_pcbs := by
    unfold get_pcb_from_pid at hq
    exact List.mem_of_find?_eq_some hq
  have hpp := get_pcb_from_pid_pid k h p hp
  have hqp := get_pcb_from_pid_pid k c q hq
  have hne : q ≠ p := by
    intro e
    have := ((hk.2 p hpm).2.2.2 c hc).1
    rw [e] at hqp
    omega
  have hsym : Symmetric (fun p q : PCB => ∀ c ∈ p.children_pids, c ∉ q.children_pids) :=
    fun _ _ hR c hc1 hc2 => hR c hc2 hc1
  exact List.Pairwise.forall hsym ha hqm hpm hne

/-! ### Allocation on a full file system -/

theorem find_fat_from_full (xs : List Nat) : ∀ (i num : Int), (∀ x ∈ xs, x ≠ 0) →
    num ≤ i + xs.length → find_fat_from xs i num = some (-1) := by
  induction xs with
  | nil =>
    intro i num _ hle
    have : ¬ i < num := by simpa using hle
    simp [find_fat_from, this]
  | cons x xs ih =>
    intro i num hx hle
    unfold find_fat_from
    by_cases hi : i < num
    · rw [if_pos hi, if_neg (hx x (List.mem_cons_self _ _))]
      apply ih (i + 1) num (fun y hy => hx y (List.mem_cons_of_mem _ hy))
      simp only [List.length_cons, Nat.cast_add, Nat.cast_one] at hle
      omega
    · rw [if_neg hi]

theorem create_deques (k k1 : Kernel) (parent new_pcb : Int) (name : String) (uninit : exit_status)
    (h : k_process_create k parent name uninit = some (k1, new_pcb)) : deques k1 = deques k := by
  unfold k_process_create at h
  split at h
  · exact absurd h (by simp)
  · simp only at h
    split at h
    · exact absurd h (by simp)
    · split at h
      · exact absurd h (by simp)
      · simp only [Option.some.injEq, Prod.mk.injEq] at h
        rw [← h.1]
        unfold deques modify modify_reg
        split <;> rfl

/-! ### The image made by `mkfs` -/

theorem fit_length (n : Nat) (bs : List Nat) : (fit n bs).length = n := by
  simp [fit]

theorem mkfs_word (b c : Int) (hb1 : 1 ≤ b) (hb2 : b ≤ 32) (hc1 : 0 ≤ c) (hc2 : c ≤ 4) :
    ((b.toNat <<< 8) ||| c.toNat) % 65536 = b.toNat * 256 + c.toNat := by
  interval_cases b <;> interval_cases c <;> rfl

theorem mkfs_word_or (b c : Nat) (hb : b ≤ 32) (hc : c ≤ 4) : (b <<< 8) ||| c = b * 256 + c := by
  interval_cases b <;> interval_cases c <;> rfl

/-! ### Reading back what was written; the loops of `chmod` -/

theorem pread_pwrite_same (bytes : List Nat) : ∀ (pos : Nat) (data : List Nat),
    pread (pwrite data pos bytes) pos bytes.length = bytes := by
  intro pos
  induction pos with
  | zero =>
    intro data
    simp [pread, pwrite]
  | succ n ih =>
    intro data
    cases data with
    | nil =>
      have := ih []
      simp only [pread, pwrite, List.drop_succ_cons] at this ⊢
      exact this
    | cons d ds =>
      have := ih ds
      simp only [pread, pwrite, List.drop_succ_cons] at this ⊢
      exact this

theorem decode_entry_set_perm (bytes : List Nat) (v : Nat) (hlen : bytes.length = 64) :
    decode_entry (bytes.set 39 v) = { decode_entry bytes with perm := v } := by
  unfold decode_entry
  have h1 : (bytes.set 39 v).take 32 = bytes.take 32 := List.take_set_of_lt v bytes (by norm_num)
  have h2 : ((bytes.set 39 v).drop 32).take 4 = (bytes.drop 32).take 4 := by
    rw [List.drop_set, if_neg (by norm_num)]
    exact List.take_set_of_lt v _ (by norm_num)
  have h3 : ((bytes.set 39 v).drop 36).take 2 = (bytes.drop 36).take 2 := by
    rw [List.drop_set, if_neg (by norm_num)]
    exact List.take_set_of_lt v _ (by norm_num)
  have h4 : ((bytes.set 39 v).drop 38).headD 0 = (bytes.drop 38).headD 0 := by
    rw [List.drop_set, if_neg (by norm_num)]
    cases hd : bytes.drop 38 with
    | nil => rfl
    | cons a t => rfl
  have h5 : ((bytes.set 39 v).drop 39).headD 0 = v := by
    rw [List.drop_set, if_neg (by norm_num)]
    cases hd : bytes.drop 39 with
    | nil =>
      have := congrArg List.length hd
      simp [hlen] at this
    | cons a t => rfl
  have h6 : ((bytes.set 39 v).drop 40).take 8 = (bytes.drop 40).take 8 := by
    rw [List.drop_set_of_lt v bytes (by norm_num)]
  have h7 : ((bytes.set 39 v).drop 48).take 16 = (bytes.drop 48).take 16 := by
    rw [List.drop_set_of_lt v bytes (by norm_num)]
  rw [h1, h2, h3, h4, h5, h6, h7]

theorem chmod_in_block_found (data : List Nat) (base : Nat) (fs_name : List Nat) (pos : Nat)
    (bytes : List Nat) : ∀ (n i : Nat),
    chmod_in_block data base fs_name n i = some (some (pos, bytes)) →
    bytes = pread data pos 64 ∧ bytes.length = 64 := by
  intro n
  induction n with
  | zero => intro i h; simp [chmod_in_block] at h
  | succ n ih =>
    intro i h
    unfold chmod_in_block at h
    simp only at h
    split at h
    · exact absurd h (by simp)
    · rename_i hlen
      split at h
      · simp only [Option.some.injEq, Prod.mk.injEq] at h
        obtain ⟨h1, h2⟩ := h
        subst h1
        subst h2
        exact ⟨rfl, by simpa using hlen⟩
      · exact ih (i + 1) h

theorem chmod_loop_found (fs : FS) (fs_name : List Nat) (pos : Nat) (bytes : List Nat) :
    ∀ (fuel : Nat) (v : Int), chmod_loop fs fs_name fuel v = some (some (pos, bytes)) →
    bytes = pread fs.data pos 64 ∧ bytes.length = 64 := by
  intro fuel
  induction fuel with
  | zero =>
    intro v h
    unfold chmod_loop at h
    split at h <;> simp at h
  | succ fuel ih =>
    intro v h
    unfold chmod_loop at h
    split at h
    · split at h
      · exact absurd h (by simp)
      · split at h
        · exact absurd h (by simp)
        · rename_i found hin
          simp only [Option.some.injEq] at h
          subst h
          exact chmod_in_block_found fs.data _ fs_name pos bytes _ 0 hin
        · split at h
          · exact absurd h (by simp)
          · exact ih _ h
    · exact absurd h (by simp)

theorem chmod_fold_spec (op : Nat) (hop : op = 43 ∨ op = 45 ∨ op = 61) (letters : List Nat) :
    ∀ p : Nat, p < 256 → (∀ c ∈ letters, c = 114 ∨ c = 119 ∨ c = 120) →
    chmod_fold op letters p = some (spec_perm op letters p) ∧ spec_perm op letters p < 256 := by
  induction letters with
  | nil => intro p hp _; exact ⟨rfl, hp⟩
  | cons c rest ih =>
    intro p hp hl
    have hc := hl c (List.mem_cons_self _ _)
    have hrest : ∀ c ∈ rest, c = 114 ∨ c = 119 ∨ c = 120 := fun x hx => hl x (List.mem_cons_of_mem _ hx)
    have hbit : spec_perm_bit c = 4 ∨ spec_perm_bit c = 2 ∨ spec_perm_bit c = 1 := by
      rcases hc with e | e | e <;> simp [spec_perm_bit, e]
    have hchange : (if c = 114 then some 4 else if c = 119 then some 2 else if c = 120 then some 1
        else none) = some (spec_perm_bit c) := by
      rcases hc with e | e | e <;> simp [spec_perm_bit, e]
    have hblt : spec_perm_bit c < 256 := by rcases hbit with e | e | e <;> omega
    unfold chmod_fold
    simp only [hchange]
    unfold spec_perm
    simp only [List.foldl_cons]
    rcases hop with e | e | e
    · subst e
      simp only [if_true]
      have hor : p ||| spec_perm_bit c < 256 := Nat.or_lt_two_pow (n := 8) hp hblt
      rw [Nat.mod_eq_of_lt hor]
      exact ih _ hor hrest
    · subst e
      simp only [show ¬ ((45 : Nat) = 43) by decide, if_false, if_true]
      have hx : 255 - spec_perm_bit c = 255 ^^^ spec_perm_bit c := by
        rcases hbit with e | e | e <;> rw [e] <;> rfl
      rw [hx]
      have hand : p &&& (255 ^^^ spec_perm_bit c) < 256 :=
        lt_of_le_of_lt Nat.and_le_left hp
      exact ih _ hand hrest
    · subst e
      simp only [show ¬ ((61 : Nat) = 43) by decide, show ¬ ((61 : Nat) = 45) by decide, if_false,
        if_true]
      exact ih _ hblt hrest

/-! ### `waitpid_checks` seen from the PCB that changed state -/

theorem deref_modify_ne (k : Kernel) (b : Int) (f : PCB → PCB) (hf : ∀ q, (f q).pid = q.pid)
    (x : Int) (hx : x ≠ b) : deref (modify k b f) x = deref k x := by
  rw [deref_modify k b f hf x, if_neg hx]

theorem deref_modify_self (k : Kernel) (b : Int) (f : PCB → PCB) (hf : ∀ q, (f q).pid = q.pid) :
    deref (modify k b f) b = (deref k b).map f := by
  rw [deref_modify k b f hf b, if_pos rfl]

theorem notifies_iff (k : Kernel) (x pp : Int) (st : process_status) :
    notifies k x pp st = true ↔
      pp ∈ k.blocked_pcbs ∧ pp ≠ 1 ∧ st ≠ .READY ∧
        ∃ B, deref k pp = some B ∧ (B.waitpid_pid = -1 ∨ B.waitpid_pid = x) := by
  unfold notifies
  cases hd : deref k pp with
  | none => simp
  | some B => simp [and_assoc]

theorem notifies_eq (k k' : Kernel) (x pp : Int) (st : process_status)
    (hb : k'.blocked_pcbs = k.blocked_pcbs)
    (hw : ∀ B, deref k pp = some B → ∃ B', deref k' pp = some B' ∧
      ((B'.waitpid_pid = -1 ∨ B'.waitpid_pid = x) ↔ (B.waitpid_pid = -1 ∨ B.waitpid_pid = x)))
    (hn : deref k pp = none → deref k' pp = none) :
    notifies k' x pp st = notifies k x pp st := by
  unfold notifies
  rw [hb]
  cases hd : deref k pp with
  | none => rw [hn hd]
  | some B =>
    obtain ⟨B', hB', hiff⟩ := hw B hd
    rw [hB']
    simp only
    congr 1
    rw [Bool.eq_iff_iff]
    simpa using hiff

theorem srp_queues (k k' : Kernel) (b : Int) (h : schedule_ready_process k b = some k') :
    k'.stopped_pcbs = k.stopped_pcbs ∧ k'.zombie_pcbs = k.zombie_pcbs := by
  unfold schedule_ready_process at h
  split at h
  · exact absurd h (by simp)
  · split at h
    · unfold push_pq at h
      split_ifs at h <;> simp only [Option.some.injEq] at h <;> subst h <;> exact ⟨rfl, rfl⟩
    · split at h <;> simp only [Option.some.injEq] at h <;> subst h <;> exact ⟨rfl, rfl⟩

theorem wc_target (k : Kernel) (x : Int) (X : PCB) (hk : handles_ok k)
    (hX : deref k x = some X) (hne : X.parent_pid ≠ x) :
    ∃ r k', waitpid_checks k x = some (r, k') ∧ step k k' ∧
      k'.stopped_pcbs = k.stopped_pcbs ∧ k'.zombie_pcbs = k.zombie_pcbs ∧
      deref k' x = some (if notifies k x X.parent_pid X.status = true ∧ X.status = .STOPPED
        then { X with e_status := .NO_CHANGE } else X) ∧
      notifies k' x X.parent_pid X.status = notifies k x X.parent_pid X.status := by
  have hXpid : X.pid = x := deref_pid k hk.1 x X hX
  have hxne : x ≠ X.parent_pid := fun e => hne e.symm
  unfold waitpid_checks
  simp only [hX]
  rw [find_spec k hk.1 X.parent_pid k.blocked_pcbs hk.2.1]
  by_cases hm : X.parent_pid ∈ k.blocked_pcbs
  swap
  · simp only [hm, if_false]
    have hn : notifies k x X.parent_pid X.status = false := by
      simp [notifies, hm]
    refine ⟨false, k, rfl, step_refl k, rfl, rfl, ?_, rfl⟩
    simp [hn, hX]
  simp only [hm, if_true]
  obtain ⟨B, hB⟩ := Option.isSome_iff_exists.mp (hk.2.1 _ hm)
  have hBpid : B.pid = X.parent_pid := deref_pid k hk.1 _ B hB
  simp only [hB]
  -- stage 1
  obtain ⟨k1, hk1def, hs1, hq1, hX1, hB1⟩ : ∃ k1,
      (if B.waitpid_pid = -1 then modify k X.parent_pid (fun q => { q with waitpid_pid := X.pid })
        else k) = k1 ∧
      step k k1 ∧ (k1.stopped_pcbs = k.stopped_pcbs ∧ k1.zombie_pcbs = k.zombie_pcbs) ∧
      deref k1 x = some X ∧
      deref k1 X.parent_pid
        = some { B with waitpid_pid := if B.waitpid_pid = -1 then X.pid else B.waitpid_pid } := by
    by_cases hw : B.waitpid_pid = -1
    · refine ⟨_, rfl, ?_, ?_, ?_, ?_⟩ <;> simp only [hw, if_true]
      · exact step_modify k _ _ (fun _ => rfl)
      · obtain ⟨_, _, a3, a4, _⟩ := modify_fields k X.parent_pid
          (fun q => { q with waitpid_pid := X.pid })
        exact ⟨a3, a4⟩
      · rw [deref_modify_ne k _ (fun q => { q with waitpid_pid := X.pid }) (fun _ => rfl) x hxne]
        exact hX
      · rw [deref_modify_self k _ (fun q => { q with waitpid_pid := X.pid }) (fun _ => rfl), hB]
        rfl
    · refine ⟨k, by simp [hw], step_refl k, ⟨rfl, rfl⟩, hX, ?_⟩
      simp [hw, hB]
  rw [hk1def]
  simp only [hB1, hX1]
  have hk1 : handles_ok k1 := step_handles_ok k k1 hs1 hk
  have hblk1 : k1.blocked_pcbs = k.blocked_pcbs := hs1.2.2.1
  by_cases hwp : (if B.waitpid_pid = -1 then X.pid else B.waitpid_pid) = X.pid
  swap
  · rw [if_neg hwp]
    have hBw : ¬ (B.waitpid_pid = -1 ∨ B.waitpid_pid = x) := by
      intro e
      rcases e with e | e
      · exact hwp (by rw [if_pos e])
      · by_cases e1 : B.waitpid_pid = -1
        · exact hwp (by rw [if_pos e1])
        · exact hwp (by rw [if_neg e1, e, hXpid])
    have hn : notifies k x X.parent_pid X.status = false := by
      rw [← Bool.not_eq_true, notifies_iff]
      rintro ⟨_, _, _, B0, hB0, e⟩
      rw [hB] at hB0
      cases hB0
      exact hBw e
    refine ⟨false, k1, rfl, hs1, hq1.1, hq1.2, ?_, ?_⟩
    · simp [hn, hX1]
    · apply notifies_eq k k1 x X.parent_pid X.status hblk1
      · intro B0 hB0
        rw [hB] at hB0
        cases hB0
        refine ⟨_, hB1, ?_⟩
        simp only
        constructor
        · intro e
          exfalso
          rcases e with e | e
          · by_cases e1 : B.waitpid_pid = -1
            · exact hBw (Or.inl e1)
            · rw [if_neg e1] at e; exact e1 e
          · rw [← hXpid] at e; exact hwp e
        · intro e; exact absurd e hBw
      · intro e; rw [hB] at e; cases e
  rw [if_pos hwp]
  have hBw : B.waitpid_pid = -1 ∨ B.waitpid_pid = x := by
    by_cases e1 : B.waitpid_pid = -1
    · exact Or.inl e1
    · rw [if_neg e1] at hwp; exact Or.inr (by rw [hwp, hXpid])
  by_cases hcond : B.pid ≠ 1 ∧ X.status ≠ .READY
  swap
  · rw [if_neg hcond]
    have hn : notifies k x X.parent_pid X.status = false := by
      rw [← Bool.not_eq_true, notifies_iff]
      rintro ⟨_, e1, e2, _⟩
      rw [← hBpid] at e1
      exact hcond ⟨e1, e2⟩
    refine ⟨true, k1, rfl, hs1, hq1.1, hq1.2, ?_, ?_⟩
    · simp [hn, hX1]
    · apply notifies_eq k k1 x X.parent_pid X.status hblk1
      · intro B0 hB0
        rw [hB] at hB0
        cases hB0
        refine ⟨_, hB1, ?_⟩
        simp only
        constructor
        · intro _; exact hBw
        · intro _; right; rw [hwp, hXpid]
      · intro e; rw [hB] at e; cases e
  rw [if_pos hcond]
  have hpp1 : X.parent_pid ≠ 1 := by rw [← hBpid]; exact hcond.1
  have hn : notifies k x X.parent_pid X.status = true := by
    rw [notifies_iff]
    exact ⟨hm, hpp1, hcond.2, B, hB, hBw⟩
  -- stage 2
  have hs2 := step_modify k1 X.parent_pid (fun q => { q with status := process_status.READY })
    (fun _ => rfl)
  have hX2 : deref (modify k1 X.parent_pid (fun q => { q with status := process_status.READY })) x
      = some X := by
    rw [deref_modify_ne k1 _ (fun q => { q with status := process_status.READY }) (fun _ => rfl) x hxne]
    exact hX1
  have hB2 : deref (modify k1 X.parent_pid (fun q => { q with status := process_status.READY }))
      X.parent_pid = some { B with waitpid_pid := X.pid, status := .READY } := by
    rw [deref_modify_self k1 _ (fun q => { q with status := process_status.READY }) (fun _ => rfl),
      hB1, hwp]
    rfl
  have hq2 := modify_fields k1 X.parent_pid (fun q => { q with status := process_status.READY })
  generalize modify k1 X.parent_pid (fun q => { q with status := process_status.READY }) = k2
    at hs2 hX2 hB2 hq2
  simp only [hX2]
  -- stage 3
  obtain ⟨k3, hk3def, hs3, hq3, hX3, hB3⟩ : ∃ k3,
      (if X.status = .ZOMBIE then
          modify k2 X.parent_pid (fun q => { q with waitpid_estatus := X.e_status })
        else if X.status = .READY then
          modify k2 X.parent_pid (fun q => { q with waitpid_estatus := .NOT_EXITED })
        else if X.status = .STOPPED then
          modify (modify k2 X.parent_pid (fun q => { q with waitpid_estatus := .EXIT_STOPPED })) x
            (fun q => { q with e_status := .NO_CHANGE })
        else k2) = k3 ∧
      step k2 k3 ∧ (k3.stopped_pcbs = k2.stopped_pcbs ∧ k3.zombie_pcbs = k2.zombie_pcbs) ∧
      deref k3 x = some (if X.status = .STOPPED then { X with e_status := .NO_CHANGE } else X) ∧
      ∃ B3, deref k3 X.parent_pid = some B3 ∧ B3.status = .READY ∧ B3.waitpid_pid = X.pid ∧
        B3.priority = B.priority := by
    by_cases hz : X.status = .ZOMBIE
    · refine ⟨_, rfl, ?_, ?_, ?_, ?_⟩ <;> simp only [hz, if_true, reduceCtorEq, if_false]
      · exact step_modify k2 _ _ (fun _ => rfl)
      · obtain ⟨_, _, a3, a4, _⟩ := modify_fields k2 X.parent_pid
          (fun q => { q with waitpid_estatus := X.e_status })
        exact ⟨a3, a4⟩
      · rw [deref_modify_ne k2 _ (fun q => { q with waitpid_estatus := X.e_status }) (fun _ => rfl)
          x hxne]
        exact hX2
      · rw [deref_modify_self k2 _ (fun q => { q with waitpid_estatus := X.e_status }) (fun _ => rfl),
          hB2]
        exact ⟨_, rfl, rfl, rfl, rfl⟩
    · by_cases hsp : X.status = .STOPPED
      · refine ⟨_, rfl, ?_, ?_, ?_, ?_⟩ <;> simp only [hsp, if_true, reduceCtorEq, if_false]
        · apply step_trans _
            (modify k2 X.parent_pid (fun q => { q with waitpid_estatus := exit_status.EXIT_STOPPED }))
          · exact step_modify k2 _ _ (fun _ => rfl)
          · exact step_modify _ _ _ (fun _ => rfl)
        · obtain ⟨_, _, a3, a4, _⟩ := modify_fields k2 X.parent_pid
            (fun q => { q with waitpid_estatus := exit_status.EXIT_STOPPED })
          obtain ⟨_, _, b3, b4, _⟩ := modify_fields
            (modify k2 X.parent_pid (fun q => { q with waitpid_estatus := exit_status.EXIT_STOPPED })) x
            (fun q => { q with e_status := exit_status.NO_CHANGE })
          exact ⟨b3.trans a3, b4.trans a4⟩
        · rw [deref_modify_self _ x (fun q => { q with e_status := exit_status.NO_CHANGE })
              (fun _ => rfl),
            deref_modify_ne k2 _ (fun q => { q with waitpid_estatus := exit_status.EXIT_STOPPED })
              (fun _ => rfl) x hxne, hX2]
          simp [hsp]
        · rw [deref_modify_ne _ x (fun q => { q with e_status := exit_status.NO_CHANGE })
              (fun _ => rfl) _ hne,
            deref_modify_self k2 _ (fun q => { q with waitpid_estatus := exit_status.EXIT_STOPPED })
              (fun _ => rfl), hB2]
          exact ⟨_, rfl, rfl, rfl, rfl⟩
      · refine ⟨k2, ?_, step_refl k2, ⟨rfl, rfl⟩, ?_, ?_⟩
        · simp [hz, hsp, hcond.2]
        · simp [hsp, hX2]
        · exact ⟨_, hB2, rfl, rfl, rfl⟩
  rw [hk3def]
  obtain ⟨B3, hB3d, hB3s, hB3w, hB3p⟩ := hB3
  have hk2 : handles_ok k2 := step_handles_ok k1 k2 hs2 hk1
  have hk3 : handles_ok k3 := step_handles_ok k2 k3 hs3 hk2
  obtain ⟨k4, hk4, hs4, hd4, _⟩ := srp_ready k3 X.parent_pid B3 hB3d hB3s (hk3.2.2.2.2 _ _ hB3d)
  simp only [hk4]
  have hs14 : step k k4 :=
    step_trans _ _ _ hs1 (step_trans _ _ _ hs2 (step_trans _ _ _ hs3 hs4))
  obtain ⟨hq4s, hq4z⟩ := srp_queues k3 k4 _ hk4
  refine ⟨true, k4, rfl, hs14, ?_, ?_, ?_, ?_⟩
  · rw [hq4s, hq3.1, hq2.2.2.1, hq1.1]
  · rw [hq4z, hq3.2, hq2.2.2.2.1, hq1.2]
  · rw [hd4 x, hX3]
    simp [hn]
  · rw [hn, notifies_iff]
    refine ⟨by rw [hs14.2.2.1]; exact hm, hpp1, hcond.2, B3, by rw [hd4]; exact hB3d, Or.inr ?_⟩
    rw [hB3w, hXpid]
theorem notifies_congr (k k' : Kernel) (x pp : Int) (st : process_status)
    (hmem : pp ∈ k'.blocked_pcbs ↔ pp ∈ k.blocked_pcbs) (hd : deref k' pp = deref k pp) :
    notifies k' x pp st = notifies k x pp st := by
  rw [Bool.eq_iff_iff, notifies_iff, notifies_iff, hmem, hd]

theorem handles_ok_requeue (k k' : Kernel) (hk : handles_ok k)
    (hg : k'.global_pcbs = k.global_pcbs) (hi : k'.idle_pcb = k.idle_pcb)
    (hb : ∀ h ∈ k'.blocked_pcbs, h ∈ k.blocked_pcbs ∨ resolves k h)
    (hs : ∀ h ∈ k'.stopped_pcbs, h ∈ k.stopped_pcbs ∨ resolves k h)
    (hz : ∀ h ∈ k'.zombie_pcbs, h ∈ k.zombie_pcbs ∨ resolves k h) : handles_ok k' := by
  have hd : ∀ h, deref k' h = deref k h := deref_same_pcbs k k' hg hi
  obtain ⟨h1, h2, h3, h4, h5⟩ := hk
  refine ⟨?_, ?_, ?_, ?_, ?_⟩
  · intro I hI; rw [hi] at hI; exact h1 I hI
  · intro h hh
    unfold resolves
    rw [hd]
    rcases hb h hh with e | e
    · exact h2 h e
    · exact e
  · intro h hh
    unfold resolves
    rw [hd]
    rcases hs h hh with e | e
    · exact h3 h e
    · exact e
  · intro h hh
    unfold resolves
    rw [hd]
    rcases hz h hh with e | e
    · exact h4 h e
    · exact e
  · intro h q hq
    rw [hd] at hq
    exact h5 h q hq

theorem wc_fields (k : Kernel) (x : Int) (X : PCB) (hk : handles_ok k)
    (hX : deref k x = some X) (hne : X.parent_pid ≠ x) :
    ∃ r k' q, waitpid_checks k x = some (r, k') ∧ handles_ok k' ∧ deref k' x = some q ∧
      q.status = X.status ∧ q.parent_pid = X.parent_pid ∧
      q.e_status = (if notifies k x X.parent_pid X.status = true ∧ X.status = .STOPPED
        then .NO_CHANGE else X.e_status) ∧
      notifies k' x X.parent_pid X.status = notifies k x X.parent_pid X.status := by
  obtain ⟨r, k', hw, hs, _, _, hd, hn⟩ := wc_target k x X hk hX hne
  refine ⟨r, k', _, hw, step_handles_ok k k' hs hk, hd, ?_, ?_, ?_, hn⟩
  · split <;> rfl
  · split <;> rfl
  · split <;> rfl

theorem ssp_fields (k : Kernel) (h : Int) (X : PCB) (sig : pennos_signal) (st : process_status)
    (hst : st = match sig with
      | .S_SIGSTOP => process_status.STOPPED
      | .S_SIGTERM => process_status.ZOMBIE
      | .S_SIGCONT => process_status.BLOCKED)
    (hk : handles_ok k) (hX : deref k h = some X) (hne : X.parent_pid ≠ h) :
    ∃ k' q, schedule_sleep_process k h sig = some k' ∧ handles_ok k' ∧ deref k' h = some q ∧
      q.status = st ∧ q.parent_pid = X.parent_pid ∧
      q.e_status = (if notifies k h X.parent_pid st = true ∧ st = .STOPPED
        then .NO_CHANGE else X.e_status) ∧
      notifies k' h X.parent_pid st = notifies k h X.parent_pid st := by
  have hres : resolves k h := by unfold resolves; rw [hX]; rfl
  have key : ∀ (b s z : List Int),
      (∀ y ∈ b, y ∈ k.blocked_pcbs ∨ y = h) →
      (∀ y ∈ s, y ∈ k.stopped_pcbs ∨ y = h) →
      (∀ y ∈ z, y ∈ k.zombie_pcbs ∨ y = h) →
      (X.parent_pid ∈ b ↔ X.parent_pid ∈ k.blocked_pcbs) →
      ∃ k' q, (waitpid_checks { modify k h (fun p => { p with status := st }) with
            blocked_pcbs := b, stopped_pcbs := s, zombie_pcbs := z } h).map (fun r => r.2) = some k' ∧
        handles_ok k' ∧
        deref k' h = some q ∧ q.status = st ∧ q.parent_pid = X.parent_pid ∧
        q.e_status = (if notifies k h X.parent_pid st = true ∧ st = .STOPPED
          then .NO_CHANGE else X.e_status) ∧
        notifies k' h X.parent_pid st = notifies k h X.parent_pid st := by
    intro b s z hb hs hz hmem
    generalize hk2 : ({ modify k h (fun p => { p with status := st }) with
            blocked_pcbs := b, stopped_pcbs := s, zombie_pcbs := z } : Kernel) = k2
    have hg : k2.global_pcbs = (modify k h (fun p => { p with status := st })).global_pcbs := by
      rw [← hk2]
    have hi : k2.idle_pcb = (modify k h (fun p => { p with status := st })).idle_pcb := by
      rw [← hk2]
    have hb : ∀ y ∈ k2.blocked_pcbs, y ∈ k.blocked_pcbs ∨ y = h := by rw [← hk2]; exact hb
    have hs : ∀ y ∈ k2.stopped_pcbs, y ∈ k.stopped_pcbs ∨ y = h := by rw [← hk2]; exact hs
    have hz : ∀ y ∈ k2.zombie_pcbs, y ∈ k.zombie_pcbs ∨ y = h := by rw [← hk2]; exact hz
    have hmem : X.parent_pid ∈ k2.blocked_pcbs ↔ X.parent_pid ∈ k.blocked_pcbs := by
      rw [← hk2]; exact hmem
    have hs1 := step_modify k h (fun p => { p with status := st }) (fun _ => rfl)
    have hk1 := step_handles_ok _ _ hs1 hk
    have hres1 : resolves (modify k h (fun p => { p with status := st })) h :=
      step_resolves _ _ hs1 h hres
    obtain ⟨_, a2, a3, a4, _⟩ := modify_fields k h (fun p => { p with status := st })
    have hk2 : handles_ok k2 := by
      apply handles_ok_requeue _ k2 hk1 hg hi
      · intro y hy
        rcases hb y hy with e | e
        · left; rw [a2]; exact e
        · right; rw [e]; exact hres1
      · intro y hy
        rcases hs y hy with e | e
        · left; rw [a3]; exact e
        · right; rw [e]; exact hres1
      · intro y hy
        rcases hz y hy with e | e
        · left; rw [a4]; exact e
        · right; rw [e]; exact hres1
    have hd2 : ∀ y, deref k2 y = deref (modify k h (fun p => { p with status := st })) y :=
      deref_same_pcbs _ k2 hg hi
    have hX2 : deref k2 h = some { X with status := st } := by
      rw [hd2, deref_modify_self k h (fun p => { p with status := st }) (fun _ => rfl), hX]
      rfl
    obtain ⟨r, k', q, hw, hk', hq, hq1, hq2, hq3, hq4⟩ :=
      wc_fields k2 h { X with status := st } hk2 hX2 hne
    have hn2 : notifies k2 h X.parent_pid st = notifies k h X.parent_pid st := by
      apply notifies_congr k k2 h X.parent_pid st hmem
      rw [hd2, deref_modify_ne k h (fun p => { p with status := st }) (fun _ => rfl) _ hne]
    simp only at hq1 hq2 hq3 hq4
    rw [hn2] at hq3 hq4
    exact ⟨k', q, by rw [hw]; rfl, hk', hq, hq1, hq2, hq3, hq4⟩
  have hpne : X.parent_pid ≠ h := hne
  cases sig with
  | S_SIGSTOP =>
    simp only at hst
    subst hst
    unfold schedule_sleep_process
    dsimp only
    refine key (Deque_Pop_PID (modify k h (fun p => { p with status := process_status.STOPPED })).blocked_pcbs h).2
      (Deque_Push_Back (modify k h (fun p => { p with status := process_status.STOPPED })).stopped_pcbs h)
      (modify k h (fun p => { p with status := process_status.STOPPED })).zombie_pcbs ?_ ?_ ?_ ?_
    · intro y hy
      left
      obtain ⟨_, a2, _⟩ := modify_fields k h (fun p => { p with status := process_status.STOPPED })
      simp only [Deque_Pop_PID, a2] at hy
      exact List.mem_of_mem_erase hy
    · intro y hy
      obtain ⟨_, _, a3, _⟩ := modify_fields k h (fun p => { p with status := process_status.STOPPED })
      simp only [Deque_Push_Back, a3, List.mem_append, List.mem_singleton] at hy
      exact hy
    · intro y hy
      left
      obtain ⟨_, _, _, a4, _⟩ := modify_fields k h (fun p => { p with status := process_status.STOPPED })
      simp only [a4] at hy
      exact hy
    · obtain ⟨_, a2, _⟩ := modify_fields k h (fun p => { p with status := process_status.STOPPED })
      simp only [Deque_Pop_PID, a2]
      exact List.mem_erase_of_ne hpne
  | S_SIGTERM =>
    simp only at hst
    subst hst
    unfold schedule_sleep_process
    dsimp only
    refine key (Deque_Pop_PID (modify k h (fun p => { p with status := process_status.ZOMBIE })).blocked_pcbs h).2
      (modify k h (fun p => { p with status := process_status.ZOMBIE })).stopped_pcbs
      (Deque_Push_Back (modify k h (fun p => { p with status := process_status.ZOMBIE })).zombie_pcbs h)
      ?_ ?_ ?_ ?_
    · intro y hy
      left
      obtain ⟨_, a2, _⟩ := modify_fields k h (fun p => { p with status := process_status.ZOMBIE })
      simp only [Deque_Pop_PID, a2] at hy
      exact List.mem_of_mem_erase hy
    · intro y hy
      left
      obtain ⟨_, _, a3, _⟩ := modify_fields k h (fun p => { p with status := process_status.ZOMBIE })
      simp only [a3] at hy
      exact hy
    · intro y hy
      obtain ⟨_, _, _, a4, _⟩ := modify_fields k h (fun p => { p with status := process_status.ZOMBIE })
      simp only [Deque_Push_Back, a4, List.mem_append, List.mem_singleton] at hy
      exact hy
    · obtain ⟨_, a2, _⟩ := modify_fields k h (fun p => { p with status := process_status.ZOMBIE })
      simp only [Deque_Pop_PID, a2]
      exact List.mem_erase_of_ne hpne
  | S_SIGCONT =>
    simp only at hst
    subst hst
    unfold schedule_sleep_process
    dsimp only
    refine key (Deque_Push_Back (modify k h (fun p => { p with status := process_status.BLOCKED })).blocked_pcbs h)
      (Deque_Pop_PID (modify k h (fun p => { p with status := process_status.BLOCKED })).stopped_pcbs h).2
      (modify k h (fun p => { p with status := process_status.BLOCKED })).zombie_pcbs ?_ ?_ ?_ ?_
    · intro y hy
      obtain ⟨_, a2, _⟩ := modify_fields k h (fun p => { p with status := process_status.BLOCKED })
      simp only [Deque_Push_Back, a2, List.mem_append, List.mem_singleton] at hy
      exact hy
    · intro y hy
      left
      obtain ⟨_, _, a3, _⟩ := modify_fields k h (fun p => { p with status := process_status.BLOCKED })
      simp only [Deque_Pop_PID, a3] at hy
      exact List.mem_of_mem_erase hy
    · intro y hy
      left
      obtain ⟨_, _, _, a4, _⟩ := modify_fields k h (fun p => { p with status := process_status.BLOCKED })
      simp only [a4] at hy
      exact hy
    · obtain ⟨_, a2, _⟩ := modify_fields k h (fun p => { p with status := process_status.BLOCKED })
      simp only [Deque_Push_Back, a2, List.mem_append, List.mem_singleton]
      constructor
      · intro e
        rcases e with e | e
        · exact e
        · exact absurd e hpne
      · intro e; exact Or.inl e

/-! ### `rm`: the freed chain -/

theorem pwrite_length (bytes : List Nat) : ∀ (pos : Nat) (data : List Nat),
    (pwrite data pos bytes).length = max data.length (pos + bytes.length) := by
  intro pos
  induction pos with
  | zero =>
    intro data
    simp only [pwrite, List.length_append, List.length_drop, Nat.zero_add]
    omega
  | succ n ih =>
    intro data
    cases data with
    | nil =>
      have := ih []
      simp only [pwrite, List.length_cons, List.length_nil] at this ⊢
      omega
    | cons d ds =>
      have := ih ds
      simp only [pwrite, List.length_cons] at this ⊢
      omega

theorem pwrite_getD (bytes : List Nat) : ∀ (pos : Nat) (data : List Nat) (i : Nat),
    (pwrite data pos bytes).getD i 0
      = if pos ≤ i ∧ i < pos + bytes.length then bytes.getD (i - pos) 0 else data.getD i 0 := by
  intro pos
  induction pos with
  | zero =>
    intro data i
    simp only [pwrite, Nat.zero_le, true_and, Nat.zero_add, Nat.sub_zero]
    by_cases hi : i < bytes.length
    · rw [if_pos hi]
      simp only [List.getD_eq_getElem?_getD]
      rw [List.getElem?_append_left hi]
    · rw [if_neg hi]
      simp only [List.getD_eq_getElem?_getD]
      rw [List.getElem?_append_right (by omega), List.getElem?_drop]
      congr 2
      omega
  | succ n ih =>
    intro data i
    cases data with
    | nil =>
      cases i with
      | zero => simp [pwrite]
      | succ j =>
        have := ih [] j
        simp only [pwrite, List.getD_cons_succ] at this ⊢
        rw [this]
        have e1 : (n + 1 ≤ j + 1 ∧ j + 1 < n + 1 + bytes.length) ↔ (n ≤ j ∧ j < n + bytes.length) := by
          omega
        have e2 : j + 1 - (n + 1) = j - n := by omega
        simp only [e1, e2, List.getD_nil]
    | cons d ds =>
      cases i with
      | zero => simp [pwrite]
      | succ j =>
        have := ih ds j
        simp only [pwrite, List.getD_cons_succ] at this ⊢
        rw [this]
        have e1 : (n + 1 ≤ j + 1 ∧ j + 1 < n + 1 + bytes.length) ↔ (n ≤ j ∧ j < n + bytes.length) := by
          omega
        have e2 : j + 1 - (n + 1) = j - n := by omega
        simp only [e1, e2]

theorem zero_on_pwrite_zeros (data : List Nat) (pos m lo n : Nat) (hz : zero_on data lo n) :
    zero_on (pwrite data pos (List.replicate m 0)) lo n := by
  obtain ⟨h1, h2⟩ := hz
  refine ⟨?_, ?_⟩
  · rw [pwrite_length]; omega
  · intro i hi1 hi2
    rw [pwrite_getD]
    split
    · simp [List.getD_eq_getElem?_getD, List.getElem?_replicate]
      split <;> rfl
    · exact h2 i hi1 hi2

theorem zero_on_written (data : List Nat) (pos m : Nat) :
    zero_on (pwrite data pos (List.replicate m 0)) pos m := by
  refine ⟨?_, ?_⟩
  · rw [pwrite_length, List.length_replicate]; omega
  · intro i hi1 hi2
    rw [pwrite_getD, List.length_replicate, if_pos ⟨hi1, hi2⟩]
    simp [List.getD_eq_getElem?_getD, List.getElem?_replicate]
    split <;> rfl

theorem pread_of_zero_on (data : List Nat) (lo n : Nat) (hz : zero_on data lo n) :
    pread data lo n = List.replicate n 0 := by
  obtain ⟨h1, h2⟩ := hz
  unfold pread
  apply List.ext_getElem
  · simp only [List.length_take, List.length_drop, List.length_replicate]
    omega
  · intro i hi1 hi2
    simp only [List.length_replicate] at hi2
    simp only [List.getElem_take, List.getElem_drop, List.getElem_replicate]
    have := h2 (lo + i) (by omega) (by omega)
    rw [List.getD_eq_getElem?_getD, List.getElem?_eq_getElem (by omega)] at this
    simpa using this
theorem fat_get_bounds (fat : List Nat) (i : Int) (x : Nat) (h : fat_get fat i = some x) :
    0 ≤ i ∧ i.toNat < fat.length := by
  unfold fat_get at h
  split at h
  · rename_i h0
    refine ⟨h0, ?_⟩
    by_contra hlt
    rw [List.getElem?_eq_none (by omega)] at h
    exact absurd h (by simp)
  · exact absurd h (by simp)

theorem fat_get_set_same (fat : List Nat) (i : Int) (v : Nat) (h0 : 0 ≤ i)
    (hlt : i.toNat < fat.length) : fat_get (fat.set i.toNat v) i = some v := by
  unfold fat_get
  rw [if_pos h0]
  simp [hlt]

theorem fat_get_set_ne (fat : List Nat) (i j : Int) (v : Nat) (h0 : 0 ≤ i) (hne : j ≠ i) :
    fat_get (fat.set i.toNat v) j = fat_get fat j := by
  unfold fat_get
  by_cases hj : 0 ≤ j
  · rw [if_pos hj, if_pos hj]
    have : i.toNat ≠ j.toNat := by omega
    rw [List.getElem?_set_ne this]
  · rw [if_neg hj, if_neg hj]

theorem fat_chain_nil (fat : List Nat) (fuel : Nat) (v : Int)
    (h : fat_chain fat fuel v = some []) : v = 0xFFFF := by
  cases fuel with
  | zero =>
    unfold fat_chain at h
    split at h
    · assumption
    · exact absurd h (by simp)
  | succ f =>
    unfold fat_chain at h
    split at h
    · assumption
    · split at h
      · exact absurd h (by simp)
      · simp at h

theorem fat_chain_cons (fat : List Nat) (fuel : Nat) (v b : Int) (c : List Int)
    (h : fat_chain fat fuel v = some (b :: c)) :
    b = v ∧ v ≠ 0xFFFF ∧ ∃ f next, fuel = f + 1 ∧ fat_get fat v = some next ∧
      fat_chain fat f (next : Nat) = some c := by
  cases fuel with
  | zero =>
    unfold fat_chain at h
    split at h <;> simp at h
  | succ f =>
    unfold fat_chain at h
    split at h
    · simp at h
    · rename_i hv
      split at h
      · exact absurd h (by simp)
      · rename_i next hnext
        simp only [Option.map_eq_some'] at h
        obtain ⟨c', hc', hcons⟩ := h
        simp only [List.cons.injEq] at hcons
        obtain ⟨e1, e2⟩ := hcons
        subst e2
        exact ⟨e1.symm, hv, f, next, rfl, hnext, hc'⟩

theorem fat_chain_congr (fat fat' : List Nat) : ∀ (fuel : Nat) (v : Int) (chain : List Int),
    fat_chain fat fuel v = some chain → (∀ b ∈ chain, fat_get fat' b = fat_get fat b) →
    fat_chain fat' fuel v = some chain := by
  intro fuel
  induction fuel with
  | zero =>
    intro v chain h _
    unfold fat_chain at h ⊢
    exact h
  | succ f ih =>
    intro v chain h hagree
    cases chain with
    | nil =>
      have hv := fat_chain_nil fat _ v h
      unfold fat_chain
      rw [if_pos hv]
    | cons b c =>
      obtain ⟨e1, hv, f', next, hf, hnext, hc⟩ := fat_chain_cons fat _ v b c h
      have hf' : f' = f := by omega
      subst hf'
      subst e1
      unfold fat_chain
      rw [if_neg hv, hagree b (List.mem_cons_self _ _), hnext]
      simp only
      rw [ih _ c hc (fun x hx => hagree x (List.mem_cons_of_mem _ hx))]
      rfl

theorem rm_loop_spec (bs : Int) (hbs : 0 ≤ bs) (chain : List Int) :
    ∀ (fuel0 fuel : Nat) (v : Int) (fat data : List Nat),
    fat_chain fat fuel0 v = some chain → chain.Nodup → (∀ b ∈ chain, 1 ≤ b) →
    chain.length ≤ fuel →
    ∃ fat' data', rm_loop bs fuel v fat data = some (fat', data') ∧
      (∀ b ∈ chain, fat_get fat' b = some 0) ∧
      (∀ j, j ∉ chain → fat_get fat' j = fat_get fat j) ∧
      (∀ b ∈ chain, zero_on data' (bs * (b - 1)).toNat bs.toNat) ∧
      (∀ lo n, zero_on data lo n → zero_on data' lo n) := by
  induction chain with
  | nil =>
    intro fuel0 fuel v fat data h _ _ _
    have hv := fat_chain_nil fat fuel0 v h
    refine ⟨fat, data, ?_, ?_, fun _ _ => rfl, ?_, fun _ _ hz => hz⟩
    · cases fuel with
      | zero => unfold rm_loop; rw [if_neg (by simp [hv])]
      | succ f => unfold rm_loop; rw [if_neg (by simp [hv])]
    · intro b hb; exact absurd hb (List.not_mem_nil b)
    · intro b hb; exact absurd hb (List.not_mem_nil b)
  | cons b c ih =>
    intro fuel0 fuel v fat data h hnd hpos hlen
    obtain ⟨e1, hv, f0, next, _, hnext, hc⟩ := fat_chain_cons fat fuel0 v b c h
    subst e1
    obtain ⟨hb0, hblt⟩ := fat_get_bounds fat b next hnext
    have hb1 : 1 ≤ b := hpos b (List.mem_cons_self _ _)
    have hbc : b ∉ c := (List.nodup_cons.mp hnd).1
    have hndc : c.Nodup := (List.nodup_cons.mp hnd).2
    cases fuel with
    | zero => simp at hlen
    | succ f =>
      have hoff : ¬ bs * (b - 1) < 0 := by
        have : 0 ≤ bs * (b - 1) := mul_nonneg hbs (by omega)
        omega
      have hset : fat_set fat b 0 = some (fat.set b.toNat 0) := by
        unfold fat_set
        rw [if_pos ⟨hb0, hblt⟩]
        rfl
      have hc1 : fat_chain (fat.set b.toNat 0) f0 (next : Nat) = some c := by
        apply fat_chain_congr fat _ _ _ _ hc
        intro x hx
        exact fat_get_set_ne fat b x 0 hb0 (fun e => hbc (e ▸ hx))
      obtain ⟨fat', data', hrm, hz1, hfr, hz2, hz3⟩ :=
        ih f0 f (next : Nat) (fat.set b.toNat 0)
          (pwrite data (bs * (b - 1)).toNat (List.replicate bs.toNat 0)) hc1 hndc
          (fun x hx => hpos x (List.mem_cons_of_mem _ hx))
          (by simp only [List.length_cons] at hlen; omega)
      refine ⟨fat', data', ?_, ?_, ?_, ?_, ?_⟩
      · unfold rm_loop
        rw [if_pos hv, if_neg hoff, hnext]
        simp only
        rw [hset]
        exact hrm
      · intro x hx
        rcases List.mem_cons.mp hx with e | e
        · rw [e, hfr b hbc]
          exact fat_get_set_same fat b 0 hb0 hblt
        · exact hz1 x e
      · intro j hj
        have hjb : j ≠ b := fun e => hj (e ▸ List.mem_cons_self _ _)
        have hjc : j ∉ c := fun e => hj (List.mem_cons_of_mem _ e)
        rw [hfr j hjc]
        exact fat_get_set_ne fat b j 0 hb0 hjb
      · intro x hx
        rcases List.mem_cons.mp hx with e | e
        · rw [e]
          exact hz3 _ _ (zero_on_written data _ _)
        · exact hz2 x e
      · intro lo n hz
        exact hz3 lo n (zero_on_pwrite_zeros data _ _ lo n hz)
theorem find_in_block_found (data : List Nat) (base : Nat) (fname : List Nat) (pos : Nat)
    (e : directory_entry) : ∀ (n i : Nat),
    find_in_block data base fname n i = some (some (pos, e)) →
    e = decode_entry (pread data pos 64) ∧ strcmp_eq e.name fname = true := by
  intro n
  induction n with
  | zero => intro i h; simp [find_in_block] at h
  | succ n ih =>
    intro i h
    unfold find_in_block at h
    simp only at h
    split at h
    · exact absurd h (by simp)
    · split at h
      · rename_i hm
        simp only [Option.some.injEq, Prod.mk.injEq] at h
        obtain ⟨h1, h2⟩ := h
        subst h1
        subst h2
        exact ⟨rfl, hm⟩
      · exact ih (i + 1) h

theorem find_file_loop_found (fs : FS) (fname : List Nat) (r : directory_entry) (p : Int)
    (e : directory_entry) : ∀ (fuel : Nat) (v : Int),
    find_file_loop fs fname r fuel v = some (p, e) →
    p = -1 ∨ ∃ pos : Nat, p = (fs.fat_size : Int) + pos ∧ e = decode_entry (pread fs.data pos 64) ∧
      strcmp_eq e.name fname = true := by
  intro fuel
  induction fuel with
  | zero =>
    intro v h
    unfold find_file_loop at h
    split at h
    · exact absurd h (by simp)
    · simp only [Option.some.injEq, Prod.mk.injEq] at h
      exact Or.inl h.1.symm
  | succ fuel ih =>
    intro v h
    unfold find_file_loop at h
    split at h
    · split at h
      · exact absurd h (by simp)
      · split at h
        · exact absurd h (by simp)
        · rename_i pos0 e0 hin
          simp only [Option.some.injEq, Prod.mk.injEq] at h
          obtain ⟨h1, h2⟩ := h
          subst h2
          obtain ⟨he, hm⟩ := find_in_block_found fs.data _ fname pos0 e0 _ 0 hin
          exact Or.inr ⟨pos0, h1.symm, he, hm⟩
        · split at h
          · exact absurd h (by simp)
          · exact ih _ h
    · simp only [Option.some.injEq, Prod.mk.injEq] at h
      exact Or.inl h.1.symm

theorem decode_zero_name (name : List Nat) (hname : cstr name ≠ []) :
    strcmp_eq (decode_entry (List.replicate 64 0)).name name = false := by
  have h0 : cstr (decode_entry (List.replicate 64 0)).name = [] := by decide
  unfold strcmp_eq
  rw [h0]
  cases hc : cstr name with
  | nil => exact absurd hc hname
  | cons a t => rfl

/-! ### `touch_single` on a file that exists -/

theorem pread_length (data : List Nat) (pos n : Nat) :
    (pread data pos n).length = min n (data.length - pos) := by
  simp [pread]

theorem find_in_block_none_len (data : List Nat) (base : Nat) (fname : List Nat) :
    ∀ (n i : Nat), find_in_block data base fname n i = some none →
      n = 0 ∨ base + 64 * (i + n) ≤ data.length := by
  intro n
  induction n with
  | zero => intro i _; exact Or.inl rfl
  | succ n ih =>
    intro i h
    unfold find_in_block at h
    simp only at h
    split at h
    · exact absurd h (by simp)
    · rename_i hlen
      split at h
      · exact absurd h (by simp)
      · right
        rcases ih (i + 1) h with h0 | h1
        · subst h0
          rw [pread_length] at hlen
          omega
        · omega

theorem find_in_block_pos (data : List Nat) (base : Nat) (fname : List Nat) (pos : Nat)
    (e : directory_entry) : ∀ (n i : Nat),
    find_in_block data base fname n i = some (some (pos, e)) →
      ∃ j, i ≤ j ∧ j < i + n ∧ pos = base + 64 * j := by
  intro n
  induction n with
  | zero => intro i h; simp [find_in_block] at h
  | succ n ih =>
    intro i h
    unfold find_in_block at h
    simp only at h
    split at h
    · exact absurd h (by simp)
    · split at h
      · simp only [Option.some.injEq, Prod.mk.injEq] at h
        exact ⟨i, le_refl _, by omega, h.1.symm⟩
      · obtain ⟨j, h1, h2, h3⟩ := ih (i + 1) h
        exact ⟨j, by omega, by omega, h3⟩

theorem touch_scan_of_find (data : List Nat) (base : Nat) (fname : List Nat) :
    ∀ (n i : Nat) (cur : List Nat), base + 64 * (i + n) ≤ data.length →
      (∀ r, find_in_block data base fname n i = some (some r) →
        (touch_scan data fname n (base + 64 * i) cur).1 = true) ∧
      (find_in_block data base fname n i = some none →
        (touch_scan data fname n (base + 64 * i) cur).1 = false) := by
  intro n
  induction n with
  | zero =>
    intro i cur _
    constructor
    · intro r h; simp [find_in_block] at h
    · intro _; simp [touch_scan]
  | succ n ih =>
    intro i cur hb
    have hlen : (pread data (base + 64 * i) 64).length = 64 := by
      rw [pread_length]; omega
    have hname : (decode_entry (pread data (base + 64 * i) 64 ++
        cur.drop (pread data (base + 64 * i) 64).length)).name
        = (decode_entry (pread data (base + 64 * i) 64)).name := by
      simp only [decode_entry]
      rw [List.take_append_of_le_length (by omega)]
    have hnext := ih (i + 1) (pread data (base + 64 * i) 64 ++
        cur.drop (pread data (base + 64 * i) 64).length) (by omega)
    have hpos : base + 64 * i + (pread data (base + 64 * i) 64).length = base + 64 * (i + 1) := by
      rw [hlen]; ring
    constructor
    · intro r h
      unfold find_in_block at h
      simp only at h
      unfold touch_scan
      simp only [hname]
      split at h
      · exact absurd h (by simp)
      · split at h
        · rename_i hm
          simp [hm]
        · rename_i hm
          simp only [hm, Bool.false_eq_true, if_false]
          rw [hpos]
          exact hnext.1 r h
    · intro h
      unfold find_in_block at h
      simp only at h
      unfold touch_scan
      simp only [hname]
      split at h
      · exact absurd h (by simp)
      · split at h
        · exact absurd h (by simp)
        · rename_i hm
          simp only [hm, Bool.false_eq_true, if_false]
          rw [hpos]
          exact hnext.2 h
theorem touch_find_loop_found (fs : FS) (fname : List Nat) (r : directory_entry) (pos : Int)
    (e : directory_entry) (hbs : 0 < fs.block_size) (h64 : fs.block_size % 64 = 0)
    (hpos : pos ≠ -1)
    (hblock : (pread fs.data
        ((pos - fs.fat_size).toNat / fs.block_size.toNat * fs.block_size.toNat)
        fs.block_size.toNat).length = fs.block_size.toNat) :
    ∀ (fuel : Nat) (v : Int) (p : Nat) (cur : List Nat),
      find_file_loop fs fname r fuel v = some (pos, e) →
      ∃ b c, touch_find_loop fs fname fuel v p cur = some (true, b, c) := by
  have hn : 64 * (fs.block_size / 64).toNat = fs.block_size.toNat := by omega
  intro fuel
  induction fuel with
  | zero =>
    intro v p cur h
    unfold find_file_loop at h
    split at h
    · exact absurd h (by simp)
    · simp only [Option.some.injEq, Prod.mk.injEq] at h
      exact absurd h.1.symm hpos
  | succ fuel ih =>
    intro v p cur h
    unfold find_file_loop at h
    unfold touch_find_loop
    split at h
    · rename_i hv
      rw [if_pos hv]
      cases hbp : block_pos fs v 0 with
      | none => rw [hbp] at h; exact absurd h (by simp)
      | some base =>
        rw [hbp] at h
        simp only at h ⊢
        cases hfi : find_in_block fs.data base fname (fs.block_size / 64).toNat 0 with
        | none => rw [hfi] at h; exact absurd h (by simp)
        | some o =>
          rw [hfi] at h
          cases o with
          | some pe =>
            obtain ⟨pos0, e0⟩ := pe
            simp only [Option.some.injEq, Prod.mk.injEq] at h
            obtain ⟨j, _, hj, hp0⟩ := find_in_block_pos fs.data base fname pos0 e0 _ 0 hfi
            have hbase : ∃ m : Nat, base = fs.block_size.toNat * m := by
              unfold block_pos at hbp
              simp only at hbp
              split at hbp
              · rename_i hrel
                simp only [Option.some.injEq] at hbp
                have hv1 : 0 ≤ v - 1 := by
                  by_contra hc
                  have : fs.block_size * (v - 1) < 0 :=
                    Int.mul_neg_of_pos_of_neg hbs (by omega)
                  omega
                refine ⟨(v - 1).toNat, ?_⟩
                rw [← hbp]
                have h1 : fs.block_size = (fs.block_size.toNat : Int) := by omega
                have h2 : v - 1 = ((v - 1).toNat : Int) := by omega
                rw [add_zero]
                conv_lhs => rw [h1, h2]
                rw [← Int.natCast_mul, Int.toNat_natCast]
              · exact absurd hbp (by simp)
            obtain ⟨m, hm⟩ := hbase
            have hrel : (pos - fs.fat_size).toNat = fs.block_size.toNat * m + 64 * j := by
              rw [← h.1, hp0, hm]; omega
            have hdiv : (pos - fs.fat_size).toNat / fs.block_size.toNat * fs.block_size.toNat
                = base := by
              rw [hrel, hm]
              have hlt : 64 * j < fs.block_size.toNat := by omega
              have hpos' : 0 < fs.block_size.toNat := by omega
              rw [Nat.mul_add_div hpos', Nat.div_eq_of_lt hlt, add_zero, Nat.mul_comm]
            rw [hdiv, pread_length] at hblock
            have hwhole : base + 64 * (0 + (fs.block_size / 64).toNat) ≤ fs.data.length := by
              omega
            have hts := (touch_scan_of_find fs.data base fname _ 0 cur hwhole).1 _ hfi
            rw [if_neg (by rw [pread_length]; omega)]
            simp only [Nat.mul_zero, Nat.add_zero] at hts
            rcases hsc : touch_scan fs.data fname (fs.block_size / 64).toNat base cur with ⟨b, c⟩
            rw [hsc] at hts
            simp only at hts
            subst hts
            exact ⟨_, _, rfl⟩
          | none =>
            simp only at h
            have hwhole : base + 64 * (0 + (fs.block_size / 64).toNat) ≤ fs.data.length := by
              rcases find_in_block_none_len fs.data base fname _ 0 hfi with h0 | h1
              · omega
              · exact h1
            have hts := (touch_scan_of_find fs.data base fname _ 0 cur hwhole).2 hfi
            rw [if_neg (by rw [pread_length]; omega)]
            simp only [Nat.mul_zero, Nat.add_zero] at hts
            rcases hsc : touch_scan fs.data fname (fs.block_size / 64).toNat base cur with ⟨b, c⟩
            rw [hsc] at hts
            simp only at hts
            subst hts
            simp only
            cases hfg : fat_get fs.fat v with
            | none => rw [hfg] at h; exact absurd h (by simp)
            | some next =>
              rw [hfg] at h
              simp only at h ⊢
              exact ih _ _ _ h
    · simp only [Option.some.injEq, Prod.mk.injEq] at h
      exact absurd h.1.symm hpos

/-! ### The linked deque and the list of its payloads -/

theorem store_same (m : Nat → Option Linked.DequeNode) (a : Nat) (v : Option Linked.DequeNode) :
    Linked.store m a v a = v := by
  simp [Linked.store]

theorem store_other (m : Nat → Option Linked.DequeNode) (a b : Nat) (v : Option Linked.DequeNode)
    (h : b ≠ a) : Linked.store m a v b = m b := by
  simp [Linked.store, h]

theorem write_of_cell (m : Nat → Option Linked.DequeNode) (a : Nat) (f : Linked.DequeNode → Linked.DequeNode)
    (n : Linked.DequeNode) (h : m a = some n) : Linked.write m a f = some (Linked.store m a (some (f n))) := by
  simp [Linked.write, h]

theorem first_append (P Q : List (Nat × Int)) (nxt : Option Nat) :
    Linked.first (P ++ Q) nxt = Linked.first P (Linked.first Q nxt) := by
  cases P <;> rfl

theorem last_cons (c : Nat × Int) (P : List (Nat × Int)) (prev : Option Nat) :
    Linked.last (c :: P) prev = Linked.last P (some c.1) := by
  cases P with
  | nil => rfl
  | cons d P =>
    cases h : (d :: P).getLast? with
    | none => simp at h
    | some e => simp [Linked.last, List.getLast?_cons_cons, h]

theorem last_append_singleton (P : List (Nat × Int)) (c : Nat × Int) (prev : Option Nat) :
    Linked.last (P ++ [c]) prev = some c.1 := by
  simp [Linked.last]

theorem seg_congr (m m' : Nat → Option Linked.DequeNode) : ∀ (cells : List (Nat × Int))
    (prev nxt : Option Nat), (∀ c ∈ cells, m' c.1 = m c.1) →
    Linked.seg m prev cells nxt → Linked.seg m' prev cells nxt := by
  intro cells
  induction cells with
  | nil => intro _ _ _ _; trivial
  | cons c rest ih =>
    intro prev nxt hm hs
    obtain ⟨h1, h2⟩ := hs
    refine ⟨?_, ih (some c.1) nxt (fun d hd => hm d (List.mem_cons_of_mem _ hd)) h2⟩
    rw [hm c (List.mem_cons_self _ _)]
    exact h1

theorem seg_allocated (m : Nat → Option Linked.DequeNode) : ∀ (cells : List (Nat × Int))
    (prev nxt : Option Nat), Linked.seg m prev cells nxt → ∀ c ∈ cells, m c.1 ≠ none := by
  intro cells
  induction cells with
  | nil => intro _ _ _ c hc; simp at hc
  | cons d rest ih =>
    intro prev nxt hs c hc
    obtain ⟨h1, h2⟩ := hs
    rcases List.mem_cons.mp hc with h | h
    · subst h; rw [h1]; simp
    · exact ih _ _ h2 c h

theorem seg_append (m : Nat → Option Linked.DequeNode) : ∀ (P Q : List (Nat × Int))
    (prev nxt : Option Nat),
    Linked.seg m prev (P ++ Q) nxt ↔ Linked.seg m prev P (Linked.first Q nxt) ∧ Linked.seg m (Linked.last P prev) Q nxt := by
  intro P
  induction P with
  | nil => intro Q prev nxt; simp [Linked.seg, Linked.last]
  | cons c P ih =>
    intro Q prev nxt
    rw [last_cons]
    show (m c.1 = some { pcb := c.2, next := Linked.first (P ++ Q) nxt, prev := prev } ∧
      Linked.seg m (some c.1) (P ++ Q) nxt) ↔ _
    rw [ih Q (some c.1) nxt, first_append]
    simp only [Linked.seg]
    tauto

theorem represents_fresh (m : Nat → Option Linked.DequeNode) (dq : Linked.Deque)
    (cells : List (Nat × Int)) (h : Linked.represents m dq cells) (node : Nat)
    (hfresh : m node = none) : ∀ c ∈ cells, c.1 ≠ node := by
  intro c hc he
  exact seg_allocated m cells _ _ h.2.1 c hc (he ▸ hfresh)

theorem last_cons_indep (c : Nat × Int) (P : List (Nat × Int)) (p q : Option Nat) :
    Linked.last (c :: P) p = Linked.last (c :: P) q := by
  rw [last_cons, last_cons]

theorem push_front_represents (m : Nat → Option Linked.DequeNode) (dq : Linked.Deque)
    (cells : List (Nat × Int)) (h : Linked.represents m dq cells) (node : Nat)
    (junk : Linked.DequeNode) (payload : Int) (hfresh : m node = none) :
    ∃ m' dq', Linked.Deque_Push_Front m dq node junk payload = some (m', dq') ∧
      Linked.represents m' dq' ((node, payload) :: cells) ∧
      ∀ b, b ≠ node → (∀ c ∈ cells, c.1 ≠ b) → m' b = m b := by
  have hne := represents_fresh m dq cells h node hfresh
  obtain ⟨hnd, hseg, hf, hb, hn⟩ := h
  unfold Linked.Deque_Push_Front
  rw [write_of_cell _ node _ junk (store_same _ _ _)]
  simp only [Option.bind_eq_bind, Option.some_bind]
  rw [write_of_cell _ node _ _ (store_same _ _ _)]
  simp only [Option.some_bind]
  cases cells with
  | nil =>
    have hn0 : dq.num_elements = 0 := by simpa using hn
    rw [if_neg (by simp [hn0])]
    rw [write_of_cell _ node _ _ (store_same _ _ _)]
    simp only [Option.some_bind]
    refine ⟨_, _, rfl, ⟨by simp, ⟨store_same _ _ _, trivial⟩, rfl, rfl, by simp [hn0]⟩, ?_⟩
    intro b hb _
    simp [Linked.store, hb]
  | cons c rest =>
    have hn1 : dq.num_elements ≠ 0 := by rw [hn]; simp; omega
    obtain ⟨hc, hrest⟩ := hseg
    have hcn : c.1 ≠ node := hne c (List.mem_cons_self _ _)
    rw [if_pos hn1]
    simp only [hf, Linked.first, Option.some_bind]
    rw [write_of_cell _ c.1 _ { pcb := c.2, next := Linked.first rest none, prev := none }
      (by simp [Linked.store, hcn, hc])]
    simp only [Option.some_bind]
    rw [write_of_cell _ node _ { pcb := payload, next := junk.next, prev := none }
      (by simp [Linked.store, Ne.symm hcn])]
    simp only [Option.some_bind]
    refine ⟨_, _, rfl, ⟨?_, ⟨?_, ?_, ?_⟩, rfl, ?_, ?_⟩, ?_⟩
    · simp only [List.map_cons, List.nodup_cons]
      refine ⟨?_, by simpa using hnd⟩
      intro hmem
      rcases List.mem_cons.mp hmem with h1 | h1
      · exact hcn h1.symm
      · obtain ⟨d, hd, hd1⟩ := List.mem_map.mp h1
        exact hne d (List.mem_cons_of_mem _ hd) hd1
    · simp [Linked.store, Linked.first]
    · simp [Linked.store, hcn]
    · refine seg_congr m _ rest _ _ ?_ hrest
      intro d hd
      have h1 : d.1 ≠ node := hne d (List.mem_cons_of_mem _ hd)
      have h2 : d.1 ≠ c.1 := by
        intro he
        simp only [List.map_cons, List.nodup_cons] at hnd
        exact hnd.1 (he ▸ List.mem_map_of_mem (fun c => c.1) hd)
      simp [Linked.store, h1, h2]
    · show dq.back = Linked.last ((node, payload) :: c :: rest) none
      rw [hb, last_cons ((node, payload))]
      exact last_cons_indep c rest _ _
    · simp [hn]
    · intro b hb1 hb2
      have : b ≠ c.1 := fun he => hb2 c (List.mem_cons_self _ _) he.symm
      simp [Linked.store, hb1, this]
theorem first_concat_indep (P : List (Nat × Int)) (c : Nat × Int) (p q : Option Nat) :
    Linked.first (P ++ [c]) p = Linked.first (P ++ [c]) q := by
  cases P <;> rfl

theorem nodup_concat (P : List (Nat × Int)) (c : Nat × Int)
    (h : ((P ++ [c]).map (fun c => c.1)).Nodup) :
    (P.map (fun c => c.1)).Nodup ∧ ∀ d ∈ P, d.1 ≠ c.1 := by
  rw [List.map_append, List.nodup_append] at h
  refine ⟨h.1, ?_⟩
  intro d hd he
  exact h.2.2 (List.mem_map_of_mem (fun c => c.1) hd) (by simp [he])

theorem push_back_represents (m : Nat → Option Linked.DequeNode) (dq : Linked.Deque)
    (cells : List (Nat × Int)) (h : Linked.represents m dq cells) (node : Nat)
    (junk : Linked.DequeNode) (payload : Int) (hfresh : m node = none) :
    ∃ m' dq', Linked.Deque_Push_Back m dq node junk payload = some (m', dq') ∧
      Linked.represents m' dq' (cells ++ [(node, payload)]) ∧
      ∀ b, b ≠ node → (∀ c ∈ cells, c.1 ≠ b) → m' b = m b := by
  have hne := represents_fresh m dq cells h node hfresh
  obtain ⟨hnd, hseg, hf, hb, hn⟩ := h
  unfold Linked.Deque_Push_Back
  rw [write_of_cell _ node _ junk (store_same _ _ _)]
  simp only [Option.bind_eq_bind, Option.some_bind]
  rw [write_of_cell _ node _ _ (store_same _ _ _)]
  simp only [Option.some_bind]
  rcases List.eq_nil_or_concat cells with hnil | ⟨P, c, hcells⟩
  · subst hnil
    have hn0 : dq.num_elements = 0 := by simpa using hn
    rw [if_pos hn0]
    rw [write_of_cell _ node _ _ (store_same _ _ _)]
    simp only [Option.some_bind]
    refine ⟨_, _, rfl, ⟨by simp, ⟨store_same _ _ _, trivial⟩, rfl, rfl, by simp [hn0]⟩, ?_⟩
    intro b hb _
    simp [Linked.store, hb]
  · rw [List.concat_eq_append] at hcells
    subst hcells
    have hn1 : dq.num_elements ≠ 0 := by rw [hn]; simp; omega
    obtain ⟨hndP, hPc⟩ := nodup_concat P c hnd
    rw [seg_append] at hseg
    obtain ⟨hsP, hc, _⟩ := hseg
    have hcn : c.1 ≠ node := hne c (by simp)
    rw [if_neg hn1]
    simp only [hb, last_append_singleton, Option.some_bind]
    rw [write_of_cell _ c.1 _ { pcb := c.2, next := Linked.first [] none, prev := Linked.last P none }
      (by simp [Linked.store, hcn, hc])]
    simp only [Option.some_bind]
    rw [write_of_cell _ node _ { pcb := payload, next := none, prev := junk.prev }
      (by simp [Linked.store, Ne.symm hcn])]
    simp only [Option.some_bind]
    refine ⟨_, _, rfl, ⟨?_, ?_, ?_, ?_, ?_⟩, ?_⟩
    · rw [List.map_append, List.nodup_append]
      refine ⟨hnd, by simp, ?_⟩
      intro a ha ha2
      simp only [List.map_cons, List.map_nil, List.mem_singleton] at ha2
      obtain ⟨d, hd, hd1⟩ := List.mem_map.mp ha
      exact hne d hd (hd1.trans ha2)
    · rw [seg_append, seg_append]
      refine ⟨⟨?_, ?_, trivial⟩, ?_, trivial⟩
      · refine seg_congr m _ P _ _ ?_ hsP
        intro d hd
        have h1 : d.1 ≠ node := hne d (by simp [hd])
        have h2 : d.1 ≠ c.1 := hPc d hd
        simp [Linked.store, h1, h2]
      · simp [Linked.store, hcn, Linked.first]
      · simp [Linked.store, last_append_singleton, Linked.first]
    · show dq.front = _
      rw [hf, first_append (P ++ [c])]
      exact first_concat_indep P c _ _
    · show some node = _
      rw [last_append_singleton]
    · simp [hn]; ring
    · intro b hb1 hb2
      have : b ≠ c.1 := fun he => hb2 c (by simp) he.symm
      simp [Linked.store, hb1, this]
theorem pop_front_nil (m : Nat → Option Linked.DequeNode) (dq : Linked.Deque)
    (h : Linked.represents m dq []) :
    Linked.Deque_Pop_Front m dq = some (false, none, m, dq) := by
  obtain ⟨_, _, hf, _, _⟩ := h
  unfold Linked.Deque_Pop_Front
  rw [hf]
  rfl

theorem pop_front_cons (m : Nat → Option Linked.DequeNode) (dq : Linked.Deque)
    (c : Nat × Int) (rest : List (Nat × Int)) (h : Linked.represents m dq (c :: rest)) :
    ∃ m' dq', Linked.Deque_Pop_Front m dq = some (true, some c.2, m', dq') ∧
      Linked.represents m' dq' rest ∧ m' c.1 = none ∧
      ∀ b, (∀ d ∈ c :: rest, d.1 ≠ b) → m' b = m b := by
  obtain ⟨hnd, hseg, hf, hb, hn⟩ := h
  obtain ⟨hc, hrest⟩ := hseg
  simp only [List.map_cons, List.nodup_cons] at hnd
  obtain ⟨hcr, hndr⟩ := hnd
  unfold Linked.Deque_Pop_Front
  rw [hf]
  simp only [Linked.first]
  cases rest with
  | nil =>
    have hn1 : dq.num_elements = 1 := by simpa using hn
    simp only [if_pos hn1, Option.bind_eq_bind, Option.some_bind, hc]
    refine ⟨_, _, rfl, ⟨by simp, trivial, rfl, rfl, by simp [hn1]⟩, store_same _ _ _, ?_⟩
    intro b hb1
    have : b ≠ c.1 := fun he => hb1 c (by simp) he.symm
    simp [Linked.store, this]
  | cons d rest =>
    have hn1 : dq.num_elements ≠ 1 := by rw [hn]; simp; omega
    obtain ⟨hd, hrest⟩ := hrest
    have hdc : d.1 ≠ c.1 := by
      intro he
      exact hcr (by simp [he])
    simp only [if_neg hn1, Option.bind_eq_bind, Option.some_bind, hc, Linked.first]
    rw [write_of_cell _ d.1 _ _ hd]
    simp only [Option.some_bind]
    rw [show Linked.store m d.1 _ c.1 = m c.1 from store_other _ _ _ _ (Ne.symm hdc), hc]
    simp only [Option.some_bind]
    refine ⟨_, _, rfl, ⟨hndr, ⟨?_, ?_⟩, rfl, ?_, ?_⟩, store_same _ _ _, ?_⟩
    · simp [Linked.store, hdc]
    · refine seg_congr m _ rest _ _ ?_ hrest
      intro e he
      have h1 : e.1 ≠ c.1 := by
        intro h2
        exact hcr (by simp only [List.map_cons, List.mem_cons]; right; rw [← h2]
                      exact List.mem_map_of_mem (fun c => c.1) he)
      have h2 : e.1 ≠ d.1 := by
        intro h2
        simp only [List.map_cons, List.nodup_cons] at hndr
        exact hndr.1 (h2 ▸ List.mem_map_of_mem (fun c => c.1) he)
      simp [Linked.store, h1, h2]
    · show dq.back = _
      rw [hb, last_cons]
      exact last_cons_indep d rest _ _
    · simp [hn]
    · intro b hb1
      have h1 : b ≠ c.1 := fun he => hb1 c (by simp) he.symm
      have h2 : b ≠ d.1 := fun he => hb1 d (by simp) he.symm
      simp [Linked.store, h1, h2]
theorem pop_back_nil (m : Nat → Option Linked.DequeNode) (dq : Linked.Deque)
    (h : Linked.represents m dq []) :
    Linked.Deque_Pop_Back m dq = some (false, none, m, dq) := by
  obtain ⟨_, _, _, _, hn⟩ := h
  have hn0 : dq.num_elements = 0 := by simpa using hn
  unfold Linked.Deque_Pop_Back
  rw [if_pos hn0]

theorem pop_back_concat (m : Nat → Option Linked.DequeNode) (dq : Linked.Deque)
    (P : List (Nat × Int)) (c : Nat × Int) (h : Linked.represents m dq (P ++ [c])) :
    ∃ m' dq', Linked.Deque_Pop_Back m dq = some (true, some c.2, m', dq') ∧
      Linked.represents m' dq' P ∧ m' c.1 = none ∧
      ∀ b, (∀ d ∈ P ++ [c], d.1 ≠ b) → m' b = m b := by
  obtain ⟨hnd, hseg, hf, hb, hn⟩ := h
  obtain ⟨hndP, hPc⟩ := nodup_concat P c hnd
  rw [seg_append] at hseg
  obtain ⟨hsP, hc, _⟩ := hseg
  have hn0 : dq.num_elements ≠ 0 := by rw [hn]; simp; omega
  unfold Linked.Deque_Pop_Back
  rw [if_neg hn0, hb, last_append_singleton]
  simp only [Option.bind_eq_bind, Option.some_bind]
  rcases List.eq_nil_or_concat P with hnil | ⟨Q, p, hP⟩
  · subst hnil
    have hn1 : dq.num_elements = 1 := by simpa using hn
    simp only [if_pos hn1, Option.some_bind, hc]
    refine ⟨_, _, rfl, ⟨by simp, trivial, rfl, rfl, by simp [hn1]⟩, store_same _ _ _, ?_⟩
    intro b hb1
    have : b ≠ c.1 := fun he => hb1 c (by simp) he.symm
    simp [Linked.store, this]
  · rw [List.concat_eq_append] at hP
    subst hP
    have hn1 : dq.num_elements ≠ 1 := by rw [hn]; simp; omega
    obtain ⟨hndQ, hQp⟩ := nodup_concat Q p hndP
    rw [seg_append] at hsP
    obtain ⟨hsQ, hp, _⟩ := hsP
    have hpc : p.1 ≠ c.1 := hPc p (by simp)
    rw [last_append_singleton] at hc
    simp only [if_neg hn1, Option.some_bind, hc]
    rw [write_of_cell _ p.1 _ _ hp]
    simp only [Option.some_bind]
    rw [show Linked.store m p.1 _ c.1 = m c.1 from store_other _ _ _ _ (Ne.symm hpc), hc]
    simp only [Option.some_bind]
    refine ⟨_, _, rfl, ⟨hndP, ?_, ?_, ?_, ?_⟩, store_same _ _ _, ?_⟩
    · rw [seg_append]
      refine ⟨?_, ?_, trivial⟩
      · refine seg_congr m _ Q _ _ ?_ hsQ
        intro e he
        have h1 : e.1 ≠ c.1 := hPc e (by simp [he])
        have h2 : e.1 ≠ p.1 := hQp e he
        simp [Linked.store, h1, h2]
      · simp [Linked.store, hpc, Linked.first]
    · show dq.front = _
      rw [hf, first_append]
      exact first_concat_indep Q p _ _
    · show some p.1 = _
      rw [last_append_singleton]
    · simp [hn]; ring
    · intro b hb1
      have h1 : b ≠ c.1 := fun he => hb1 c (by simp) he.symm
      have h2 : b ≠ p.1 := fun he => hb1 p (by simp) he.symm
      simp [Linked.store, h1, h2]
theorem pop_pcb_represents (m : Nat → Option Linked.DequeNode) (dq : Linked.Deque)
    (P : List (Nat × Int)) (c : Nat × Int) (S : List (Nat × Int))
    (h : Linked.represents m dq (P ++ c :: S)) :
    ∃ m' dq', Linked.Deque_Pop_Pcb m dq c.1 = some (true, m', dq') ∧
      Linked.represents m' dq' (P ++ S) ∧ m' c.1 = none ∧
      ∀ b, (∀ d ∈ P ++ c :: S, d.1 ≠ b) → m' b = m b := by
  have h0 := h
  obtain ⟨hnd, hseg, hf, hb, hn⟩ := h
  rw [seg_append] at hseg
  obtain ⟨hsP, hc, hsS⟩ := hseg
  have hfront : ∃ x, dq.front = some x := by
    rw [hf]
    cases P with
    | nil => exact ⟨_, rfl⟩
    | cons d P => exact ⟨_, rfl⟩
  obtain ⟨x, hx⟩ := hfront
  unfold Linked.Deque_Pop_Pcb
  rw [hx]
  simp only [Option.bind_eq_bind, hc, Option.some_bind]
  rcases List.eq_nil_or_concat P with hnil | ⟨Q, p, hP⟩
  · subst hnil
    obtain ⟨m', dq', hop, hrep, hfree, hframe⟩ := pop_front_cons m dq c S h0
    simp only [Linked.last, List.getLast?_nil, hop, Option.some_bind]
    exact ⟨m', dq', rfl, hrep, hfree, hframe⟩
  · rw [List.concat_eq_append] at hP
    subst hP
    rw [last_append_singleton]
    cases S with
    | nil =>
      obtain ⟨m', dq', hop, hrep, hfree, hframe⟩ := pop_back_concat m dq (Q ++ [p]) c h0
      simp only [Linked.first, hop, Option.some_bind]
      refine ⟨m', dq', rfl, ?_, hfree, hframe⟩
      rw [List.append_nil]
      exact hrep
    | cons s S =>
      obtain ⟨hs, hsS⟩ := hsS
      rw [seg_append] at hsP
      obtain ⟨hsQ, hp, _⟩ := hsP
      have hnd2 : ((Q ++ [p]).map (fun c => c.1) ++ (c :: s :: S).map (fun c => c.1)).Nodup := by
        rw [← List.map_append]; exact hnd
      rw [List.nodup_append] at hnd2
      obtain ⟨hndP, hndS, hdisj⟩ := hnd2
      obtain ⟨hndQ, hQp⟩ := nodup_concat Q p hndP
      simp only [List.map_cons, List.nodup_cons, List.mem_cons, not_or] at hndS
      obtain ⟨⟨hcs, hcS⟩, hsS', hndS'⟩ := hndS
      have hpc : p.1 ≠ c.1 := fun he =>
        hdisj (List.mem_map_of_mem (fun c => c.1) (show p ∈ Q ++ [p] by simp)) (by simp [he])
      have hps : p.1 ≠ s.1 := fun he =>
        hdisj (List.mem_map_of_mem (fun c => c.1) (show p ∈ Q ++ [p] by simp)) (by simp [he])
      have hQ : ∀ e ∈ Q, e.1 ≠ c.1 ∧ e.1 ≠ s.1 ∧ e.1 ≠ p.1 := by
        intro e he
        have hm : e.1 ∈ (Q ++ [p]).map (fun c => c.1) :=
          List.mem_map_of_mem (fun c => c.1) (show e ∈ Q ++ [p] by simp [he])
        exact ⟨fun h1 => hdisj hm (by simp [h1]), fun h1 => hdisj hm (by simp [h1]), hQp e he⟩
      have hS : ∀ e ∈ S, e.1 ≠ c.1 ∧ e.1 ≠ s.1 ∧ e.1 ≠ p.1 := by
        intro e he
        have hm : e.1 ∈ S.map (fun c => c.1) := List.mem_map_of_mem (fun c => c.1) he
        refine ⟨fun h1 => hcS (h1 ▸ hm), fun h1 => hsS' (h1 ▸ hm), fun h1 => ?_⟩
        exact hdisj (List.mem_map_of_mem (fun c => c.1) (show p ∈ Q ++ [p] by simp))
          (by simp only [List.map_cons, List.mem_cons]; right; right; rw [← h1]; exact hm)
      simp only [Linked.first]
      rw [write_of_cell _ p.1 _ _ hp]
      simp only [Option.some_bind]
      rw [write_of_cell _ s.1 _ { pcb := s.2, next := Linked.first S none, prev := some c.1 }
        (by rw [store_other _ _ _ _ (Ne.symm hps)]; exact hs)]
      simp only [Option.some_bind]
      refine ⟨_, _, rfl, ⟨?_, ?_, ?_, ?_, ?_⟩, store_same _ _ _, ?_⟩
      · rw [List.map_append, List.nodup_append]
        refine ⟨hndP, by simp [hsS', hndS'], ?_⟩
        intro a ha ha2
        exact hdisj ha (by simp only [List.map_cons, List.mem_cons] at ha2 ⊢; right; exact ha2)
      · rw [seg_append, seg_append]
        refine ⟨⟨?_, ?_, trivial⟩, ?_, ?_⟩
        · refine seg_congr m _ Q _ _ ?_ hsQ
          intro e he
          obtain ⟨h1, h2, h3⟩ := hQ e he
          simp [Linked.store, h1, h2, h3]
        · simp [Linked.store, hpc, hps, Linked.first]
        · simp [Linked.store, Ne.symm hcs, last_append_singleton]
        · refine seg_congr m _ S _ _ ?_ hsS
          intro e he
          obtain ⟨h1, h2, h3⟩ := hS e he
          simp [Linked.store, h1, h2, h3]
      · show some x = _
        rw [← hx, hf, first_append (Q ++ [p]), first_append (Q ++ [p])]
        exact first_concat_indep Q p _ _
      · show dq.back = _
        rw [hb]
        show Linked.last ((Q ++ [p]) ++ ([c] ++ s :: S)) none = _
        rw [← List.append_assoc]
        cases hl : ((Q ++ [p] ++ [c]) ++ s :: S).getLast? with
        | none => simp at hl
        | some e =>
          have hl2 : ((Q ++ [p]) ++ s :: S).getLast? = some e := by
            rw [List.getLast?_append_cons] at hl ⊢
            exact hl
          simp [Linked.last, hl, hl2]
      · simp [hn]; ring
      · intro b hb1
        have h1 : b ≠ c.1 := fun he => hb1 c (by simp) he.symm
        have h2 : b ≠ p.1 := fun he => hb1 p (by simp) he.symm
        have h3 : b ≠ s.1 := fun he => hb1 s (by simp) he.symm
        simp [Linked.store, h1, h2, h3]
theorem pop_pid_loop_none (pid_of : Int → Int) (m : Nat → Option Linked.DequeNode)
    (dq : Linked.Deque) (pid : Int) : ∀ (Q : List (Nat × Int)) (prev : Option Nat) (fuel : Nat),
    Linked.seg m prev Q none → (∀ x ∈ Q, pid_of x.2 ≠ pid) → Q.length ≤ fuel →
    Linked.Deque_Pop_PID_loop pid_of m dq pid fuel (Linked.first Q none) = some (false, m, dq) := by
  intro Q
  induction Q with
  | nil =>
    intro prev fuel _ _ _
    cases fuel <;> simp [Linked.Deque_Pop_PID_loop, Linked.first]
  | cons c rest ih =>
    intro prev fuel hs hall hlen
    obtain ⟨hc, hrest⟩ := hs
    cases fuel with
    | zero => simp at hlen
    | succ fuel =>
      simp only [Linked.Deque_Pop_PID_loop, Linked.first, hc, Option.bind_eq_bind,
        Option.some_bind]
      rw [if_neg (hall c (List.mem_cons_self _ _))]
      exact ih (some c.1) fuel hrest (fun x hx => hall x (List.mem_cons_of_mem _ hx))
        (by simpa using hlen)

theorem pop_pid_loop_found (pid_of : Int → Int) (m : Nat → Option Linked.DequeNode)
    (dq : Linked.Deque) (pid : Int) (c : Nat × Int) (S : List (Nat × Int))
    (hpid : pid_of c.2 = pid) : ∀ (Q : List (Nat × Int)) (prev : Option Nat) (fuel : Nat),
    Linked.seg m prev (Q ++ c :: S) none → (∀ x ∈ Q, pid_of x.2 ≠ pid) →
    (Q ++ c :: S).length ≤ fuel →
    Linked.Deque_Pop_PID_loop pid_of m dq pid fuel (Linked.first (Q ++ c :: S) none)
      = Linked.Deque_Pop_Pcb m dq c.1 := by
  intro Q
  induction Q with
  | nil =>
    intro prev fuel hs _ hlen
    obtain ⟨hc, _⟩ := hs
    cases fuel with
    | zero => simp at hlen
    | succ fuel =>
      simp only [List.nil_append, Linked.Deque_Pop_PID_loop, Linked.first, hc,
        Option.bind_eq_bind, Option.some_bind]
      rw [if_pos hpid]
  | cons d rest ih =>
    intro prev fuel hs hall hlen
    obtain ⟨hd, hrest⟩ := hs
    cases fuel with
    | zero => simp at hlen
    | succ fuel =>
      simp only [List.cons_append, Linked.Deque_Pop_PID_loop, Linked.first, hd,
        Option.bind_eq_bind, Option.some_bind]
      rw [if_neg (hall d (List.mem_cons_self _ _))]
      exact ih (some d.1) fuel hrest (fun x hx => hall x (List.mem_cons_of_mem _ hx))
        (by simpa using hlen)

theorem first_match_split (p : Int → Bool) : ∀ (cells : List (Nat × Int)),
    (∀ x ∈ cells, p x.2 = false) ∨
    ∃ Q c S, cells = Q ++ c :: S ∧ (∀ x ∈ Q, p x.2 = false) ∧ p c.2 = true := by
  intro cells
  induction cells with
  | nil => left; intro x hx; simp at hx
  | cons d rest ih =>
    cases hd : p d.2 with
    | true => right; exact ⟨[], d, rest, rfl, by simp, hd⟩
    | false =>
      rcases ih with h | ⟨Q, c, S, h1, h2, h3⟩
      · left
        intro x hx
        rcases List.mem_cons.mp hx with h4 | h4
        · rw [h4]; exact hd
        · exact h x h4
      · right
        refine ⟨d :: Q, c, S, by rw [h1]; rfl, ?_, h3⟩
        intro x hx
        rcases List.mem_cons.mp hx with h4 | h4
        · rw [h4]; exact hd
        · exact h2 x h4

theorem pop_pid_represents (pid_of : Int → Int) (m : Nat → Option Linked.DequeNode)
    (dq : Linked.Deque) (cells : List (Nat × Int)) (h : Linked.represents m dq cells)
    (pid : Int) :
    ∃ b m' dq' cells', Linked.Deque_Pop_PID pid_of m dq pid = some (b, m', dq') ∧
      Linked.represents m' dq' cells' ∧
      (b, cells'.map (fun c => c.2))
        = spec_remove_where (fun x => pid_of x == pid) (cells.map (fun c => c.2)) ∧
      (b = false → m' = m ∧ dq' = dq) := by
  have h0 := h
  obtain ⟨hnd, hseg, hf, hb, hn⟩ := h
  have hfuel : dq.num_elements.toNat = cells.length := by rw [hn]; simp
  have hloop : Linked.Deque_Pop_PID pid_of m dq pid
      = Linked.Deque_Pop_PID_loop pid_of m dq pid cells.length (Linked.first cells none) := by
    unfold Linked.Deque_Pop_PID
    rw [hf, hfuel]
    cases cells with
    | nil => simp [Linked.first, Linked.Deque_Pop_PID_loop]
    | cons c rest => rfl
  rw [hloop]
  rcases first_match_split (fun x => pid_of x == pid) cells with hno | ⟨Q, c, S, hc, hQ, hm⟩
  · refine ⟨false, m, dq, cells, ?_, h0, ?_, fun _ => ⟨rfl, rfl⟩⟩
    · exact pop_pid_loop_none pid_of m dq pid cells none _ hseg
        (fun x hx => by simpa using hno x hx) (le_refl _)
    · simp only [spec_remove_where, Prod.mk.injEq]
      constructor
      · symm
        rw [List.any_eq_false]
        intro x hx
        obtain ⟨d, hd, hd2⟩ := List.mem_map.mp hx
        rw [← hd2]
        simpa using hno d hd
      · symm
        apply List.eraseP_of_forall_not
        intro x hx
        obtain ⟨d, hd, hd2⟩ := List.mem_map.mp hx
        rw [← hd2]
        simpa using hno d hd
  · subst hc
    have hpid : pid_of c.2 = pid := by simpa using hm
    obtain ⟨m', dq', hop, hrep, _, _⟩ := pop_pcb_represents m dq Q c S h0
    refine ⟨true, m', dq', Q ++ S, ?_, hrep, ?_, fun hb => absurd hb (by simp)⟩
    · rw [pop_pid_loop_found pid_of m dq pid c S hpid Q none _ hseg
        (fun x hx => by simpa using hQ x hx) (le_refl _)]
      exact hop
    · simp only [spec_remove_where, Prod.mk.injEq, List.map_append, List.map_cons]
      constructor
      · symm
        rw [List.any_eq_true]
        exact ⟨c.2, by simp, hm⟩
      · symm
        rw [List.eraseP_append_right]
        · rw [List.eraseP_cons_of_pos (by simpa using hm)]
        · intro x hx
          obtain ⟨d, hd, hd2⟩ := List.mem_map.mp hx
          rw [← hd2]
          simpa using hQ d hd

theorem beq_comm_int (x a : Int) : (x == a) = (a == x) := by
  by_cases h : a = x
  · subst h; rfl
  · have h2 : ¬ x = a := fun e => h e.symm
    simp [h, h2]

theorem list_deque_is_spec (l : List Int) (x : Int) :
    Deque_Push_Front l x = spec_push_front l x ∧ Deque_Push_Back l x = spec_push_back l x ∧
    (Deque_Pop_Front l).map (fun r => r.1) = (spec_pop_front l).1 ∧
    (Deque_Pop_Front l).elim l (fun r => r.2) = (spec_pop_front l).2 ∧
    Deque_Pop_PID l x = spec_remove_where (fun y => y == x) l ∧
    Deque_Size l = spec_size l := by
  refine ⟨rfl, rfl, ?_, ?_, ?_, rfl⟩
  · cases l <;> rfl
  · cases l <;> rfl
  · simp only [Deque_Pop_PID, spec_remove_where, Prod.mk.injEq]
    constructor
    · induction l with
      | nil => rfl
      | cons a l ih =>
        simp only [List.contains_cons, List.any_cons, ih]
        rw [beq_comm_int x a]
    · rw [List.erase_eq_eraseP]
      congr 1
      funext y
      exact beq_comm_int x y

theorem sample_represents :
    Linked.represents sample_nodes sample_deque [(10, 3), (11, 4)] :=
  ⟨by decide, ⟨by decide, by decide, trivial⟩, by decide, by decide, by decide⟩

/-! ### The exit kind of zombies is an invariant -/

theorem mem_update_first_find (h : Int) (f : PCB → PCB) (q : PCB) :
    ∀ ps : List PCB, q ∈ update_first h f ps →
      q ∈ ps ∨ ∃ p, ps.find? (fun p => p.pid == h) = some p ∧ q = f p := by
  intro ps
  induction ps with
  | nil => intro hq; simp [update_first] at hq
  | cons a rest ih =>
    intro hq
    unfold update_first at hq
    split at hq
    · rename_i ha
      rcases List.mem_cons.mp hq with hqa | hqr
      · right
        exact ⟨a, by simp [List.find?, ha], hqa⟩
      · left
        exact List.mem_cons_of_mem _ hqr
    · rename_i ha
      rcases List.mem_cons.mp hq with hqa | hqr
      · left
        rw [hqa]
        exact List.mem_cons_self _ _
      · rcases ih hqr with h1 | ⟨p, hp, hq2⟩
        · left
          exact List.mem_cons_of_mem _ h1
        · right
          refine ⟨p, ?_, hq2⟩
          have hb : (a.pid == h) = false := by simpa using ha
          simp [List.find?, hb, hp]

theorem zombies_ok_deref (k : Kernel) (hk : zombies_ok k) (h : Int) (p : PCB)
    (hp : deref k h = some p) : exit_ok p := by
  unfold deref at hp
  split at hp
  · exact hk.2 p hp
  · exact hk.1 p (List.mem_of_find?_eq_some hp)

theorem zombies_ok_modify_reg (k : Kernel) (pid : Int) (f : PCB → PCB) (hk : zombies_ok k)
    (hf : ∀ p, get_pcb_from_pid k pid = some p → exit_ok p → exit_ok (f p)) :
    zombies_ok (modify_reg k pid f) := by
  refine ⟨?_, hk.2⟩
  intro q hq
  rcases mem_update_first_find pid f q k.global_pcbs hq with h1 | ⟨p, hp, hq2⟩
  · exact hk.1 q h1
  · rw [hq2]
    exact hf p hp (hk.1 p (List.mem_of_find?_eq_some hp))

theorem zombies_ok_modify (k : Kernel) (h : Int) (f : PCB → PCB) (hk : zombies_ok k)
    (hf : ∀ p, deref k h = some p → exit_ok p → exit_ok (f p)) : zombies_ok (modify k h f) := by
  unfold modify
  split
  · rename_i h0
    refine ⟨hk.1, ?_⟩
    intro I hI
    simp only [Option.map_eq_some'] at hI
    obtain ⟨J, hJ, hJI⟩ := hI
    rw [← hJI]
    exact hf J (by unfold deref; rw [if_pos h0]; exact hJ) (hk.2 J hJ)
  · rename_i h0
    exact zombies_ok_modify_reg k h f hk (fun p hp => hf p (by unfold deref; rw [if_neg h0]; exact hp))

theorem zombies_ok_modify_keeps (k : Kernel) (h : Int) (f : PCB → PCB) (hk : zombies_ok k)
    (hf : ∀ p, exit_ok p → exit_ok (f p)) : zombies_ok (modify k h f) :=
  zombies_ok_modify k h f hk (fun p _ => hf p)

theorem zombies_ok_push_pq (k k' : Kernel) (prio h : Int) (hk : zombies_ok k)
    (hp : push_pq k prio h = some k') : zombies_ok k' := by
  unfold push_pq at hp
  split_ifs at hp <;> simp only [Option.some.injEq] at hp <;> subst hp <;> exact hk

theorem zombies_ok_srp (k k' : Kernel) (h : Int) (hk : zombies_ok k)
    (hp : schedule_ready_process k h = some k') : zombies_ok k' := by
  unfold schedule_ready_process at hp
  split at hp
  · exact absurd hp (by simp)
  · split_ifs at hp
    · exact zombies_ok_push_pq k k' _ h hk hp
    · simp only [Option.some.injEq] at hp; subst hp; exact hk
    · simp only [Option.some.injEq] at hp; subst hp; exact hk

theorem zombies_ok_wc (k k' : Kernel) (h : Int) (r : Bool) (hk : zombies_ok k)
    (hp : waitpid_checks k h = some (r, k')) : zombies_ok k' := by
  unfold waitpid_checks at hp
  split at hp
  · exact absurd hp (by simp)
  · rename_i pcb hpcb
    split at hp
    · exact absurd hp (by simp)
    · simp only [Option.some.injEq, Prod.mk.injEq] at hp; rw [← hp.2]; exact hk
    · rename_i b hb
      split at hp
      · exact absurd hp (by simp)
      · rename_i B hB
        have hk1 : zombies_ok (if B.waitpid_pid = -1
            then modify k b (fun p => { p with waitpid_pid := pcb.pid }) else k) := by
          split
          · exact zombies_ok_modify_keeps k b (fun p => { p with waitpid_pid := pcb.pid }) hk
              (fun p hp => hp)
          · exact hk
        generalize (if B.waitpid_pid = -1
            then modify k b (fun p => { p with waitpid_pid := pcb.pid }) else k) = k1 at hp hk1
        simp only at hp
        split at hp
        · rename_i B1 pcb1 hB1 hpcb1
          split_ifs at hp with h1 h2
          · have hk2 : zombies_ok (modify k1 b (fun p => { p with status := .READY })) :=
              zombies_ok_modify_keeps k1 b _ hk1 (fun p _ hz => by simp at hz)
            generalize modify k1 b (fun p => { p with status := .READY }) = k2 at hp hk2
            split at hp
            · exact absurd hp (by simp)
            · rename_i pcb2 hpcb2
              have hk3 : zombies_ok (if pcb2.status = .ZOMBIE then
                    modify k2 b (fun p => { p with waitpid_estatus := pcb2.e_status })
                  else if pcb2.status = .READY then
                    modify k2 b (fun p => { p with waitpid_estatus := .NOT_EXITED })
                  else if pcb2.status = .STOPPED then
                    modify (modify k2 b (fun p => { p with waitpid_estatus := .EXIT_STOPPED })) h
                      (fun p => { p with e_status := .NO_CHANGE })
                  else k2) := by
                split_ifs with c1 c2 c3
                · exact zombies_ok_modify_keeps k2 b
                    (fun p => { p with waitpid_estatus := pcb2.e_status }) hk2 (fun p hp => hp)
                · exact zombies_ok_modify_keeps k2 b
                    (fun p => { p with waitpid_estatus := .NOT_EXITED }) hk2 (fun p hp => hp)
                · refine zombies_ok_modify _ h _
                    (zombies_ok_modify_keeps k2 b
                      (fun p => { p with waitpid_estatus := .EXIT_STOPPED }) hk2 (fun p hp => hp)) ?_
                  intro p hp _ hz
                  rw [deref_modify k2 b (fun p => { p with waitpid_estatus := .EXIT_STOPPED })
                    (fun _ => rfl) h, hpcb2] at hp
                  have hst : p.status = .STOPPED := by
                    split at hp
                    · simp only [Option.map_some', Option.some.injEq] at hp
                      rw [← hp]; exact c3
                    · simp only [Option.some.injEq] at hp
                      rw [← hp]; exact c3
                  rw [show ({ p with e_status := exit_status.NO_CHANGE } : PCB).status = p.status
                    from rfl, hst] at hz
                  exact absurd hz (by decide)
                · exact hk2
              generalize (if pcb2.status = .ZOMBIE then
                    modify k2 b (fun p => { p with waitpid_estatus := pcb2.e_status })
                  else if pcb2.status = .READY then
                    modify k2 b (fun p => { p with waitpid_estatus := .NOT_EXITED })
                  else if pcb2.status = .STOPPED then
                    modify (modify k2 b (fun p => { p with waitpid_estatus := .EXIT_STOPPED })) h
                      (fun p => { p with e_status := .NO_CHANGE })
                  else k2) = k3 at hp hk3
              split at hp
              · exact absurd hp (by simp)
              · rename_i k4 hk4
                simp only [Option.some.injEq, Prod.mk.injEq] at hp
                rw [← hp.2]
                exact zombies_ok_srp k3 k4 b hk3 hk4
          · simp only [Option.some.injEq, Prod.mk.injEq] at hp; rw [← hp.2]; exact hk1
          · simp only [Option.some.injEq, Prod.mk.injEq] at hp; rw [← hp.2]; exact hk1
        · exact absurd hp (by simp)
theorem zombies_ok_orphan : ∀ (cs : List Int) (k k' : Kernel), zombies_ok k →
    orphan_children k cs = some k' → zombies_ok k' := by
  intro cs
  induction cs with
  | nil =>
    intro k k' hk hp
    simp only [orphan_children, Option.some.injEq] at hp
    rw [← hp]; exact hk
  | cons c rest ih =>
    intro k k' hk hp
    unfold orphan_children at hp
    split at hp
    · exact absurd hp (by simp)
    · exact ih _ k' (zombies_ok_modify_reg k c (fun p => { p with parent_pid := 1 }) hk
        (fun p _ hp => hp)) hp

theorem zombies_ok_cleanup (k k' : Kernel) (h : Int) (hk : zombies_ok k)
    (hp : k_process_cleanup k h = some k') : zombies_ok k' := by
  unfold k_process_cleanup at hp
  split at hp
  · exact absurd hp (by simp)
  · rename_i process _
    split_ifs at hp
    · have hk1 : zombies_ok (modify k h (fun p => { p with status := .TERMINATED })) :=
        zombies_ok_modify_keeps k h (fun p => { p with status := .TERMINATED }) hk
          (fun p _ hz => by simp at hz)
      simp only at hp
      split at hp
      · exact absurd hp (by simp)
      · rename_i k2 hk2
        have hk2' := zombies_ok_orphan _ _ k2 hk1 hk2
        split at hp
        · exact absurd hp (by simp)
        · rename_i process2 _
          split at hp
          · exact absurd hp (by simp)
          · rename_i parent_pcb _
            simp only [Option.some.injEq] at hp
            rw [← hp]
            exact zombies_ok_modify_reg k2 parent_pcb.pid
              (fun p => { p with children_pids := remove_pid p.children_pids process2.pid }) hk2'
              (fun p _ hp => hp)
    · simp only [Option.some.injEq] at hp
      rw [← hp]; exact hk

theorem exit_ok_init_pcb (pid parent : Int) (fds : List Int) (n prio : Int) (u : exit_status)
    (name : String) : exit_ok { init_pcb pid parent fds n prio u with process_name := name } := by
  intro hz
  simp [init_pcb] at hz

theorem zombies_ok_create (k k' : Kernel) (parent : Int) (name : String) (uninit : exit_status)
    (pid : Int) (hk : zombies_ok k) (hp : k_process_create k parent name uninit = some (k', pid)) :
    zombies_ok k' := by
  unfold k_process_create at hp
  split at hp
  · exact absurd hp (by simp)
  · rename_i par _
    simp only at hp
    split at hp
    · exact absurd hp (by simp)
    · split at hp
      · exact absurd hp (by simp)
      · simp only [Option.some.injEq, Prod.mk.injEq] at hp
        rw [← hp.1]
        apply zombies_ok_modify_keeps _ parent
          (fun p => { p with children_pids := p.children_pids ++ [k.pid_counter] }) _
          (fun p hp => hp)
        refine ⟨?_, hk.2⟩
        intro q hq
        rcases List.mem_append.mp hq with h1 | h1
        · exact hk.1 q h1
        · simp only [List.mem_singleton] at h1
          rw [h1]
          exact exit_ok_init_pcb _ _ _ _ _ _ _

theorem zombies_ok_ssp (k k' : Kernel) (h : Int) (sig : pennos_signal) (hk : zombies_ok k)
    (hterm : sig = .S_SIGTERM → ∀ p, deref k h = some p →
      p.e_status = .EXIT_NORMAL ∨ p.e_status = .EXIT_SIGNAL)
    (hp : schedule_sleep_process k h sig = some k') : zombies_ok k' := by
  unfold schedule_sleep_process at hp
  cases sig with
  | S_SIGSTOP =>
    simp only [Option.map_eq_some'] at hp
    obtain ⟨r, hr, hr2⟩ := hp
    rw [← hr2]
    refine zombies_ok_wc _ r.2 h r.1 ?_ hr
    exact zombies_ok_modify_keeps k h (fun p => { p with status := .STOPPED }) hk
      (fun p _ hz => by simp at hz)
  | S_SIGTERM =>
    simp only [Option.map_eq_some'] at hp
    obtain ⟨r, hr, hr2⟩ := hp
    rw [← hr2]
    refine zombies_ok_wc _ r.2 h r.1 ?_ hr
    exact zombies_ok_modify k h (fun p => { p with status := .ZOMBIE }) hk
      (fun p hp _ _ => hterm rfl p hp)
  | S_SIGCONT =>
    simp only [Option.map_eq_some'] at hp
    obtain ⟨r, hr, hr2⟩ := hp
    rw [← hr2]
    refine zombies_ok_wc _ r.2 h r.1 ?_ hr
    exact zombies_ok_modify_keeps k h (fun p => { p with status := .BLOCKED }) hk
      (fun p _ hz => by simp at hz)

theorem zombies_ok_kill (k k' : Kernel) (h : Int) (sig : pennos_signal) (hk : zombies_ok k)
    (hp : k_process_kill k h sig = some k') : zombies_ok k' := by
  unfold k_process_kill at hp
  split at hp
  · exact absurd hp (by simp)
  · rename_i process hproc
    by_cases hterm : process.status = .TERMINATED
    · rw [if_pos hterm] at hp
      simp only [Option.some.injEq] at hp
      rw [← hp]; exact hk
    · rw [if_neg hterm] at hp
      cases sig with
      | S_SIGSTOP =>
        simp only at hp
        have hk1 : zombies_ok (modify k h
            (fun p => { p with status := .STOPPED, e_status := .EXIT_STOPPED })) :=
          zombies_ok_modify_keeps k h _ hk (fun p _ hz => by simp at hz)
        by_cases hs : process.process_name = "sleep"
        · rw [if_pos hs] at hp
          cases hk2 : schedule_sleep_process (modify k h
              (fun p => { p with status := .STOPPED, e_status := .EXIT_STOPPED })) h .S_SIGSTOP with
          | none => rw [hk2] at hp; exact absurd hp (by simp)
          | some k2 =>
            rw [hk2] at hp
            simp only [Option.map_eq_some'] at hp
            obtain ⟨r, hr, hr2⟩ := hp
            rw [← hr2]
            exact zombies_ok_wc k2 r.2 h r.1
              (zombies_ok_ssp _ k2 h .S_SIGSTOP hk1 (fun hc => by simp at hc) hk2) hr
        · rw [if_neg hs] at hp
          simp only [Option.map_eq_some'] at hp
          obtain ⟨r, hr, hr2⟩ := hp
          rw [← hr2]
          exact zombies_ok_wc _ r.2 h r.1 hk1 hr
      | S_SIGTERM =>
        simp only at hp
        have hk1 : zombies_ok (modify k h
            (fun p => { p with status := .ZOMBIE, e_status := .EXIT_SIGNAL })) :=
          zombies_ok_modify_keeps k h _ hk (fun p _ _ => Or.inr rfl)
        by_cases hs : process.process_name = "sleep"
        · rw [if_pos hs] at hp
          cases hk2 : schedule_sleep_process (modify k h
              (fun p => { p with status := .ZOMBIE, e_status := .EXIT_SIGNAL })) h .S_SIGTERM with
          | none => rw [hk2] at hp; exact absurd hp (by simp)
          | some k2 =>
            rw [hk2] at hp
            simp only [Option.map_eq_some'] at hp
            obtain ⟨r, hr, hr2⟩ := hp
            rw [← hr2]
            refine zombies_ok_wc k2 r.2 h r.1 (zombies_ok_ssp _ k2 h .S_SIGTERM hk1 ?_ hk2) hr
            intro _ p hp
            rw [deref_modify_self k h
              (fun p => { p with status := .ZOMBIE, e_status := .EXIT_SIGNAL }) (fun _ => rfl),
              hproc] at hp
            simp only [Option.map_some', Option.some.injEq] at hp
            rw [← hp]
            exact Or.inr rfl
        · rw [if_neg hs] at hp
          simp only [Option.map_eq_some'] at hp
          obtain ⟨r, hr, hr2⟩ := hp
          rw [← hr2]
          exact zombies_ok_wc _ r.2 h r.1 hk1 hr
      | S_SIGCONT =>
        simp only at hp
        have hk1 : zombies_ok (modify k h (fun p => { p with status := .READY })) :=
          zombies_ok_modify_keeps k h _ hk (fun p _ hz => by simp at hz)
        by_cases hs : process.process_name = "sleep"
        · rw [if_pos hs] at hp
          exact zombies_ok_ssp _ k' h .S_SIGCONT hk1 (fun hc => by simp at hc) hp
        · rw [if_neg hs] at hp
          simp only [Option.some.injEq] at hp
          rw [← hp]; exact hk1
theorem zombies_ok_spawn (k k' : Kernel) (fd0 fd1 : Int) (name : String) (uninit : exit_status)
    (pid : Int) (hk : zombies_ok k) (hp : p_spawn k fd0 fd1 name uninit = some (pid, k')) :
    zombies_ok k' := by
  unfold p_spawn at hp
  split at hp
  · exact absurd hp (by simp)
  · rename_i k1 new_pcb hc
    have hk1 := zombies_ok_create k k1 _ name uninit new_pcb hk hc
    split at hp
    · exact absurd hp (by simp)
    · split at hp
      · rename_i a b _ _
        simp only at hp
        split at hp
        · exact absurd hp (by simp)
        · rename_i k3 hk3
          simp only [Option.some.injEq, Prod.mk.injEq] at hp
          rw [← hp.2]
          exact zombies_ok_srp _ k3 new_pcb
            (zombies_ok_modify_keeps k1 new_pcb
              (fun p => { p with open_fds := (p.open_fds.set 0 a).set 1 b }) hk1
              (fun p hp => hp)) hk3
      · exact absurd hp (by simp)

theorem zombies_ok_waitpid_one (k k' : Kernel) (pid wstatus : Int) (nohang : Bool)
    (r : WaitResult) (w : Int) (hk : zombies_ok k)
    (hp : p_waitpid_one k pid wstatus nohang = some (r, w, k')) : zombies_ok k' := by
  unfold p_waitpid_one at hp
  split at hp
  · rename_i target_pcb caller _ _
    by_cases h1 : target_pcb.parent_pid ≠ caller.pid
    · rw [if_pos h1] at hp
      simp only [Option.some.injEq, Prod.mk.injEq] at hp
      rw [← hp.2.2]; exact hk
    · rw [if_neg h1] at hp
      by_cases h2 : target_pcb.status = .TERMINATED
      · rw [if_pos h2] at hp
        simp only [Option.some.injEq, Prod.mk.injEq] at hp
        rw [← hp.2.2]; exact hk
      · rw [if_neg h2] at hp
        cases nohang with
        | true =>
          simp only [if_true] at hp
          split at hp
          · simp only [Option.some.injEq, Prod.mk.injEq] at hp
            rw [← hp.2.2]; exact hk
          · simp only [Option.some.injEq, Prod.mk.injEq] at hp
            rw [← hp.2.2]; exact hk
          · simp only [Option.some.injEq, Prod.mk.injEq] at hp
            rw [← hp.2.2]; exact hk
          · simp only [Option.some.injEq, Prod.mk.injEq] at hp
            rw [← hp.2.2]; exact hk
          · split at hp
            · exact absurd hp (by simp)
            · rename_i k1 hk1
              simp only [Option.some.injEq, Prod.mk.injEq] at hp
              rw [← hp.2.2]
              exact zombies_ok_cleanup k k1 pid hk hk1
          · simp only [Option.some.injEq, Prod.mk.injEq] at hp
            rw [← hp.2.2]; exact hk
        | false =>
          simp only [Bool.false_eq_true, if_false, Option.some.injEq, Prod.mk.injEq] at hp
          rw [← hp.2.2]
          exact zombies_ok_modify_keeps k k.current_pcb
            (fun p => { p with status := .BLOCKED, waitpid_pid := pid }) hk
            (fun p _ hz => by simp at hz)
  · exact absurd hp (by simp)
theorem zombies_ok_waitpid_resume (k k' : Kernel) (pid r w : Int) (hk : zombies_ok k)
    (hp : p_waitpid_resume k pid = some (r, w, k')) : zombies_ok k' := by
  unfold p_waitpid_resume at hp
  split at hp
  · exact absurd hp (by simp)
  · rename_i caller _
    have hk1 : zombies_ok (modify k k.current_pcb (fun p => { p with waitpid_pid := 0 })) :=
      zombies_ok_modify_keeps k k.current_pcb (fun p => { p with waitpid_pid := 0 }) hk
        (fun p hp => hp)
    simp only at hp
    split at hp
    · exact absurd hp (by simp)
    · rename_i k2 hk2
      simp only [Option.some.injEq, Prod.mk.injEq] at hp
      rw [← hp.2.2]
      apply zombies_ok_modify_keeps k2 k2.current_pcb
        (fun p => { p with waitpid_estatus := .NO_CHANGE }) _ (fun p hp => hp)
      split_ifs at hk2
      · exact zombies_ok_cleanup _ k2 pid hk1 hk2
      · simp only [Option.some.injEq] at hk2
        rw [← hk2]; exact hk1

theorem zombies_ok_waitpid_any_resume (k k' : Kernel) (r : Int) (hk : zombies_ok k)
    (hp : p_waitpid_any_resume k = some (r, k')) : zombies_ok k' := by
  unfold p_waitpid_any_resume at hp
  split at hp
  · exact absurd hp (by simp)
  · rename_i caller _
    have hk1 : zombies_ok (modify k k.current_pcb (fun p => { p with waitpid_pid := 0 })) :=
      zombies_ok_modify_keeps k k.current_pcb (fun p => { p with waitpid_pid := 0 }) hk
        (fun p hp => hp)
    simp only at hp
    split at hp
    · exact absurd hp (by simp)
    · split at hp
      · exact absurd hp (by simp)
      · rename_i k2 hk2
        simp only [Option.some.injEq, Prod.mk.injEq] at hp
        rw [← hp.2]
        exact zombies_ok_cleanup _ k2 _ hk1 hk2

theorem zombies_ok_poll (junk : Int) : ∀ (fuel : Nat) (k : Kernel) (i : Nat) (r : Int)
    (k' : Kernel), zombies_ok k → p_waitpid_poll junk fuel k i = some (r, k') → zombies_ok k' := by
  intro fuel
  induction fuel with
  | zero => intro k i r k' _ hp; simp [p_waitpid_poll] at hp
  | succ fuel ih =>
    intro k i r k' hk hp
    unfold p_waitpid_poll at hp
    split at hp
    · exact absurd hp (by simp)
    · split at hp
      · simp only [Option.some.injEq, Prod.mk.injEq] at hp
        rw [← hp.2]; exact hk
      · rename_i child_pid _
        by_cases hc : child_pid = -1
        · rw [if_pos hc] at hp
          exact absurd hp (by simp)
        · rw [if_neg hc] at hp
          split at hp
          · exact absurd hp (by simp)
          · rename_i x status k1 h1
            have hk1 := zombies_ok_waitpid_one k k1 child_pid junk true x status hk h1
            split_ifs at hp
            · simp only [Option.some.injEq, Prod.mk.injEq] at hp
              rw [← hp.2]; exact hk1
            · exact ih k1 (i + 1) r k' hk1 hp

theorem zombies_ok_waitpid (k k' : Kernel) (pid wstatus : Int) (nohang : Bool) (junk : Int)
    (r : WaitResult) (w : Int) (hk : zombies_ok k)
    (hp : p_waitpid k pid wstatus nohang junk = some (r, w, k')) : zombies_ok k' := by
  unfold p_waitpid at hp
  split at hp
  · exact absurd hp (by simp)
  · rename_i caller _
    by_cases h0 : caller.children_pids.length = 0
    · rw [if_pos h0] at hp
      simp only [Option.some.injEq, Prod.mk.injEq] at hp
      rw [← hp.2.2]; exact hk
    · rw [if_neg h0] at hp
      by_cases h1 : pid = -1
      · rw [if_pos h1] at hp
        cases nohang with
        | true =>
          simp only [if_true] at hp
          split at hp
          · exact absurd hp (by simp)
          · rename_i r1 k1 h2
            simp only [Option.some.injEq, Prod.mk.injEq] at hp
            rw [← hp.2.2]
            exact zombies_ok_poll junk _ k 0 r1 k1 hk h2
        | false =>
          simp only [Bool.false_eq_true, if_false, Option.some.injEq, Prod.mk.injEq] at hp
          rw [← hp.2.2]
          exact zombies_ok_modify_keeps k k.current_pcb
            (fun p => { p with status := .BLOCKED, waitpid_pid := -1 }) hk
            (fun p _ hz => by simp at hz)
      · rw [if_neg h1] at hp
        exact zombies_ok_waitpid_one k k' pid wstatus nohang r w hk hp

theorem zombies_ok_p_kill (k k' : Kernel) (pid : Int) (sig : pennos_signal) (r : Int)
    (hk : zombies_ok k) (hp : p_kill k pid sig = some (r, k')) : zombies_ok k' := by
  unfold p_kill at hp
  split at hp
  · simp only [Option.some.injEq, Prod.mk.injEq] at hp
    rw [← hp.2]; exact hk
  · simp only [Option.map_eq_some', Prod.mk.injEq] at hp
    obtain ⟨k1, hk1, _, hk2⟩ := hp
    rw [← hk2]
    exact zombies_ok_kill k k1 pid sig hk hk1

theorem zombies_ok_p_sleep (k k' : Kernel) (ticks : Nat) (uninit : exit_status) (r : Int)
    (hk : zombies_ok k) (hp : p_sleep k ticks uninit = some (r, k')) : zombies_ok k' := by
  unfold p_sleep at hp
  split at hp
  · exact absurd hp (by simp)
  · rename_i k1 new_pcb hc
    have hk1 := zombies_ok_create k k1 _ "sleep" uninit new_pcb hk hc
    simp only [Option.map_eq_some', Prod.mk.injEq] at hp
    obtain ⟨k3, hk3, _, hk4⟩ := hp
    rw [← hk4]
    refine zombies_ok_srp _ k3 new_pcb ?_ hk3
    exact zombies_ok_modify_keeps k1 new_pcb _ hk1 (fun p _ hz => by simp at hz)

theorem zombies_ok_exit_context (k : Kernel) (hk : zombies_ok k) :
    zombies_ok (exit_context k) :=
  zombies_ok_modify_keeps k k.current_pcb
    (fun p => { p with status := .ZOMBIE, e_status := .EXIT_NORMAL }) hk
    (fun _ _ _ => Or.inl rfl)

theorem zombies_ok_f_close_current (k k' : Kernel) (fd r : Int) (hk : zombies_ok k)
    (hp : f_close_current k fd = some (r, k')) : zombies_ok k' := by
  unfold f_close_current at hp
  split at hp
  · exact absurd hp (by simp)
  · split at hp
    · exact absurd hp (by simp)
    · rename_i r1 fs1 pcb1 _
      simp only [Option.some.injEq, Prod.mk.injEq] at hp
      rw [← hp.2]
      exact zombies_ok_modify_keeps k k.current_pcb
        (fun p => { p with open_fds := pcb1.open_fds, num_open_fds := pcb1.num_open_fds }) hk
        (fun p hp => hp)

theorem zombies_ok_p_exit_loop : ∀ (n : Nat) (i : Int) (k k' : Kernel), zombies_ok k →
    p_exit_loop n i k = some k' → zombies_ok k' := by
  intro n
  induction n with
  | zero =>
    intro i k k' hk hp
    simp only [p_exit_loop, Option.some.injEq] at hp
    rw [← hp]; exact hk
  | succ n ih =>
    intro i k k' hk hp
    unfold p_exit_loop at hp
    split at hp
    · exact absurd hp (by simp)
    · split at hp
      · exact absurd hp (by simp)
      · split_ifs at hp
        · split at hp
          · exact absurd hp (by simp)
          · rename_i r1 k1 h1
            exact ih (i + 1) k1 k' (zombies_ok_f_close_current k k1 i r1 hk h1) hp
        · exact ih (i + 1) k k' hk hp

theorem zombies_ok_p_exit (k k' : Kernel) (hk : zombies_ok k) (hp : p_exit k = some k') :
    zombies_ok k' :=
  zombies_ok_p_exit_loop _ 2 _ k' (zombies_ok_exit_context k hk) hp

theorem zombies_ok_p_fg (k k' : Kernel) (pid r : Int) (hk : zombies_ok k)
    (hp : p_fg k pid = some (r, k')) : zombies_ok k' := by
  unfold p_fg at hp
  split at hp
  · exact absurd hp (by simp)
  · rename_i pid1 _
    by_cases h1 : pid1 = -1
    · rw [if_pos h1] at hp
      simp only [Option.some.injEq, Prod.mk.injEq] at hp
      rw [← hp.2]; exact hk
    · rw [if_neg h1] at hp
      split at hp
      · exact absurd hp (by simp)
      · rename_i pcb _
        by_cases h2 : pcb.sleep_counter > 0
        · rw [if_pos h2] at hp
          by_cases h3 : pcb.status ≠ .BLOCKED
          · rw [if_pos h3] at hp
            simp only [Option.map_eq_some', Prod.mk.injEq] at hp
            obtain ⟨k1, hk1, _, hk2⟩ := hp
            rw [← hk2]
            exact zombies_ok_ssp k k1 pid1 .S_SIGCONT hk (fun hc => by simp at hc) hk1
          · rw [if_neg h3] at hp
            simp only [Option.some.injEq, Prod.mk.injEq] at hp
            rw [← hp.2]; exact hk
        · rw [if_neg h2] at hp
          simp only [Option.map_eq_some', Prod.mk.injEq] at hp
          obtain ⟨k1, hk1, _, hk2⟩ := hp
          rw [← hk2]
          refine zombies_ok_srp _ k1 pid1 ?_ hk1
          exact zombies_ok_modify_keeps k pid1 (fun p => { p with status := .READY }) hk
            (fun p _ hz => by simp at hz)

theorem zombies_ok_p_bg (k k' : Kernel) (pid r : Int) (hk : zombies_ok k)
    (hp : p_bg k pid = some (r, k')) : zombies_ok k' := by
  unfold p_bg at hp
  split at hp
  · exact absurd hp (by simp)
  · rename_i pid1 _
    by_cases h1 : pid1 = -1
    · rw [if_pos h1] at hp
      simp only [Option.some.injEq, Prod.mk.injEq] at hp
      rw [← hp.2]; exact hk
    · rw [if_neg h1] at hp
      split at hp
      · exact absurd hp (by simp)
      · rename_i pcb _
        by_cases h2 : pcb.sleep_counter > 0
        · rw [if_pos h2] at hp
          by_cases h3 : pcb.status ≠ .BLOCKED
          · rw [if_pos h3] at hp
            simp only [Option.map_eq_some', Prod.mk.injEq] at hp
            obtain ⟨k1, hk1, _, hk2⟩ := hp
            rw [← hk2]
            exact zombies_ok_ssp k k1 pid1 .S_SIGCONT hk (fun hc => by simp at hc) hk1
          · rw [if_neg h3] at hp
            simp only [Option.some.injEq, Prod.mk.injEq] at hp
            rw [← hp.2]; exact hk
        · rw [if_neg h2] at hp
          simp only [Option.map_eq_some', Prod.mk.injEq] at hp
          obtain ⟨k1, hk1, _, hk2⟩ := hp
          rw [← hk2]
          refine zombies_ok_srp _ k1 pid1 ?_ hk1
          exact zombies_ok_modify_keeps k pid1 (fun p => { p with status := .READY }) hk
            (fun p _ hz => by simp at hz)
theorem zombies_ok_set_pq (k : Kernel) (prio : Int) (dq : List Int) (hk : zombies_ok k) :
    zombies_ok (set_pq k prio dq) := by
  unfold set_pq
  split_ifs <;> exact hk

theorem zombies_ok_select (s s' : Sched) (sel : Selection) (hk : zombies_ok s.k)
    (hp : scheduler_select s = some (sel, s')) : zombies_ok s'.k := by
  unfold scheduler_select at hp
  simp only at hp
  generalize (if s.tracker_pos ≥ 19 then 0 else s.tracker_pos) = tp at hp
  split at hp
  · exact absurd hp (by simp)
  · rename_i pq0 _
    split at hp
    · simp only [Option.some.injEq, Prod.mk.injEq] at hp
      rw [← hp.2]
      exact zombies_ok_set_pq _ _ _ hk
    · rename_i h pq2 _
      have hk1 : zombies_ok { set_pq s.k (priority_tracker tp) pq2 with current_pcb := h } :=
        zombies_ok_set_pq _ _ _ hk
      split at hp
      · exact absurd hp (by simp)
      · rename_i pcb _
        by_cases h1 : pcb.status ≠ .READY
        · rw [if_pos h1] at hp
          simp only [Option.some.injEq, Prod.mk.injEq] at hp
          rw [← hp.2]
          show zombies_ok (if pcb.status = .ZOMBIE then _ else if pcb.status = .STOPPED then _ else _)
          split_ifs <;> exact hk1
        · rw [if_neg h1] at hp
          by_cases h2 : pcb.priority ≠ priority_tracker tp
          · rw [if_pos h2] at hp
            simp only [Option.some.injEq, Prod.mk.injEq] at hp
            rw [← hp.2]
            exact hk1
          · rw [if_neg h2] at hp
            simp only [Option.some.injEq, Prod.mk.injEq] at hp
            rw [← hp.2]
            exact zombies_ok_modify_keeps _ h (fun p => { p with status := .RUNNING }) hk1
              (fun p _ hz => by simp at hz)

theorem zombies_ok_after_slice (k k' : Kernel) (hk : zombies_ok k)
    (hp : after_slice k = some k') : zombies_ok k' := by
  unfold after_slice at hp
  simp only at hp
  split at hp
  · exact absurd hp (by simp)
  · rename_i pcb _
    by_cases h1 : pcb.status = .RUNNING
    · rw [if_pos h1] at hp
      refine zombies_ok_srp _ k' _ ?_ hp
      exact zombies_ok_modify_keeps k _ (fun p => { p with status := .READY }) hk
        (fun p _ hz => by simp at hz)
    · rw [if_neg h1] at hp
      by_cases h2 : pcb.status = .ZOMBIE ∨ pcb.status = .STOPPED
      · rw [if_pos h2] at hp
        split at hp
        · exact absurd hp (by simp)
        · rename_i r k1 hw
          have hk1 := zombies_ok_wc k k1 _ r hk hw
          split at hp
          · exact absurd hp (by simp)
          · rename_i pcb1 _
            by_cases h3 : pcb1.status = .TERMINATED
            · rw [if_pos h3] at hp
              exact zombies_ok_cleanup k1 k' _ hk1 hp
            · rw [if_neg h3] at hp
              split_ifs at hp <;> simp only [Option.some.injEq] at hp <;> rw [← hp] <;> exact hk1
      · rw [if_neg h2] at hp
        split_ifs at hp <;> simp only [Option.some.injEq] at hp <;> rw [← hp] <;> exact hk

theorem zombies_ok_sleep_checks : ∀ (l : List Int) (k k' : Kernel), zombies_ok k →
    sleep_checks k l = some k' → zombies_ok k' := by
  intro l
  induction l with
  | nil =>
    intro k k' hk hp
    simp only [sleep_checks, Option.some.injEq] at hp
    rw [← hp]; exact hk
  | cons h rest ih =>
    intro k k' hk hp
    unfold sleep_checks at hp
    split at hp
    · exact absurd hp (by simp)
    · rename_i pcb _
      by_cases h1 : pcb.sleep_counter > 0
      · rw [if_pos h1] at hp
        by_cases h2 : pcb.sleep_counter - quantum ≤ 0
        · rw [if_pos h2] at hp
          simp only at hp
          split at hp
          · exact absurd hp (by simp)
          · rename_i r k2 hw
            refine ih k2 k' (zombies_ok_wc _ k2 h r ?_ hw) hp
            exact zombies_ok_modify_keeps k h
              (fun p => { p with status := .ZOMBIE, sleep_counter := -1, e_status := .EXIT_NORMAL })
              hk (fun _ _ _ => Or.inl rfl)
        · rw [if_neg h2] at hp
          exact ih _ k' (zombies_ok_modify_keeps k h
            (fun p => { p with sleep_counter := p.sleep_counter - quantum }) hk
            (fun p hp => hp)) hp
      · rw [if_neg h1] at hp
        exact ih k k' hk hp

theorem zombies_ok_resume_stopped : ∀ (l : List Int) (k k' : Kernel) (i : Nat), zombies_ok k →
    resume_stopped k i l = some k' → zombies_ok k' := by
  intro l
  induction l with
  | nil =>
    intro k k' i hk hp
    simp only [resume_stopped, Option.some.injEq] at hp
    rw [← hp]; exact hk
  | cons h rest ih =>
    intro k k' i hk hp
    unfold resume_stopped at hp
    split at hp
    · exact absurd hp (by simp)
    · rename_i pcb _
      by_cases h1 : pcb.status = .READY
      · rw [if_pos h1] at hp
        simp only at hp
        split at hp
        · exact absurd hp (by simp)
        · rename_i r k2 hw
          have hk2 : zombies_ok k2 :=
            zombies_ok_wc { k with stopped_pcbs := k.stopped_pcbs.eraseIdx i } k2 h r hk hw
          split at hp
          · exact absurd hp (by simp)
          · rename_i k3 hs
            refine ih k3 k' i (zombies_ok_srp _ k3 h ?_ hs) hp
            exact zombies_ok_modify_keeps k2 h (fun p => { p with status := .READY }) hk2
              (fun p _ hz => by simp at hz)
      · rw [if_neg h1] at hp
        exact ih k k' (i + 1) hk hp

theorem zombies_ok_zombie_rescan : ∀ (l : List Int) (k k' : Kernel), zombies_ok k →
    zombie_rescan k l = some k' → zombies_ok k' := by
  intro l
  induction l with
  | nil =>
    intro k k' hk hp
    simp only [zombie_rescan, Option.some.injEq] at hp
    rw [← hp]; exact hk
  | cons h rest ih =>
    intro k k' hk hp
    unfold zombie_rescan at hp
    split at hp
    · exact absurd hp (by simp)
    · rename_i pcb _
      by_cases h1 : pcb.status ≠ .TERMINATED
      · rw [if_pos h1] at hp
        split at hp
        · exact absurd hp (by simp)
        · rename_i r k1 hw
          exact ih k1 k' (zombies_ok_wc k k1 h r hk hw) hp
      · rw [if_neg h1] at hp
        exact ih k k' hk hp

theorem zombies_ok_after (s s' : Sched) (hk : zombies_ok s.k)
    (hp : scheduler_after s = some s') : zombies_ok s'.k := by
  unfold scheduler_after at hp
  split at hp
  · exact absurd hp (by simp)
  · rename_i k1 h1
    split at hp
    · exact absurd hp (by simp)
    · rename_i k2 h2
      split at hp
      · exact absurd hp (by simp)
      · rename_i k3 h3
        split at hp
        · exact absurd hp (by simp)
        · rename_i k4 h4
          simp only [Option.some.injEq] at hp
          rw [← hp]
          exact zombies_ok_zombie_rescan _ k3 k4
            (zombies_ok_resume_stopped _ k2 k3 0
              (zombies_ok_sleep_checks _ k1 k2 (zombies_ok_after_slice s.k k1 hk h1) h2) h3) h4

theorem zombies_ok_boot (fs : FS) (uninit : exit_status) (s : Sched)
    (hp : boot_on fs uninit = some s) : zombies_ok s.k := by
  unfold boot_on p_system_init at hp
  simp only [Option.map_map, Option.map_eq_some'] at hp
  obtain ⟨r, hr, hs⟩ := hp
  rw [← hs]
  refine zombies_ok_spawn _ r.2 0 1 "shell" uninit r.1 ?_ hr
  refine ⟨?_, ?_⟩
  · intro p hp
    simp only [init_scheduler, k_system_init, List.mem_singleton] at hp
    rw [hp]
    exact exit_ok_init_pcb _ _ _ _ _ _ _
  · intro I hI
    simp only [init_scheduler, Option.some.injEq] at hI
    rw [← hI]
    exact exit_ok_init_pcb _ _ _ _ _ _ _

theorem zombies_ok_event (s s' : Sched) (e : Event) (hk : zombies_ok s.k)
    (hp : run_event s e = some s') : zombies_ok s'.k := by
  cases e with
  | spawn fd0 fd1 name uninit =>
    simp only [run_event, Option.map_eq_some'] at hp
    obtain ⟨r, hr, hs⟩ := hp
    rw [← hs]
    exact zombies_ok_spawn s.k r.2 fd0 fd1 name uninit r.1 hk hr
  | waitpid pid wstatus nohang junk =>
    simp only [run_event, Option.map_eq_some'] at hp
    obtain ⟨r, hr, hs⟩ := hp
    rw [← hs]
    exact zombies_ok_waitpid s.k r.2.2 pid wstatus nohang junk r.1 r.2.1 hk hr
  | waitpid_resume pid =>
    simp only [run_event, Option.map_eq_some'] at hp
    obtain ⟨r, hr, hs⟩ := hp
    rw [← hs]
    exact zombies_ok_waitpid_resume s.k r.2.2 pid r.1 r.2.1 hk hr
  | waitpid_any_resume =>
    simp only [run_event, Option.map_eq_some'] at hp
    obtain ⟨r, hr, hs⟩ := hp
    rw [← hs]
    exact zombies_ok_waitpid_any_resume s.k r.2 r.1 hk hr
  | kill pid sig =>
    simp only [run_event, Option.map_eq_some'] at hp
    obtain ⟨r, hr, hs⟩ := hp
    rw [← hs]
    exact zombies_ok_p_kill s.k r.2 pid sig r.1 hk hr
  | sleep ticks uninit =>
    simp only [run_event, Option.map_eq_some'] at hp
    obtain ⟨r, hr, hs⟩ := hp
    rw [← hs]
    exact zombies_ok_p_sleep s.k r.2 ticks uninit r.1 hk hr
  | exit =>
    simp only [run_event, Option.map_eq_some'] at hp
    obtain ⟨r, hr, hs⟩ := hp
    rw [← hs]
    exact zombies_ok_p_exit s.k r hk hr
  | returned =>
    simp only [run_event, Option.some.injEq] at hp
    rw [← hp]
    exact zombies_ok_exit_context s.k hk
  | fg pid =>
    simp only [run_event, Option.map_eq_some'] at hp
    obtain ⟨r, hr, hs⟩ := hp
    rw [← hs]
    exact zombies_ok_p_fg s.k r.2 pid r.1 hk hr
  | bg pid =>
    simp only [run_event, Option.map_eq_some'] at hp
    obtain ⟨r, hr, hs⟩ := hp
    rw [← hs]
    exact zombies_ok_p_bg s.k r.2 pid r.1 hk hr
  | select =>
    simp only [run_event, Option.map_eq_some'] at hp
    obtain ⟨r, hr, hs⟩ := hp
    rw [← hs]
    exact zombies_ok_select s r.2 r.1 hk hr
  | after =>
    simp only [run_event] at hp
    exact zombies_ok_after s s' hk hp

theorem zombies_ok_events : ∀ (events : List Event) (s s' : Sched), zombies_ok s.k →
    run_events events s = some s' → zombies_ok s'.k := by
  intro events
  induction events with
  | nil =>
    intro s s' hk hp
    simp only [run_events, Option.some.injEq] at hp
    rw [← hp]; exact hk
  | cons e rest ih =>
    intro s s' hk hp
    simp only [run_events, Option.bind_eq_some] at hp
    obtain ⟨s1, h1, h2⟩ := hp
    exact ih s1 s' (zombies_ok_event s s1 e hk h1) h2

/-! ### Writing into one block and reading it back -/

theorem pread_congr (data data0 : List Nat) (q m : Nat)
    (h : ∀ i, q ≤ i → i < q + m → data.getD i 0 = data0.getD i 0)
    (h0 : q + m ≤ data0.length) (h1 : q + m ≤ data.length) :
    pread data q m = pread data0 q m := by
  unfold pread
  apply List.ext_getElem
  · simp only [List.length_take, List.length_drop]
    omega
  · intro i hi1 hi2
    simp only [List.length_take, List.length_drop] at hi1 hi2
    simp only [List.getElem_take, List.getElem_drop]
    have := h (q + i) (by omega) (by omega)
    have e1 : data.getD (q + i) 0 = data[q + i] := List.getD_eq_getElem _ _ (by omega)
    have e0 : data0.getD (q + i) 0 = data0[q + i] := List.getD_eq_getElem _ _ (by omega)
    rw [e1, e0] at this
    exact this

theorem pread_pwrite_other (data bytes : List Nat) (pos q m : Nat)
    (hd : q + m ≤ pos ∨ pos + bytes.length ≤ q) (hl : q + m ≤ data.length) :
    pread (pwrite data pos bytes) q m = pread data q m := by
  apply pread_congr
  · intro i hi1 hi2
    rw [pwrite_getD]
    rw [if_neg (by omega)]
  · exact hl
  · rw [pwrite_length]; omega

theorem pread_zero (data : List Nat) (q : Nat) : pread data q 0 = [] := by
  simp [pread]

theorem pread_add (data : List Nat) (q m1 m2 : Nat) :
    pread data q (m1 + m2) = pread data q m1 ++ pread data (q + m1) m2 := by
  unfold pread
  rw [List.take_add, List.drop_drop]

theorem le_bytes_length : ∀ (n v : Nat), (le_bytes n v).length = n := by
  intro n
  induction n with
  | zero => intro v; rfl
  | succ n ih => intro v; simp [le_bytes, ih]

theorem encode_entry_length (e : directory_entry) : (encode_entry e).length = 64 := by
  simp [encode_entry, fit_length, le_bytes_length]

theorem le_value_le_bytes : ∀ (n v : Nat), le_value (le_bytes n v) = v % 256 ^ n := by
  intro n
  induction n with
  | zero => intro v; simp [le_bytes, le_value, Nat.mod_one]
  | succ n ih =>
    intro v
    simp only [le_bytes, le_value, ih]
    rw [pow_succ, mul_comm (256 ^ n) 256, Nat.mod_mul]

theorem cstr_append_zeros (x : List Nat) (m : Nat) : cstr (x ++ List.replicate m 0) = cstr x := by
  unfold cstr
  induction x with
  | nil =>
    cases m with
    | zero => rfl
    | succ m => simp [List.replicate_succ, List.takeWhile]
  | cons a x ih =>
    simp only [List.cons_append, List.takeWhile_cons]
    split
    · rw [ih]
    · rfl

theorem cstr_fit (x : List Nat) (h : x.length ≤ 32) : cstr (fit 32 x) = cstr x := by
  unfold fit
  have : (x ++ List.replicate 32 0).take 32 = x ++ List.replicate (32 - x.length) 0 := by
    rw [List.take_append_eq_append_take, List.take_of_length_le h, List.take_replicate]
    congr 2
    omega
  rw [this, cstr_append_zeros]

theorem skip_blocks_stay (fs : FS) (off v : Int) (h : ¬ (off > fs.block_size ∧ v ≠ 0xFFFF)) :
    ∀ fuel, skip_blocks fs fuel off v = some (off, v) := by
  intro fuel
  cases fuel <;> simp only [skip_blocks, if_neg h]

theorem find_fat_from_spec : ∀ (xs : List Nat) (i num j : Int),
    find_fat_from xs i num = some j → j ≠ -1 → 0 ≤ i →
      i ≤ j ∧ xs[(j - i).toNat]? = some 0 := by
  intro xs
  induction xs with
  | nil =>
    intro i num j h hj _
    unfold find_fat_from at h
    split at h
    · exact absurd h (by simp)
    · simp only [Option.some.injEq] at h
      exact absurd h.symm hj
  | cons x xs ih =>
    intro i num j h hj hi
    unfold find_fat_from at h
    split at h
    · split at h
      · rename_i hx
        simp only [Option.some.injEq] at h
        subst h
        simp [hx]
      · obtain ⟨h1, h2⟩ := ih (i + 1) num j h hj (by omega)
        refine ⟨by omega, ?_⟩
        have : (j - i).toNat = (j - (i + 1)).toNat + 1 := by omega
        rw [this]
        simpa using h2
    · simp only [Option.some.injEq] at h
      exact absurd h.symm hj

theorem find_fat_spec (fs : FS) (b : Int) (h : find_fat fs = some b) (hb : b ≠ -1) :
    1 ≤ b ∧ fat_get fs.fat b = some 0 := by
  unfold find_fat at h
  split at h
  · exact absurd h (by simp)
  · obtain ⟨h1, h2⟩ := find_fat_from_spec _ _ _ _ h hb (by omega)
    refine ⟨h1, ?_⟩
    unfold fat_get
    rw [if_pos (by omega)]
    rw [List.getElem?_drop] at h2
    have : 1 + (b - 1).toNat = b.toNat := by omega
    rw [this] at h2
    exact h2

theorem fd_at_fd_put (fs : FS) (g : Int) (d d' : FileDescriptor) (h : fd_at fs g = some d) :
    fd_at (fd_put fs g d') g = some d' := by
  unfold fd_at at h ⊢
  split at h
  · rename_i hg
    rw [if_pos hg]
    unfold fd_put
    simp only
    have hlt : g.toNat < fs.fd_table.length := by
      by_contra hc
      rw [List.getElem?_eq_none (by omega)] at h
      exact absurd h (by simp)
    simp [hlt]
  · exact absurd h (by simp)
theorem find_in_block_stable (data0 data : List Nat) (base : Nat) (name : List Nat) (p : Nat)
    (hbase : base % 64 = 0) (hp64 : p % 64 = 0) (hlen : data0.length ≤ data.length)
    (hmatch0 : strcmp_eq (decode_entry (pread data0 p 64)).name name = true)
    (hentry : (pread data p 64).length = 64 ∧
      strcmp_eq (decode_entry (pread data p 64)).name name = true) :
    ∀ (n i : Nat),
      (∀ j, base + 64 * i ≤ j → j < base + 64 * (i + n) → ¬ (p ≤ j ∧ j < p + 64) →
        data.getD j 0 = data0.getD j 0) →
      (find_in_block data0 base name n i = some none →
        find_in_block data base name n i = some none) ∧
      (∀ e0, find_in_block data0 base name n i = some (some (p, e0)) →
        find_in_block data base name n i = some (some (p, decode_entry (pread data p 64)))) := by
  intro n
  induction n with
  | zero =>
    intro i _
    refine ⟨fun _ => rfl, fun e0 h => ?_⟩
    simp [find_in_block] at h
  | succ n ih =>
    intro i hagree
    by_cases hq : base + 64 * i = p
    · have h0 : ∀ r, find_in_block data0 base name (n + 1) i = some r →
          ∃ e, r = some (p, e) := by
        intro r hr
        unfold find_in_block at hr
        simp only [hq] at hr
        split_ifs at hr
        simp only [Option.some.injEq] at hr
        exact ⟨_, hr.symm⟩
      refine ⟨fun h => ?_, fun e0 _ => ?_⟩
      · obtain ⟨e, he⟩ := h0 none h
        exact absurd he (by simp)
      · unfold find_in_block
        simp only [hq]
        rw [if_neg (by simp [hentry.1]), if_pos hentry.2]
    · have hsame : (pread data0 (base + 64 * i) 64).length = 64 →
          pread data (base + 64 * i) 64 = pread data0 (base + 64 * i) 64 := by
        intro hl
        rw [pread_length] at hl
        apply pread_congr
        · intro j hj1 hj2
          exact hagree j hj1 (by omega) (by omega)
        · omega
        · omega
      have hnext := ih (i + 1) (fun j hj1 hj2 hj3 => hagree j (by omega) (by omega) hj3)
      refine ⟨fun h => ?_, fun e0 h => ?_⟩
      · unfold find_in_block at h ⊢
        simp only at h ⊢
        split at h
        · exact absurd h (by simp)
        · rename_i hl
          have hl' : (pread data0 (base + 64 * i) 64).length = 64 := by
            by_contra hc; exact hl hc
          rw [hsame hl', if_neg hl]
          split at h
          · exact absurd h (by simp)
          · rename_i hm
            rw [if_neg hm]
            exact hnext.1 h
      · unfold find_in_block at h ⊢
        simp only at h ⊢
        split at h
        · exact absurd h (by simp)
        · rename_i hl
          have hl' : (pread data0 (base + 64 * i) 64).length = 64 := by
            by_contra hc; exact hl hc
          rw [hsame hl', if_neg hl]
          split at h
          · simp only [Option.some.injEq, Prod.mk.injEq] at h
            exact absurd h.1 hq
          · rename_i hm
            rw [if_neg hm]
            exact hnext.2 e0 h
theorem block_pos_base (fs : FS) (v : Int) (base : Nat) (hbs : 0 < fs.block_size)
    (h : block_pos fs v 0 = some base) :
    1 ≤ v ∧ base = fs.block_size.toNat * (v - 1).toNat := by
  unfold block_pos at h
  simp only at h
  split at h
  · rename_i hrel
    simp only [Option.some.injEq] at h
    have hv1 : 0 ≤ v - 1 := by
      by_contra hc
      have : fs.block_size * (v - 1) < 0 := Int.mul_neg_of_pos_of_neg hbs (by omega)
      omega
    refine ⟨by omega, ?_⟩
    rw [← h, add_zero]
    have h1 : fs.block_size = (fs.block_size.toNat : Int) := by omega
    have h2 : v - 1 = ((v - 1).toNat : Int) := by omega
    conv_lhs => rw [h1, h2]
    rw [← Int.natCast_mul, Int.toNat_natCast]
  · exact absurd h (by simp)

theorem blocks_apart (bsN m m' : Nat) (h : m ≠ m') :
    bsN * m + bsN ≤ bsN * m' ∨ bsN * m' + bsN ≤ bsN * m := by
  rcases Nat.lt_or_gt_of_ne h with h1 | h1
  · left
    have : bsN * (m + 1) ≤ bsN * m' := Nat.mul_le_mul_left bsN h1
    rw [Nat.mul_add, Nat.mul_one] at this
    exact this
  · right
    have : bsN * (m' + 1) ≤ bsN * m := Nat.mul_le_mul_left bsN h1
    rw [Nat.mul_add, Nat.mul_one] at this
    exact this

theorem find_file_loop_stable (fs0 fs : FS) (name : List Nat) (r0 r : directory_entry) (p : Nat)
    (e0 : directory_entry) (b : Int) (hbs : 0 < fs0.block_size) (h64 : fs0.block_size % 64 = 0)
    (hB : fs.block_size = fs0.block_size) (hF : fs.fat_size = fs0.fat_size) (hb1 : 1 ≤ b)
    (hfatb : fat_get fs0.fat b = some 0)
    (hfat : ∀ j, j ≠ b → fat_get fs.fat j = fat_get fs0.fat j)
    (hlen : fs0.data.length ≤ fs.data.length)
    (hdata : ∀ i, ¬ (fs0.block_size.toNat * (b - 1).toNat ≤ i ∧
        i < fs0.block_size.toNat * (b - 1).toNat + fs0.block_size.toNat) →
      ¬ (p ≤ i ∧ i < p + 64) → fs.data.getD i 0 = fs0.data.getD i 0)
    (hp64 : p % 64 = 0)
    (hsep : p + 64 ≤ fs0.block_size.toNat * (b - 1).toNat ∨
      fs0.block_size.toNat * (b - 1).toNat + fs0.block_size.toNat ≤ p)
    (hmatch0 : strcmp_eq (decode_entry (pread fs0.data p 64)).name name = true)
    (hentry : (pread fs.data p 64).length = 64 ∧
      strcmp_eq (decode_entry (pread fs.data p 64)).name name = true) :
    ∀ (fuel : Nat) (v : Int),
      find_file_loop fs0 name r0 fuel v = some ((fs0.fat_size : Int) + p, e0) →
      find_file_loop fs name r fuel v
        = some ((fs0.fat_size : Int) + p, decode_entry (pread fs.data p 64)) := by
  have hn64 : 64 * (fs0.block_size / 64).toNat = fs0.block_size.toNat := by omega
  intro fuel
  induction fuel with
  | zero =>
    intro v h
    unfold find_file_loop at h
    split at h
    · exact absurd h (by simp)
    · simp only [Option.some.injEq, Prod.mk.injEq] at h
      omega
  | succ fuel ih =>
    intro v h
    unfold find_file_loop at h ⊢
    split at h
    swap
    · simp only [Option.some.injEq, Prod.mk.injEq] at h
      omega
    rename_i hv
    rw [if_pos hv]
    have hbp : block_pos fs v 0 = block_pos fs0 v 0 := by
      unfold block_pos; rw [hB]
    rw [hbp, hB]
    cases hb0 : block_pos fs0 v 0 with
    | none => rw [hb0] at h; exact absurd h (by simp)
    | some base =>
      rw [hb0] at h
      simp only at h ⊢
      obtain ⟨hv1, hbase⟩ := block_pos_base fs0 v base hbs hb0
      by_cases hvb : v = b
      · -- the free block is not a directory block
        exfalso
        subst hvb
        cases hfi : find_in_block fs0.data base name (fs0.block_size / 64).toNat 0 with
        | none => rw [hfi] at h; exact absurd h (by simp)
        | some o =>
          rw [hfi] at h
          cases o with
          | some pe =>
            obtain ⟨pos, e⟩ := pe
            simp only [Option.some.injEq, Prod.mk.injEq] at h
            obtain ⟨j, _, hj, hpos⟩ := find_in_block_pos fs0.data base name pos e _ 0 hfi
            have : pos = p := by omega
            omega
          | none =>
            simp only [hfatb] at h
            cases fuel with
            | zero =>
              unfold find_file_loop at h
              simp at h
            | succ f =>
              unfold find_file_loop at h
              have hno : block_pos fs0 ((0 : Nat) : Int) 0 = none := by
                unfold block_pos
                simp only
                rw [if_neg]
                have : fs0.block_size * (((0 : Nat) : Int) - 1) < 0 :=
                  Int.mul_neg_of_pos_of_neg hbs (by omega)
                omega
              rw [hno] at h
              simp at h
      · have hv1' : (v - 1).toNat ≠ (b - 1).toNat := by omega
        have hapart := blocks_apart fs0.block_size.toNat _ _ hv1'
        have hbase64 : base % 64 = 0 := by
          rw [hbase, ← hn64, Nat.mul_assoc]
          exact Nat.mul_mod_right _ _
        have hst := find_in_block_stable fs0.data fs.data base name p hbase64 hp64 hlen hmatch0
          hentry (fs0.block_size / 64).toNat 0
          (fun j hj1 hj2 hj3 => hdata j (by omega) hj3)
        cases hfi : find_in_block fs0.data base name (fs0.block_size / 64).toNat 0 with
        | none => rw [hfi] at h; exact absurd h (by simp)
        | some o =>
          rw [hfi] at h
          cases o with
          | some pe =>
            obtain ⟨pos, e⟩ := pe
            simp only [Option.some.injEq, Prod.mk.injEq] at h
            have hpp : pos = p := by omega
            subst hpp
            rw [hst.2 e hfi]
            simp only [hF]
          | none =>
            rw [hst.1 hfi]
            simp only at h ⊢
            rw [hfat v hvb]
            cases hfg : fat_get fs0.fat v with
            | none => rw [hfg] at h; exact absurd h (by simp)
            | some next =>
              rw [hfg] at h
              simp only at h ⊢
              exact ih _ h
theorem find_file_loop_aligned (fs : FS) (name : List Nat) (r : directory_entry) (p : Nat)
    (e : directory_entry) (hbs : 0 < fs.block_size) (h64 : fs.block_size % 64 = 0) :
    ∀ (fuel : Nat) (v : Int),
      find_file_loop fs name r fuel v = some ((fs.fat_size : Int) + p, e) → p % 64 = 0 := by
  have hn64 : 64 * (fs.block_size / 64).toNat = fs.block_size.toNat := by omega
  intro fuel
  induction fuel with
  | zero =>
    intro v h
    unfold find_file_loop at h
    split at h
    · exact absurd h (by simp)
    · simp only [Option.some.injEq, Prod.mk.injEq] at h
      omega
  | succ fuel ih =>
    intro v h
    unfold find_file_loop at h
    split at h
    swap
    · simp only [Option.some.injEq, Prod.mk.injEq] at h
      omega
    cases hb0 : block_pos fs v 0 with
    | none => rw [hb0] at h; exact absurd h (by simp)
    | some base =>
      rw [hb0] at h
      simp only at h
      obtain ⟨_, hbase⟩ := block_pos_base fs v base hbs hb0
      cases hfi : find_in_block fs.data base name (fs.block_size / 64).toNat 0 with
      | none => rw [hfi] at h; exact absurd h (by simp)
      | some o =>
        rw [hfi] at h
        cases o with
        | some pe =>
          obtain ⟨pos, e1⟩ := pe
          simp only [Option.some.injEq, Prod.mk.injEq] at h
          obtain ⟨j, _, _, hpos⟩ := find_in_block_pos fs.data base name pos e1 _ 0 hfi
          have hpp : pos = p := by omega
          rw [← hpp, hpos, hbase, ← hn64, Nat.mul_assoc, ← Nat.mul_add]
          exact Nat.mul_mod_right _ _
        | none =>
          simp only at h
          cases hfg : fat_get fs.fat v with
          | none => rw [hfg] at h; exact absurd h (by simp)
          | some next =>
            rw [hfg] at h
            exact ih _ h

theorem f_write_loop_one_pass (prev_fat_value : Int) (str : List Nat) (fuel : Nat)
    (w : WriteLoop) (b : Int) (next : Nat) (hn : 0 < w.total_bytes_to_write)
    (hfit : ¬ (w.actual_offset + w.total_bytes_to_write > w.fs.block_size))
    (hfv : w.fat_value = b) (hb : b ≠ 0xFFFF) (hlen : (str.length : Int) = w.total_bytes_to_write)
    (hoff : 0 ≤ w.fs.block_size * (b - 1) + w.actual_offset)
    (hfat : fat_get w.fs.fat b = some next) :
    f_write_loop prev_fat_value str (fuel + 2) w
      = some { fs := { w.fs with data := (pwrite w.fs.data (w.fs.block_size * (b - 1) + w.actual_offset).toNat str) }
               total_bytes_to_write := 0
               total_bytes_written := w.total_bytes_written + w.total_bytes_to_write
               fat_value := next, actual_offset := 0 } := by
  have htake : str.take w.total_bytes_to_write.toNat = str := by
    apply List.take_of_length_le
    omega
  unfold f_write_loop
  simp only [if_pos hn, if_neg hfit, hfv, if_neg hb]
  rw [if_neg (by omega)]
  unfold block_pos
  simp only [if_pos hoff, hfat, htake]
  unfold f_write_loop
  simp only [sub_self, lt_self_iff_false, if_false]
theorem find_in_block_found_len (data : List Nat) (base : Nat) (fname : List Nat) (pos : Nat)
    (e : directory_entry) : ∀ (n i : Nat),
    find_in_block data base fname n i = some (some (pos, e)) → (pread data pos 64).length = 64 := by
  intro n
  induction n with
  | zero => intro i h; simp [find_in_block] at h
  | succ n ih =>
    intro i h
    unfold find_in_block at h
    simp only at h
    split at h
    · exact absurd h (by simp)
    · rename_i hl
      split at h
      · simp only [Option.some.injEq, Prod.mk.injEq] at h
        rw [← h.1]
        by_contra hc
        exact hl hc
      · exact ih (i + 1) h

theorem find_file_loop_found_len (fs : FS) (fname : List Nat) (r : directory_entry) (p : Nat)
    (e : directory_entry) : ∀ (fuel : Nat) (v : Int),
    find_file_loop fs fname r fuel v = some ((fs.fat_size : Int) + p, e) →
    (pread fs.data p 64).length = 64 := by
  intro fuel
  induction fuel with
  | zero =>
    intro v h
    unfold find_file_loop at h
    split at h
    · exact absurd h (by simp)
    · simp only [Option.some.injEq, Prod.mk.injEq] at h
      omega
  | succ fuel ih =>
    intro v h
    unfold find_file_loop at h
    split at h
    · split at h
      · exact absurd h (by simp)
      · split at h
        · exact absurd h (by simp)
        · rename_i pos0 e0 hin
          simp only [Option.some.injEq, Prod.mk.injEq] at h
          have hpp : pos0 = p := by omega
          rw [← hpp]
          exact find_in_block_found_len fs.data _ fname pos0 e0 _ 0 hin
        · split at h
          · exact absurd h (by simp)
          · exact ih _ h
    · simp only [Option.some.injEq, Prod.mk.injEq] at h
      omega

theorem decode_encode_name (e : directory_entry) :
    (decode_entry (encode_entry e)).name = fit 32 e.name := by
  simp only [decode_entry, encode_entry, List.append_assoc]
  rw [List.take_append_of_le_length (by rw [fit_length])]
  exact List.take_of_length_le (by rw [fit_length])

theorem decode_encode_size (e : directory_entry) (h : e.size < 4294967296) :
    (decode_entry (encode_entry e)).size = e.size := by
  simp only [decode_entry, encode_entry, List.append_assoc]
  rw [List.drop_append_of_le_length (by rw [fit_length])]
  have h32 : (fit 32 e.name).length = 32 := fit_length _ _
  rw [List.drop_of_length_le (by omega), List.nil_append,
    List.take_append_of_le_length (by rw [le_bytes_length]),
    List.take_of_length_le (by rw [le_bytes_length]), le_value_le_bytes]
  exact Nat.mod_eq_of_lt (by norm_num; exact h)

theorem strcmp_fit (x : List Nat) (h : x.length ≤ 32) : strcmp_eq (fit 32 x) x = true := by
  unfold strcmp_eq
  rw [cstr_fit x h]
  simp

theorem find_file_found_facts (fs0 : FS) (name : List Nat) (r0 e0 : directory_entry) (p : Nat)
    (hbs : 0 < fs0.block_size) (h64 : fs0.block_size % 64 = 0)
    (hfind : find_file fs0 name r0 = some ((fs0.fat_size : Int) + p, e0)) :
    p % 64 = 0 ∧ (pread fs0.data p 64).length = 64 ∧ e0 = decode_entry (pread fs0.data p 64) ∧
      strcmp_eq (decode_entry (pread fs0.data p 64)).name name = true := by
  unfold find_file at hfind
  refine ⟨find_file_loop_aligned fs0 name r0 p e0 hbs h64 _ _ hfind,
    find_file_loop_found_len fs0 name r0 p e0 _ _ hfind, ?_⟩
  rcases find_file_loop_found fs0 name r0 _ e0 _ _ hfind with h1 | ⟨pos, hp, he, hm⟩
  · omega
  · have hpp : pos = p := by omega
    subst hpp
    exact ⟨he, he ▸ hm⟩

theorem find_file_stable (fs0 fs : FS) (name : List Nat) (r0 r : directory_entry) (p : Nat)
    (e0 : directory_entry) (b : Int) (hbs : 0 < fs0.block_size) (h64 : fs0.block_size % 64 = 0)
    (hfind : find_file fs0 name r0 = some ((fs0.fat_size : Int) + p, e0))
    (hfree : find_fat fs0 = some b) (hb : b ≠ -1)
    (hsep : p + 64 ≤ fs0.block_size.toNat * (b - 1).toNat ∨
      fs0.block_size.toNat * (b - 1).toNat + fs0.block_size.toNat ≤ p)
    (hB : fs.block_size = fs0.block_size) (hF : fs.fat_size = fs0.fat_size)
    (hfat : fs.fat = fs0.fat ∨ fs.fat = fs0.fat.set b.toNat 0xFFFF)
    (hlen : fs0.data.length ≤ fs.data.length)
    (hdata : ∀ i, ¬ (fs0.block_size.toNat * (b - 1).toNat ≤ i ∧
        i < fs0.block_size.toNat * (b - 1).toNat + fs0.block_size.toNat) →
      ¬ (p ≤ i ∧ i < p + 64) → fs.data.getD i 0 = fs0.data.getD i 0)
    (hentry : (pread fs.data p 64).length = 64 ∧
      strcmp_eq (decode_entry (pread fs.data p 64)).name name = true) :
    find_file fs name r = some ((fs.fat_size : Int) + p, decode_entry (pread fs.data p 64)) := by
  obtain ⟨hp64, _, _, hmatch0⟩ := find_file_found_facts fs0 name r0 e0 p hbs h64 hfind
  obtain ⟨hb1, hfatb⟩ := find_fat_spec fs0 b hfree hb
  have hfl : fs.fat.length = fs0.fat.length := by
    rcases hfat with h | h <;> rw [h]
    simp
  have hfg : ∀ j, j ≠ b → fat_get fs.fat j = fat_get fs0.fat j := by
    intro j hj
    rcases hfat with h | h <;> rw [h]
    exact fat_get_set_ne fs0.fat b j _ (by omega) hj
  unfold find_file at hfind ⊢
  rw [hfl, hF]
  exact find_file_loop_stable fs0 fs name r0 r p e0 b hbs h64 hB hF hb1 hfatb hfg hlen hdata hp64
    hsep hmatch0 hentry _ _ hfind

theorem one_block_data_step (data0 data : List Nat) (B bsN p : Nat) (written chunk enc : List Nat)
    (henc : enc.length = 64)
    (hsep : p + 64 ≤ B ∨ B + bsN ≤ p)
    (hfit : written.length + chunk.length ≤ bsN)
    (hlen : data0.length ≤ data.length)
    (hdata : ∀ i, ¬ (B ≤ i ∧ i < B + bsN) → ¬ (p ≤ i ∧ i < p + 64) → data.getD i 0 = data0.getD i 0)
    (hread : pread data B written.length = written)
    (hp : p + 64 ≤ data.length) :
    data0.length ≤ (pwrite (pwrite data (B + written.length) chunk) p enc).length ∧
    (∀ i, ¬ (B ≤ i ∧ i < B + bsN) → ¬ (p ≤ i ∧ i < p + 64) →
      (pwrite (pwrite data (B + written.length) chunk) p enc).getD i 0 = data0.getD i 0) ∧
    pread (pwrite (pwrite data (B + written.length) chunk) p enc) B (written ++ chunk).length
      = written ++ chunk ∧
    pread (pwrite (pwrite data (B + written.length) chunk) p enc) p 64 = enc := by
  have hl1 : (pwrite data (B + written.length) chunk).length
      = max data.length (B + written.length + chunk.length) := pwrite_length _ _ _
  have hl2 : (pwrite (pwrite data (B + written.length) chunk) p enc).length
      = max (pwrite data (B + written.length) chunk).length (p + enc.length) := pwrite_length _ _ _
  refine ⟨?_, ?_, ?_, ?_⟩
  · rw [hl2, hl1]; omega
  · intro i hi1 hi2
    rw [pwrite_getD, if_neg (by rw [henc]; exact hi2), pwrite_getD, if_neg (by omega)]
    exact hdata i hi1 hi2
  · rw [List.length_append, pread_add]
    have hB : written.length = 0 ∨ B + written.length ≤ data.length := by
      have := congrArg List.length hread
      rw [pread_length] at this
      omega
    congr 1
    · rw [pread_pwrite_other _ _ _ _ _ (by rw [henc]; omega) (by rw [hl1]; omega)]
      rcases hB with h0 | hB
      · rw [h0, pread_zero]
        exact (List.length_eq_zero.mp h0).symm
      · rw [pread_pwrite_other _ _ _ _ _ (Or.inl (le_refl _)) hB]
        exact hread
    · rw [pread_pwrite_other _ _ _ _ _ (by rw [henc]; omega) (by rw [hl1]; omega)]
      exact pread_pwrite_same chunk _ _
  · rw [← henc]
    exact pread_pwrite_same enc _ _

theorem one_block_file_entry (fs0 fs : FS) (pcb : PCB) (fd g : Int) (d0 : FileDescriptor)
    (b : Int) (p : Nat) (written : List Nat) (hfresh : fresh_file fs0 pcb fd g d0 b p)
    (hinv : one_block_file fs0 fs g d0 b p written) :
    (pread fs.data p 64).length = 64 ∧
      strcmp_eq (decode_entry (pread fs.data p 64)).name d0.dir_entry.name = true := by
  obtain ⟨_, _, _, _, _, _, _, _, _, hnl, _, hbs, h64, _, _, _, _, ⟨r0, e0, hfind, _⟩, _⟩ := hfresh
  obtain ⟨_, _, _, _, _, _, _, hent⟩ := hinv
  obtain ⟨_, hl0, _, hm0⟩ := find_file_found_facts fs0 _ r0 e0 p hbs h64 hfind
  rw [hent]
  split
  · exact ⟨hl0, hm0⟩
  · refine ⟨encode_entry_length _, ?_⟩
    rw [decode_encode_name]
    exact strcmp_fit _ hnl

theorem write_one_block (fs0 fs : FS) (pcb : PCB) (fd g : Int) (d0 : FileDescriptor) (b : Int)
    (p : Nat) (written chunk : List Nat) (hfresh : fresh_file fs0 pcb fd g d0 b p)
    (hinv : one_block_file fs0 fs g d0 b p written)
    (hfit : written.length + chunk.length ≤ fs0.block_size.toNat) :
    ∃ fs', f_write fs pcb fd chunk chunk.length = some ((chunk.length : Int), fs') ∧
      one_block_file fs0 fs' g d0 b p (written ++ chunk) := by
  have hentry := one_block_file_entry fs0 fs pcb fd g d0 b p written hfresh hinv
  obtain ⟨hfd, hslot, hg, hd0, htype, hmode, hoff0, hsize0, hfirst0, hnl, _, hbs, h64, hbig,
    hfree, hbne, hblt, ⟨r0, e0, hfind, he0⟩, hsep⟩ := hfresh
  obtain ⟨hB, hF, hfdat, hfat, hlen, hdata, hread, hent⟩ := hinv
  obtain ⟨hb1, hfatb⟩ := find_fat_spec fs0 b hfree hbne
  obtain ⟨hb0, hblen⟩ := fat_get_bounds fs0.fat b 0 hfatb
  by_cases hchunk : chunk = []
  · subst hchunk
    refine ⟨fs, ?_, ?_⟩
    · unfold f_write
      simp only [if_neg hfd, hslot, if_neg hg, hfdat]
      simp [grown_fd, htype, hmode]
    · rw [List.append_nil]
      exact ⟨hB, hF, hfdat, hfat, hlen, hdata, hread, hent⟩
  · have hn1 : ¬ ((chunk.length : Int) < 1) := by
      have : 0 < chunk.length := List.length_pos.mpr hchunk
      omega
    have hd_type : (grown_fd d0 b written.length).fd_type = .FD_FILE := htype
    have hd_mode : (grown_fd d0 b written.length).mode = d0.mode := rfl
    have hd_off : (grown_fd d0 b written.length).offset = (written.length : Int) := rfl
    have hd_size : (grown_fd d0 b written.length).dir_entry.size = written.length := rfl
    have hu32 : u32 (written.length : Int) = (written.length : Int) := by
      unfold u32; omega
    have hskip := skip_blocks_stay fs (written.length : Int)
      (grown_fd d0 b written.length).dir_entry.firstBlock
      (by rw [hB]; omega) (written.length : Int).toNat
    have hfirst : ∃ fs1 : FS,
        (if ((grown_fd d0 b written.length).dir_entry.firstBlock : Int) = 65535 then
          (match find_fat fs with
          | none => none
          | some fv =>
            match fat_set fs.fat fv 65535 with
            | none => none
            | some fat1 =>
              some (fv, fd_put { fs with fat := fat1 } g
                { grown_fd d0 b written.length with fd_type := .FD_FILE, dir_entry := { (grown_fd d0 b written.length).dir_entry with firstBlock := (fv % 65536).toNat } }))
        else some (((grown_fd d0 b written.length).dir_entry.firstBlock : Int), fs)) = some (b, fs1) ∧
        fs1.block_size = fs0.block_size ∧ fs1.fat_size = fs0.fat_size ∧
          fs1.fat = fs0.fat.set b.toNat 65535 ∧ fs1.data = fs.data ∧
          fd_at fs1 g = some { d0 with offset := written.length, dir_entry := { d0.dir_entry with size := written.length, firstBlock := b.toNat } } := by
      by_cases hk : written.length = 0
      · have hfb : ((grown_fd d0 b written.length).dir_entry.firstBlock : Int) = 65535 := by
          simp [grown_fd, hk]
        have hff : find_fat fs = some b := by
          rw [if_pos hk] at hfat
          unfold find_fat
          rw [hB, hF, hfat]
          exact hfree
        have hfs : fat_set fs.fat b 65535 = some (fs0.fat.set b.toNat 65535) := by
          rw [if_pos hk] at hfat
          unfold fat_set
          rw [hfat, if_pos ⟨hb0, hblen⟩]
          rfl
        rw [if_pos hfb, hff]
        simp only [hfs]
        refine ⟨_, rfl, hB, hF, rfl, rfl, ?_⟩
        refine (fd_at_fd_put _ g _ _ hfdat).trans ?_
        have : (b % 65536).toNat = b.toNat := by omega
        simp [grown_fd, hk, this, htype]
      · have hfb : ((grown_fd d0 b written.length).dir_entry.firstBlock : Int) = b := by
          simp [grown_fd, hk, hb0]
        have hb5 : ¬ (b = 65535) := by omega
        rw [hfb, if_neg hb5]
        refine ⟨_, rfl, hB, hF, ?_, rfl, ?_⟩
        · rw [hfat, if_neg hk]
        · rw [hfdat]
          simp [grown_fd, hk]
    obtain ⟨fs1, hfirst, hB1, hF1, hfat1, hdata1, hfd1⟩ := hfirst
    unfold f_write
    simp only [if_neg hfd, hslot, if_neg hg, hfdat, hd_type, hd_mode, if_neg hmode, if_neg hn1,
      hd_off, hd_size, hu32, hskip]
    simp only [ne_eq, not_true_eq_false, false_and, if_false, reduceCtorEq, gt_iff_lt,
      lt_self_iff_false]
    split
    · rename_i heq
      have := heq.symm.trans hfirst
      cases this
    · rename_i fv fsx heq
      have := heq.symm.trans hfirst
      cases this
      clear heq
      have hb5 : b ≠ 65535 := by omega
      have hcast : fs0.block_size * (b - 1) + (written.length : Int)
          = ((fs0.block_size.toNat * (b - 1).toNat + written.length : Nat) : Int) := by
        push_cast
        rw [Int.toNat_of_nonneg (le_of_lt hbs), Int.toNat_of_nonneg (by omega)]
      split
      · rename_i heq
        have := heq.symm.trans (f_write_loop_one_pass _ chunk _ _ b 65535
          (by show (0 : Int) < chunk.length; omega)
          (by show ¬ ((written.length : Int) + chunk.length > fs1.block_size); rw [hB1]; omega)
          rfl hb5 rfl
          (by show 0 ≤ fs1.block_size * (b - 1) + (written.length : Int); rw [hB1, hcast]; omega)
          (by show fat_get fs1.fat b = some 65535; rw [hfat1]; exact fat_get_set_same _ _ _ hb0 hblen))
        cases this
      · rename_i w heq
        have := heq.symm.trans (f_write_loop_one_pass _ chunk _ _ b 65535
          (by show (0 : Int) < chunk.length; omega)
          (by show ¬ ((written.length : Int) + chunk.length > fs1.block_size); rw [hB1]; omega)
          rfl hb5 rfl
          (by show 0 ≤ fs1.block_size * (b - 1) + (written.length : Int); rw [hB1, hcast]; omega)
          (by show fat_get fs1.fat b = some 65535; rw [hfat1]; exact fat_get_set_same _ _ _ hb0 hblen))
        cases this
        clear heq
        dsimp only
        rw [zero_add, hB1, hdata1, hcast, Int.toNat_ofNat]
        have hfdw : fd_at { fs1 with data := pwrite fs.data (fs0.block_size.toNat * (b - 1).toNat + written.length) chunk } g
            = some { d0 with offset := written.length, dir_entry := { d0.dir_entry with size := written.length, firstBlock := b.toNat } } := hfd1
        split
        · rename_i heq
          have := heq.symm.trans hfdw
          cases this
        · rename_i d1 heq
          have := heq.symm.trans hfdw
          cases this
          clear heq
          dsimp only
          have hu : u32 ((written.length : Int) + (chunk.length : Int))
              = ((written.length + chunk.length : Nat) : Int) := by
            unfold u32; omega
          have hlt : (written.length : Int) < ((written.length + chunk.length : Nat) : Int) := by
            omega
          rw [hu, if_pos hlt, Int.toNat_ofNat]
          dsimp only
          have hp64 : p + 64 ≤ fs.data.length := by
            have := hentry.1
            rw [pread_length] at this
            omega
          have hstep := one_block_data_step fs0.data fs.data (fs0.block_size.toNat * (b - 1).toNat)
            fs0.block_size.toNat p written chunk
            (encode_entry { d0.dir_entry with size := written.length + chunk.length, firstBlock := b.toNat })
            (encode_entry_length _) hsep hfit hlen hdata hread hp64
          have hother : pread (pwrite fs.data (fs0.block_size.toNat * (b - 1).toNat + written.length) chunk) p 64
              = pread fs.data p 64 :=
            pread_pwrite_other _ _ _ _ _ (by omega) hp64
          have key : ∀ (fs2 : FS) (r : directory_entry), fs2.block_size = fs0.block_size →
              fs2.fat_size = fs0.fat_size → fs2.fat = fs1.fat →
              fs2.data = pwrite fs.data (fs0.block_size.toNat * (b - 1).toNat + written.length) chunk →
              find_file fs2 d0.dir_entry.name r
                = some ((fs2.fat_size : Int) + p, decode_entry (pread fs2.data p 64)) := by
            intro fs2 r h1 h2 h3 h4
            refine find_file_stable fs0 fs2 d0.dir_entry.name r0 r p e0 b hbs h64 hfind
              hfree hbne hsep h1 h2 (Or.inr (h3.trans hfat1)) ?_ ?_ ?_
            · rw [h4, pwrite_length]; omega
            · intro i hi1 hi2
              rw [h4, pwrite_getD, if_neg (by omega)]
              exact hdata i hi1 hi2
            · rw [h4, hother]; exact hentry
          split
          · rename_i heq
            have := heq.symm.trans (key _ _ rfl hF1 rfl rfl)
            cases this
          · rename_i pos e heq
            have := heq.symm.trans (key _ _ rfl hF1 rfl rfl)
            cases this
            clear heq
            unfold update_fs_dir_entry
            dsimp only [fd_put]
            rw [if_neg (by omega), if_neg (by omega)]
            dsimp only
            refine ⟨_, rfl, ?_⟩
            have hpp : ((fs1.fat_size : Int) + (p : Int) - (fs1.fat_size : Int)).toNat = p := by omega
            rw [hpp]
            have hne : ¬ ((written ++ chunk).length = 0) := by
              rw [List.length_append]; omega
            obtain ⟨s1, s2, s3, s4⟩ := hstep
            have hne2 : ¬ (written = [] ∧ chunk = []) := fun h => hchunk h.2
            refine ⟨rfl, hF1, ?_, ?_, s1, s2, s3, ?_⟩
            · have h0 : 0 ≤ g := by
                by_contra hc
                unfold fd_at at hfd1
                rw [if_neg hc] at hfd1
                cases hfd1
              have hglt : g.toNat < fs1.fd_table.length := by
                unfold fd_at at hfd1
                rw [if_pos h0] at hfd1
                exact (List.getElem?_eq_some.mp hfd1).1
              unfold fd_at
              rw [if_pos h0]
              simp [grown_fd, hglt, hne2]
            · rw [if_neg hne]; exact hfat1
            · rw [if_neg hne, s4]
              simp [grown_fd, hne2]

theorem read_one_block (fs0 fs : FS) (pcb : PCB) (fd g : Int) (d0 : FileDescriptor) (b : Int)
    (p : Nat) (written : List Nat) (hfresh : fresh_file fs0 pcb fd g d0 b p)
    (hinv : one_block_file fs0 fs g d0 b p written)
    (hfit : written.length ≤ fs0.block_size.toNat) :
    ∃ fs2 fs3, f_lseek fs pcb fd 0 F_SEEK_SET = some (0, fs2) ∧
      f_read fs2 pcb fd written.length = some ((written.length : Int), written, fs3) ∧
      (∃ d, fd_at fs3 g = some d ∧ d.dir_entry.size = written.length) ∧
      ∀ r, ∃ pos e, find_file fs3 d0.dir_entry.name r = some (pos, e) ∧ e.size = written.length := by
  have hentry := one_block_file_entry fs0 fs pcb fd g d0 b p written hfresh hinv
  obtain ⟨hfd, hslot, hg, hd0, htype, hmode, hoff0, hsize0, hfirst0, hnl, _, hbs, h64, hbig,
    hfree, hbne, hblt, ⟨r0, e0, hfind, he0⟩, hsep⟩ := hfresh
  obtain ⟨hB, hF, hfdat, hfat, hlen, hdata, hread, hent⟩ := hinv
  obtain ⟨hb1, hfatb⟩ := find_fat_spec fs0 b hfree hbne
  obtain ⟨hb0, hblen⟩ := fat_get_bounds fs0.fat b 0 hfatb
  have hseek : f_lseek fs pcb fd 0 F_SEEK_SET
      = some (0, fd_put fs g { grown_fd d0 b written.length with offset := 0 }) := by
    unfold f_lseek
    simp only [if_neg hfd, hslot, if_neg hg, hfdat]
    have : (grown_fd d0 b written.length).fd_type = .FD_FILE := htype
    simp [this]
  have hfd2 : fd_at (fd_put fs g { grown_fd d0 b written.length with offset := 0 }) g
      = some { grown_fd d0 b written.length with offset := 0 } := fd_at_fd_put _ _ _ _ hfdat
  have hsize : ∀ (fs3 : FS) (r : directory_entry), fs3.block_size = fs0.block_size →
      fs3.fat_size = fs0.fat_size → fs3.fat = fs.fat → fs3.data = fs.data →
      ∃ pos e, find_file fs3 d0.dir_entry.name r = some (pos, e) ∧ e.size = written.length := by
    intro fs3 r h1 h2 h3 h4
    refine ⟨_, _, find_file_stable fs0 fs3 d0.dir_entry.name r0 r p e0 b hbs h64 hfind
      hfree hbne hsep h1 h2 ?_ ?_ ?_ ?_, ?_⟩
    · rw [h3, hfat]
      split
      · exact Or.inl rfl
      · exact Or.inr rfl
    · rw [h4]; exact hlen
    · rw [h4]; exact hdata
    · rw [h4]; exact hentry
    · rw [h4, hent]
      split
      · rename_i hk
        obtain ⟨_, _, he, _⟩ := find_file_found_facts fs0 _ r0 e0 p hbs h64 hfind
        rw [← he, he0, hk]
      · rw [decode_encode_size _ (by show written.length < 4294967296; omega)]
        rfl
  by_cases hk : written.length = 0
  · have hw : written = [] := List.length_eq_zero.mp hk
    subst hw
    refine ⟨_, fd_put fs g { grown_fd d0 b 0 with offset := 0 }, hseek, ?_, ⟨_, hfd2, rfl⟩,
      fun r => hsize _ r hB hF rfl rfl⟩
    unfold f_read
    simp only [if_neg hfd, hslot, if_neg hg, hfd2]
    simp [grown_fd, htype]
  · obtain ⟨d, hd⟩ : ∃ d : FileDescriptor, d = { grown_fd d0 b written.length with offset := 0 } :=
      ⟨_, rfl⟩
    obtain ⟨fs2, hfs2⟩ : ∃ fs2 : FS, fs2 = fd_put fs g d := ⟨_, rfl⟩
    rw [← hd] at hseek hfd2
    rw [← hfs2] at hseek hfd2
    have hB2 : fs2.block_size = fs0.block_size := by rw [hfs2]; exact hB
    have hF2 : fs2.fat_size = fs0.fat_size := by rw [hfs2]; exact hF
    have hfat2 : fs2.fat = fs0.fat.set b.toNat 65535 := by rw [hfs2]; show fs.fat = _; rw [hfat, if_neg hk]
    have hdata2 : fs2.data = fs.data := by rw [hfs2]; rfl
    have hdo : d.offset = 0 := by rw [hd]
    have hdt : d.fd_type = .FD_FILE := by rw [hd]; exact htype
    have hds : d.dir_entry.size = written.length := by rw [hd]; rfl
    have hdf : (d.dir_entry.firstBlock : Int) = b := by
      rw [hd]; simp [grown_fd, hk, hb0]
    have hdfn : d.dir_entry.firstBlock ≠ 65535 := by
      intro h
      rw [h] at hdf
      omega
    refine ⟨fs2, fd_put fs2 g { d with offset := d.offset + written.length }, hseek, ?_,
      ⟨_, fd_at_fd_put _ _ _ _ hfd2, hds⟩, fun r => hsize _ r hB2 hF2 ?_ hdata2⟩
    · have hskip := skip_blocks_stay fs2 0 b (by rw [hB2]; omega) (0 : Int).toNat
      have hu0 : u32 0 = 0 := rfl
      have hc1 : ¬ ((0 : Int) ≥ fs2.block_size ∨ (0 : Int) > (written.length : Int)) := by
        rw [hB2]; omega
      have hbp : block_pos fs2 b 0 = some (fs0.block_size.toNat * (b - 1).toNat) := by
        unfold block_pos
        dsimp only
        rw [hB2, add_zero, if_pos (mul_nonneg (le_of_lt hbs) (by omega))]
        congr 1
        have : fs0.block_size * (b - 1) = ((fs0.block_size.toNat * (b - 1).toNat : Nat) : Int) := by
          push_cast
          rw [Int.toNat_of_nonneg (le_of_lt hbs), Int.toNat_of_nonneg (by omega)]
        rw [this, Int.toNat_ofNat]
      have hu : u32 ((0 : Int) + (written.length : Int)) = written.length := by
        unfold u32; omega
      unfold f_read
      simp only [if_neg hfd, hslot, if_neg hg, hfd2, hdt, hdo, hds, hdf, hskip, if_neg hdfn, hu0,
        if_neg hc1, hbp, hu, lt_self_iff_false, if_false, sub_zero]
      simp only [ne_eq, not_true_eq_false, false_and, if_false, reduceCtorEq]
      have hpos : (written.length : Int) > 0 := by omega
      have hcross : ¬ ((0 : Int) + (written.length : Int) > fs2.block_size) := by rw [hB2]; omega
      have hnn : ¬ ((written.length : Int) < 0) := by omega
      have hfg : fat_get fs2.fat b = some 65535 := by
        rw [hfat2]; exact fat_get_set_same _ _ _ hb0 hblen
      rw [f_read_loop]
      simp only [if_pos hpos, hcross, decide_False, Bool.false_eq_true, if_false, if_neg hnn,
        Int.toNat_ofNat, hdata2, hread, ne_eq, not_true_eq_false, hfd2]
      have hfg2 : fat_get (fd_put fs2 g { d with offset := d.offset + written.length }).fat b
          = some 65535 := hfg
      rw [hfg2]
      simp only [if_true, hdo, hdt, zero_add, List.nil_append]
    · rw [hfs2]; rfl
theorem one_block_file_init (fs0 : FS) (pcb : PCB) (fd g : Int) (d0 : FileDescriptor) (b : Int)
    (p : Nat) (hfresh : fresh_file fs0 pcb fd g d0 b p) : one_block_file fs0 fs0 g d0 b p [] := by
  obtain ⟨_, _, _, hd0, _, _, hoff0, hsize0, hfirst0, _⟩ := hfresh
  refine ⟨rfl, rfl, ?_, rfl, le_refl _, fun _ _ _ => rfl, pread_zero _ _, rfl⟩
  rw [hd0]
  congr 1
  obtain ⟨e, o, m, t, rc⟩ := d0
  obtain ⟨n, s, f, ty, pe, mt, re⟩ := e
  simp only at hoff0 hsize0 hfirst0
  subst hoff0 hsize0 hfirst0
  rfl

theorem write_all_one_block (fs0 : FS) (pcb : PCB) (fd g : Int) (d0 : FileDescriptor) (b : Int)
    (p : Nat) (hfresh : fresh_file fs0 pcb fd g d0 b p) :
    ∀ (chunks : List (List Nat)) (written : List Nat) (fs : FS),
      one_block_file fs0 fs g d0 b p written →
      written.length + chunks.flatten.length ≤ fs0.block_size.toNat →
      ∃ fs', write_all pcb fd chunks fs = some (chunks.map (fun c => (c.length : Int)), fs') ∧
        one_block_file fs0 fs' g d0 b p (written ++ chunks.flatten) := by
  intro chunks
  induction chunks with
  | nil =>
    intro written fs hinv _
    refine ⟨fs, rfl, ?_⟩
    rw [List.flatten_nil, List.append_nil]
    exact hinv
  | cons chunk rest ih =>
    intro written fs hinv hfit
    rw [List.flatten_cons, List.length_append] at hfit
    obtain ⟨fs1, hw, hinv1⟩ := write_one_block fs0 fs pcb fd g d0 b p written chunk hfresh hinv
      (by omega)
    obtain ⟨fs2, hrest, hinv2⟩ := ih (written ++ chunk) fs1 hinv1
      (by rw [List.length_append]; omega)
    refine ⟨fs2, ?_, ?_⟩
    · rw [write_all, hw]
      dsimp only
      rw [hrest]
      rfl
    · rw [List.flatten_cons, ← List.append_assoc]
      exact hinv2

/-! ### Runs in which no quantum ends inside a call -/

/-- As long as no quantum ends inside a call (see `Event`): in every state
reached from boot (`p_system_init` on any file system) by whole calls of the
process API (`p_spawn`, `p_waitpid` and its continuation after the spin,
`p_kill`, `p_sleep`, `p_exit`, the return of the process function, `p_fg`,
`p_bg`) and by the two halves of a pass of the scheduler loop, in any order,
every PCB of the registry with status ZOMBIE has the exit kind `EXIT_NORMAL` or
`EXIT_SIGNAL`, and so has the idle PCB. -/
theorem zombie_exit_kind_in_unpreempted_runs (fs : FS) (uninit : exit_status) (events : List Event)
    (s : Sched) (hrun : (boot_on fs uninit).bind (run_events events) = some s) :
    (∀ p ∈ s.k.global_pcbs, p.status = .ZOMBIE →
      p.e_status = .EXIT_NORMAL ∨ p.e_status = .EXIT_SIGNAL) ∧
    ∀ I, s.k.idle_pcb = some I → I.status = .ZOMBIE →
      I.e_status = .EXIT_NORMAL ∨ I.e_status = .EXIT_SIGNAL := by
  simp only [Option.bind_eq_some] at hrun
  obtain ⟨s0, h0, h1⟩ := hrun
  exact zombies_ok_events events s0 s (zombies_ok_boot fs uninit s0 h0) h1

/-- The run `sample_events`, in which no quantum ends inside a call, ends in a state whose
registry holds the reaped child 3 and the sleeper 4, ZOMBIE with the exit kind
`EXIT_SIGNAL`. -/
theorem zombie_exit_kind_in_unpreempted_runs_sample :
    ∃ s, (boot_on (FS.unmounted []) .NOT_EXITED).bind (run_events sample_events) = some s ∧
      exit_kinds s = [(1, .READY, .NOT_EXITED), (2, .RUNNING, .NOT_EXITED),
        (3, .TERMINATED, .EXIT_NORMAL), (4, .ZOMBIE, .EXIT_SIGNAL)] ∧
      ((∀ p ∈ s.k.global_pcbs, p.status = .ZOMBIE →
        p.e_status = .EXIT_NORMAL ∨ p.e_status = .EXIT_SIGNAL) ∧
      ∀ I, s.k.idle_pcb = some I → I.status = .ZOMBIE →
        I.e_status = .EXIT_NORMAL ∨ I.e_status = .EXIT_SIGNAL) := by
  obtain ⟨s, hs⟩ := Option.isSome_iff_exists.mp
    (by decide! : ((boot_on (FS.unmounted []) .NOT_EXITED).bind
      (run_events sample_events)).isSome = true)
  refine ⟨s, hs, ?_,
    zombie_exit_kind_in_unpreempted_runs (FS.unmounted []) .NOT_EXITED sample_events s hs⟩
  have h2 : ((boot_on (FS.unmounted []) .NOT_EXITED).bind (run_events sample_events)).map
      exit_kinds = some [(1, .READY, .NOT_EXITED), (2, .RUNNING, .NOT_EXITED),
        (3, .TERMINATED, .EXIT_NORMAL), (4, .ZOMBIE, .EXIT_SIGNAL)] := by decide!
  rw [hs] at h2
  simpa using h2

/-! ### The lookup of `chmod` and `find_file` -/

theorem cstr_length_le (a : List Nat) : (cstr a).length ≤ a.length := by
  unfold cstr
  exact (List.takeWhile_sublist _).length_le

theorem strncmp_eq_strcmp (a b : List Nat) (ha : a.length ≤ 32) (hb : (cstr b).length ≤ 32) :
    strncmp_eq a b 32 = strcmp_eq a b := by
  unfold strncmp_eq strcmp_eq
  rw [List.take_of_length_le (le_trans (cstr_length_le a) ha), List.take_of_length_le hb]

theorem chmod_in_block_of_find (data : List Nat) (base : Nat) (fname : List Nat)
    (hb : (cstr fname).length ≤ 32) : ∀ (n i : Nat),
    (∀ q e, find_in_block data base fname n i = some (some (q, e)) →
      chmod_in_block data base fname n i = some (some (q, pread data q 64))) ∧
    (find_in_block data base fname n i = some none →
      chmod_in_block data base fname n i = some none) := by
  intro n
  induction n with
  | zero =>
    intro i
    refine ⟨fun q e h => ?_, fun _ => rfl⟩
    simp [find_in_block] at h
  | succ n ih =>
    intro i
    have hs : strncmp_eq (decode_entry (pread data (base + 64 * i) 64)).name fname 32
        = strcmp_eq (decode_entry (pread data (base + 64 * i) 64)).name fname :=
      strncmp_eq_strcmp _ _ (List.length_take_le _ _) hb
    unfold find_in_block chmod_in_block
    simp only [hs]
    by_cases hlen : (pread data (base + 64 * i) 64).length ≠ 64
    · simp only [if_pos hlen]
      exact ⟨fun q e h => absurd h (by simp), fun h => absurd h (by simp)⟩
    · simp only [if_neg hlen]
      by_cases hm : strcmp_eq (decode_entry (pread data (base + 64 * i) 64)).name fname = true
      · simp only [if_pos hm]
        refine ⟨fun q e h => ?_, fun h => absurd h (by simp)⟩
        simp only [Option.some.injEq, Prod.mk.injEq] at h
        obtain ⟨h1, _⟩ := h
        subst h1
        rfl
      · simp only [if_neg hm]
        exact ih (i + 1)

theorem chmod_loop_of_find (fs : FS) (fname : List Nat) (r : directory_entry) (pos : Nat)
    (e : directory_entry) (hb : (cstr fname).length ≤ 32) : ∀ (fuel : Nat) (v : Int),
    find_file_loop fs fname r fuel v = some ((fs.fat_size : Int) + pos, e) →
    chmod_loop fs fname fuel v = some (some (pos, pread fs.data pos 64)) := by
  intro fuel
  induction fuel with
  | zero =>
    intro v h
    unfold find_file_loop at h
    split at h
    · exact absurd h (by simp)
    · simp only [Option.some.injEq, Prod.mk.injEq] at h
      omega
  | succ fuel ih =>
    intro v h
    unfold find_file_loop at h
    unfold chmod_loop
    split at h
    · rename_i hv
      rw [if_pos hv]
      split at h
      · exact absurd h (by simp)
      · rename_i base hbase
        split at h
        · exact absurd h (by simp)
        · rename_i q e0 hin
          simp only [Option.some.injEq, Prod.mk.injEq] at h
          obtain ⟨h1, _⟩ := h
          have hq : q = pos := by omega
          subst hq
          simp only [(chmod_in_block_of_find fs.data base fname hb _ 0).1 q e0 hin]
        · rename_i hin
          simp only [(chmod_in_block_of_find fs.data base fname hb _ 0).2 hin]
          split at h
          · exact absurd h (by simp)
          · rename_i next hnext
            exact ih _ h
    · simp only [Option.some.injEq, Prod.mk.injEq] at h
      omega

/-! ### The two stores of `exit_context` -/

theorem update_first_twice (h : Int) (f g : PCB → PCB) (hf : ∀ q, (f q).pid = q.pid) :
    ∀ l : List PCB, update_first h g (update_first h f l) = update_first h (fun p => g (f p)) l := by
  intro l
  induction l with
  | nil => rfl
  | cons a l ih =>
    by_cases ha : (a.pid == h) = true
    · have h1 : update_first h f (a :: l) = f a :: l := by
        simp only [update_first, ha, if_true]
      have h2 : update_first h (fun p => g (f p)) (a :: l) = g (f a) :: l := by
        simp only [update_first, ha, if_true]
      have h3 : update_first h g (f a :: l) = g (f a) :: l := by
        simp only [update_first, hf a, ha, if_true]
      rw [h1, h2, h3]
    · have h1 : update_first h f (a :: l) = a :: update_first h f l := by
        simp only [update_first, ha]
        rfl
      have h2 : update_first h (fun p => g (f p)) (a :: l)
          = a :: update_first h (fun p => g (f p)) l := by
        simp only [update_first, ha]
        rfl
      have h3 : update_first h g (a :: update_first h f l)
          = a :: update_first h g (update_first h f l) := by
        simp only [update_first, ha]
        rfl
      rw [h1, h2, h3, ih]

theorem exit_context_two_stores (k : Kernel) :
    exit_kind_store (exit_status_store k) = exit_context k := by
  unfold exit_kind_store exit_status_store exit_context modify
  by_cases h : k.current_pcb = 0
  · simp only [h, if_true]
    cases hI : k.idle_pcb <;> simp [hI]
  · simp only [if_neg h]
    unfold modify_reg
    simp only [if_neg h]
    have := update_first_twice k.current_pcb (fun p => { p with status := .ZOMBIE })
      (fun p => { p with e_status := .EXIT_NORMAL }) (fun _ => rfl) k.global_pcbs
    simp only at this
    rw [this]

/-! ### Claims -/

/-- C1 (defect of `f_write`).  On a fresh file system, `f_open("a", F_WRITE)`
and one `f_write` of 257 bytes (block size 256) returns 257 and records size
257, but `f_lseek` to 0 and `f_read` of 257 bytes returns only the first 256
bytes: the block allocated for byte 256 is never linked to the first block.
With the same bytes written as 200 + 57, the read returns 257 bytes whose last
one is the first byte of the second buffer, not its last. -/
theorem C1_write_spanning_blocks_is_not_read_back :
    write_seek_read [bytes257] 0 257
      = some { counts := [257], size := 257, sought := 0, ret := 256, buf := bytes257.take 256
               offset := 256 } ∧
    write_seek_read [bytes257.take 200, bytes257.drop 200] 0 257
      = some { counts := [200, 57], size := 257, sought := 0, ret := 257
               buf := bytes257.take 256 ++ [201], offset := 257 } ∧
    bytes257.drop 256 = [6] := by
  decide!

/-- C2 (defect of `f_read`).  A file of size 512 made by two writes of 256
bytes has the well-formed chain 2 -> 3 (block size 256); with the offset at
256, `f_read(fd, 1, buf)` returns 0, stores nothing and leaves the offset at
256, where `min(n, S - o) = 1`. -/
theorem C2_read_at_block_boundary_returns_zero :
    write_layout [bytes257.take 256, bytes257.take 256]
      = some { counts := [256, 256], fd_size := 512, fd_firstBlock := 2, dir_size := 512
               dir_firstBlock := 2, chain := [2, 3] } ∧
    write_seek_read [bytes257.take 256, bytes257.take 256] 256 1
      = some { counts := [256, 256], size := 512, sought := 256, ret := 0, buf := [], offset := 256 } := by
  decide!

/-- C3 (defect of `f_write`).  After `f_open("a", F_WRITE)` and one successful
`f_write` of 257 bytes on a fresh file system with block size 256, the file has
size 257, in its descriptor and in its directory entry, but the FAT chain from
its first block is the single block 2, not `ceil(257 / 256) = 2` blocks. -/
theorem C3_chain_shorter_than_size :
    write_layout [bytes257]
      = some { counts := [257], fd_size := 257, fd_firstBlock := 2, dir_size := 257
               dir_firstBlock := 2, chain := [2] } := by
  decide!

/-- C4 (defect of `waitpid_checks`).  After boot, the shell (pid 2) spawns a
child and blocks in `p_waitpid` on it, and the child exits in its quantum.  At
the end of that scheduler pass the shell is in the blocked deque and twice in
the ready deque of class -1. -/
theorem C4_woken_parent_in_two_queues :
    wait_exit_session.map (fun r => (r.1, r.2.k.neg_priority, r.2.k.blocked_pcbs, r.2.k.zombie_pcbs))
      = some ([.skipped, .skipped, .run 2 (-1), .skipped, .run 3 0], [2, 2], [1, 2], [3]) := by
  decide!

/-- C5 (defect of `waitpid_checks` and `init_scheduler`).  At the end of the
scheduler pass in which the awaited child exits, the shell (pid 2) has status
READY and is in the blocked deque; init (pid 1) is in the blocked deque with
status READY from boot on. -/
theorem C5_ready_pcbs_in_blocked_queue :
    wait_exit_session.map (fun r => (r.2.k.blocked_pcbs, status_of r.2.k 1, status_of r.2.k 2))
      = some ([1, 2], some .READY, some .READY) ∧
    boot.map (fun s => (s.k.blocked_pcbs, status_of s.k 1)) = some ([1], some .READY) := by
  decide!

/-- C6.  From any table position `0 <= tracker_pos <= 19`, for 19 consecutive
passes of the scheduler loop that complete and at whose selection each of the
three ready deques is non-empty and holds only READY PCBs of its own class:
no pass is skipped, the quantum counter advances by 19, and the PCB run is
taken 4 times from the deque of class +1, 6 times from class 0 and 9 times
from class -1. -/
theorem C6_schedule_ratio (slices : List (Kernel → Option Kernel)) (s s' : Sched)
    (sels : List Selection)
    (hlen : slices.length = 19)
    (hpos : 0 ≤ s.tracker_pos ∧ s.tracker_pos ≤ 19)
    (hready : ready_along slices s = true)
    (hrun : scheduler_run slices s = some (sels, s')) :
    (∀ sel ∈ sels, sel ≠ .skipped) ∧
      s'.current_quantum = s.current_quantum + 19 ∧
      picks 1 sels = 4 ∧ picks 0 sels = 6 ∧ picks (-1) sels = 9 := by
  obtain ⟨hp, hs, hq⟩ := run_classes slices s s' sels hready hrun
  obtain ⟨c1, c0, cn⟩ := slot_classes_counts s.tracker_pos hpos.1 hpos.2
  rw [hlen] at hp hq
  refine ⟨hs, by simpa using hq, ?_, ?_, ?_⟩
  · rw [hp 1, c1]
  · rw [hp 0, c0]
  · rw [hp (-1), cn]

/-- Witness of C6: from `three_ready`, 19 passes in which the running process
only computes. -/
theorem C6_schedule_ratio_witness :
    ready_along (List.replicate 19 slice_nop) three_ready = true ∧
    ∃ sels s', scheduler_run (List.replicate 19 slice_nop) three_ready = some (sels, s') ∧
      (∀ sel ∈ sels, sel ≠ .skipped) ∧
      s'.current_quantum = three_ready.current_quantum + 19 ∧
      picks 1 sels = 4 ∧ picks 0 sels = 6 ∧ picks (-1) sels = 9 := by
  refine ⟨by decide!, ?_⟩
  cases h : scheduler_run (List.replicate 19 slice_nop) three_ready with
  | none =>
    have : (scheduler_run (List.replicate 19 slice_nop) three_ready).isSome = true := by decide!
    rw [h] at this
    exact absurd this (by decide)
  | some r =>
    exact ⟨r.1, r.2, rfl,
      C6_schedule_ratio (List.replicate 19 slice_nop) three_ready r.2 r.1 (by decide) (by decide)
        (by decide!) h⟩

/-- C7.  Let control return to the scheduler with the PCB `c` that ran ZOMBIE
with exit kind `EXIT_NORMAL`, while its parent `p` (not init) is BLOCKED in
`p_waitpid(c)` and sits in the blocked deque, in a state whose queued handles
point to PCBs with priorities in `{-1, 0, 1}`.  Then the rest of the scheduler
pass completes, and at its end `p` is READY with `waitpid_estatus =
EXIT_NORMAL` and is in the ready deque of its priority; and whenever the next
selection gives the quantum to `p`, its `p_waitpid` continues and returns `c`
with `*wstatus = EXIT_NORMAL`, leaving `c` TERMINATED. -/
theorem C7_waitpid_rendezvous (s : Sched) (p c : Int) (P C : PCB)
    (hk : handles_ok s.k) (hcur : s.k.current_pcb = c)
    (hp0 : p ≠ 0) (hp1 : p ≠ 1) (hc0 : c ≠ 0) (hc1 : c ≠ -1)
    (hP : get_pcb_from_pid s.k p = some P) (hPs : P.status = .BLOCKED)
    (hPw : P.waitpid_pid = c) (hPsl : P.sleep_counter ≤ 0) (hpb : p ∈ s.k.blocked_pcbs)
    (hC : get_pcb_from_pid s.k c = some C) (hCs : C.status = .ZOMBIE)
    (hCe : C.e_status = .EXIT_NORMAL) (hCp : C.parent_pid = p)
    (hCch : ∀ g ∈ C.children_pids, (get_pcb_from_pid s.k g).isSome)
    (hCself : c ∉ C.children_pids) :
    ∃ s', scheduler_after s = some s' ∧
      (∃ P', get_pcb_from_pid s'.k p = some P' ∧ P'.status = .READY ∧
        P'.waitpid_estatus = .EXIT_NORMAL ∧ P'.priority = P.priority) ∧
      in_ready s'.k P.priority p ∧
      ∀ s1 q, scheduler_select s' = some (.run p q, s1) →
        ∃ k3, p_waitpid_resume s1.k c = some (c, exit_status.EXIT_NORMAL.toInt, k3) ∧
          status_of k3 c = some .TERMINATED := by
  have hpc : p ≠ c := by
    intro e
    rw [e, hC] at hP
    cases hP
    rw [hCs] at hPs
    cases hPs
  have hcp : c ≠ p := fun e => hpc e.symm
  obtain ⟨s', hafter, hstep, hPh, hCh, hin⟩ :=
    scheduler_after_exit s p c P C hk hcur hpc hp1 hc1
      (by rw [deref_reg _ _ hp0]; exact hP) (by rw [deref_reg _ _ hc0]; exact hC)
      hCs hCe hCp hPw hPsl hpb
  obtain ⟨P', hP'd, hP'g⟩ := hPh
  obtain ⟨C', hC'd, hC'g⟩ := hCh
  rw [deref_reg _ _ hp0] at hP'd
  rw [deref_reg _ _ hc0] at hC'd
  have hPst := get_static_of_shape s.k s'.k hstep.1 p
  rw [hP'd, hP] at hPst
  simp only [Option.map_some', Option.some.injEq, PCB.static, Prod.mk.injEq] at hPst
  have hCst := get_static_of_shape s.k s'.k hstep.1 c
  rw [hC'd, hC] at hCst
  simp only [Option.map_some', Option.some.injEq, PCB.static, Prod.mk.injEq] at hCst
  refine ⟨s', hafter, ⟨P', hP'd, hP'g.1, hP'g.2.2.1, hPst.2.2.2⟩, hin, ?_⟩
  intro s1 q hsel
  obtain ⟨hcur1, hget1⟩ := select_run s' s1 p q hp0 hsel
  have hg1p : get_pcb_from_pid s1.k p = some { P' with status := .RUNNING } := by
    rw [hget1 p]; simp [hP'd]
  have hg1c : get_pcb_from_pid s1.k c = some C' := by
    rw [hget1 c, if_neg hcp]; exact hC'd
  -- the state after `current_pcb->waitpid_pid = 0`
  have hpidW : ∀ q : PCB, ({ q with waitpid_pid := 0 } : PCB).pid = q.pid := fun _ => rfl
  have hgk1 : ∀ y, get_pcb_from_pid (modify_reg s1.k p (fun q => { q with waitpid_pid := 0 })) y
      = if y = p then (get_pcb_from_pid s1.k y).map (fun q => { q with waitpid_pid := 0 })
        else get_pcb_from_pid s1.k y := fun y => get_modify_reg s1.k p _ hpidW y
  have hcur1' : (modify_reg s1.k p (fun q => { q with waitpid_pid := 0 })).current_pcb = p := by
    simp [modify_reg, hcur1]
  generalize hk1def : modify_reg s1.k p (fun q => { q with waitpid_pid := 0 }) = k1
    at hgk1 hcur1'
  have hk1c : get_pcb_from_pid k1 c = some C' := by rw [hgk1 c, if_neg hcp]; exact hg1c
  have hk1p : ∃ par, get_pcb_from_pid k1 C'.parent_pid = some par := by
    rw [hCst.2.1, hCp, hgk1 p]; simp [hg1p]
  obtain ⟨par, hpar⟩ := hk1p
  have hch1 : ∀ g ∈ C'.children_pids, (get_pcb_from_pid k1 g).isSome := by
    intro g hg
    rw [hCst.2.2.1] at hg
    have h0 := get_static_of_shape s.k s'.k hstep.1 g
    obtain ⟨o, ho⟩ := Option.isSome_iff_exists.mp (hCch g hg)
    rw [ho] at h0
    have h1 : (get_pcb_from_pid s'.k g).isSome := by
      cases hx : get_pcb_from_pid s'.k g with
      | none => rw [hx] at h0; simp at h0
      | some _ => rfl
    rw [hgk1 g, hget1 g]
    by_cases e : g = p
    · simp only [e, if_true, Option.isSome_map']
      rw [← e]; exact h1
    · simp only [e, if_false]; exact h1
  have hst' : C'.status ≠ .TERMINATED := by
    rcases hC'g.1 with e | e <;> rw [e] <;> decide
  have hself' : c ∉ C'.children_pids := by rw [hCst.2.2.1]; exact hCself
  obtain ⟨k2, hk2, hframe2, hget2⟩ := cleanup_spec k1 c C' par hc0 hk1c hst' hpar hch1 hself'
  have hcur2 : k2.current_pcb = p := by rw [hframe2]; exact hcur1'
  refine ⟨modify k2 k2.current_pcb (fun q => { q with waitpid_estatus := .NO_CHANGE }), ?_, ?_⟩
  · unfold p_waitpid_resume
    rw [hcur1, deref_reg _ _ hp0, hg1p]
    simp only [hP'g.2.2.1, true_or, if_true]
    rw [modify_reg_of_ne _ _ hp0, hk1def, hk2]
  · rw [hcur2, modify_reg_of_ne _ _ hp0, status_of_reg _ _ hc0,
      get_modify_reg k2 p (fun q => { q with waitpid_estatus := exit_status.NO_CHANGE }) (fun _ => rfl) c,
      if_neg hcp, hget2 c, hk1c]
    simp [cleanup_effect_status_self]

/-- Witness of C7 on the sample state `rendezvous` (parent 2, child 3); after
the pass the scheduler does select the parent next. -/
theorem C7_waitpid_rendezvous_witness :
    handles_ok rendezvous.k ∧
    ((scheduler_after rendezvous).bind scheduler_select).map (fun r => r.1) = some (.run 2 (-1)) ∧
    ∃ s', scheduler_after rendezvous = some s' ∧
      (∃ P', get_pcb_from_pid s'.k 2 = some P' ∧ P'.status = .READY ∧
        P'.waitpid_estatus = .EXIT_NORMAL ∧ P'.priority = -1) ∧
      in_ready s'.k (-1) 2 ∧
      ∀ s1 q, scheduler_select s' = some (.run 2 q, s1) →
        ∃ k3, p_waitpid_resume s1.k 3 = some (3, exit_status.EXIT_NORMAL.toInt, k3) ∧
          status_of k3 3 = some .TERMINATED :=
  ⟨rendezvous_handles_ok, by decide!,
    C7_waitpid_rendezvous rendezvous 2 3
      { sample_pcb 2 1 [3] .BLOCKED .NOT_EXITED with priority := -1, waitpid_pid := 3 }
      (sample_pcb 3 2 [] .ZOMBIE .EXIT_NORMAL)
      rendezvous_handles_ok rfl (by decide) (by decide) (by decide) (by decide)
      (by decide!) rfl rfl (by decide) (by decide) (by decide!) rfl rfl rfl
      (by decide) (by decide)⟩

/-- C8 (defect of `p_waitpid`).  The shell blocks in `p_waitpid(-1, wstatus,
false)` and its child (pid 3) is stopped.  When the shell runs again the call
returns 3, and the child, woken for as `EXIT_STOPPED`, has been reaped: its
status is TERMINATED and the shell has no children left. -/
theorem C8_stopped_child_is_reaped :
    wait_stop_session.map
        (fun r => (status_of r.2.k 3, (deref r.2.k 2).map (fun p => (p.waitpid_pid, p.waitpid_estatus))))
      = some (some .STOPPED, some (3, .EXIT_STOPPED)) ∧
    wait_stop_resumed.map
        (fun r => (r.1, r.2.1, status_of r.2.2 3, (deref r.2.2 2).map (fun p => p.children_pids)))
      = some (.run 2 (-1), 3, some .TERMINATED, some []) := by
  decide!


/-- C10.  For a registry PCB `p` with pid `h` that is not TERMINATED, whose
parent and children resolve in the registry (`h` not being among its own
children, and occurring at most once among its parent's), `k_process_cleanup`
returns; afterwards `p` is TERMINATED, every PCB that was in `p`'s children has
`parent_pid = 1`, `h` no longer occurs in the children of `p`'s parent, and a
second `k_process_cleanup` changes nothing.  The two conditions on the
children arrays hold in every state with `pids_ok` (`pids_ok_children`), which
`k_system_init` sets up and `k_process_create` and `k_process_cleanup` keep. -/
theorem C10_cleanup_reparents_children (k : Kernel) (h : Int) (p par : PCB)
    (hh : h ≠ 0)
    (hp : get_pcb_from_pid k h = some p)
    (hst : p.status ≠ .TERMINATED)
    (hpar : get_pcb_from_pid k p.parent_pid = some par)
    (hch : ∀ c ∈ p.children_pids, (get_pcb_from_pid k c).isSome)
    (hself : h ∉ p.children_pids)
    (hnodup : par.children_pids.Nodup) :
    ∃ k', k_process_cleanup k h = some k' ∧
      status_of k' h = some .TERMINATED ∧
      (∀ c ∈ p.children_pids, ∃ q, get_pcb_from_pid k' c = some q ∧ q.parent_pid = 1) ∧
      (∃ par', get_pcb_from_pid k' p.parent_pid = some par' ∧ h ∉ par'.children_pids) ∧
      k_process_cleanup k' h = some k' := by
  obtain ⟨k', hk', _, hget⟩ := cleanup_spec k h p par hh hp hst hpar hch hself
  have hderef : ∀ k0 : Kernel, deref k0 h = get_pcb_from_pid k0 h := by
    intro k0; simp [deref, hh]
  have hst' : ∃ q, get_pcb_from_pid k' h = some q ∧ q.status = .TERMINATED := by
    rw [hget h, hp]
    refine ⟨_, rfl, ?_⟩
    unfold cleanup_effect
    simp only [if_true, hself, if_false]
    split <;> rfl
  obtain ⟨q, hq, hqs⟩ := hst'
  refine ⟨k', hk', ?_, ?_, ?_, ?_⟩
  · simp [status_of, hderef, hq, hqs]
  · intro c hc
    obtain ⟨qc, hqc⟩ := Option.isSome_iff_exists.mp (hch c hc)
    rw [hget c, hqc]
    refine ⟨_, rfl, ?_⟩
    unfold cleanup_effect
    simp only [hc, if_true]
    split <;> rfl
  · rw [hget p.parent_pid, hpar]
    refine ⟨_, rfl, ?_⟩
    unfold cleanup_effect
    simp only [if_true]
    have hne : h ∉ remove_pid par.children_pids h := by
      unfold remove_pid
      exact fun hmem => ((List.Nodup.mem_erase_iff hnodup).mp hmem).1 rfl
    split_ifs <;> exact hne
  · unfold k_process_cleanup
    simp [hderef, hq, hqs]

/-- Witness of C10 on the sample state `family`: PCB 3 is reaped. -/
theorem C10_cleanup_reparents_children_witness :
    (3 : Int) ≠ 0 ∧
    get_pcb_from_pid family 3 = some (sample_pcb 3 2 [5] .ZOMBIE .EXIT_NORMAL) ∧
    ∃ k', k_process_cleanup family 3 = some k' ∧
      status_of k' 3 = some .TERMINATED ∧
      (∀ c ∈ (sample_pcb 3 2 [5] .ZOMBIE .EXIT_NORMAL).children_pids,
        ∃ q, get_pcb_from_pid k' c = some q ∧ q.parent_pid = 1) ∧
      (∃ par', get_pcb_from_pid k' (sample_pcb 3 2 [5] .ZOMBIE .EXIT_NORMAL).parent_pid = some par' ∧
        (3 : Int) ∉ par'.children_pids) ∧
      k_process_cleanup k' 3 = some k' :=
  ⟨by decide, by decide!,
    C10_cleanup_reparents_children family 3 (sample_pcb 3 2 [5] .ZOMBIE .EXIT_NORMAL)
      (sample_pcb 2 1 [3, 4] .RUNNING .NOT_EXITED) (by decide) (by decide!) (by decide) (by decide!)
      (by decide!) (by decide) (by decide)⟩


/-- C11.  Let `h` point to the PCB `p`, in a state with well-formed handles
(`handles_ok`), `p` not being its own parent.  Then `k_process_kill` returns.
If `p` is TERMINATED the state is unchanged.  Otherwise, afterwards: for
`S_SIGSTOP` the PCB is STOPPED, with exit kind NO_CHANGE if `waitpid_checks`
woke a blocked parent waiting for it (`notifies`) and EXIT_STOPPED if not; for
`S_SIGTERM` it is ZOMBIE with exit kind EXIT_SIGNAL; for `S_SIGCONT` it is
BLOCKED if its name is `"sleep"` and READY if not. -/
theorem C11_kill_semantics (k : Kernel) (h : Int) (p : PCB) (sig : pennos_signal)
    (hk : handles_ok k) (hp : deref k h = some p) (hpar : p.parent_pid ≠ h) :
    ∃ k', k_process_kill k h sig = some k' ∧
      (p.status = .TERMINATED → k' = k) ∧
      (p.status ≠ .TERMINATED → ∃ q, deref k' h = some q ∧
        match sig with
        | .S_SIGSTOP => q.status = .STOPPED ∧
            q.e_status = (if notifies k h p.parent_pid .STOPPED = true then .NO_CHANGE
              else .EXIT_STOPPED)
        | .S_SIGTERM => q.status = .ZOMBIE ∧ q.e_status = .EXIT_SIGNAL
        | .S_SIGCONT => q.status = (if p.process_name = "sleep" then .BLOCKED else .READY)) := by
  by_cases ht : p.status = .TERMINATED
  · refine ⟨k, ?_, fun _ => rfl, fun h' => absurd ht h'⟩
    unfold k_process_kill
    rw [hp]
    simp only [ht, if_true]
  have frame : ∀ f : PCB → PCB, (∀ q, (f q).static = q.static) → (∀ q, (f q).pid = q.pid) →
      handles_ok (modify k h f) ∧ deref (modify k h f) h = some (f p) ∧
      ∀ st, notifies (modify k h f) h p.parent_pid st = notifies k h p.parent_pid st := by
    intro f hf1 hf2
    refine ⟨step_handles_ok _ _ (step_modify k h f hf1) hk, ?_, ?_⟩
    · rw [deref_modify_self k h f hf2, hp]; rfl
    · intro st
      apply notifies_congr
      · rw [(modify_fields k h f).2.1]
      · exact deref_modify_ne k h f hf2 _ hpar
  cases sig with
  | S_SIGSTOP =>
    obtain ⟨hk1, hp1, hn1⟩ := frame
      (fun p => { p with status := process_status.STOPPED, e_status := exit_status.EXIT_STOPPED })
      (fun _ => rfl) (fun _ => rfl)
    unfold k_process_kill
    rw [hp]
    dsimp only
    rw [if_neg ht]
    by_cases hname : p.process_name = "sleep"
    · rw [if_pos hname]
      obtain ⟨k2, q2, hssp, hk2, hq2, hq2s, hq2p, hq2e, hn2⟩ :=
        ssp_fields _ h _ .S_SIGSTOP .STOPPED rfl hk1 hp1 hpar
      rw [hssp]
      dsimp only at hq2p hq2e hn2 ⊢
      obtain ⟨r, k3, q3, hw, _, hq3, hq3s, _, hq3e, _⟩ :=
        wc_fields k2 h q2 hk2 hq2 (by rw [hq2p]; exact hpar)
      rw [hw]
      refine ⟨k3, rfl, fun e => absurd e ht, fun _ => ⟨q3, hq3, ?_⟩⟩
      refine ⟨by rw [hq3s, hq2s], ?_⟩
      rw [hq3e, hq2p, hq2s, hn2, hq2e, hn1]
      by_cases hN : notifies k h p.parent_pid .STOPPED = true
      · simp [hN]
      · simp [hN]
    · rw [if_neg hname]
      dsimp only
      obtain ⟨r, k3, q3, hw, _, hq3, hq3s, _, hq3e, _⟩ := wc_fields _ h _ hk1 hp1 hpar
      rw [hw]
      refine ⟨k3, rfl, fun e => absurd e ht, fun _ => ⟨q3, hq3, ?_⟩⟩
      dsimp only at hq3s hq3e ⊢
      refine ⟨hq3s, ?_⟩
      rw [hq3e, hn1]
      by_cases hN : notifies k h p.parent_pid .STOPPED = true
      · simp [hN]
      · simp [hN]
  | S_SIGTERM =>
    obtain ⟨hk1, hp1, hn1⟩ := frame
      (fun p => { p with status := process_status.ZOMBIE, e_status := exit_status.EXIT_SIGNAL })
      (fun _ => rfl) (fun _ => rfl)
    unfold k_process_kill
    rw [hp]
    dsimp only
    rw [if_neg ht]
    by_cases hname : p.process_name = "sleep"
    · rw [if_pos hname]
      obtain ⟨k2, q2, hssp, hk2, hq2, hq2s, hq2p, hq2e, hn2⟩ :=
        ssp_fields _ h _ .S_SIGTERM .ZOMBIE rfl hk1 hp1 hpar
      rw [hssp]
      dsimp only at hq2p hq2e hn2 ⊢
      obtain ⟨r, k3, q3, hw, _, hq3, hq3s, _, hq3e, _⟩ :=
        wc_fields k2 h q2 hk2 hq2 (by rw [hq2p]; exact hpar)
      rw [hw]
      refine ⟨k3, rfl, fun e => absurd e ht, fun _ => ⟨q3, hq3, ?_⟩⟩
      refine ⟨by rw [hq3s, hq2s], ?_⟩
      rw [hq3e, hq2s, hq2e]
      simp
    · rw [if_neg hname]
      dsimp only
      obtain ⟨r, k3, q3, hw, _, hq3, hq3s, _, hq3e, _⟩ := wc_fields _ h _ hk1 hp1 hpar
      rw [hw]
      refine ⟨k3, rfl, fun e => absurd e ht, fun _ => ⟨q3, hq3, ?_⟩⟩
      dsimp only at hq3s hq3e ⊢
      refine ⟨hq3s, ?_⟩
      rw [hq3e]
      simp
  | S_SIGCONT =>
    obtain ⟨hk1, hp1, hn1⟩ := frame
      (fun p => { p with status := process_status.READY })
      (fun _ => rfl) (fun _ => rfl)
    unfold k_process_kill
    rw [hp]
    dsimp only
    rw [if_neg ht]
    by_cases hname : p.process_name = "sleep"
    · rw [if_pos hname]
      obtain ⟨k2, q2, hssp, _, hq2, hq2s, _, _, _⟩ :=
        ssp_fields _ h _ .S_SIGCONT .BLOCKED rfl hk1 hp1 hpar
      refine ⟨k2, hssp, fun e => absurd e ht, fun _ => ⟨q2, hq2, ?_⟩⟩
      simp only [hname, if_true]
      exact hq2s
    · rw [if_neg hname]
      refine ⟨_, rfl, fun e => absurd e ht, fun _ => ⟨_, hp1, ?_⟩⟩
      simp only [hname, if_false]

/-- Witness of C11 on the sample state `rendezvous`: the PCB 3 is sent
`S_SIGSTOP` while its parent 2 is blocked in `p_waitpid(3)`; it ends STOPPED
with exit kind NO_CHANGE. -/
theorem C11_kill_semantics_witness :
    (deref rendezvous.k 3 = some (sample_pcb 3 2 [] .ZOMBIE .EXIT_NORMAL) ∧
      notifies rendezvous.k 3 2 .STOPPED = true) ∧
    ∃ k', k_process_kill rendezvous.k 3 .S_SIGSTOP = some k' ∧
      ((sample_pcb 3 2 [] .ZOMBIE .EXIT_NORMAL).status = .TERMINATED → k' = rendezvous.k) ∧
      ((sample_pcb 3 2 [] .ZOMBIE .EXIT_NORMAL).status ≠ .TERMINATED → ∃ q, deref k' 3 = some q ∧
        q.status = .STOPPED ∧
        q.e_status = (if notifies rendezvous.k 3 (sample_pcb 3 2 [] .ZOMBIE .EXIT_NORMAL).parent_pid
            .STOPPED = true then .NO_CHANGE else .EXIT_STOPPED)) :=
  ⟨by decide!,
    C11_kill_semantics rendezvous.k 3 (sample_pcb 3 2 [] .ZOMBIE .EXIT_NORMAL) .S_SIGSTOP
      rendezvous_handles_ok (by decide!) (by decide)⟩

/-- C12 (defect of `k_process_kill`).  `quantum` is 100000.  After boot the
shell calls `p_sleep(500000)` in its first quantum: the sleeper (pid 3) is
BLOCKED after the quanta 1 to 4 and ZOMBIE with exit kind EXIT_NORMAL after
quantum 5.  When the shell also sends `S_SIGCONT` to the sleeper in that first
quantum, `schedule_sleep_process` pushes the sleeper on the blocked deque a
second time, the sleep check subtracts `quantum` twice per pass, and the
sleeper is ZOMBIE with exit kind EXIT_NORMAL after quantum 3. -/
theorem C12_continued_sleeper_wakes_early :
    quantum = 100000 ∧
    sleep_session (slice_sleep 500000)
      = some [ ⟨1, some .BLOCKED, some .NOT_EXITED, some 400000⟩
             , ⟨2, some .BLOCKED, some .NOT_EXITED, some 300000⟩
             , ⟨3, some .BLOCKED, some .NOT_EXITED, some 200000⟩
             , ⟨4, some .BLOCKED, some .NOT_EXITED, some 100000⟩
             , ⟨5, some .ZOMBIE, some .EXIT_NORMAL, some (-1)⟩ ] ∧
    sleep_session (slice_sleep_cont 500000)
      = some [ ⟨1, some .BLOCKED, some .NOT_EXITED, some 300000⟩
             , ⟨2, some .BLOCKED, some .NOT_EXITED, some 100000⟩
             , ⟨3, some .ZOMBIE, some .EXIT_NORMAL, some (-1)⟩
             , ⟨4, some .ZOMBIE, some .EXIT_NORMAL, some (-1)⟩
             , ⟨5, some .ZOMBIE, some .EXIT_NORMAL, some (-1)⟩ ] := by
  decide!

/-- C13 (defect of `p_sleep`).  Whenever `p_sleep(0)` returns, the six deques
are as they were before the call: the PCB it returns is BLOCKED with
`sleep_counter = 0` and `schedule_ready_process` has queued it nowhere. -/
theorem C13_sleep_zero_is_queued_nowhere (k k' : Kernel) (pid : Int) (uninit : exit_status)
    (h : p_sleep k 0 uninit = some (pid, k')) :
    deques k' = deques k ∧
      holds k' pid (fun q => q.status = .BLOCKED ∧ q.sleep_counter = 0) := by
  unfold p_sleep at h
  split at h
  · exact absurd h (by simp)
  · rename_i k1 new_pcb hc
    have hd1 := create_deques k k1 k.current_pcb new_pcb "sleep" uninit hc
    have ht : (((0 : Nat) : Int) + 2147483648) % 4294967296 - 2147483648 = 0 := by decide
    simp only [ht] at h
    have hpid : ∀ q : PCB, ({ q with sleep_counter := 0, status := process_status.BLOCKED } : PCB).pid = q.pid :=
      fun _ => rfl
    have hder := deref_modify k1 new_pcb
      (fun p => { p with sleep_counter := 0, status := process_status.BLOCKED }) hpid new_pcb
    simp only [if_true] at hder
    obtain ⟨_, a2, a3, a4, a5, a6, a7⟩ := modify_fields k1 new_pcb
      (fun p => { p with sleep_counter := 0, status := process_status.BLOCKED })
    unfold schedule_ready_process at h
    rw [hder] at h
    cases hq : deref k1 new_pcb with
    | none => rw [hq] at h; exact absurd h (by simp)
    | some q =>
      rw [hq] at h
      simp only [Option.map_some', reduceCtorEq, if_false, lt_self_iff_false, gt_iff_lt,
        Option.some.injEq, Prod.mk.injEq] at h
      obtain ⟨h1, h2⟩ := h
      subst h1
      subst h2
      refine ⟨?_, ?_⟩
      · rw [← hd1]
        unfold deques
        rw [a2, a3, a4, a5, a6, a7]
      · exact ⟨_, by rw [hder, hq]; rfl, rfl, rfl⟩

/-- Witness of C13: the shell calls `p_sleep(0)` in its first quantum after
boot; the call returns pid 3, and 3 is in none of the six deques. -/
theorem C13_sleep_zero_is_queued_nowhere_witness :
    p_sleep shell_running_state 0 .NOT_EXITED = some (3, slept_zero_state) ∧
    deques slept_zero_state = [[], [], [], [1], [], []] ∧
    (deques slept_zero_state = deques shell_running_state ∧
      holds slept_zero_state 3 (fun q => q.status = .BLOCKED ∧ q.sleep_counter = 0)) :=
  ⟨by decide!, by decide!,
    C13_sleep_zero_is_queued_nowhere shell_running_state slept_zero_state 3 .NOT_EXITED (by decide!)⟩

/-- C14 (defect of `f_open`).  On the fresh file system the shell calls
`f_open("a", F_WRITE)`, then `f_open("a", F_APPEND)`, which overwrites the mode
of the shared global descriptor, and then, with both descriptors still open,
`f_open("a", F_WRITE)` again: the third call returns the descriptor 4 instead
of -1 and the global descriptor now counts three references.  When five bytes
are written through the first descriptor before the second call, the third
call truncates the file from 5 bytes to 0. -/
theorem C14_second_writer_after_append :
    reopen_session none
      = some { fds := [2, 3, 4], written := 0, size_before := 0, size_after := 0
               mode_after := F_WRITE, ref_after := 3 } ∧
    reopen_session (some [1, 2, 3, 4, 5])
      = some { fds := [2, 3, 4], written := 5, size_before := 5, size_after := 0
               mode_after := F_WRITE, ref_after := 3 } := by
  decide!

/-- C15.  Let the file system be mounted, let `find_file` find the non-empty
name `fname` at the offset `pos` with the entry `e`, and let the FAT chain from
`e.firstBlock` be well formed: the walk `fat_chain` ends, no block occurs twice
on it and block numbers are positive.  Then `rm` returns 0; afterwards every
block of the chain has FAT entry 0 and reads as `block_size` zero bytes, the 64
bytes of the directory entry read as zero, and `find_file` does not return the
offset `pos` for `fname` any more. -/
theorem C15_rm_frees_chain (h : Host) (fs : FS) (fname : List Nat) (pos : Int)
    (e : directory_entry) (chain : List Int)
    (hm : fs.fs_fd ≠ -1) (hbs : 0 ≤ fs.block_size) (hname : cstr fname ≠ [])
    (hfind : find_file fs fname h.stack_entry = some (pos, e)) (hpos : pos ≠ -1)
    (hchain : fat_chain fs.fat fs.fat.length e.firstBlock = some chain)
    (hnd : chain.Nodup) (hone : ∀ b ∈ chain, 1 ≤ b) :
    ∃ fs', rm h fs fname = some (0, fs') ∧
      (∀ b ∈ chain, fat_get fs'.fat b = some 0 ∧
        pread fs'.data (fs.block_size * (b - 1)).toNat fs.block_size.toNat
          = List.replicate fs.block_size.toNat 0) ∧
      pread fs'.data (pos - fs.fat_size).toNat 64 = List.replicate 64 0 ∧
      ∀ (r e' : directory_entry), find_file fs' fname r ≠ some (pos, e') := by
  have hfound := find_file_loop_found fs fname h.stack_entry pos e _ 1 hfind
  obtain ⟨posn, hposn, _, _⟩ := hfound.resolve_left hpos
  have hlen : chain.length ≤ fs.fat.length + 1 := by
    have : ∀ (fuel : Nat) (v : Int) (c : List Int), fat_chain fs.fat fuel v = some c →
        c.length ≤ fuel := by
      intro fuel
      induction fuel with
      | zero =>
        intro v c hc
        unfold fat_chain at hc
        split at hc
        · simp only [Option.some.injEq] at hc; rw [← hc]; simp
        · exact absurd hc (by simp)
      | succ f ih =>
        intro v c hc
        cases c with
        | nil => simp
        | cons b c =>
          obtain ⟨_, _, f', next, hf, _, hc'⟩ := fat_chain_cons fs.fat _ v b c hc
          have hf' : f' = f := by omega
          subst hf'
          have := ih _ c hc'
          simp only [List.length_cons]
          omega
    have := this _ _ _ hchain
    omega
  obtain ⟨fat', data', hrm, hz1, _, hz2, hz3⟩ :=
    rm_loop_spec fs.block_size hbs chain fs.fat.length (fs.fat.length + 1) e.firstBlock fs.fat
      fs.data hchain hnd hone hlen
  have hge : ¬ pos < (fs.fat_size : Int) := by omega
  have hoff : (pos - (fs.fat_size : Int)).toNat = posn := by omega
  have hrm' : rm h fs fname
      = some (0, { fs with fat := fat', data := pwrite data' posn (List.replicate 64 0) }) := by
    unfold rm
    rw [if_neg hm, hfind]
    simp only
    rw [if_neg hpos, hrm]
    simp only
    rw [if_neg hge, hoff]
  have hzero : pread (pwrite data' posn (List.replicate 64 0)) posn 64 = List.replicate 64 0 :=
    pread_of_zero_on _ _ _ (zero_on_written data' posn 64)
  refine ⟨_, hrm', ?_, ?_, ?_⟩
  · intro b hb
    refine ⟨hz1 b hb, ?_⟩
    exact pread_of_zero_on _ _ _ (zero_on_pwrite_zeros data' posn 64 _ _ (hz2 b hb))
  · rw [hoff]
    exact hzero
  · intro r e' hf
    have hfound' := find_file_loop_found _ fname r pos e' _ 1 hf
    obtain ⟨posn', hposn', he', hmatch⟩ := hfound'.resolve_left hpos
    simp only at hposn' he'
    have : posn' = posn := by omega
    subst this
    rw [hzero] at he'
    rw [he', decode_zero_name fname hname] at hmatch
    exact absurd hmatch (by simp)

/-- Witness of C15: the file `"a"` of `written_fs`, with entry at offset 256,
five bytes and the chain `[2]`. -/
theorem C15_rm_frees_chain_witness :
    (find_file written_fs name_a session_host.stack_entry = some (256, written_entry) ∧
      written_entry.size = 5 ∧
      fat_chain written_fs.fat written_fs.fat.length written_entry.firstBlock = some [2]) ∧
    ∃ fs', rm session_host written_fs name_a = some (0, fs') ∧
      (∀ b ∈ ([2] : List Int), fat_get fs'.fat b = some 0 ∧
        pread fs'.data (written_fs.block_size * (b - 1)).toNat written_fs.block_size.toNat
          = List.replicate written_fs.block_size.toNat 0) ∧
      pread fs'.data ((256 : Int) - written_fs.fat_size).toNat 64 = List.replicate 64 0 ∧
      ∀ (r e' : directory_entry), find_file fs' name_a r ≠ some (256, e') :=
  ⟨by decide!,
    C15_rm_frees_chain session_host written_fs name_a 256 written_entry [2]
      (by decide!) (by decide!) (by decide) (by decide!) (by decide) (by decide!) (by decide)
      (by decide)⟩

/-- C16 (defect of `rm`).  On the fresh file system the shell opens `"a"` with
`F_WRITE` and writes five bytes; the global descriptor of `"a"` has `ref_count
= 1`.  In that state `f_unlink("a")` returns -1, but `f_rm("a")` returns 0: the
file is no longer found, its block 2 is free, and the global descriptor still
refers to `"a"` with `ref_count = 1`. -/
theorem C16_rm_removes_open_file :
    rm_open_session
      = some { ref_before := 1, first_block := 2, unlink_ret := -1, rm_ret := 0, found_after := -1
               fat_after := some 0, ref_after := 1, name_after := name_a } := by
  decide!

/-- C17 (defect of the descriptor test of `f_close`, `f_read`, `f_write` and
`f_lseek`).  The test is `fd > MAX_OPEN_FILES || open_fds[fd] == -1 || fd < 0`:
with `fd = 128`, and with any negative `fd`, the first disjunct is false and
`open_fds[fd]` is read outside the 128 cells of the array, for every process
and every state of the file system. -/
theorem C17_descriptor_test_reads_outside_open_fds (fs : FS) (pcb : PCB) (fd : Int)
    (str : List Nat) (n offset whence : Int)
    (hlen : pcb.open_fds.length = MAX_OPEN_FILES) (hfd : fd = 128 ∨ fd < 0) :
    f_close fs pcb fd = none ∧ f_read fs pcb fd n = none ∧
      f_write fs pcb fd str n = none ∧ f_lseek fs pcb fd offset whence = none := by
  have hgt : ¬ fd > (MAX_OPEN_FILES : Int) := by
    rcases hfd with e | e
    · rw [e]; decide
    · have : (MAX_OPEN_FILES : Int) = 128 := rfl
      omega
  have hat : int_at pcb.open_fds fd = none := by
    unfold int_at
    rcases hfd with e | e
    · have h0 : (0 : Int) ≤ fd := by omega
      rw [if_pos h0, e]
      have : pcb.open_fds.length ≤ (128 : Int).toNat := by rw [hlen]; decide
      exact List.getElem?_eq_none this
    · have h0 : ¬ (0 : Int) ≤ fd := by omega
      rw [if_neg h0]
  refine ⟨?_, ?_, ?_, ?_⟩
  · unfold f_close; rw [if_neg hgt, hat]
  · unfold f_read; rw [if_neg hgt, hat]
  · unfold f_write; rw [if_neg hgt, hat]
  · unfold f_lseek; rw [if_neg hgt, hat]

/-- Witness of C17: the shell's descriptor array has 128 cells; `fd = 128`. -/
theorem C17_descriptor_test_reads_outside_open_fds_witness :
    shell_pcb.open_fds.length = MAX_OPEN_FILES ∧
    (f_close fresh_fs shell_pcb 128 = none ∧ f_read fresh_fs shell_pcb 128 1 = none ∧
      f_write fresh_fs shell_pcb 128 [65] 1 = none ∧ f_lseek fresh_fs shell_pcb 128 0 F_SEEK_SET = none) :=
  ⟨by decide!, C17_descriptor_test_reads_outside_open_fds fresh_fs shell_pcb 128 [65] 1 0 F_SEEK_SET
    (by decide!) (Or.inl rfl)⟩

/-- C18 (defect of `f_write`).  Let the descriptor `fd` of the running process
refer to a file open for writing whose chain is empty, with offset 0, and let
no FAT entry from index 1 on be 0.  Then `find_fat` returns -1 and `f_write` of
`n >= 1` bytes uses it as an index: the store `fat[-1] = 0xFFFF` is outside the
table. -/
theorem C18_first_block_on_full_disk (fs : FS) (pcb : PCB) (fd g : Int) (d : FileDescriptor)
    (str : List Nat) (n : Int)
    (hfd : 0 ≤ fd ∧ fd < 128)
    (hslot : int_at pcb.open_fds fd = some g) (hg : g ≠ -1)
    (hd : fd_at fs g = some d) (hfile : d.fd_type = .FD_FILE)
    (hmode : ¬ (d.mode = F_READ ∨ d.mode = 0)) (hn : 1 ≤ n)
    (hempty : d.dir_entry.firstBlock = 0xFFFF) (hoff : d.offset = 0)
    (hbs : 0 < fs.block_size)
    (hlen : fs.block_size * ((fs.fat_size : Int) / fs.block_size) / 2 ≤ fs.fat.length)
    (hfull : ∀ x ∈ fs.fat.drop 1, x ≠ 0) :
    find_fat fs = some (-1) ∧ f_write fs pcb fd str n = none := by
  have hff : find_fat fs = some (-1) := by
    unfold find_fat
    rw [if_neg (by omega)]
    apply find_fat_from_full _ _ _ hfull
    simp only [List.length_drop]
    omega
  refine ⟨hff, ?_⟩
  unfold f_write
  have h1 : ¬ fd > (MAX_OPEN_FILES : Int) := by
    have : (MAX_OPEN_FILES : Int) = 128 := rfl
    omega
  have h2 : ¬ (g = -1 ∨ fd < 0) := by
    intro e
    rcases e with e | e
    · exact hg e
    · omega
  have h3 : ¬ (d.fd_type ≠ fd_type.FD_FILE ∧ d.fd_type ≠ fd_type.FD_STDOUT) := fun e => e.1 hfile
  have h4 : ¬ d.fd_type = fd_type.FD_STDOUT := by rw [hfile]; decide
  have h5 : ¬ n < 1 := by omega
  have h6 : ¬ u32 d.offset > (d.dir_entry.size : Int) := by
    rw [hoff]
    have : u32 0 = 0 := by decide
    rw [this]
    omega
  rw [if_neg h1, hslot]
  simp only
  rw [if_neg h2, hd]
  simp only
  rw [if_neg h3, if_neg h4, if_neg hmode, if_neg h5, if_neg h6, hoff, hempty]
  have hskip : skip_blocks fs (0 : Int).toNat 0 ((0xFFFF : Nat) : Int) = some (0, 65535) := by
    simp [skip_blocks]
  rw [hskip]
  simp only [Nat.cast_ofNat, if_true, hff]
  have : fat_set fs.fat (-1) 65535 = none := by
    unfold fat_set
    rw [if_neg (by omega)]
  rw [this]

/-- Witness of C18: the file `"a"` opened with `F_WRITE` on the fresh file
system, every FAT entry from 1 on in use. -/
theorem C18_first_block_on_full_disk_witness :
    fd_at full_fs 2 = some ((fd_at full_fs 2).getD zero_fd) ∧
    (find_fat full_fs = some (-1) ∧ f_write full_fs full_pcb 2 [7] 1 = none) :=
  ⟨by decide!,
    C18_first_block_on_full_disk full_fs full_pcb 2 2 ((fd_at full_fs 2).getD zero_fd) [7] 1
      (by decide) (by decide!) (by decide) (by decide!) (by decide!) (by decide!) (by decide)
      (by decide!) (by decide!) (by decide!) (by decide!) (by decide!)⟩

/-- C19.  Outside `1 <= blocks_in_fat <= 32` or `0 <= block_size_config <= 4`,
`mkfs` returns -1 and leaves the host file as it was.  Inside, with
`block_size = 256 * 2 ^ block_size_config`, `fat_size = blocks_in_fat *
block_size` and `num_entries = min 0xFFFF (fat_size / 2)`, `mkfs` returns 0, the
image has `fat_size + block_size * (num_entries - 1)` bytes, and `mount` of the
image returns 0 with that `block_size` and `fat_size`, with `fat[0] =
(blocks_in_fat << 8) | block_size_config` and `fat[1] = 0xFFFF`. -/
theorem C19_mkfs_mount_geometry (old : List Nat) (b c host_fd : Int) (tbl : List FileDescriptor) :
    (b < 1 ∨ 32 < b ∨ c < 0 ∨ 4 < c → mkfs old b c = (-1, old)) ∧
    (1 ≤ b → b ≤ 32 → 0 ≤ c → c ≤ 4 → host_fd ≠ -1 →
      (mkfs old b c).1 = 0 ∧
      (((mkfs old b c).2.length : Nat) : Int)
        = b * (256 * 2 ^ c.toNat) + (256 * 2 ^ c.toNat) * (min 0xFFFF (b * (256 * 2 ^ c.toNat) / 2) - 1) ∧
      ∃ fs, mount (FS.unmounted tbl) (mkfs old b c).2 host_fd = (0, fs) ∧
        fs.block_size = 256 * 2 ^ c.toNat ∧ (fs.fat_size : Int) = b * (256 * 2 ^ c.toNat) ∧
        fat_get fs.fat 0 = some ((b.toNat <<< 8) ||| c.toNat) ∧ fat_get fs.fat 1 = some 0xFFFF) := by
  constructor
  · intro h
    unfold mkfs
    by_cases hb : b < 1 ∨ b > 32
    · rw [if_pos hb]
    · rw [if_neg hb]
      have hc : c < 0 ∨ c > 4 := by omega
      rw [if_pos hc]
  · intro hb1 hb2 hc1 hc2 hfd
    have hw := mkfs_word b c hb1 hb2 hc1 hc2
    have hg1 : ¬ (b < 1 ∨ b > 32) := by omega
    have hg2 : ¬ (c < 0 ∨ c > 4) := by omega
    obtain ⟨bn, hbn⟩ : ∃ bn : Nat, b = bn := ⟨b.toNat, by omega⟩
    obtain ⟨cn, hcn⟩ : ∃ cn : Nat, c = cn := ⟨c.toNat, by omega⟩
    subst hbn
    subst hcn
    simp only [Int.toNat_ofNat] at hw ⊢
    have hbn1 : 1 ≤ bn := by omega
    have hbn2 : bn ≤ 32 := by omega
    have hcn2 : cn ≤ 4 := by omega
    have hmk : mkfs old bn cn
        = (0, le_bytes 2 (bn * 256 + cn) ++ [0xFF, 0xFF] ++
            (fit ((2 : Int) ^ ((cn : Int) + 8).toNat * bn
              + (2 : Int) ^ ((cn : Int) + 8).toNat *
                ((if (2 : Int) ^ ((cn : Int) + 8).toNat * bn / 2 > 0xFFFF then 0xFFFF
                  else (2 : Int) ^ ((cn : Int) + 8).toNat * bn / 2) - 1)).toNat old).drop 4) := by
      unfold mkfs
      rw [if_neg hg1, if_neg hg2]
      simp only [Int.toNat_ofNat, hw]
    rw [hmk]
    have hexp : ((cn : Int) + 8).toNat = cn + 8 := by omega
    rw [hexp]
    have hpow : (2 : Int) ^ (cn + 8) = 256 * 2 ^ cn := by
      rw [pow_add]; ring
    rw [hpow]
    have hP : (1 : Int) ≤ 2 ^ cn := by
      have : (0 : Int) < 2 ^ cn := by positivity
      omega
    generalize hPdef : (2 : Int) ^ cn = P at *
    have hP16 : P ≤ 16 := by
      rw [← hPdef]
      interval_cases cn <;> norm_num
    refine ⟨rfl, ?_, ?_⟩
    · simp only [List.length_append, List.length_drop, fit_length, le_bytes, List.length_cons,
        List.length_nil]
      have hnn : (0 : Int) ≤ 256 * P * bn / 2 := by positivity
      split_ifs with hbig
      · rw [min_eq_left (by rw [mul_comm (bn : Int)]; omega)]
        have : (4 : Int) ≤ 256 * P * bn + 256 * P * (65535 - 1) := by nlinarith
        rw [mul_comm (bn : Int)]
        omega
      · rw [mul_comm (bn : Int), min_eq_right (by omega)]
        have hq : (128 : Int) ≤ 256 * P * bn / 2 := by
          have : (256 : Int) ≤ 256 * P * bn := by nlinarith
          omega
        have : (4 : Int) ≤ 256 * P * bn + 256 * P * (256 * P * bn / 2 - 1) := by nlinarith
        omega
    · generalize (fit (256 * P * (bn : Int) + 256 * P *
          ((if 256 * P * (bn : Int) / 2 > 0xFFFF then 0xFFFF else 256 * P * (bn : Int) / 2) - 1)).toNat
          old).drop 4 = rest
      have hv : bn * 256 + cn < 65536 := by omega
      have hfile : le_bytes 2 (bn * 256 + cn) ++ [0xFF, 0xFF] ++ rest
          = ((bn * 256 + cn) % 256) :: ((bn * 256 + cn) / 256 % 256) :: 255 :: 255 :: rest := by
        simp [le_bytes]
      rw [hfile]
      have hmeta : le_value (List.take 2
          (((bn * 256 + cn) % 256) :: ((bn * 256 + cn) / 256 % 256) :: 255 :: 255 :: rest))
          = bn * 256 + cn := by
        simp only [List.take, le_value]
        omega
      have hdiv : (bn * 256 + cn) / 256 = bn := by omega
      have hmod : (bn * 256 + cn) % 256 = cn := by omega
      have hfs : 2 ^ (cn + 8) * bn ≠ 0 := by positivity
      obtain ⟨m, hm⟩ : ∃ m, 2 ^ (cn + 8) * bn = m + 4 := by
        have : 256 ≤ 2 ^ (cn + 8) * bn := by
          have : 2 ^ (cn + 8) = 256 * 2 ^ cn := by rw [pow_add]; ring
          rw [this]
          have : 1 ≤ 2 ^ cn := Nat.one_le_two_pow
          nlinarith
        exact ⟨2 ^ (cn + 8) * bn - 4, by omega⟩
      generalize hF : ((bn * 256 + cn) % 256) :: ((bn * 256 + cn) / 256 % 256) :: 255 :: 255 :: rest = file
        at hmeta
      have hmount : mount (FS.unmounted tbl) file host_fd
          = (0, { FS.unmounted tbl with
                    fs_fd := host_fd, fat := fat_entries (file.take (2 ^ (cn + 8) * bn))
                    fat_size := 2 ^ (cn + 8) * bn, block_size := ((2 ^ (cn + 8) : Nat) : Int)
                    data := file.drop (2 ^ (cn + 8) * bn) }) := by
        have hl : ¬ (List.take 2 file).length < 2 := by
          rw [← hF]
          simp
        unfold mount
        rw [if_neg (by simp [FS.unmounted]), if_neg hfd, if_neg hl]
        simp only [hmeta, hdiv, hmod, hfs, if_false]
      refine ⟨_, hmount, ?_, ?_, ?_, ?_⟩
      · simp only [Nat.cast_pow, Nat.cast_ofNat]
        rw [hpow]
      · simp only [Nat.cast_mul, Nat.cast_pow, Nat.cast_ofNat]
        rw [hpow]
        ring
      · simp only [hm, ← hF, List.take_succ_cons, fat_entries, fat_get]
        rw [mkfs_word_or bn cn hbn2 hcn2]
        simp only [le_refl, if_true, Int.toNat_zero, List.getElem?_cons_zero, Option.some.injEq]
        omega
      · simp only [hm, ← hF, List.take_succ_cons, fat_entries, fat_get]
        simp

/-- Witness of C19: `mkfs("img", 1, 0)` on a new host file, then `mount`: the
image has 32768 bytes, the mapped table 128 entries, `block_size` and
`fat_size` are 256, `fat[0] = 0x0100` and `fat[1] = 0xFFFF`. -/
theorem C19_mkfs_mount_geometry_witness :
    (((1 : Int) * (256 * 2 ^ (0 : Int).toNat)
        + (256 * 2 ^ (0 : Int).toNat) * (min 0xFFFF (1 * (256 * 2 ^ (0 : Int).toNat) / 2) - 1) = 32768) ∧
      (mount (FS.unmounted []) (mkfs [] 1 0).2 3).2.fat.length = 128 ∧
      (mount (FS.unmounted []) (mkfs [] 1 0).2 3).2.fat.take 2 = [0x0100, 0xFFFF]) ∧
    ((mkfs [] 1 0).1 = 0 ∧
      (((mkfs [] 1 0).2.length : Nat) : Int)
        = 1 * (256 * 2 ^ (0 : Int).toNat)
          + (256 * 2 ^ (0 : Int).toNat) * (min 0xFFFF (1 * (256 * 2 ^ (0 : Int).toNat) / 2) - 1) ∧
      ∃ fs, mount (FS.unmounted []) (mkfs [] 1 0).2 3 = (0, fs) ∧
        fs.block_size = 256 * 2 ^ (0 : Int).toNat ∧
        (fs.fat_size : Int) = 1 * (256 * 2 ^ (0 : Int).toNat) ∧
        fat_get fs.fat 0 = some (((1 : Int).toNat <<< 8) ||| (0 : Int).toNat) ∧
        fat_get fs.fat 1 = some 0xFFFF) :=
  ⟨by decide!,
    (C19_mkfs_mount_geometry [] 1 0 3 []).2 (by decide) (by decide) (by decide) (by decide)
      (by decide)⟩

/-- C20.  Let the file `fs_name` (a name of at most 31 characters) exist:
`find_file` finds its entry `e`, with permission byte `e.perm`, at data offset
`pos`.  Let `mode` be an operator `+`, `-` or `=` followed by letters `r`, `w`,
`x`, and `p'` the fold of the letters in the words of the specification
(`spec_perm`).  Then `e` is the entry stored at `pos` and carries the name; if
`p'` is 1 or 3, `chmod` returns -1 and the state is unchanged; otherwise it
returns 0, only the 64 bytes of that entry are rewritten, and the entry read
back there is `e` with `perm = p'`. -/
theorem C20_chmod_folds_letters (fs : FS) (op : Nat) (letters fs_name : List Nat) (pos : Nat)
    (e r : directory_entry)
    (hm : fs.fs_fd ≠ -1)
    (hname : (cstr fs_name).length < 32)
    (hfind : find_file fs fs_name r = some ((fs.fat_size : Int) + pos, e))
    (hperm : e.perm < 256)
    (hop : op = 43 ∨ op = 45 ∨ op = 61)
    (hl : ∀ c ∈ letters, c = 114 ∨ c = 119 ∨ c = 120) :
    e = decode_entry (pread fs.data pos 64) ∧ strcmp_eq e.name fs_name = true ∧
    (spec_perm op letters e.perm = 1 ∨ spec_perm op letters e.perm = 3 →
      chmod fs (op :: letters) fs_name = some (-1, fs)) ∧
    (¬ (spec_perm op letters e.perm = 1 ∨ spec_perm op letters e.perm = 3) →
      ∃ fs', chmod fs (op :: letters) fs_name = some (0, fs') ∧
        fs' = { fs with data := (pwrite fs.data pos
                  ((pread fs.data pos 64).set 39 (spec_perm op letters e.perm))) } ∧
        decode_entry (pread fs'.data pos 64) = { e with perm := spec_perm op letters e.perm }) := by
  have hfound := chmod_loop_of_find fs fs_name r pos e (le_of_lt hname) _ 1 hfind
  obtain ⟨_, hlen⟩ := chmod_loop_found fs fs_name pos _ _ 1 hfound
  have he : e = decode_entry (pread fs.data pos 64) ∧ strcmp_eq e.name fs_name = true := by
    rcases find_file_loop_found fs fs_name r _ e _ 1 hfind with h | ⟨q, hq, h1, h2⟩
    · omega
    · have : q = pos := by omega
      subst this
      exact ⟨h1, h2⟩
  have hperm2 : (decode_entry (pread fs.data pos 64)).perm < 256 := by rw [← he.1]; exact hperm
  obtain ⟨hfold, _⟩ := chmod_fold_spec op hop letters _ hperm2 hl
  have hch : chmod fs (op :: letters) fs_name
      = if spec_perm op letters e.perm = 1 ∨ spec_perm op letters e.perm = 3 then some (-1, fs)
        else some (0, { fs with data := (pwrite fs.data pos
                ((pread fs.data pos 64).set 39 (spec_perm op letters e.perm))) }) := by
    unfold chmod
    rw [if_neg hm, hfound]
    simp only [Nat.mod_eq_of_lt hperm2, hfold]
    rw [← he.1]
  refine ⟨he.1, he.2, ?_, ?_⟩
  · intro h
    rw [hch, if_pos h]
  · intro h
    refine ⟨_, by rw [hch, if_neg h], rfl, ?_⟩
    have hl64 : ((pread fs.data pos 64).set 39 (spec_perm op letters e.perm)).length = 64 := by
      rw [List.length_set]; exact hlen
    have := pread_pwrite_same ((pread fs.data pos 64).set 39 (spec_perm op letters e.perm)) pos
      fs.data
    rw [hl64] at this
    simp only [this]
    rw [decode_entry_set_perm _ _ hlen, ← he.1]

/-- Witness of C20: in `two_files_fs` the file `"b"` is the second entry of the
directory, with permission 6; `chmod("-w", "b")` returns 0, leaves `"b"` with
permission 4 and `"a"` with permission 6; `chmod("=x", "b")` returns -1. -/
theorem C20_chmod_folds_letters_witness :
    (find_file two_files_fs name_b zero_entry
        = some ((two_files_fs.fat_size : Int) + ((64 : Nat) : Int), entry_b) ∧
      entry_b.perm = 6 ∧
      spec_perm 45 [119] 6 = 4 ∧ spec_perm 61 [120] 6 = 1 ∧
      (chmod two_files_fs [45, 119] name_b).map (fun r => r.1) = some 0 ∧
      ((chmod two_files_fs [45, 119] name_b).bind
        (fun r => find_file r.2 name_b zero_entry)).map (fun x => x.2.perm) = some 4 ∧
      ((chmod two_files_fs [45, 119] name_b).bind
        (fun r => find_file r.2 name_a zero_entry)).map (fun x => x.2.perm) = some 6 ∧
      (chmod two_files_fs [61, 120] name_b).map (fun r => r.1) = some (-1)) ∧
    (entry_b = decode_entry (pread two_files_fs.data 64 64) ∧
    strcmp_eq entry_b.name name_b = true ∧
    (spec_perm 45 [119] entry_b.perm = 1 ∨ spec_perm 45 [119] entry_b.perm = 3 →
      chmod two_files_fs (45 :: [119]) name_b = some (-1, two_files_fs)) ∧
    (¬ (spec_perm 45 [119] entry_b.perm = 1 ∨ spec_perm 45 [119] entry_b.perm = 3) →
      ∃ fs', chmod two_files_fs (45 :: [119]) name_b = some (0, fs') ∧
        fs' = { two_files_fs with data := (pwrite two_files_fs.data 64
                  ((pread two_files_fs.data 64 64).set 39 (spec_perm 45 [119] entry_b.perm))) } ∧
        decode_entry (pread fs'.data 64 64)
          = { entry_b with perm := spec_perm 45 [119] entry_b.perm })) :=
  ⟨by decide!,
    C20_chmod_folds_letters two_files_fs 45 [119] name_b 64 entry_b zero_entry
      (by decide!) (by decide) (by decide!) (by decide) (by decide) (by decide)⟩

/-- C21 (defect of `touch_single`).  For every file that exists (`find_file`
finds its entry at `pos`) on an image whose directory block holding the entry
is whole, `touch_single` returns 0 and leaves the file system exactly as it
was, whatever the time `h.now` of the call: the entry stored at `pos` is the
same `e` as before, with the old `mtime`.  The source assigns `time(NULL)` to
the local copy `dir_entry.mtime` and returns without writing the entry back. -/
theorem C21_touch_of_existing_file_stores_nothing (h : Host) (fs : FS) (fs_name : List Nat)
    (pos : Int) (e : directory_entry) (hbs : 0 < fs.block_size) (h64 : fs.block_size % 64 = 0)
    (hfind : find_file fs fs_name h.stack_entry = some (pos, e)) (hpos : pos ≠ -1)
    (hblock : (pread fs.data
        ((pos - fs.fat_size).toNat / fs.block_size.toNat * fs.block_size.toNat)
        fs.block_size.toNat).length = fs.block_size.toNat) :
    touch_single h fs fs_name = some (0, fs) ∧
      decode_entry (pread fs.data (pos - fs.fat_size).toNat 64) = e := by
  constructor
  · obtain ⟨b, c, hb⟩ := touch_find_loop_found fs fs_name h.stack_entry pos e hbs h64 hpos hblock
      (fs.fat.length + 1) 1 0 (encode_entry h.stack_entry) hfind
    unfold touch_single
    rw [hb]
  · rcases find_file_loop_found fs fs_name h.stack_entry pos e _ _ hfind with h1 | ⟨p, hp, he, _⟩
    · exact absurd h1 hpos
    · rw [hp, he]
      congr 2
      omega

/-- C21 at a concrete input: the file `"a"` of `written_fs` was created at time
1000; `touch_single` at time 2000 returns 0 and the stored entry keeps
`mtime = 1000`. -/
theorem C21_touch_of_existing_file_stores_nothing_witness :
    touch_single { now := 2000, stack_entry := zero_entry } written_fs name_a
        = some (0, written_fs) ∧
      decode_entry (pread written_fs.data ((256 : Int) - written_fs.fat_size).toNat 64)
        = written_entry ∧
      written_fs.fat_size = 256 ∧ written_entry.mtime = 1000 := by
  have h := C21_touch_of_existing_file_stores_nothing
    { now := 2000, stack_entry := zero_entry } written_fs name_a 256 written_entry
    (by decide!) (by decide!) (by decide!) (by decide!) (by decide!)
  exact ⟨h.1, h.2, by decide!, by decide!⟩

/-- C22 (defect of `mv`).  On `written_fs` the file `"a"` has size 5, first
block 2, FAT entry `fat[2] = 0xFFFF` and block 2 holds the bytes 1 to 5.
`mv("a", "b")` returns 0 and keeps all of that under the name `"b"`.
`mv("a", "a")` also returns 0 and leaves an entry `"a"` with size 5 and first
block 2, but `fat[2]` is now 0 (free) and block 2 holds zeros: the search for
an existing destination finds the source itself and `rm` frees its chain
before the entry read earlier is written back. -/
theorem C22_mv_onto_itself_frees_chain :
    find_file written_fs name_a zero_entry = some (256, written_entry) ∧
    written_entry.size = 5 ∧ written_entry.firstBlock = 2 ∧
    fat_get written_fs.fat 2 = some 0xFFFF ∧
    (block_pos written_fs 2 0).map (fun p => pread written_fs.data p 5) = some [1, 2, 3, 4, 5] ∧
    mv_session name_b = some { ret := 0, found := 256, size := 5, first_block := 2, mtime := 2000
                               link := some 0xFFFF, contents := some [1, 2, 3, 4, 5] } ∧
    mv_session name_a = some { ret := 0, found := 256, size := 5, first_block := 2, mtime := 2000
                               link := some 0, contents := some [0, 0, 0, 0, 0] } := by
  decide!

/-- C23 (defect of `p_waitpid`).  For every caller with at least one child and
every pid other than -1 that belongs to no PCB of the registry, `p_waitpid`
does not return -1: `get_pcb_from_pid` returns `NULL` and the statement
`target_pcb->parent_pid != current_pcb->pid` reads through it before the test
`target_pcb == NULL` is reached, so the call faults (`none`), with and without
`nohang`. -/
theorem C23_waitpid_on_missing_pid_reads_null (k : Kernel) (caller : PCB) (pid wstatus : Int)
    (nohang : Bool) (junk : Int) (hcaller : deref k k.current_pcb = some caller)
    (hchild : caller.children_pids.length ≠ 0) (hpid : pid ≠ -1)
    (hmissing : get_pcb_from_pid k pid = none) :
    p_waitpid k pid wstatus nohang junk = none := by
  unfold p_waitpid
  rw [hcaller]
  simp only [if_neg hchild, if_neg hpid]
  unfold p_waitpid_one
  rw [hmissing]

/-- C23 at a concrete input: in `family` the running process 2 has the children
3 and 4 and no PCB has pid 9; `p_waitpid(9, &wstatus, nohang)` faults. -/
theorem C23_waitpid_on_missing_pid_reads_null_witness :
    (deref family family.current_pcb).map (fun p => p.children_pids) = some [3, 4] ∧
    family.global_pcbs.map (fun p => p.pid) = [1, 2, 3, 4, 5] ∧
    p_waitpid family 9 0 true 0 = none ∧ p_waitpid family 9 0 false 0 = none :=
  ⟨by decide!, by decide!,
   C23_waitpid_on_missing_pid_reads_null family (sample_pcb 2 1 [3, 4] .RUNNING .NOT_EXITED)
     9 0 true 0 (by decide!) (by decide!) (by decide!) (by decide!),
   by decide!⟩

/-- C24 (defect of `pennos_errors`).  The array has 19 elements for the 20
error codes: `ProcessStatusError` gives the two joined messages, every later
code gives the message of its successor (`TooManyFilesOpenError` gives
"No space to allocate Deque", `InvalidFileDescriptorError` gives
"File write error", `FileIsOpenError` gives "Wrong Process waited on"), and
`WrongProcessWaitedError` reads behind the end of the array.  The codes from
`FileNotFoundError` to `PCBNotFoundError` give their own message and every
value outside the range from 0 to 19 gives "UnknownError". -/
theorem C24_messages_shifted_by_missing_comma :
    pennos_errors.length = 19 ∧ pennos_error.NumberOfErrors.toInt = 20 ∧
    mapEnumToString pennos_error.ProcessStatusError.toInt
      = some "Error with Process statusToo many files open" ∧
    mapEnumToString pennos_error.TooManyFilesOpenError.toInt
      = some "No space to allocate Deque" ∧
    mapEnumToString pennos_error.NoMoreSpaceError.toInt = some "Invalid file descriptor error" ∧
    mapEnumToString pennos_error.InvalidFileDescriptorError.toInt = some "File write error" ∧
    mapEnumToString pennos_error.FileIsOpenError.toInt = some "Wrong Process waited on" ∧
    mapEnumToString pennos_error.WrongProcessWaitedError.toInt = none ∧
    mapEnumToString pennos_error.FileNotFoundError.toInt = some "File was not found" ∧
    mapEnumToString pennos_error.PCBNotFoundError.toInt = some "PCB was not found" ∧
    ∀ n : Nat, mapEnumToString (20 + n) = some "UnknownError" ∧
      mapEnumToString (-1 - n) = some "UnknownError" := by
  refine ⟨by decide, by decide, by decide, by decide, by decide, by decide, by decide, by decide,
    by decide, by decide, ?_⟩
  intro n
  have h20 : pennos_error.NumberOfErrors.toInt = 20 := rfl
  unfold mapEnumToString
  rw [h20]
  constructor
  · rw [if_neg (by omega)]
  · rw [if_neg (by omega)]

/-- C25 (refinement).  Let the deque `dq` in the memory `m` consist of the
nodes `cells` (distinct cells linked in both directions, `front` and `back` at
the ends, `num_elements` their number), and let `l` be the list of their
payloads from front to back.  Then, on a node that `malloc` returns,
`Deque_Push_Front` and `Deque_Push_Back` return and leave a deque whose list
is `push_front l x` and `push_back l x`; `Deque_Pop_Front` and `Deque_Pop_Back`
return `true` with the first and the last payload and leave the rest, or
return `false` on the empty deque and change nothing; `Deque_Pop_PID` returns
whether some payload has the pid and leaves the list without the first such
payload, changing nothing when it returns `false`; and `Deque_Size` is the
length of `l`.  The operations on lists are those of the specification. -/
theorem C25_deque_refines_list (pid_of : Int → Int) (m : Nat → Option Linked.DequeNode)
    (dq : Linked.Deque) (cells : List (Nat × Int)) (h : Linked.represents m dq cells) :
    (∀ node junk payload, m node = none →
      ∃ m' dq' cells', Linked.Deque_Push_Front m dq node junk payload = some (m', dq') ∧
        Linked.represents m' dq' cells' ∧
        cells'.map (fun c => c.2) = spec_push_front (cells.map (fun c => c.2)) payload) ∧
    (∀ node junk payload, m node = none →
      ∃ m' dq' cells', Linked.Deque_Push_Back m dq node junk payload = some (m', dq') ∧
        Linked.represents m' dq' cells' ∧
        cells'.map (fun c => c.2) = spec_push_back (cells.map (fun c => c.2)) payload) ∧
    (∃ item m' dq' cells', Linked.Deque_Pop_Front m dq = some (item.isSome, item, m', dq') ∧
        Linked.represents m' dq' cells' ∧
        (item, cells'.map (fun c => c.2)) = spec_pop_front (cells.map (fun c => c.2)) ∧
        (item = none → m' = m ∧ dq' = dq)) ∧
    (∃ item m' dq' cells', Linked.Deque_Pop_Back m dq = some (item.isSome, item, m', dq') ∧
        Linked.represents m' dq' cells' ∧
        (item, cells'.map (fun c => c.2)) = spec_pop_back (cells.map (fun c => c.2)) ∧
        (item = none → m' = m ∧ dq' = dq)) ∧
    (∀ pid, ∃ b m' dq' cells', Linked.Deque_Pop_PID pid_of m dq pid = some (b, m', dq') ∧
        Linked.represents m' dq' cells' ∧
        (b, cells'.map (fun c => c.2))
          = spec_remove_where (fun x => pid_of x == pid) (cells.map (fun c => c.2)) ∧
        (b = false → m' = m ∧ dq' = dq)) ∧
    Linked.Deque_Size dq = spec_size (cells.map (fun c => c.2)) := by
  refine ⟨?_, ?_, ?_, ?_, ?_, ?_⟩
  · intro node junk payload hfresh
    obtain ⟨m', dq', hop, hrep, _⟩ := push_front_represents m dq cells h node junk payload hfresh
    exact ⟨m', dq', _, hop, hrep, rfl⟩
  · intro node junk payload hfresh
    obtain ⟨m', dq', hop, hrep, _⟩ := push_back_represents m dq cells h node junk payload hfresh
    exact ⟨m', dq', _, hop, hrep, by simp [spec_push_back]⟩
  · cases cells with
    | nil => exact ⟨none, m, dq, [], pop_front_nil m dq h, h, rfl, fun _ => ⟨rfl, rfl⟩⟩
    | cons c rest =>
      obtain ⟨m', dq', hop, hrep, _, _⟩ := pop_front_cons m dq c rest h
      exact ⟨some c.2, m', dq', rest, hop, hrep, rfl, fun hn => absurd hn (by simp)⟩
  · rcases List.eq_nil_or_concat cells with hnil | ⟨P, c, hP⟩
    · subst hnil
      exact ⟨none, m, dq, [], pop_back_nil m dq h, h, rfl, fun _ => ⟨rfl, rfl⟩⟩
    · rw [List.concat_eq_append] at hP
      subst hP
      obtain ⟨m', dq', hop, hrep, _, _⟩ := pop_back_concat m dq P c h
      refine ⟨some c.2, m', dq', P, hop, hrep, ?_, fun hn => absurd hn (by simp)⟩
      simp [spec_pop_back]
  · intro pid
    exact pop_pid_represents pid_of m dq cells h pid
  · obtain ⟨_, _, _, _, hn⟩ := h
    simp [Linked.Deque_Size, spec_size, hn]

/-- C25 at a concrete input: the deque of the cells 10 and 11 with the payloads
3 and 4; `Deque_Pop_PID` for the pid 4 returns what `remove_where` gives on
`[3, 4]`, and the specification gives `(true, [3])` there. -/
theorem C25_deque_refines_list_witness :
    Linked.represents sample_nodes sample_deque [(10, 3), (11, 4)] ∧
    (∃ b m' dq' cells',
      Linked.Deque_Pop_PID (fun x => x) sample_nodes sample_deque 4 = some (b, m', dq') ∧
        Linked.represents m' dq' cells' ∧
        (b, cells'.map (fun c => c.2)) = spec_remove_where (fun x => x == 4) [3, 4] ∧
        (b = false → m' = sample_nodes ∧ dq' = sample_deque)) ∧
    spec_remove_where (fun x => x == 4) [3, 4] = (true, [3]) :=
  ⟨sample_represents,
   (C25_deque_refines_list (fun x => x) sample_nodes sample_deque [(10, 3), (11, 4)]
     sample_represents).2.2.2.2.1 4,
   by decide⟩

/-- C26: on a freshly created file (`fresh_file`: an empty file open for writing,
with a name of at most 31 characters, on an image with a free block below
`0xFFFF`, whose directory entry lies outside that block), every sequence of `f_write` calls whose chunks total `N` bytes,
`N` at most `block_size`, returns the length of each chunk; after it
`f_lseek(fd, 0, F_SEEK_SET)` returns 0 and `f_read(fd, N, buf)` returns `N` and
fills `buf` with exactly the bytes written, and the size of the file is `N`,
in the descriptor and in the directory entry on disk. -/
theorem C26_write_then_read_round_trip (fs0 : FS) (pcb : PCB) (fd g : Int) (d0 : FileDescriptor)
    (b : Int) (p : Nat) (chunks : List (List Nat)) (hfresh : fresh_file fs0 pcb fd g d0 b p)
    (hfit : chunks.flatten.length ≤ fs0.block_size.toNat) :
    ∃ fs1 fs2 fs3,
      write_all pcb fd chunks fs0 = some (chunks.map (fun c => (c.length : Int)), fs1) ∧
      f_lseek fs1 pcb fd 0 F_SEEK_SET = some (0, fs2) ∧
      f_read fs2 pcb fd chunks.flatten.length
        = some ((chunks.flatten.length : Int), chunks.flatten, fs3) ∧
      (∃ d, fd_at fs3 g = some d ∧ d.dir_entry.size = chunks.flatten.length) ∧
      ∀ r, ∃ pos e, find_file fs3 d0.dir_entry.name r = some (pos, e) ∧
        e.size = chunks.flatten.length := by
  obtain ⟨fs1, hw, hinv⟩ := write_all_one_block fs0 pcb fd g d0 b p hfresh chunks [] fs0
    (one_block_file_init fs0 pcb fd g d0 b p hfresh) (by rw [List.length_nil, zero_add]; exact hfit)
  rw [List.nil_append] at hinv
  obtain ⟨fs2, fs3, hs, hr, hd, hf⟩ := read_one_block fs0 fs1 pcb fd g d0 b p chunks.flatten
    hfresh hinv hfit
  exact ⟨fs1, fs2, fs3, hw, hs, hr, hd, hf⟩

/-- C26, witness: in the state after `f_open("a", F_WRITE)` on the fresh file
system, writing `"hello"` in one `f_write`, seeking to 0 and reading 5 bytes
returns 5 and `"hello"`, and the size is 5. -/
theorem C26_write_then_read_round_trip_witness :
    fresh_file opened_fs full_pcb 2 2 opened_fd 2 0 ∧
    ∃ fs1 fs2 fs3,
      write_all full_pcb 2 [hello] opened_fs = some ([5], fs1) ∧
      f_lseek fs1 full_pcb 2 0 F_SEEK_SET = some (0, fs2) ∧
      f_read fs2 full_pcb 2 5 = some (5, hello, fs3) ∧
      (∃ d, fd_at fs3 2 = some d ∧ d.dir_entry.size = 5) ∧
      ∀ r, ∃ pos e, find_file fs3 opened_fd.dir_entry.name r = some (pos, e) ∧ e.size = 5 :=
  have hfresh : fresh_file opened_fs full_pcb 2 2 opened_fd 2 0 :=
    ⟨by decide, by decide!, by decide, by decide!, by decide, by decide, by decide, by decide,
      by decide, by decide, by decide, by decide!, by decide!, by decide!, by decide!, by decide,
      by decide, ⟨zero_entry, opened_fd.dir_entry, by decide!, by decide⟩, Or.inl (by decide!)⟩
  ⟨hfresh, C26_write_then_read_round_trip opened_fs full_pcb 2 2 opened_fd 2 0 [hello] hfresh
    (by decide!)⟩

/-- C27 (defect of `k_process_create`).  On the fresh file system the shell
opens `"a"` (slot 2, global index 2, `ref_count` 1) and spawns a child: the
child inherits slot 2 by `memcpy`, so two PCBs hold index 2, but `ref_count`
stays 1.  When the child calls `p_exit`, its `f_close(2)` brings `ref_count` to
0 and the entry is reset to `FD_UNINIT` while the shell, READY, still holds
index 2 in its slot 2. -/
theorem C27_inherited_descriptor_is_not_counted :
    shared_fd_session = some
      { shell_fds := [(2, 2)], child_fds := [(2, 2)], holders_before := 2, ref_before := 1
        selections := [.skipped, .skipped, .run 2 (-1), .skipped, .run 3 0]
        shell_status := some .READY, shell_fds_after := [(2, 2)], holders_after := 1
        type_after := some .FD_UNINIT, ref_after := some 0 } := by
  decide!

/-- C28 (defect of `waitpid_checks`).  In `rendezvous` the PCB 3 is ZOMBIE and
its parent 2 is in the blocked deque, waiting for it.  One call of
`waitpid_checks` on 3 makes 2 READY and pushes it on the ready deque of class
-1; 2 stays in the blocked deque with `waitpid_pid = 3`, so a second call
pushes it again: the deque is `[2, 2]`, not `[2]`.  The same holds with 3
STOPPED: after the first call its exit kind is `NO_CHANGE`, and the second call
still queues 2 once more. -/
theorem C28_second_notification_queues_again :
    notify 0 rendezvous.k = some
      { ret := true, queues := [[2], [], [], [1, 2], [], []], parent_status := some .READY
        parent_estatus := some .EXIT_NORMAL, child_e_status := some .EXIT_NORMAL } ∧
    notify 1 rendezvous.k = some
      { ret := true, queues := [[2, 2], [], [], [1, 2], [], []], parent_status := some .READY
        parent_estatus := some .EXIT_NORMAL, child_e_status := some .EXIT_NORMAL } ∧
    notify 0 stopped_rendezvous = some
      { ret := true, queues := [[2], [], [], [1, 2], [], []], parent_status := some .READY
        parent_estatus := some .EXIT_STOPPED, child_e_status := some .NO_CHANGE } ∧
    notify 1 stopped_rendezvous = some
      { ret := true, queues := [[2, 2], [], [], [1, 2], [], []], parent_status := some .READY
        parent_estatus := some .EXIT_STOPPED, child_e_status := some .NO_CHANGE } := by
  decide

/-- C29 (defect of `scheduler_main`).  After boot the shell (pid 2, class -1)
calls `p_sleep` for two quanta and blocks in `p_waitpid`.  The first pass that
selects the idle PCB (handle 0) finds the three ready deques empty.  When its
quantum is over the idle PCB comes back RUNNING and is pushed on the ready
deque of class -1 like any process; in the same pass the sleeper ends and the
shell is made READY.  The next two passes of class -1 that select the idle PCB
start with the ready deque `[0, 2]`: the shell is runnable and waits behind
the idle PCB. -/
theorem C29_idle_selected_before_ready_shell :
    idle_session = some
      [ { current_quantum := 1, ready := [[], [], []], selection := .run 0 (-1) }
      , { current_quantum := 2, ready := [[0, 2], [], []], selection := .run 0 (-1) }
      , { current_quantum := 4, ready := [[0, 2], [], []], selection := .run 0 (-1) } ] := by
  decide!

/-- C30 (defect of `exit_context` and `p_exit`).  Both functions store
`status = ZOMBIE` and then `e_status = EXIT_NORMAL` as two statements
(`exit_context` is the two stores one after the other), in a context that does
not block SIGALRM.  In `preempted_exit_session` the quantum of the child 3 ends
between the two stores: the scheduler pass puts the child on the zombie deque
with status ZOMBIE and the exit kind `NOT_EXITED` it was created with, where
`wait_exit_session` (both stores in the quantum) has `EXIT_NORMAL`.  The child
is never given a quantum again, so the second store never happens: the parent's
`p_waitpid(3)` returns 3 with `*wstatus = NOT_EXITED` and does not reap the
child (after the whole `exit_context` it returns `EXIT_NORMAL` and the child is
TERMINATED), and forty passes later the child is still ZOMBIE with exit kind
`NOT_EXITED`. -/
theorem C30_preempted_exit_is_zombie_without_exit_kind :
    (∀ k, exit_kind_store (exit_status_store k) = exit_context k) ∧
    preempted_exit_session.map (fun r => r.1)
      = some [.skipped, .skipped, .run 2 (-1), .skipped, .run 3 0] ∧
    preempted_exit_session.map (fun r => exit_kinds r.2)
      = some [(1, .READY, .NOT_EXITED), (2, .READY, .NOT_EXITED), (3, .ZOMBIE, .NOT_EXITED)] ∧
    preempted_exit_session.map (fun r => r.2.k.zombie_pcbs) = some [3] ∧
    wait_exit_session.map (fun r => exit_kinds r.2)
      = some [(1, .READY, .NOT_EXITED), (2, .READY, .NOT_EXITED), (3, .ZOMBIE, .EXIT_NORMAL)] ∧
    resumed_wait preempted_exit_session
      = some { selection := .run 2 (-1), pid := 3, wstatus := exit_status.NOT_EXITED.toInt, kinds := [(1, .READY, .NOT_EXITED), (2, .RUNNING, .NOT_EXITED), (3, .ZOMBIE, .NOT_EXITED)] } ∧
    resumed_wait wait_exit_session
      = some { selection := .run 2 (-1), pid := 3, wstatus := exit_status.EXIT_NORMAL.toInt, kinds := [(1, .READY, .NOT_EXITED), (2, .RUNNING, .NOT_EXITED), (3, .TERMINATED, .EXIT_NORMAL)] } ∧
    (later_passes preempted_exit_session).map (fun r => ((ran r.1).dedup, r.2))
      = some ([2],
          [(1, .READY, .NOT_EXITED), (2, .READY, .NOT_EXITED), (3, .ZOMBIE, .NOT_EXITED)]) :=
  ⟨exit_context_two_stores, by decide!, by decide!, by decide!, by decide!, by decide!, by decide!,
    by decide!⟩

end PennOS
